import Mathlib

/-!
# ACRN hypervisor: `hypervisor/arch/x86/pagetable.c`

A shallow embedding of the page-table attribute-modification walk
(`mmu_modify` and its helpers) together with proofs about it.

* Physical memory is a function from the byte address of an 8-byte entry to
  the 64-bit value stored there.  `uint64_t *p; p + i` is the address
  `p + 8 * i`.
* 64-bit arithmetic is arithmetic on `Nat` reduced modulo `2 ^ 64`.
* The allocator `alloc_paging_struct` is an external collaborator; it is
  modelled by a list of free table pages that are handed out in order.
-/

namespace Pagetable

/-! ## Constants and helpers of the headers -/

/-- Modelled from the spec: the header constants are not part of the sources;
the 64-bit word size used for wrap-around. -/
def U64 : Nat := 0x10000000000000000

/-- Truncation of a natural number to 64 bits. -/
def u64 (x : Nat) : Nat := x % U64

/-- Bitwise complement of a 64-bit value (the C operator `~`). -/
def not64 (x : Nat) : Nat := 0xFFFFFFFFFFFFFFFF ^^^ (x % U64)

/-- Modelled from the spec: the minimum page size (header constant). -/
def PAGE_SIZE_4K : Nat := 0x1000

/-- Modelled from the spec: number of entries per table at every level. -/
def PTRS_PER_PTE : Nat := 512
/-- Modelled from the spec: number of entries per table at every level. -/
def PTRS_PER_PDE : Nat := 512
/-- Modelled from the spec: number of entries per table at every level. -/
def PTRS_PER_PDPTE : Nat := 512
/-- Modelled from the spec: number of entries per table at every level. -/
def PTRS_PER_PML4E : Nat := 512

/-- Modelled from the spec: address bits translated below each level. -/
def PTE_SHIFT : Nat := 12
/-- Modelled from the spec: address bits translated below each level. -/
def PDE_SHIFT : Nat := 21
/-- Modelled from the spec: address bits translated below each level. -/
def PDPTE_SHIFT : Nat := 30
/-- Modelled from the spec: address bits translated below each level. -/
def PML4E_SHIFT : Nat := 39

/-- Modelled from the spec: `1 << PTE_SHIFT`, the 4 KiB page size. -/
def PTE_SIZE : Nat := 0x1000
/-- Modelled from the spec: `1 << PDE_SHIFT`, the 2 MiB page size. -/
def PDE_SIZE : Nat := 0x200000
/-- Modelled from the spec: `1 << PDPTE_SHIFT`, the 1 GiB page size. -/
def PDPTE_SIZE : Nat := 0x40000000
/-- Modelled from the spec: `1 << PML4E_SHIFT`, the span of a PML4 entry. -/
def PML4E_SIZE : Nat := 0x8000000000

/-- Modelled from the spec: `~(PDE_SIZE - 1)`. -/
def PDE_MASK : Nat := 0xFFFFFFFFFFE00000
/-- Modelled from the spec: `~(PDPTE_SIZE - 1)`. -/
def PDPTE_MASK : Nat := 0xFFFFFFFFC0000000
/-- Modelled from the spec: `~(PML4E_SIZE - 1)`. -/
def PML4E_MASK : Nat := 0xFFFFFF8000000000

/-- Modelled from the spec: the frame-number field of an entry (bits 12..47). -/
def PML4E_PFN_MASK : Nat := 0x0000FFFFFFFFF000
/-- Modelled from the spec: the frame-number field of an entry (bits 12..47). -/
def PDPTE_PFN_MASK : Nat := 0x0000FFFFFFFFF000
/-- Modelled from the spec: the frame-number field of an entry (bits 12..47). -/
def PDE_PFN_MASK : Nat := 0x0000FFFFFFFFF000

/-- Modelled from the spec: the host present bit. -/
def PAGE_PRESENT : Nat := 0x1
/-- Modelled from the spec: the "this entry maps a large page" flag. -/
def PAGE_PSE : Nat := 0x80
/-- Modelled from the spec: present, writable, user: the protection
template of a host entry that points at a child table. -/
def PAGE_TABLE : Nat := 0x7
/-- Modelled from the spec: EPT read, write and execute permission. -/
def EPT_RWX : Nat := 0x7

/-- Error numbers. -/
def EINVAL : Int := 22
/-- Error numbers. -/
def EFAULT : Int := 14
/-- Error numbers. -/
def ENOMEM : Int := 12

/-- The enumeration `enum _page_table_level`. -/
inductive _page_table_level where
  | IA32E_PML4
  | IA32E_PDPT
  | IA32E_PD
  | IA32E_PT
  deriving DecidableEq, Repr

/-- The enumeration `enum _page_table_type`. -/
inductive _page_table_type where
  | PTT_HOST
  | PTT_EPT
  deriving DecidableEq, Repr

open _page_table_level _page_table_type

/-- Physical memory: entry address to 64-bit entry value. -/
abbrev Mem := Nat → Nat

/-- The machine state the walk runs on: memory and the allocator's free
table pages. -/
structure PgState where
  mem : Mem
  pool : List Nat

/-- Modelled from the spec: `MEM_ALIGNED_CHECK(x, a)`, `(x & (a - 1)) == 0`. -/
def MEM_ALIGNED_CHECK (x a : Nat) : Bool := x &&& (a - 1) == 0

/-- Modelled from the spec: the presence test of the table type; the host
tables use the present bit, EPT tables any of read/write/execute. -/
def pgentry_present (ptt : _page_table_type) (pte : Nat) : Nat :=
  match ptt with
  | PTT_HOST => pte &&& PAGE_PRESENT
  | PTT_EPT => pte &&& EPT_RWX

/-- Modelled from the spec: the large-page test of a PD entry. -/
def pde_large (pde : Nat) : Nat := pde &&& PAGE_PSE
/-- Modelled from the spec: the large-page test of a PDPT entry. -/
def pdpte_large (pdpte : Nat) : Nat := pdpte &&& PAGE_PSE

/-- Modelled from the spec: index of the entry governing an address. -/
def pml4e_index (address : Nat) : Nat := (address >>> PML4E_SHIFT) &&& (PTRS_PER_PML4E - 1)
/-- Modelled from the spec: index of the entry governing an address. -/
def pdpte_index (address : Nat) : Nat := (address >>> PDPTE_SHIFT) &&& (PTRS_PER_PDPTE - 1)
/-- Modelled from the spec: index of the entry governing an address. -/
def pde_index (address : Nat) : Nat := (address >>> PDE_SHIFT) &&& (PTRS_PER_PDE - 1)
/-- Modelled from the spec: index of the entry governing an address. -/
def pte_index (address : Nat) : Nat := (address >>> PTE_SHIFT) &&& (PTRS_PER_PTE - 1)

/-- Modelled from the spec: host-virtual to host-physical translation; the
hypervisor maps its own memory one to one. -/
def HVA2HPA (x : Nat) : Nat := x
/-- Modelled from the spec: host-physical to host-virtual translation. -/
def HPA2HVA (x : Nat) : Nat := x

/-- Modelled from the spec: pointer to the entry of the root table that
governs an address. -/
def pml4e_offset (pml4_page address : Nat) : Nat := pml4_page + 8 * pml4e_index address
/-- Modelled from the spec: pointer to the sub-table an entry refers to. -/
def pml4e_page_vaddr (pml4e : Nat) : Nat := HPA2HVA (pml4e &&& PML4E_PFN_MASK)
/-- Modelled from the spec: pointer to the sub-table an entry refers to. -/
def pdpte_page_vaddr (pdpte : Nat) : Nat := HPA2HVA (pdpte &&& PDPTE_PFN_MASK)
/-- Modelled from the spec: pointer to the sub-table an entry refers to. -/
def pde_page_vaddr (pde : Nat) : Nat := HPA2HVA (pde &&& PDE_PFN_MASK)

/-- Modelled from the spec: the full-width store of one entry. -/
def set_pte (m : Mem) (ptep pte : Nat) : Mem := fun a => if a = ptep then pte else m a

/-- Zero-fill of one table page. -/
def zero_page (m : Mem) (p : Nat) : Mem :=
  fun a => if p ≤ a ∧ a < p + PAGE_SIZE_4K then 0 else m a

/-- Modelled from the spec: the allocator collaborator; it returns one
zero-initialised table page, or fails (`none` for `NULL`). -/
def alloc_paging_struct (s : PgState) : Option Nat × PgState :=
  match s.pool with
  | [] => (none, s)
  | p :: rest => (some p, { mem := zero_page s.mem p, pool := rest })

/-! ## The functions of `pagetable.c` -/

/-- The loop of `split_large_page` that fills the new table. -/
def split_fill (pbase ref_prot paddrinc : Nat) : Nat → Nat → Nat → Mem → Mem
  | 0, _, _, m => m
  | n + 1, i, paddr, m =>
    split_fill pbase ref_prot paddrinc n (i + 1) (u64 (paddr + paddrinc))
      (set_pte m (pbase + 8 * i) (paddr ||| ref_prot))

/-- The function `split_large_page`: split a large page table into next
level page table. -/
def split_large_page (pte : Nat) (level : _page_table_level) (ptt : _page_table_type)
    (s : PgState) : Int × PgState :=
  let ret : Int := -EINVAL
  let go (ref_paddr paddrinc ref_prot : Nat) : Int × PgState :=
    match alloc_paging_struct s with
    | (none, s1) => (-ENOMEM, s1)
    | (some pbase, s1) =>
      let m1 := split_fill pbase ref_prot paddrinc PTRS_PER_PTE 0 ref_paddr s1.mem
      let ref_prot1 := if ptt = PTT_HOST then PAGE_TABLE else EPT_RWX
      (0, { s1 with mem := set_pte m1 pte (HVA2HPA pbase ||| ref_prot1) })
  match level with
  | IA32E_PDPT =>
    go (s.mem pte &&& PDPTE_PFN_MASK) PDE_SIZE (s.mem pte &&& not64 PDPTE_PFN_MASK)
  | IA32E_PD =>
    go (s.mem pte &&& PDE_PFN_MASK) PTE_SIZE
      ((s.mem pte &&& not64 PDE_PFN_MASK) &&& not64 PAGE_PSE)
  | _ => (ret, s)

/-- The function `__modify_pte`. -/
def __modify_pte (m : Mem) (pte prot_set prot_clr : Nat) : Mem :=
  let new_pte := m pte
  let new_pte := new_pte &&& not64 prot_clr
  let new_pte := new_pte ||| prot_set
  set_pte m pte new_pte

/-- The loop of `modify_pte`; the first argument counts the iterations left
before `index` reaches `PTRS_PER_PTE`. -/
def modify_pte_loop (pt_page vaddr_end prot_set prot_clr : Nat) (ptt : _page_table_type) :
    Nat → Nat → Nat → Mem → Int × Mem
  | 0, _, _, m => (0, m)
  | n + 1, index, vaddr, m =>
    let pte := pt_page + 8 * index
    if pgentry_present ptt (m pte) = 0 then (-EFAULT, m)
    else
      let m1 := __modify_pte m pte prot_set prot_clr
      let vaddr1 := u64 (vaddr + PTE_SIZE)
      if vaddr1 ≥ vaddr_end then (0, m1)
      else modify_pte_loop pt_page vaddr_end prot_set prot_clr ptt n (index + 1) vaddr1 m1

/-- The function `modify_pte`: in PT level, modify [vaddr_start, vaddr_end)
memory type or page access right. -/
def modify_pte (pde vaddr_start vaddr_end prot_set prot_clr : Nat) (ptt : _page_table_type)
    (s : PgState) : Int × PgState :=
  let pt_page := pde_page_vaddr (s.mem pde)
  let vaddr := vaddr_start
  let index := pte_index vaddr
  let r := modify_pte_loop pt_page vaddr_end prot_set prot_clr ptt
    (PTRS_PER_PTE - index) index vaddr s.mem
  (r.1, { s with mem := r.2 })

/-- The loop of `modify_pde`; the first argument counts the iterations left
before `index` reaches `PTRS_PER_PDE`. -/
def modify_pde_loop (pd_page vaddr_end prot_set prot_clr : Nat) (ptt : _page_table_type) :
    Nat → Nat → Nat → Int → PgState → Int × PgState
  | 0, _, _, ret, s => (ret, s)
  | n + 1, index, vaddr, ret, s =>
    let pde := pd_page + 8 * index
    let vaddr_next := u64 ((vaddr &&& PDE_MASK) + PDE_SIZE)
    let descend (s0 : PgState) : Int × PgState :=
      let r := modify_pte pde vaddr vaddr_end prot_set prot_clr ptt s0
      if r.1 ≠ 0 ∨ vaddr_next ≥ vaddr_end then r
      else modify_pde_loop pd_page vaddr_end prot_set prot_clr ptt n (index + 1) vaddr_next r.1 r.2
    if pgentry_present ptt (s.mem pde) = 0 then (-EFAULT, s)
    else if pde_large (s.mem pde) ≠ 0 then
      if vaddr_next > vaddr_end then
        let r := split_large_page pde IA32E_PD ptt s
        if r.1 ≠ 0 then r else descend r.2
      else
        let s1 := { s with mem := __modify_pte s.mem pde prot_set prot_clr }
        if vaddr_next < vaddr_end then
          modify_pde_loop pd_page vaddr_end prot_set prot_clr ptt n (index + 1) vaddr_next ret s1
        else (0, s1)
    else descend s

/-- The function `modify_pde`: in PD level, modify [vaddr_start, vaddr_end)
memory type or page access right. -/
def modify_pde (pdpte vaddr_start vaddr_end prot_set prot_clr : Nat) (ptt : _page_table_type)
    (s : PgState) : Int × PgState :=
  let ret : Int := 0
  let pd_page := pdpte_page_vaddr (s.mem pdpte)
  let vaddr := vaddr_start
  let index := pde_index vaddr
  modify_pde_loop pd_page vaddr_end prot_set prot_clr ptt (PTRS_PER_PDE - index) index vaddr ret s

/-- The loop of `modify_pdpte`; the first argument counts the iterations
left before `index` reaches `PTRS_PER_PDPTE`. -/
def modify_pdpte_loop (pdpt_page vaddr_end prot_set prot_clr : Nat) (ptt : _page_table_type) :
    Nat → Nat → Nat → Int → PgState → Int × PgState
  | 0, _, _, ret, s => (ret, s)
  | n + 1, index, vaddr, ret, s =>
    let pdpte := pdpt_page + 8 * index
    let vaddr_next := u64 ((vaddr &&& PDPTE_MASK) + PDPTE_SIZE)
    let descend (s0 : PgState) : Int × PgState :=
      let r := modify_pde pdpte vaddr vaddr_end prot_set prot_clr ptt s0
      if r.1 ≠ 0 ∨ vaddr_next ≥ vaddr_end then r
      else modify_pdpte_loop pdpt_page vaddr_end prot_set prot_clr ptt n (index + 1) vaddr_next
        r.1 r.2
    if pgentry_present ptt (s.mem pdpte) = 0 then (-EFAULT, s)
    else if pdpte_large (s.mem pdpte) ≠ 0 then
      if vaddr_next > vaddr_end then
        let r := split_large_page pdpte IA32E_PDPT ptt s
        if r.1 ≠ 0 then r else descend r.2
      else
        let s1 := { s with mem := __modify_pte s.mem pdpte prot_set prot_clr }
        if vaddr_next < vaddr_end then
          modify_pdpte_loop pdpt_page vaddr_end prot_set prot_clr ptt n (index + 1) vaddr_next ret
            s1
        else (0, s1)
    else descend s

/-- The function `modify_pdpte`: in PDPT level, modify
[vaddr_start, vaddr_end) memory type or page access right. -/
def modify_pdpte (pml4e vaddr_start vaddr_end prot_set prot_clr : Nat) (ptt : _page_table_type)
    (s : PgState) : Int × PgState :=
  let ret : Int := 0
  let pdpt_page := pml4e_page_vaddr (s.mem pml4e)
  let vaddr := vaddr_start
  let index := pdpte_index vaddr
  modify_pdpte_loop pdpt_page vaddr_end prot_set prot_clr ptt (PTRS_PER_PDPTE - index) index
    vaddr ret s

/-- The loop of `mmu_modify` over the PML4 entries.  The loop has no bound
of its own, so the model takes the number of iterations it may run; `none`
means that this number did not suffice. -/
def mmu_modify_loop (pml4_page vaddr_end prot_set prot_clr : Nat) (ptt : _page_table_type) :
    Nat → Nat → PgState → Option (Int × PgState)
  | 0, vaddr, s => if vaddr < vaddr_end then none else some (0, s)
  | n + 1, vaddr, s =>
    if vaddr < vaddr_end then
      let vaddr_next := u64 ((vaddr &&& PML4E_MASK) + PML4E_SIZE)
      let pml4e := pml4e_offset pml4_page vaddr
      if pgentry_present ptt (s.mem pml4e) = 0 then some (-EFAULT, s)
      else
        let r := modify_pdpte pml4e vaddr vaddr_end prot_set prot_clr ptt s
        if r.1 ≠ 0 then some r
        else mmu_modify_loop pml4_page vaddr_end prot_set prot_clr ptt n vaddr_next r.2
    else some (0, s)

/-- The function `mmu_modify`: modify [vaddr, vaddr + size) memory type or
page access right.  The first argument bounds the iterations of the loop
over the PML4 entries. -/
def mmu_modify (fuel : Nat) (pml4_page vaddr_base size prot_set prot_clr : Nat)
    (ptt : _page_table_type) (s : PgState) : Option (Int × PgState) :=
  let vaddr := vaddr_base
  if !MEM_ALIGNED_CHECK vaddr PAGE_SIZE_4K || !MEM_ALIGNED_CHECK size PAGE_SIZE_4K then
    some (-EINVAL, s)
  else
    let vaddr_end := u64 (vaddr + size)
    mmu_modify_loop pml4_page vaddr_end prot_set prot_clr ptt fuel vaddr s

/-! ## The walk as a relation

All four levels run the same loop.  Level 0 is the PT, 1 the PD, 2 the PDPT
and 3 the PML4.  `Run` describes one run of the loop of a level from the
address `vs` of its range on; the functions above are shown to be runs of
it. -/

/-- The size of the region one entry of level `L` governs. -/
def lvSize (L : Nat) : Nat := 2 ^ (12 + 9 * L)

/-- The index in its table of the level `L` entry governing `va`. -/
def lvIndex (L va : Nat) : Nat := va / lvSize L % 512

/-- The next boundary of level `L` above `va`. -/
def lvNext (L va : Nat) : Nat := va / lvSize L * lvSize L + lvSize L

/-- The frame-number field, the same bits at every level. -/
def PFN_MASK : Nat := 0x0000FFFFFFFFF000

/-- The address of the level `L` entry of table `T` governing `va`. -/
@[reducible] def entryAddr (L T va : Nat) : Nat := T + 8 * lvIndex L va

/-- An entry the walk treats as a leaf: every PT entry, and a PD or PDPT
entry with the large-page flag. -/
def isLeaf (L e : Nat) : Prop := L = 0 ∨ ((L = 1 ∨ L = 2) ∧ e &&& PAGE_PSE ≠ 0)

instance (L e : Nat) : Decidable (isLeaf L e) := by
  unfold isLeaf; infer_instance

/-- The level enumeration value of a level number. -/
def lvlOf : Nat → _page_table_level
  | 0 => IA32E_PT
  | 1 => IA32E_PD
  | 2 => IA32E_PDPT
  | _ => IA32E_PML4

/-- The state after `__modify_pte` on the entry at `a`. -/
def modState (prot_set prot_clr a : Nat) (s : PgState) : PgState :=
  { s with mem := __modify_pte s.mem a prot_set prot_clr }

/-- One run of the loop of level `L` over table `T`, from address `vs`. -/
inductive Run (ptt : _page_table_type) (prot_set prot_clr vaddr_end : Nat) :
    Nat → Nat → Nat → PgState → Int × PgState → Prop
  | notPresent (L T vs : Nat) (s : PgState) :
      pgentry_present ptt (s.mem (entryAddr L T vs)) = 0 →
      Run ptt prot_set prot_clr vaddr_end L T vs s (-EFAULT, s)
  | leafStop (L T vs : Nat) (s : PgState) :
      pgentry_present ptt (s.mem (entryAddr L T vs)) ≠ 0 →
      isLeaf L (s.mem (entryAddr L T vs)) →
      lvNext L vs ≤ vaddr_end →
      ¬ (lvNext L vs < vaddr_end ∧ lvIndex L vs + 1 < 512) →
      Run ptt prot_set prot_clr vaddr_end L T vs s
        (0, modState prot_set prot_clr (entryAddr L T vs) s)
  | leafCont (L T vs : Nat) (s : PgState) (res : Int × PgState) :
      pgentry_present ptt (s.mem (entryAddr L T vs)) ≠ 0 →
      isLeaf L (s.mem (entryAddr L T vs)) →
      lvNext L vs < vaddr_end →
      lvIndex L vs + 1 < 512 →
      Run ptt prot_set prot_clr vaddr_end L T (lvNext L vs)
        (modState prot_set prot_clr (entryAddr L T vs) s) res →
      Run ptt prot_set prot_clr vaddr_end L T vs s res
  | splitFail (L T vs : Nat) (s : PgState) :
      pgentry_present ptt (s.mem (entryAddr (L + 1) T vs)) ≠ 0 →
      isLeaf (L + 1) (s.mem (entryAddr (L + 1) T vs)) →
      vaddr_end < lvNext (L + 1) vs →
      s.pool = [] →
      Run ptt prot_set prot_clr vaddr_end (L + 1) T vs s (-ENOMEM, s)
  | splitOk (L T vs : Nat) (s s1 : PgState) (res : Int × PgState) :
      pgentry_present ptt (s.mem (entryAddr (L + 1) T vs)) ≠ 0 →
      isLeaf (L + 1) (s.mem (entryAddr (L + 1) T vs)) →
      vaddr_end < lvNext (L + 1) vs →
      s.pool ≠ [] →
      split_large_page (entryAddr (L + 1) T vs) (lvlOf (L + 1)) ptt s = (0, s1) →
      Run ptt prot_set prot_clr vaddr_end L (s1.mem (entryAddr (L + 1) T vs) &&& PFN_MASK)
        vs s1 res →
      Run ptt prot_set prot_clr vaddr_end (L + 1) T vs s res
  | descStop (L T vs : Nat) (s : PgState) (res : Int × PgState) :
      pgentry_present ptt (s.mem (entryAddr (L + 1) T vs)) ≠ 0 →
      ¬ isLeaf (L + 1) (s.mem (entryAddr (L + 1) T vs)) →
      Run ptt prot_set prot_clr vaddr_end L (s.mem (entryAddr (L + 1) T vs) &&& PFN_MASK)
        vs s res →
      (res.1 ≠ 0 ∨ ¬ (lvNext (L + 1) vs < vaddr_end ∧ lvIndex (L + 1) vs + 1 < 512)) →
      Run ptt prot_set prot_clr vaddr_end (L + 1) T vs s res
  | descCont (L T vs : Nat) (s s1 : PgState) (res : Int × PgState) :
      pgentry_present ptt (s.mem (entryAddr (L + 1) T vs)) ≠ 0 →
      ¬ isLeaf (L + 1) (s.mem (entryAddr (L + 1) T vs)) →
      Run ptt prot_set prot_clr vaddr_end L (s.mem (entryAddr (L + 1) T vs) &&& PFN_MASK)
        vs s (0, s1) →
      lvNext (L + 1) vs < vaddr_end →
      lvIndex (L + 1) vs + 1 < 512 →
      Run ptt prot_set prot_clr vaddr_end (L + 1) T (lvNext (L + 1) vs) s1 res →
      Run ptt prot_set prot_clr vaddr_end (L + 1) T vs s res

/-! ## Table pages and their separation -/

/-- The address `a` lies in the 4 KiB page at `p`. -/
def inPage (p a : Nat) : Prop := p ≤ a ∧ a < p + 4096

instance (p a : Nat) : Decidable (inPage p a) := by
  unfold inPage; infer_instance

/-- An entry that points at a table of the next level. -/
def isTable (ptt : _page_table_type) (L e : Nat) : Prop :=
  pgentry_present ptt e ≠ 0 ∧ ¬ isLeaf L e

instance (ptt : _page_table_type) (L e : Nat) : Decidable (isTable ptt L e) := by
  unfold isTable; infer_instance

/-- The table pages of the tree below table `T` of level `L`, `T` first. -/
def tables (ptt : _page_table_type) (m : Mem) : Nat → Nat → List Nat
  | 0, T => [T]
  | L + 1, T =>
    T :: (List.range 512).flatMap (fun j =>
      if isTable ptt (L + 1) (m (T + 8 * j)) then tables ptt m L (m (T + 8 * j) &&& PFN_MASK)
      else [])

/-- The table pages below entry `j` of table `T` of level `L`. -/
def kid (ptt : _page_table_type) (m : Mem) (L T j : Nat) : List Nat :=
  match L with
  | 0 => []
  | L + 1 =>
    if isTable ptt (L + 1) (m (T + 8 * j)) then tables ptt m L (m (T + 8 * j) &&& PFN_MASK)
    else []

/-- Separation of the part of table `T` from entry `i` on: the table pages
below distinct entries are distinct, distinct from `T` and from the free
pages of the allocator, and all pages are page aligned. -/
structure SepFrom (ptt : _page_table_type) (L T i : Nat) (s : PgState) : Prop where
  tAligned : T % 4096 = 0
  poolOk : ∀ p ∈ s.pool, p % 4096 = 0 ∧ p < 2 ^ 48
  poolNodup : s.pool.Nodup
  tPool : T ∉ s.pool
  kidT : ∀ j, i ≤ j → j < 512 → T ∉ kid ptt s.mem L T j
  kidPool : ∀ j, i ≤ j → j < 512 → ∀ p ∈ kid ptt s.mem L T j, p ∉ s.pool
  kidDisj : ∀ j j', i ≤ j → j < j' → j' < 512 →
    ∀ p ∈ kid ptt s.mem L T j, p ∉ kid ptt s.mem L T j'
  kidNodup : ∀ j, i ≤ j → j < 512 → (kid ptt s.mem L T j).Nodup

/-- The memories `m` and `m1` agree on the part of table `T` from entry `i`
on: on the entries themselves and on the table pages below them. -/
def Agree (ptt : _page_table_type) (L T i : Nat) (m m1 : Mem) : Prop :=
  (∀ j, i ≤ j → j < 512 → m1 (T + 8 * j) = m (T + 8 * j)) ∧
  (∀ j, i ≤ j → j < 512 → ∀ p ∈ kid ptt m L T j, ∀ a, inPage p a → m1 a = m a)

/-- The addresses a run from entry `i` of table `T` may write: the entries
from `i` on, the table pages below them, and the pages `taken` from the
allocator. -/
def Touch (ptt : _page_table_type) (m : Mem) (L T i : Nat) (taken : List Nat) (a : Nat) : Prop :=
  (∃ j, i ≤ j ∧ j < 512 ∧ a = T + 8 * j) ∨
  (∃ j, i ≤ j ∧ j < 512 ∧ ∃ p ∈ kid ptt m L T j, inPage p a) ∨
  (∃ p ∈ taken, inPage p a)

/-! ## The state after a split -/

/-- The attribute bits a split of a level `L` entry `e` hands to the
entries of the new table. -/
def splitProt (L e : Nat) : Nat :=
  if L = 1 then (e &&& not64 PFN_MASK) &&& not64 PAGE_PSE else e &&& not64 PFN_MASK

/-- The memory after the level `L` entry at `a` was split into the new
table at `p`. -/
def splitMem (L a p : Nat) (m : Mem) : Mem := fun x =>
  if x = a then p ||| 7
  else if inPage p x then
    if (x - p) % 8 = 0 then
      u64 ((m a &&& PFN_MASK) + (x - p) / 8 * lvSize (L - 1)) ||| splitProt L (m a)
    else 0
  else m x

/-! ## What the table says about an address -/

/-- The entry governing `va` below table `T` of level `L`: the level and
the address of the entry at which a walk of the table for `va` stops, be it
a leaf, or an entry that is not present. -/
def slot (ptt : _page_table_type) (m : Mem) : Nat → Nat → Nat → Nat × Nat
  | 0, T, va => (0, entryAddr 0 T va)
  | L + 1, T, va =>
    if isTable ptt (L + 1) (m (entryAddr (L + 1) T va)) then
      slot ptt m L (m (entryAddr (L + 1) T va) &&& PFN_MASK) va
    else (L + 1, entryAddr (L + 1) T va)

/-- The value of the entry governing `va`. -/
def gov (ptt : _page_table_type) (m : Mem) (L T va : Nat) : Nat := m (slot ptt m L T va).2

/-- The address `va` is mapped: its governing entry passes the presence
test of the table type. -/
def mapped (ptt : _page_table_type) (m : Mem) (L T va : Nat) : Prop :=
  pgentry_present ptt (gov ptt m L T va) ≠ 0

instance (ptt : _page_table_type) (m : Mem) (L T va : Nat) : Decidable (mapped ptt m L T va) := by
  unfold mapped; infer_instance

/-- The addresses `va` and `vs` are governed by the same table of level `L`. -/
def sameTable (L va vs : Nat) : Prop := va / lvSize (L + 1) = vs / lvSize (L + 1)

/-- The value `__modify_pte` stores for the old value `e`. -/
def applyMask (prot_set prot_clr e : Nat) : Nat := (e &&& not64 prot_clr) ||| prot_set

/-- What a run of level `L` from `vs` has done when it ends in `res`, in
terms of the address `stop` it came to: the end of the range on success,
the address of the failure otherwise. -/
structure Ctl (ptt : _page_table_type) (prot_set prot_clr vaddr_end L T vs : Nat) (s : PgState)
    (res : Int × PgState) (stop : Nat) : Prop where
  le1 : vs ≤ stop
  le2 : stop ≤ vaddr_end
  ok : res.1 = 0 → stop = vaddr_end
  bad : res.1 ≠ 0 → stop < vaddr_end ∧ sameTable L stop vs
  below : ∀ va, sameTable L va vs → vs ≤ va → va < stop → mapped ptt s.mem L T va
  efault : res.1 = -EFAULT → ¬ mapped ptt s.mem L T stop ∧ res.2.pool = s.pool
  enomem : res.1 = -ENOMEM → res.2.pool = [] ∧ mapped ptt s.mem L T stop ∧
    vaddr_end < lvNext (slot ptt s.mem L T stop).1 stop
  memIn : res.2.pool = s.pool → ∀ va, sameTable L va vs → vs ≤ va → va < stop →
    res.2.mem (slot ptt s.mem L T va).2 = applyMask prot_set prot_clr (s.mem (slot ptt s.mem L T va).2)
  memOut : res.2.pool = s.pool →
    ∀ a, (∀ va, sameTable L va vs → vs ≤ va → va < stop → (slot ptt s.mem L T va).2 ≠ a) →
      res.2.mem a = s.mem a
  nosplit : lvNext (L + 1) vs ≤ vaddr_end → res.1 ≠ -ENOMEM ∧ res.2.pool = s.pool
  edge : res.1 ≠ 0 → res.2.pool = s.pool →
    stop = vs ∨ stop % lvSize (slot ptt s.mem L T stop).1 = 0
  needs : res.1 = 0 → res.2.pool = s.pool →
    ∀ va, sameTable L va vs → vs ≤ va → va < vaddr_end →
      lvNext (slot ptt s.mem L T va).1 va ≤ vaddr_end
  whole : (∀ va, sameTable L va vs → vs ≤ va → va < vaddr_end → mapped ptt s.mem L T va →
      lvNext (slot ptt s.mem L T va).1 va ≤ vaddr_end) →
    res.1 ≠ -ENOMEM ∧ res.2.pool = s.pool

/-! ## Well-formed tables -/

/-- The table below `root` is separated: the root and the free pages of the
allocator are page aligned, and the table pages of the tree and the free
pages are pairwise distinct. -/
def Separated (ptt : _page_table_type) (root : Nat) (s : PgState) : Prop :=
  root % 4096 = 0 ∧ (∀ p ∈ s.pool, p % 4096 = 0 ∧ p < 2 ^ 48) ∧
    (tables ptt s.mem 3 root ++ s.pool).Nodup

instance (ptt : _page_table_type) (root : Nat) (s : PgState) :
    Decidable (Separated ptt root s) := by
  unfold Separated; infer_instance

/-! ## Example tables -/

/-- A small host table at `0x1000`: one PML4 entry, one PDPT entry, a PD
with a 2 MiB page at `[0, 0x200000)` and a PT with the two 4 KiB pages at
`0x200000` and `0x201000`. -/
def exMem : Mem := fun a =>
  if a = 0x1000 then 0x2007
  else if a = 0x2000 then 0x3007
  else if a = 0x3000 then 0x200083
  else if a = 0x3008 then 0x4007
  else if a = 0x4000 then 0x5003
  else if a = 0x4008 then 0x6003
  else 0

/-- The example table with two free table pages. -/
def exState : PgState := ⟨exMem, [0x10000, 0x11000]⟩

/-- The example table with no free table page. -/
def exStateNoMem : PgState := ⟨exMem, []⟩

/-! ## Translation and attributes -/

/-- The attribute bits of a leaf entry `e` of level `lv`: the bits outside
the frame-number field, less the large-page flag for a leaf above the PT
(there the flag tells the level, not an attribute of the page). -/
def attrOf (lv e : Nat) : Nat :=
  if lv = 0 then e &&& not64 PFN_MASK else (e &&& not64 PFN_MASK) &&& not64 PAGE_PSE

/-- The physical address `va` translates to through the leaf entry `e` of
level `lv`: the frame of the entry plus the offset in its page. -/
def physOf (lv e va : Nat) : Nat := (e &&& PFN_MASK) + va % lvSize lv

/-- What the table below `T` says about `va`: the physical address and the
attribute bits its governing entry gives. -/
def view (ptt : _page_table_type) (m : Mem) (L T va : Nat) : Nat × Nat :=
  (physOf (slot ptt m L T va).1 (gov ptt m L T va) va, attrOf (slot ptt m L T va).1 (gov ptt m L T va))

/-- The frame of every present large entry of the tree below `T` is aligned
to the size of its page. -/
def LargeOK (ptt : _page_table_type) (m : Mem) : Nat → Nat → Prop
  | 0, _ => True
  | L + 1, T => ∀ j, j < 512 →
    (pgentry_present ptt (m (T + 8 * j)) ≠ 0 → isLeaf (L + 1) (m (T + 8 * j)) →
      (m (T + 8 * j) &&& PFN_MASK) % lvSize (L + 1) = 0) ∧
    (isTable ptt (L + 1) (m (T + 8 * j)) → LargeOK ptt m L (m (T + 8 * j) &&& PFN_MASK))

/-- Decision procedure for `LargeOK`, entry by entry. -/
def LargeOK.dec (ptt : _page_table_type) (m : Mem) : ∀ (L T : Nat), Decidable (LargeOK ptt m L T)
  | 0, _ => isTrue trivial
  | L + 1, T =>
    haveI : ∀ T1, Decidable (LargeOK ptt m L T1) := LargeOK.dec ptt m L
    decidable_of_iff
      (∀ j ∈ List.range 512,
        (pgentry_present ptt (m (T + 8 * j)) ≠ 0 → isLeaf (L + 1) (m (T + 8 * j)) →
          (m (T + 8 * j) &&& PFN_MASK) % lvSize (L + 1) = 0) ∧
        (isTable ptt (L + 1) (m (T + 8 * j)) → LargeOK ptt m L (m (T + 8 * j) &&& PFN_MASK)))
      ⟨fun h j hj => h j (List.mem_range.2 hj), fun h j hj => h j (List.mem_range.1 hj)⟩

instance (ptt : _page_table_type) (m : Mem) (L T : Nat) : Decidable (LargeOK ptt m L T) :=
  LargeOK.dec ptt m L T

/-- A table the walk is proved on: separated, and with aligned large pages. -/
def Good (ptt : _page_table_type) (L T : Nat) (s : PgState) : Prop :=
  SepFrom ptt L T 0 s ∧ LargeOK ptt s.mem L T

/-- A well-formed root table. -/
def WellFormed (ptt : _page_table_type) (root : Nat) (s : PgState) : Prop :=
  Separated ptt root s ∧ LargeOK ptt s.mem 3 root

instance (ptt : _page_table_type) (root : Nat) (s : PgState) :
    Decidable (WellFormed ptt root s) := by
  unfold WellFormed; infer_instance

/-- Masks that change attributes only: 64-bit values that touch neither
the frame-number field nor the large-page flag. -/
def AttrMask (prot_set prot_clr : Nat) : Prop :=
  prot_set < 2 ^ 64 ∧ prot_set &&& (PFN_MASK ||| PAGE_PSE) = 0 ∧
    prot_clr &&& (PFN_MASK ||| PAGE_PSE) = 0

instance (prot_set prot_clr : Nat) : Decidable (AttrMask prot_set prot_clr) := by
  unfold AttrMask; infer_instance

/-- The presence bits of a table type. -/
def presentMask (ptt : _page_table_type) : Nat :=
  match ptt with
  | PTT_HOST => PAGE_PRESENT
  | PTT_EPT => EPT_RWX

/-- The masks applied to the attribute bits of what the table says about an
address; the physical address stays. -/
def applyV (prot_set prot_clr : Nat) (v : Nat × Nat) : Nat × Nat :=
  (v.1, applyMask prot_set prot_clr v.2)

/-- A host table at `0x1000` with one 1 GiB page at `[0, 0x40000000)`. -/
def exMemGiB : Mem := fun a =>
  if a = 0x1000 then 0x2007 else if a = 0x2000 then 0x40000083 else 0

/-- The table `exMemGiB` with an allocator of one free page. -/
def exStateGiB : PgState := ⟨exMemGiB, [0x10000]⟩

/-! ## The loops with the record of their iterations

Each loop once more, with a second result that is not part of the program:
the list of the values `(index, vaddr)` (for the loop of `mmu_modify`, of
`vaddr`) at the start of every iteration it runs. -/

/-- The loop of `modify_pte` with the record of its iterations. -/
def modify_pte_loop_tr (pt_page vaddr_end prot_set prot_clr : Nat) (ptt : _page_table_type) :
    Nat → Nat → Nat → Mem → (Int × Mem) × List (Nat × Nat)
  | 0, _, _, m => ((0, m), [])
  | n + 1, index, vaddr, m =>
    let pte := pt_page + 8 * index
    if pgentry_present ptt (m pte) = 0 then ((-EFAULT, m), [(index, vaddr)])
    else
      let m1 := __modify_pte m pte prot_set prot_clr
      let vaddr1 := u64 (vaddr + PTE_SIZE)
      if vaddr1 ≥ vaddr_end then ((0, m1), [(index, vaddr)])
      else
        let r := modify_pte_loop_tr pt_page vaddr_end prot_set prot_clr ptt n (index + 1) vaddr1 m1
        (r.1, (index, vaddr) :: r.2)

/-- The iterations of the loop of `modify_pte` in a call of the function. -/
def modify_pte_iters (pde vaddr_start vaddr_end prot_set prot_clr : Nat) (ptt : _page_table_type)
    (s : PgState) : List (Nat × Nat) :=
  let pt_page := pde_page_vaddr (s.mem pde)
  let vaddr := vaddr_start
  let index := pte_index vaddr
  (modify_pte_loop_tr pt_page vaddr_end prot_set prot_clr ptt
    (PTRS_PER_PTE - index) index vaddr s.mem).2

/-- The loop of `modify_pde` with the record of its iterations. -/
def modify_pde_loop_tr (pd_page vaddr_end prot_set prot_clr : Nat) (ptt : _page_table_type) :
    Nat → Nat → Nat → Int → PgState → (Int × PgState) × List (Nat × Nat)
  | 0, _, _, ret, s => ((ret, s), [])
  | n + 1, index, vaddr, ret, s =>
    let pde := pd_page + 8 * index
    let vaddr_next := u64 ((vaddr &&& PDE_MASK) + PDE_SIZE)
    let descend (s0 : PgState) : (Int × PgState) × List (Nat × Nat) :=
      let r := modify_pte pde vaddr vaddr_end prot_set prot_clr ptt s0
      if r.1 ≠ 0 ∨ vaddr_next ≥ vaddr_end then (r, [(index, vaddr)])
      else
        let r2 := modify_pde_loop_tr pd_page vaddr_end prot_set prot_clr ptt n (index + 1)
          vaddr_next r.1 r.2
        (r2.1, (index, vaddr) :: r2.2)
    if pgentry_present ptt (s.mem pde) = 0 then ((-EFAULT, s), [(index, vaddr)])
    else if pde_large (s.mem pde) ≠ 0 then
      if vaddr_next > vaddr_end then
        let r := split_large_page pde IA32E_PD ptt s
        if r.1 ≠ 0 then (r, [(index, vaddr)]) else descend r.2
      else
        let s1 := { s with mem := __modify_pte s.mem pde prot_set prot_clr }
        if vaddr_next < vaddr_end then
          let r2 := modify_pde_loop_tr pd_page vaddr_end prot_set prot_clr ptt n (index + 1)
            vaddr_next ret s1
          (r2.1, (index, vaddr) :: r2.2)
        else ((0, s1), [(index, vaddr)])
    else descend s

/-- The iterations of the loop of `modify_pde` in a call of the function. -/
def modify_pde_iters (pdpte vaddr_start vaddr_end prot_set prot_clr : Nat)
    (ptt : _page_table_type) (s : PgState) : List (Nat × Nat) :=
  let ret : Int := 0
  let pd_page := pdpte_page_vaddr (s.mem pdpte)
  let vaddr := vaddr_start
  let index := pde_index vaddr
  (modify_pde_loop_tr pd_page vaddr_end prot_set prot_clr ptt (PTRS_PER_PDE - index) index
    vaddr ret s).2

/-- The loop of `modify_pdpte` with the record of its iterations. -/
def modify_pdpte_loop_tr (pdpt_page vaddr_end prot_set prot_clr : Nat) (ptt : _page_table_type) :
    Nat → Nat → Nat → Int → PgState → (Int × PgState) × List (Nat × Nat)
  | 0, _, _, ret, s => ((ret, s), [])
  | n + 1, index, vaddr, ret, s =>
    let pdpte := pdpt_page + 8 * index
    let vaddr_next := u64 ((vaddr &&& PDPTE_MASK) + PDPTE_SIZE)
    let descend (s0 : PgState) : (Int × PgState) × List (Nat × Nat) :=
      let r := modify_pde pdpte vaddr vaddr_end prot_set prot_clr ptt s0
      if r.1 ≠ 0 ∨ vaddr_next ≥ vaddr_end then (r, [(index, vaddr)])
      else
        let r2 := modify_pdpte_loop_tr pdpt_page vaddr_end prot_set prot_clr ptt n (index + 1)
          vaddr_next r.1 r.2
        (r2.1, (index, vaddr) :: r2.2)
    if pgentry_present ptt (s.mem pdpte) = 0 then ((-EFAULT, s), [(index, vaddr)])
    else if pdpte_large (s.mem pdpte) ≠ 0 then
      if vaddr_next > vaddr_end then
        let r := split_large_page pdpte IA32E_PDPT ptt s
        if r.1 ≠ 0 then (r, [(index, vaddr)]) else descend r.2
      else
        let s1 := { s with mem := __modify_pte s.mem pdpte prot_set prot_clr }
        if vaddr_next < vaddr_end then
          let r2 := modify_pdpte_loop_tr pdpt_page vaddr_end prot_set prot_clr ptt n (index + 1)
            vaddr_next ret s1
          (r2.1, (index, vaddr) :: r2.2)
        else ((0, s1), [(index, vaddr)])
    else descend s

/-- The iterations of the loop of `modify_pdpte` in a call of the function. -/
def modify_pdpte_iters (pml4e vaddr_start vaddr_end prot_set prot_clr : Nat)
    (ptt : _page_table_type) (s : PgState) : List (Nat × Nat) :=
  let ret : Int := 0
  let pdpt_page := pml4e_page_vaddr (s.mem pml4e)
  let vaddr := vaddr_start
  let index := pdpte_index vaddr
  (modify_pdpte_loop_tr pdpt_page vaddr_end prot_set prot_clr ptt (PTRS_PER_PDPTE - index) index
    vaddr ret s).2

/-- The loop of `mmu_modify` with the record of the value of `vaddr` at the
start of each iteration it runs within the given number of iterations. -/
def mmu_modify_loop_tr (pml4_page vaddr_end prot_set prot_clr : Nat) (ptt : _page_table_type) :
    Nat → Nat → PgState → Option (Int × PgState) × List Nat
  | 0, vaddr, s => (if vaddr < vaddr_end then none else some (0, s), [])
  | n + 1, vaddr, s =>
    if vaddr < vaddr_end then
      let vaddr_next := u64 ((vaddr &&& PML4E_MASK) + PML4E_SIZE)
      let pml4e := pml4e_offset pml4_page vaddr
      if pgentry_present ptt (s.mem pml4e) = 0 then (some (-EFAULT, s), [vaddr])
      else
        let r := modify_pdpte pml4e vaddr vaddr_end prot_set prot_clr ptt s
        if r.1 ≠ 0 then (some r, [vaddr])
        else
          let r2 := mmu_modify_loop_tr pml4_page vaddr_end prot_set prot_clr ptt n vaddr_next r.2
          (r2.1, vaddr :: r2.2)
    else (some (0, s), [])

/-- The iterations of the loop of `mmu_modify` in a call of the function. -/
def mmu_modify_iters (fuel : Nat) (pml4_page vaddr_base size prot_set prot_clr : Nat)
    (ptt : _page_table_type) (s : PgState) : List Nat :=
  let vaddr := vaddr_base
  if !MEM_ALIGNED_CHECK vaddr PAGE_SIZE_4K || !MEM_ALIGNED_CHECK size PAGE_SIZE_4K then []
  else
    let vaddr_end := u64 (vaddr + size)
    (mmu_modify_loop_tr pml4_page vaddr_end prot_set prot_clr ptt fuel vaddr s).2

/-- An EPT table at `0x1000` whose PD entry at `0x3000` maps `[0, 0x200000)`
as one 2 MiB page at frame 0 with read, write and execute permission. -/
def exMemEpt : Mem := fun a =>
  if a = 0x1000 then 0x2007 else if a = 0x2000 then 0x3007 else if a = 0x3000 then 0x87 else 0

/-- The table `exMemEpt` with an allocator of one free page. -/
def exStateEpt : PgState := ⟨exMemEpt, [0x10000]⟩

/-- A host table at `0x1000` that maps the whole 48-bit address space one
to one by 1 GiB pages: entry `i` of the PML4 points at the PDPT in the page
`0x200000 + 0x1000 * i`, and entry `j` of that PDPT is the present,
writable large entry of the frame `(512 * i + j) * 0x40000000`. -/
def exMemFull : Mem := fun a =>
  if 0x1000 ≤ a ∧ a < 0x2000 ∧ a % 8 = 0 then
    (0x200000 + 0x1000 * ((a - 0x1000) / 8)) ||| 0x7
  else if 0x200000 ≤ a ∧ a < 0x400000 ∧ a % 8 = 0 then
    ((a - 0x200000) / 8 * 0x40000000) ||| 0x83
  else 0

/-- The table `exMemFull` with an allocator that has no free page. -/
def exStateFull : PgState := ⟨exMemFull, []⟩

/-- A host table at `0x1000` that maps the last 2 MiB of the 64-bit address
space, `[2 ^ 64 - 0x200000, 2 ^ 64)`, by one present, writable 2 MiB page:
the last entry of the PML4, the last entry of the PDPT at `0x2000` and the
last entry of the PD at `0x3000`. -/
def exMemTop : Mem := fun a =>
  if a = 0x1FF8 then 0x2007
  else if a = 0x2FF8 then 0x3007
  else if a = 0x3FF8 then 0x200083
  else 0

/-- The table `exMemTop` with an allocator of one free page. -/
def exStateTop : PgState := ⟨exMemTop, [0x10000]⟩

/-- The loop of `mmu_modify` as a sequence of runs of the PML4 level, one
for each `2 ^ 48` block of the address space that the range meets: the index
into the PML4 table is taken from bits 39 to 47 of the address, so in the
next block the loop goes through the entries of the table again, from the
first. -/
inductive Passes (ptt : _page_table_type) (prot_set prot_clr vaddr_end root : Nat) :
    Nat → PgState → Int × PgState → Prop
  | last (vs : Nat) (s : PgState) (res : Int × PgState) :
      Run ptt prot_set prot_clr vaddr_end 3 root vs s res →
      (res.1 ≠ 0 ∨ vaddr_end ≤ lvNext 4 vs) →
      Passes ptt prot_set prot_clr vaddr_end root vs s res
  | more (vs : Nat) (s s1 : PgState) (res : Int × PgState) :
      Run ptt prot_set prot_clr vaddr_end 3 root vs s (0, s1) →
      lvNext 4 vs < vaddr_end →
      Passes ptt prot_set prot_clr vaddr_end root (lvNext 4 vs) s1 res →
      Passes ptt prot_set prot_clr vaddr_end root vs s res

/-! ## Proofs -/

theorem testBit_false_of_lt {a i n : Nat} (h : a < 2 ^ n) (hi : n ≤ i) : a.testBit i = false :=
  Nat.testBit_lt_two_pow (lt_of_lt_of_le h (Nat.pow_le_pow_right (by decide) hi))

theorem and_high_mask (a k j : Nat) (h : a < 2 ^ (k + j)) :
    a &&& ((2 ^ j - 1) <<< k) = a / 2 ^ k * 2 ^ k := by
  rw [← Nat.shiftRight_eq_div_pow, ← Nat.shiftLeft_eq]
  apply Nat.eq_of_testBit_eq
  intro i
  rw [Nat.testBit_and, Nat.testBit_shiftLeft, Nat.testBit_two_pow_sub_one, Nat.testBit_shiftLeft,
    Nat.testBit_shiftRight]
  by_cases hk : i ≥ k
  · have e : k + (i - k) = i := by omega
    rw [e]
    by_cases hj : i - k < j
    · simp [hk, hj]
    · have : a.testBit i = false := testBit_false_of_lt h (by omega)
      simp [this]
  · simp [hk]

theorem and_mid_mask (a k j : Nat) :
    a &&& ((2 ^ j - 1) <<< k) = a % 2 ^ (k + j) / 2 ^ k * 2 ^ k := by
  rw [← and_high_mask (a % 2 ^ (k+j)) k j (Nat.mod_lt _ (by positivity))]
  apply Nat.eq_of_testBit_eq
  intro i
  simp only [Nat.testBit_and, Nat.testBit_shiftLeft, Nat.testBit_two_pow_sub_one, Nat.testBit_mod_two_pow]
  by_cases hk : i < k + j
  · simp [hk]
  · have : ¬ (i - k < j) := by omega
    simp [hk, this]

theorem lvSize_zero : lvSize 0 = 0x1000 := by decide
theorem lvSize_one : lvSize 1 = 0x200000 := by decide
theorem lvSize_two : lvSize 2 = 0x40000000 := by decide
theorem lvSize_three : lvSize 3 = 0x8000000000 := by decide

theorem lvSize_pos (L : Nat) : 0 < lvSize L := by unfold lvSize; positivity

theorem lvSize_succ (L : Nat) : lvSize (L + 1) = 512 * lvSize L := by
  unfold lvSize
  rw [show 12 + 9 * (L + 1) = 9 + (12 + 9 * L) by ring, pow_add]; norm_num

theorem lvSize_dvd (L : Nat) : 4096 ∣ lvSize L := by
  unfold lvSize
  rw [pow_add]; exact Dvd.intro _ rfl

theorem pte_index_eq (a : Nat) : pte_index a = lvIndex 0 a := by
  unfold pte_index lvIndex lvSize PTE_SHIFT PTRS_PER_PTE
  rw [Nat.shiftRight_eq_div_pow]
  exact Nat.and_pow_two_sub_one_eq_mod _ 9
theorem pde_index_eq (a : Nat) : pde_index a = lvIndex 1 a := by
  unfold pde_index lvIndex lvSize PDE_SHIFT PTRS_PER_PDE
  rw [Nat.shiftRight_eq_div_pow]
  exact Nat.and_pow_two_sub_one_eq_mod _ 9
theorem pdpte_index_eq (a : Nat) : pdpte_index a = lvIndex 2 a := by
  unfold pdpte_index lvIndex lvSize PDPTE_SHIFT PTRS_PER_PDPTE
  rw [Nat.shiftRight_eq_div_pow]
  exact Nat.and_pow_two_sub_one_eq_mod _ 9
theorem pml4e_index_eq (a : Nat) : pml4e_index a = lvIndex 3 a := by
  unfold pml4e_index lvIndex lvSize PML4E_SHIFT PTRS_PER_PML4E
  rw [Nat.shiftRight_eq_div_pow]
  exact Nat.and_pow_two_sub_one_eq_mod _ 9

theorem and_PDE_MASK (a : Nat) (h : a < 2 ^ 64) : a &&& PDE_MASK = a / lvSize 1 * lvSize 1 := by
  have := and_high_mask a 21 43 (by simpa using h)
  have e : PDE_MASK = (2 ^ 43 - 1) <<< 21 := by decide
  rw [e]; exact this
theorem and_PDPTE_MASK (a : Nat) (h : a < 2 ^ 64) : a &&& PDPTE_MASK = a / lvSize 2 * lvSize 2 := by
  have := and_high_mask a 30 34 (by simpa using h)
  have e : PDPTE_MASK = (2 ^ 34 - 1) <<< 30 := by decide
  rw [e]; exact this
theorem and_PML4E_MASK (a : Nat) (h : a < 2 ^ 64) : a &&& PML4E_MASK = a / lvSize 3 * lvSize 3 := by
  have := and_high_mask a 39 25 (by simpa using h)
  have e : PML4E_MASK = (2 ^ 25 - 1) <<< 39 := by decide
  rw [e]; exact this

theorem lvIndex_lt (L va : Nat) : lvIndex L va < 512 := Nat.mod_lt _ (by decide)

theorem lvNext_div (L v : Nat) : lvNext L v / lvSize L = v / lvSize L + 1 := by
  unfold lvNext
  rw [Nat.add_div_right _ (lvSize_pos L), Nat.mul_div_cancel _ (lvSize_pos L)]

theorem lvIndex_next (L v : Nat) (h : lvIndex L v + 1 < 512) :
    lvIndex L (lvNext L v) = lvIndex L v + 1 := by
  unfold lvIndex at *
  rw [lvNext_div]
  omega

theorem lvNext_gt (L v : Nat) : v < lvNext L v := by
  unfold lvNext
  have := Nat.div_add_mod v (lvSize L)
  have := Nat.mod_lt v (lvSize_pos L)
  rw [Nat.mul_comm]; omega

theorem lvNext_le (L v : Nat) : lvNext L v ≤ v + lvSize L := by
  unfold lvNext
  have := Nat.div_mul_le_self v (lvSize L)
  omega

theorem lvNext_aligned (L v : Nat) : lvNext L v % 4096 = 0 := by
  unfold lvNext
  obtain ⟨c, hc⟩ := lvSize_dvd L
  rw [hc]
  have : v / (4096 * c) * (4096 * c) + 4096 * c = 4096 * (v / (4096 * c) * c + c) := by ring
  rw [this]; exact Nat.mul_mod_right _ _

theorem lvNext_zero (v : Nat) (h : v % 4096 = 0) : lvNext 0 v = v + 4096 := by
  unfold lvNext; rw [lvSize_zero]; omega

theorem modify_pte_loop_run (ptt : _page_table_type) (set clr ve T : Nat) (pool : List Nat)
    (hve : ve % 4096 = 0) (hve2 : ve < 2 ^ 64) :
    ∀ (n index vaddr : Nat) (m : Mem), index = lvIndex 0 vaddr → n = 512 - index →
      vaddr % 4096 = 0 → vaddr < ve →
      Run ptt set clr ve 0 T vaddr ⟨m, pool⟩
        ((modify_pte_loop T ve set clr ptt n index vaddr m).1,
          ⟨(modify_pte_loop T ve set clr ptt n index vaddr m).2, pool⟩) := by
  intro n
  induction n with
  | zero =>
    intro index vaddr m hi hn
    have := lvIndex_lt 0 vaddr
    omega
  | succ n ih =>
    intro index vaddr m hi hn hal hlt
    have hnext := lvNext_zero vaddr hal
    have hu : u64 (vaddr + PTE_SIZE) = vaddr + 4096 := by
      unfold u64 U64 PTE_SIZE; omega
    unfold modify_pte_loop
    simp only [hu]
    have hea : T + 8 * index = entryAddr 0 T vaddr := by unfold entryAddr; rw [hi]
    rw [hea]
    by_cases hp : pgentry_present ptt (m (entryAddr 0 T vaddr)) = 0
    · simp only [hp, if_true]
      exact Run.notPresent 0 T vaddr ⟨m, pool⟩ hp
    · simp only [hp, if_false]
      have hleaf : isLeaf 0 (m (entryAddr 0 T vaddr)) := Or.inl rfl
      by_cases hge : vaddr + 4096 ≥ ve
      · simp only [hge, if_true]
        exact Run.leafStop 0 T vaddr ⟨m, pool⟩ hp hleaf (by omega) (by omega)
      · simp only [hge, if_false]
        cases n with
        | zero =>
          unfold modify_pte_loop
          exact Run.leafStop 0 T vaddr ⟨m, pool⟩ hp hleaf (by omega) (by omega)
        | succ k =>
          have hidx : lvIndex 0 vaddr + 1 < 512 := by omega
          have h2 := lvIndex_next 0 vaddr hidx
          rw [hnext] at h2
          have := ih (index + 1) (vaddr + 4096) (__modify_pte m (entryAddr 0 T vaddr) set clr)
            (by rw [h2, hi]) (by omega) (by omega) (by omega)
          refine Run.leafCont 0 T vaddr ⟨m, pool⟩ _ hp hleaf (by omega) hidx ?_
          rw [hnext]
          exact this

theorem modify_pte_run (ptt : _page_table_type) (set clr ve pde vs : Nat) (s : PgState)
    (hve : ve % 4096 = 0) (hve2 : ve < 2 ^ 64) (hvs : vs % 4096 = 0) (hlt : vs < ve) :
    Run ptt set clr ve 0 (s.mem pde &&& PFN_MASK) vs s (modify_pte pde vs ve set clr ptt s) := by
  have := modify_pte_loop_run ptt set clr ve (s.mem pde &&& PFN_MASK) s.pool hve hve2
    (512 - lvIndex 0 vs) (lvIndex 0 vs) vs s.mem rfl rfl hvs hlt
  unfold modify_pte
  simp only [pte_index_eq, PTRS_PER_PTE]
  exact this

theorem split_large_page_nil (a : Nat) (L : Nat) (ptt : _page_table_type) (s : PgState)
    (hL : L = 1 ∨ L = 2) (hp : s.pool = []) :
    split_large_page a (lvlOf L) ptt s = (-ENOMEM, s) := by
  rcases hL with h | h <;> subst h <;>
    simp [split_large_page, lvlOf, alloc_paging_struct, hp]

theorem split_large_page_fst (a : Nat) (L : Nat) (ptt : _page_table_type) (s : PgState)
    (hL : L = 1 ∨ L = 2) (hp : s.pool ≠ []) :
    (split_large_page a (lvlOf L) ptt s).1 = 0 := by
  obtain ⟨m, pool⟩ := s
  cases pool with
  | nil => exact absurd rfl hp
  | cons p rest =>
    rcases hL with h | h <;> subst h <;>
      simp [split_large_page, lvlOf, alloc_paging_struct]

theorem isLeaf_one (e : Nat) : isLeaf 1 e ↔ pde_large e ≠ 0 := by
  unfold isLeaf pde_large; simp
theorem isLeaf_two (e : Nat) : isLeaf 2 e ↔ pdpte_large e ≠ 0 := by
  unfold isLeaf pdpte_large; simp

theorem modify_pde_loop_run (ptt : _page_table_type) (set clr ve T : Nat)
    (hve : ve % 4096 = 0) (hve2 : ve ≤ 2 ^ 64 - 2 ^ 39) :
    ∀ (n index vaddr : Nat) (ret : Int) (s : PgState), ret = 0 → index = lvIndex 1 vaddr →
      n = 512 - index → vaddr % 4096 = 0 → vaddr < ve →
      Run ptt set clr ve 1 T vaddr s (modify_pde_loop T ve set clr ptt n index vaddr ret s) := by
  intro n
  induction n with
  | zero =>
    intro index vaddr ret s _ hi hn
    have := lvIndex_lt 1 vaddr
    omega
  | succ n ih =>
    intro index vaddr ret s hret hi hn hal hlt
    have hle := lvNext_le 1 vaddr
    rw [lvSize_one] at hle
    have hu : u64 ((vaddr &&& PDE_MASK) + PDE_SIZE) = lvNext 1 vaddr := by
      rw [and_PDE_MASK vaddr (by omega)]
      unfold u64 U64 PDE_SIZE lvNext
      rw [lvSize_one] at *
      unfold lvNext at hle
      omega
    have hgt := lvNext_gt 1 vaddr
    have hna := lvNext_aligned 1 vaddr
    unfold modify_pde_loop
    simp only [hu]
    have hea : T + 8 * index = entryAddr 1 T vaddr := by unfold entryAddr; rw [hi]
    rw [hea]
    -- the part of the body shared by the split and the table case
    have hdesc : ∀ s0 : PgState,
        (Run ptt set clr ve 0 (s0.mem (entryAddr 1 T vaddr) &&& PFN_MASK) vaddr s0
            (modify_pte (entryAddr 1 T vaddr) vaddr ve set clr ptt s0)) ∧
        ((modify_pte (entryAddr 1 T vaddr) vaddr ve set clr ptt s0).1 = 0 →
          lvNext 1 vaddr < ve → lvIndex 1 vaddr + 1 < 512 →
          Run ptt set clr ve 1 T (lvNext 1 vaddr)
            (modify_pte (entryAddr 1 T vaddr) vaddr ve set clr ptt s0).2
            (modify_pde_loop T ve set clr ptt n (index + 1) (lvNext 1 vaddr)
              (modify_pte (entryAddr 1 T vaddr) vaddr ve set clr ptt s0).1
              (modify_pte (entryAddr 1 T vaddr) vaddr ve set clr ptt s0).2)) ∧
        ((modify_pte (entryAddr 1 T vaddr) vaddr ve set clr ptt s0).1 = 0 →
          ¬ (lvIndex 1 vaddr + 1 < 512) →
          modify_pde_loop T ve set clr ptt n (index + 1) (lvNext 1 vaddr)
              (modify_pte (entryAddr 1 T vaddr) vaddr ve set clr ptt s0).1
              (modify_pte (entryAddr 1 T vaddr) vaddr ve set clr ptt s0).2 =
            (modify_pte (entryAddr 1 T vaddr) vaddr ve set clr ptt s0)) := by
      intro s0
      refine ⟨modify_pte_run ptt set clr ve _ vaddr s0 hve (by omega) hal hlt, ?_, ?_⟩
      · intro h0 h1 h2
        exact ih (index + 1) (lvNext 1 vaddr) _ _ h0
          (by rw [lvIndex_next 1 vaddr h2, hi]) (by omega) hna h1
      · intro h0 h2
        have hn0 : n = 0 := by omega
        subst hn0
        unfold modify_pde_loop
        rfl
    by_cases hp : pgentry_present ptt (s.mem (entryAddr 1 T vaddr)) = 0
    · simp only [hp, if_true]
      exact Run.notPresent 1 T vaddr s hp
    · simp only [hp, if_false]
      by_cases hl : pde_large (s.mem (entryAddr 1 T vaddr)) ≠ 0
      · have hleaf : isLeaf 1 (s.mem (entryAddr 1 T vaddr)) := (isLeaf_one _).2 hl
        rw [if_pos hl]
        by_cases hgt2 : lvNext 1 vaddr > ve
        · simp only [hgt2, if_true]
          by_cases hpool : s.pool = []
          · have : (-ENOMEM ≠ (0 : Int)) := by decide
            have e := split_large_page_nil (entryAddr 1 T vaddr) 1 ptt s (Or.inl rfl) hpool
            simp only [lvlOf] at e
            rw [e]
            simp only [this, if_true]
            exact Run.splitFail 0 T vaddr s hp hleaf hgt2 hpool
          · have e := split_large_page_fst (entryAddr 1 T vaddr) 1 ptt s (Or.inl rfl) hpool
            simp only [lvlOf] at e
            simp only [e, ne_eq, not_true_eq_false, if_false]
            obtain ⟨h1, -, -⟩ := hdesc (split_large_page (entryAddr 1 T vaddr) IA32E_PD ptt s).2
            have hcond : ve ≤ lvNext 1 vaddr := by omega
            simp only [ge_iff_le, hcond, or_true, if_true]
            exact Run.splitOk 0 T vaddr s _ _ hp hleaf hgt2 hpool
              (by simp only [lvlOf]; exact Prod.ext e rfl) h1
        · simp only [hgt2, if_false]
          by_cases hlt2 : lvNext 1 vaddr < ve
          · simp only [hlt2, if_true]
            by_cases hidx : lvIndex 1 vaddr + 1 < 512
            · exact Run.leafCont 1 T vaddr s _ hp hleaf hlt2 hidx
                (ih (index + 1) (lvNext 1 vaddr) ret _ hret
                  (by rw [lvIndex_next 1 vaddr hidx, hi]) (by omega) hna hlt2)
            · have hn0 : n = 0 := by omega
              subst hn0
              unfold modify_pde_loop
              rw [hret]
              exact Run.leafStop 1 T vaddr s hp hleaf (by omega) (by omega)
          · simp only [hlt2, if_false]
            exact Run.leafStop 1 T vaddr s hp hleaf (by omega) (by omega)
      · have hleaf : ¬ isLeaf 1 (s.mem (entryAddr 1 T vaddr)) := fun h => hl ((isLeaf_one _).1 h)
        rw [if_neg hl]
        obtain ⟨h1, h2, h3⟩ := hdesc s
        by_cases hc : (modify_pte (entryAddr 1 T vaddr) vaddr ve set clr ptt s).1 ≠ 0 ∨
            lvNext 1 vaddr ≥ ve
        · simp only [hc, if_true]
          refine Run.descStop 0 T vaddr s _ hp hleaf h1 ?_
          rcases hc with hc | hc
          · exact Or.inl hc
          · have hstop : ¬ (lvNext 1 vaddr < ve ∧ lvIndex 1 vaddr + 1 < 512) := by omega
            exact Or.inr hstop
        · simp only [hc, if_false]
          have hc1 : (modify_pte (entryAddr 1 T vaddr) vaddr ve set clr ptt s).1 = 0 := by
            by_contra h; exact hc (Or.inl h)
          have hc2 : lvNext 1 vaddr < ve := by
            by_contra h; exact hc (Or.inr (by omega))
          by_cases hidx : lvIndex 1 vaddr + 1 < 512
          · refine Run.descCont 0 T vaddr s _ _ hp hleaf ?_ hc2 hidx (h2 hc1 hc2 hidx)
            have : (modify_pte (entryAddr 1 T vaddr) vaddr ve set clr ptt s) =
                (0, (modify_pte (entryAddr 1 T vaddr) vaddr ve set clr ptt s).2) :=
              Prod.ext hc1 rfl
            rw [← this]; exact h1
          · rw [h3 hc1 hidx]
            have hstop : ¬ (lvNext 1 vaddr < ve ∧ lvIndex 1 vaddr + 1 < 512) := by omega
            exact Run.descStop 0 T vaddr s _ hp hleaf h1 (Or.inr hstop)

theorem modify_pde_run (ptt : _page_table_type) (set clr ve pdpte vs : Nat) (s : PgState)
    (hve : ve % 4096 = 0) (hve2 : ve ≤ 2 ^ 64 - 2 ^ 39) (hvs : vs % 4096 = 0) (hlt : vs < ve) :
    Run ptt set clr ve 1 (s.mem pdpte &&& PFN_MASK) vs s (modify_pde pdpte vs ve set clr ptt s) := by
  have := modify_pde_loop_run ptt set clr ve (s.mem pdpte &&& PFN_MASK) hve hve2
    (512 - lvIndex 1 vs) (lvIndex 1 vs) vs 0 s rfl rfl rfl hvs hlt
  unfold modify_pde
  simp only [pde_index_eq, PTRS_PER_PDE]
  exact this

theorem modify_pdpte_loop_run (ptt : _page_table_type) (set clr ve T : Nat)
    (hve : ve % 4096 = 0) (hve2 : ve ≤ 2 ^ 64 - 2 ^ 39) :
    ∀ (n index vaddr : Nat) (ret : Int) (s : PgState), ret = 0 → index = lvIndex 2 vaddr →
      n = 512 - index → vaddr % 4096 = 0 → vaddr < ve →
      Run ptt set clr ve 2 T vaddr s (modify_pdpte_loop T ve set clr ptt n index vaddr ret s) := by
  intro n
  induction n with
  | zero =>
    intro index vaddr ret s _ hi hn
    have := lvIndex_lt 2 vaddr
    omega
  | succ n ih =>
    intro index vaddr ret s hret hi hn hal hlt
    have hle := lvNext_le 2 vaddr
    rw [lvSize_two] at hle
    have hu : u64 ((vaddr &&& PDPTE_MASK) + PDPTE_SIZE) = lvNext 2 vaddr := by
      rw [and_PDPTE_MASK vaddr (by omega)]
      unfold u64 U64 PDPTE_SIZE lvNext
      rw [lvSize_two] at *
      unfold lvNext at hle
      omega
    have hgt := lvNext_gt 2 vaddr
    have hna := lvNext_aligned 2 vaddr
    unfold modify_pdpte_loop
    simp only [hu]
    have hea : T + 8 * index = entryAddr 2 T vaddr := by unfold entryAddr; rw [hi]
    rw [hea]
    -- the part of the body shared by the split and the table case
    have hdesc : ∀ s0 : PgState,
        (Run ptt set clr ve 1 (s0.mem (entryAddr 2 T vaddr) &&& PFN_MASK) vaddr s0
            (modify_pde (entryAddr 2 T vaddr) vaddr ve set clr ptt s0)) ∧
        ((modify_pde (entryAddr 2 T vaddr) vaddr ve set clr ptt s0).1 = 0 →
          lvNext 2 vaddr < ve → lvIndex 2 vaddr + 1 < 512 →
          Run ptt set clr ve 2 T (lvNext 2 vaddr)
            (modify_pde (entryAddr 2 T vaddr) vaddr ve set clr ptt s0).2
            (modify_pdpte_loop T ve set clr ptt n (index + 1) (lvNext 2 vaddr)
              (modify_pde (entryAddr 2 T vaddr) vaddr ve set clr ptt s0).1
              (modify_pde (entryAddr 2 T vaddr) vaddr ve set clr ptt s0).2)) ∧
        ((modify_pde (entryAddr 2 T vaddr) vaddr ve set clr ptt s0).1 = 0 →
          ¬ (lvIndex 2 vaddr + 1 < 512) →
          modify_pdpte_loop T ve set clr ptt n (index + 1) (lvNext 2 vaddr)
              (modify_pde (entryAddr 2 T vaddr) vaddr ve set clr ptt s0).1
              (modify_pde (entryAddr 2 T vaddr) vaddr ve set clr ptt s0).2 =
            (modify_pde (entryAddr 2 T vaddr) vaddr ve set clr ptt s0)) := by
      intro s0
      refine ⟨modify_pde_run ptt set clr ve _ vaddr s0 hve (by omega) hal hlt, ?_, ?_⟩
      · intro h0 h1 h2
        exact ih (index + 1) (lvNext 2 vaddr) _ _ h0
          (by rw [lvIndex_next 2 vaddr h2, hi]) (by omega) hna h1
      · intro h0 h2
        have hn0 : n = 0 := by omega
        subst hn0
        unfold modify_pdpte_loop
        rfl
    by_cases hp : pgentry_present ptt (s.mem (entryAddr 2 T vaddr)) = 0
    · simp only [hp, if_true]
      exact Run.notPresent 2 T vaddr s hp
    · simp only [hp, if_false]
      by_cases hl : pdpte_large (s.mem (entryAddr 2 T vaddr)) ≠ 0
      · have hleaf : isLeaf 2 (s.mem (entryAddr 2 T vaddr)) := (isLeaf_two _).2 hl
        rw [if_pos hl]
        by_cases hgt2 : lvNext 2 vaddr > ve
        · simp only [hgt2, if_true]
          by_cases hpool : s.pool = []
          · have : (-ENOMEM ≠ (0 : Int)) := by decide
            have e := split_large_page_nil (entryAddr 2 T vaddr) 2 ptt s (Or.inr rfl) hpool
            simp only [lvlOf] at e
            rw [e]
            simp only [this, if_true]
            exact Run.splitFail 1 T vaddr s hp hleaf hgt2 hpool
          · have e := split_large_page_fst (entryAddr 2 T vaddr) 2 ptt s (Or.inr rfl) hpool
            simp only [lvlOf] at e
            simp only [e, ne_eq, not_true_eq_false, if_false]
            obtain ⟨h1, -, -⟩ := hdesc (split_large_page (entryAddr 2 T vaddr) IA32E_PDPT ptt s).2
            have hcond : ve ≤ lvNext 2 vaddr := by omega
            simp only [ge_iff_le, hcond, or_true, if_true]
            exact Run.splitOk 1 T vaddr s _ _ hp hleaf hgt2 hpool
              (by simp only [lvlOf]; exact Prod.ext e rfl) h1
        · simp only [hgt2, if_false]
          by_cases hlt2 : lvNext 2 vaddr < ve
          · simp only [hlt2, if_true]
            by_cases hidx : lvIndex 2 vaddr + 1 < 512
            · exact Run.leafCont 2 T vaddr s _ hp hleaf hlt2 hidx
                (ih (index + 1) (lvNext 2 vaddr) ret _ hret
                  (by rw [lvIndex_next 2 vaddr hidx, hi]) (by omega) hna hlt2)
            · have hn0 : n = 0 := by omega
              subst hn0
              unfold modify_pdpte_loop
              rw [hret]
              exact Run.leafStop 2 T vaddr s hp hleaf (by omega) (by omega)
          · simp only [hlt2, if_false]
            exact Run.leafStop 2 T vaddr s hp hleaf (by omega) (by omega)
      · have hleaf : ¬ isLeaf 2 (s.mem (entryAddr 2 T vaddr)) := fun h => hl ((isLeaf_two _).1 h)
        rw [if_neg hl]
        obtain ⟨h1, h2, h3⟩ := hdesc s
        by_cases hc : (modify_pde (entryAddr 2 T vaddr) vaddr ve set clr ptt s).1 ≠ 0 ∨
            lvNext 2 vaddr ≥ ve
        · simp only [hc, if_true]
          refine Run.descStop 1 T vaddr s _ hp hleaf h1 ?_
          rcases hc with hc | hc
          · exact Or.inl hc
          · have hstop : ¬ (lvNext 2 vaddr < ve ∧ lvIndex 2 vaddr + 1 < 512) := by omega
            exact Or.inr hstop
        · simp only [hc, if_false]
          have hc1 : (modify_pde (entryAddr 2 T vaddr) vaddr ve set clr ptt s).1 = 0 := by
            by_contra h; exact hc (Or.inl h)
          have hc2 : lvNext 2 vaddr < ve := by
            by_contra h; exact hc (Or.inr (by omega))
          by_cases hidx : lvIndex 2 vaddr + 1 < 512
          · refine Run.descCont 1 T vaddr s _ _ hp hleaf ?_ hc2 hidx (h2 hc1 hc2 hidx)
            have : (modify_pde (entryAddr 2 T vaddr) vaddr ve set clr ptt s) =
                (0, (modify_pde (entryAddr 2 T vaddr) vaddr ve set clr ptt s).2) :=
              Prod.ext hc1 rfl
            rw [← this]; exact h1
          · rw [h3 hc1 hidx]
            have hstop : ¬ (lvNext 2 vaddr < ve ∧ lvIndex 2 vaddr + 1 < 512) := by omega
            exact Run.descStop 1 T vaddr s _ hp hleaf h1 (Or.inr hstop)

theorem modify_pdpte_run (ptt : _page_table_type) (set clr ve pdpte vs : Nat) (s : PgState)
    (hve : ve % 4096 = 0) (hve2 : ve ≤ 2 ^ 64 - 2 ^ 39) (hvs : vs % 4096 = 0) (hlt : vs < ve) :
    Run ptt set clr ve 2 (s.mem pdpte &&& PFN_MASK) vs s (modify_pdpte pdpte vs ve set clr ptt s) := by
  have := modify_pdpte_loop_run ptt set clr ve (s.mem pdpte &&& PFN_MASK) hve hve2
    (512 - lvIndex 2 vs) (lvIndex 2 vs) vs 0 s rfl rfl rfl hvs hlt
  unfold modify_pdpte
  simp only [pdpte_index_eq, PTRS_PER_PDPTE]
  exact this

theorem not_isLeaf_three (e : Nat) : ¬ isLeaf 3 e := by
  unfold isLeaf; simp

theorem mmu_modify_loop_done (ptt : _page_table_type) (set clr ve root : Nat) (fuel vaddr : Nat)
    (s : PgState) (h : ¬ vaddr < ve) :
    mmu_modify_loop root ve set clr ptt fuel vaddr s = some (0, s) := by
  cases fuel <;> simp [mmu_modify_loop, h]

theorem mmu_modify_loop_run (ptt : _page_table_type) (set clr ve root : Nat)
    (hve : ve % 4096 = 0) (hve2 : ve ≤ 2 ^ 48) :
    ∀ (fuel vaddr : Nat) (s : PgState), 512 - lvIndex 3 vaddr ≤ fuel →
      vaddr % 4096 = 0 → vaddr < ve →
      ∃ res, mmu_modify_loop root ve set clr ptt fuel vaddr s = some res ∧
        Run ptt set clr ve 3 root vaddr s res := by
  intro fuel
  induction fuel with
  | zero =>
    intro vaddr s hf
    have := lvIndex_lt 3 vaddr
    omega
  | succ n ih =>
    intro vaddr s hf hal hlt
    have hle := lvNext_le 3 vaddr
    have hgt := lvNext_gt 3 vaddr
    have hna := lvNext_aligned 3 vaddr
    have hu : u64 ((vaddr &&& PML4E_MASK) + PML4E_SIZE) = lvNext 3 vaddr := by
      rw [and_PML4E_MASK vaddr (by omega)]
      unfold u64 U64 PML4E_SIZE lvNext
      rw [lvSize_three] at *
      unfold lvNext at hle
      omega
    have hea : pml4e_offset root vaddr = entryAddr 3 root vaddr := by
      unfold pml4e_offset entryAddr; rw [pml4e_index_eq]
    unfold mmu_modify_loop
    simp only [hu, hea, hlt, if_true]
    have hleaf := not_isLeaf_three (s.mem (entryAddr 3 root vaddr))
    by_cases hp : pgentry_present ptt (s.mem (entryAddr 3 root vaddr)) = 0
    · rw [if_pos hp]
      exact ⟨_, rfl, Run.notPresent 3 root vaddr s hp⟩
    · rw [if_neg hp]
      have h1 := modify_pdpte_run ptt set clr ve (entryAddr 3 root vaddr) vaddr s hve
        (by omega) hal hlt
      by_cases hr : (modify_pdpte (entryAddr 3 root vaddr) vaddr ve set clr ptt s).1 ≠ 0
      · rw [if_pos hr]
        exact ⟨_, rfl, Run.descStop 2 root vaddr s _ hp hleaf h1 (Or.inl hr)⟩
      · rw [if_neg hr]
        have hr0 : (modify_pdpte (entryAddr 3 root vaddr) vaddr ve set clr ptt s).1 = 0 := by
          by_contra h; exact hr h
        have hres : (modify_pdpte (entryAddr 3 root vaddr) vaddr ve set clr ptt s) =
            (0, (modify_pdpte (entryAddr 3 root vaddr) vaddr ve set clr ptt s).2) :=
          Prod.ext hr0 rfl
        by_cases hlt2 : lvNext 3 vaddr < ve
        · have hidx : lvIndex 3 vaddr + 1 < 512 := by
            unfold lvIndex lvNext at *
            rw [lvSize_three] at *
            omega
          obtain ⟨res, e1, e2⟩ := ih (lvNext 3 vaddr)
            (modify_pdpte (entryAddr 3 root vaddr) vaddr ve set clr ptt s).2
            (by rw [lvIndex_next 3 vaddr hidx]; omega) hna hlt2
          refine ⟨res, e1, Run.descCont 2 root vaddr s _ _ hp hleaf ?_ hlt2 hidx e2⟩
          rw [← hres]; exact h1
        · rw [mmu_modify_loop_done _ _ _ _ _ _ _ _ hlt2]
          have hstop : ¬ (lvNext 3 vaddr < ve ∧ lvIndex 3 vaddr + 1 < 512) := by omega
          refine ⟨_, rfl, ?_⟩
          rw [← hres]
          exact Run.descStop 2 root vaddr s _ hp hleaf h1 (Or.inr hstop)

/-- The aligned check of the entry point in arithmetic form. -/
theorem MEM_ALIGNED_CHECK_4K (x : Nat) : MEM_ALIGNED_CHECK x PAGE_SIZE_4K = decide (x % 4096 = 0) := by
  unfold MEM_ALIGNED_CHECK PAGE_SIZE_4K
  have : x &&& (0x1000 - 1) = x % 2 ^ 12 := Nat.and_pow_two_sub_one_eq_mod x 12
  rw [this]
  by_cases h : x % 4096 = 0
  · simp [h]
  · simp [h]

theorem mmu_modify_run (ptt : _page_table_type) (set clr root base size : Nat) (s : PgState)
    (fuel : Nat) (hf : 512 ≤ fuel)
    (hb : base % 4096 = 0) (hs : size % 4096 = 0) (hpos : 0 < size) (hend : base + size ≤ 2 ^ 48) :
    ∃ res, mmu_modify fuel root base size set clr ptt s = some res ∧
      Run ptt set clr (base + size) 3 root base s res := by
  unfold mmu_modify
  have hu : u64 (base + size) = base + size := by unfold u64 U64; omega
  simp only [MEM_ALIGNED_CHECK_4K, hb, hs, hu, decide_True, Bool.not_true, Bool.or_self,
    Bool.false_eq_true, if_false]
  exact mmu_modify_loop_run ptt set clr (base + size) root (by omega) hend fuel base s
    (by omega) hb (by omega)

theorem PFN_MASK_eq : PFN_MASK = (2 ^ 36 - 1) <<< 12 := by decide

theorem and_PFN_MASK (e : Nat) : e &&& PFN_MASK = e % 2 ^ 48 / 2 ^ 12 * 2 ^ 12 := by
  rw [PFN_MASK_eq]; exact and_mid_mask e 12 36

theorem and_PFN_aligned (e : Nat) : (e &&& PFN_MASK) % 4096 = 0 := by
  rw [and_PFN_MASK]; omega

theorem and_PFN_lt (e : Nat) : e &&& PFN_MASK < 2 ^ 48 := by
  rw [and_PFN_MASK]; omega

theorem inPage_disjoint {p q a : Nat} (hp : p % 4096 = 0) (hq : q % 4096 = 0)
    (h1 : inPage p a) (h2 : inPage q a) : p = q := by
  unfold inPage at *; omega

theorem inPage_entry {T j : Nat} (hj : j < 512) : inPage T (T + 8 * j) := by
  unfold inPage; omega

theorem tables_succ (ptt : _page_table_type) (m : Mem) (L T : Nat) :
    tables ptt m (L + 1) T = T :: (List.range 512).flatMap (kid ptt m (L + 1) T) := rfl

theorem tables_zero (ptt : _page_table_type) (m : Mem) (T : Nat) :
    tables ptt m 0 T = [T] := rfl

theorem kid_zero (ptt : _page_table_type) (m : Mem) (T j : Nat) : kid ptt m 0 T j = [] := rfl

theorem kid_succ (ptt : _page_table_type) (m : Mem) (L T j : Nat) :
    kid ptt m (L + 1) T j =
      if isTable ptt (L + 1) (m (T + 8 * j)) then tables ptt m L (m (T + 8 * j) &&& PFN_MASK)
      else [] := rfl

theorem mem_tables_self (ptt : _page_table_type) (m : Mem) (L T : Nat) :
    T ∈ tables ptt m L T := by
  cases L <;> simp [tables]

theorem mem_tables_iff (ptt : _page_table_type) (m : Mem) (L T p : Nat) :
    p ∈ tables ptt m L T ↔ p = T ∨ ∃ j, j < 512 ∧ p ∈ kid ptt m L T j := by
  cases L with
  | zero => simp [tables_zero, kid_zero]
  | succ L =>
    rw [tables_succ]
    simp only [List.mem_cons, List.mem_flatMap, List.mem_range]

theorem tables_aligned (ptt : _page_table_type) (m : Mem) :
    ∀ (L T : Nat), T % 4096 = 0 → ∀ p ∈ tables ptt m L T, p % 4096 = 0 := by
  intro L
  induction L with
  | zero => intro T hT p hp; simp [tables_zero] at hp; rw [hp]; exact hT
  | succ L ih =>
    intro T hT p hp
    rcases (mem_tables_iff ptt m (L + 1) T p).1 hp with h | ⟨j, _, hj⟩
    · rw [h]; exact hT
    · rw [kid_succ] at hj
      split at hj
      · exact ih _ (and_PFN_aligned _) p hj
      · simp at hj

theorem kid_aligned (ptt : _page_table_type) (m : Mem) (L T j p : Nat)
    (hp : p ∈ kid ptt m L T j) : p % 4096 = 0 := by
  cases L with
  | zero => simp [kid_zero] at hp
  | succ L =>
    rw [kid_succ] at hp
    split at hp
    · exact tables_aligned ptt m L _ (and_PFN_aligned _) p hp
    · simp at hp

theorem tables_congr (ptt : _page_table_type) (m m1 : Mem) :
    ∀ (L T : Nat), (∀ p ∈ tables ptt m L T, ∀ a, inPage p a → m1 a = m a) →
      tables ptt m1 L T = tables ptt m L T := by
  intro L
  induction L with
  | zero => intro T _; rfl
  | succ L ih =>
    intro T h
    rw [tables_succ, tables_succ]
    refine congrArg (List.cons T) ?_
    apply List.flatMap_congr
    intro j hj
    have hj' : j < 512 := List.mem_range.1 hj
    have he : m1 (T + 8 * j) = m (T + 8 * j) :=
      h T (mem_tables_self ptt m (L + 1) T) _ (inPage_entry hj')
    rw [kid_succ, kid_succ, he]
    split
    · rename_i ht
      apply ih
      intro p hp a ha
      apply h p _ a ha
      rw [mem_tables_iff]
      right
      exact ⟨j, hj', by rw [kid_succ, if_pos ht]; exact hp⟩
    · rfl

theorem kid_congr (ptt : _page_table_type) (m m1 : Mem) (L T j : Nat)
    (he : m1 (T + 8 * j) = m (T + 8 * j))
    (h : ∀ p ∈ kid ptt m L T j, ∀ a, inPage p a → m1 a = m a) :
    kid ptt m1 L T j = kid ptt m L T j := by
  cases L with
  | zero => rfl
  | succ L =>
    rw [kid_succ, kid_succ, he]
    split
    · rename_i ht
      apply tables_congr
      intro p hp a ha
      apply h p _ a ha
      rw [kid_succ, if_pos ht]; exact hp
    · rfl

theorem Agree.kid_eq {ptt : _page_table_type} {L T i : Nat} {m m1 : Mem}
    (h : Agree ptt L T i m m1) {j : Nat} (hij : i ≤ j) (hj : j < 512) :
    kid ptt m1 L T j = kid ptt m L T j :=
  kid_congr ptt m m1 L T j (h.1 j hij hj) (h.2 j hij hj)

theorem Agree.refl (ptt : _page_table_type) (L T i : Nat) (m : Mem) : Agree ptt L T i m m :=
  ⟨fun _ _ _ => rfl, fun _ _ _ _ _ _ _ => rfl⟩

theorem Agree.weaken {ptt : _page_table_type} {L T i i1 : Nat} {m m1 : Mem}
    (h : Agree ptt L T i m m1) (hi : i ≤ i1) : Agree ptt L T i1 m m1 :=
  ⟨fun j hj hj2 => h.1 j (by omega) hj2, fun j hj hj2 => h.2 j (by omega) hj2⟩

theorem Agree.trans {ptt : _page_table_type} {L T i : Nat} {m m1 m2 : Mem}
    (h : Agree ptt L T i m m1) (h2 : Agree ptt L T i m1 m2) : Agree ptt L T i m m2 := by
  refine ⟨fun j hj hj2 => (h2.1 j hj hj2).trans (h.1 j hj hj2), fun j hj hj2 p hp a ha => ?_⟩
  rw [← h.2 j hj hj2 p hp a ha]
  apply h2.2 j hj hj2 p _ a ha
  rw [h.kid_eq hj hj2]; exact hp

theorem SepFrom.mono {ptt : _page_table_type} {L T i i1 : Nat} {s : PgState}
    (h : SepFrom ptt L T i s) (hi : i ≤ i1) : SepFrom ptt L T i1 s where
  tAligned := h.tAligned
  poolOk := h.poolOk
  poolNodup := h.poolNodup
  tPool := h.tPool
  kidT := fun j hj hj2 => h.kidT j (by omega) hj2
  kidPool := fun j hj hj2 => h.kidPool j (by omega) hj2
  kidDisj := fun j j1 hj hj2 hj3 => h.kidDisj j j1 (by omega) hj2 hj3
  kidNodup := fun j hj hj2 => h.kidNodup j (by omega) hj2

theorem SepFrom.agree {ptt : _page_table_type} {L T i : Nat} {s s1 : PgState}
    (h : SepFrom ptt L T i s) (ha : Agree ptt L T i s.mem s1.mem)
    (hsub : ∀ p ∈ s1.pool, p ∈ s.pool) (hnd : s1.pool.Nodup) : SepFrom ptt L T i s1 where
  tAligned := h.tAligned
  poolOk := fun p hp => h.poolOk p (hsub p hp)
  poolNodup := hnd
  tPool := fun hp => h.tPool (hsub T hp)
  kidT := fun j hj hj2 => by rw [ha.kid_eq hj hj2]; exact h.kidT j hj hj2
  kidPool := fun j hj hj2 p hp hp2 => by
    rw [ha.kid_eq hj hj2] at hp; exact h.kidPool j hj hj2 p hp (hsub p hp2)
  kidDisj := fun j j1 hj hj2 hj3 p hp => by
    rw [ha.kid_eq hj (by omega)] at hp
    rw [ha.kid_eq (by omega) hj3]
    exact h.kidDisj j j1 hj hj2 hj3 p hp
  kidNodup := fun j hj hj2 => by rw [ha.kid_eq hj hj2]; exact h.kidNodup j hj hj2

/-- Separation of a table with distinct table pages. -/
theorem sepFrom_of_nodup (ptt : _page_table_type) (L T : Nat) (s : PgState)
    (hT : T % 4096 = 0) (hpool : ∀ p ∈ s.pool, p % 4096 = 0 ∧ p < 2 ^ 48)
    (hnd : (tables ptt s.mem L T).Nodup) (hpnd : s.pool.Nodup)
    (hdisj : ∀ p ∈ tables ptt s.mem L T, p ∉ s.pool) : SepFrom ptt L T 0 s := by
  have hmem : ∀ j, j < 512 → ∀ p ∈ kid ptt s.mem L T j, p ∈ tables ptt s.mem L T := by
    intro j hj p hp
    rw [mem_tables_iff]; exact Or.inr ⟨j, hj, hp⟩
  cases L with
  | zero =>
    exact ⟨hT, hpool, hpnd, hdisj T (mem_tables_self _ _ _ _), by simp [kid_zero],
      by simp [kid_zero], by simp [kid_zero], by simp [kid_zero]⟩
  | succ L =>
    rw [tables_succ, List.nodup_cons, List.nodup_flatMap] at hnd
    obtain ⟨h1, h2, h3⟩ := hnd
    refine ⟨hT, hpool, hpnd, hdisj T (mem_tables_self _ _ _ _), ?_, ?_, ?_, ?_⟩
    · intro j _ hj hk
      exact h1 (List.mem_flatMap.2 ⟨j, List.mem_range.2 hj, hk⟩)
    · intro j _ hj p hp
      exact hdisj p (hmem j hj p hp)
    · intro j j1 _ hj hj1 p hp hp1
      have := List.Pairwise.forall (fun a b h => List.Disjoint.symm h) h3
        (List.mem_range.2 (show j < 512 by omega)) (List.mem_range.2 hj1) (by omega)
      exact this hp hp1
    · intro j _ hj
      exact h2 j (List.mem_range.2 hj)

theorem SepFrom.desc {ptt : _page_table_type} {L T i : Nat} {s : PgState}
    (h : SepFrom ptt (L + 1) T i s) {j : Nat} (hij : i ≤ j) (hj : j < 512)
    (ht : isTable ptt (L + 1) (s.mem (T + 8 * j))) :
    SepFrom ptt L (s.mem (T + 8 * j) &&& PFN_MASK) 0 s := by
  have hk : kid ptt s.mem (L + 1) T j = tables ptt s.mem L (s.mem (T + 8 * j) &&& PFN_MASK) := by
    rw [kid_succ, if_pos ht]
  apply sepFrom_of_nodup ptt L _ s (and_PFN_aligned _) h.poolOk
  · rw [← hk]; exact h.kidNodup j hij hj
  · exact h.poolNodup
  · intro p hp; rw [← hk] at hp; exact h.kidPool j hij hj p hp

theorem Touch.page {ptt : _page_table_type} {m : Mem} {L T i : Nat} {taken : List Nat} {a : Nat}
    (h : Touch ptt m L T i taken a) : ∃ p, (p ∈ tables ptt m L T ∨ p ∈ taken) ∧ inPage p a := by
  rcases h with ⟨j, _, hj, rfl⟩ | ⟨j, _, hj, p, hp, hpa⟩ | ⟨p, hp, hpa⟩
  · exact ⟨T, Or.inl (mem_tables_self _ _ _ _), inPage_entry hj⟩
  · exact ⟨p, Or.inl ((mem_tables_iff _ _ _ _ _).2 (Or.inr ⟨j, hj, hp⟩)), hpa⟩
  · exact ⟨p, Or.inr hp, hpa⟩

/-- Writes confined to entry `i`, the pages below it and free pages leave
the part of the table from entry `i + 1` on as it was. -/
theorem agree_of_frame {ptt : _page_table_type} {L T i : Nat} {s : PgState} {m1 : Mem}
    (h : SepFrom ptt L T i s) (hi : i < 512)
    (hfr : ∀ a, m1 a ≠ s.mem a →
      a = T + 8 * i ∨ ∃ p, (p ∈ kid ptt s.mem L T i ∨ p ∈ s.pool) ∧ inPage p a) :
    Agree ptt L T (i + 1) s.mem m1 := by
  constructor
  · intro j hij hj
    by_contra hne
    rcases hfr _ hne with h1 | ⟨p, hp, hpa⟩
    · omega
    · have hpal : p % 4096 = 0 := by
        rcases hp with hp | hp
        · exact kid_aligned _ _ _ _ _ _ hp
        · exact (h.poolOk p hp).1
      have := inPage_disjoint hpal h.tAligned hpa (inPage_entry hj)
      subst this
      rcases hp with hp | hp
      · exact h.kidT i (le_refl _) hi hp
      · exact h.tPool hp
  · intro j hij hj q hq a ha
    by_contra hne
    have hqal := kid_aligned _ _ _ _ _ _ hq
    rcases hfr _ hne with h1 | ⟨p, hp, hpa⟩
    · subst h1
      have := inPage_disjoint hqal h.tAligned ha (inPage_entry hi)
      subst this
      exact h.kidT j (by omega) hj hq
    · have hpal : p % 4096 = 0 := by
        rcases hp with hp | hp
        · exact kid_aligned _ _ _ _ _ _ hp
        · exact (h.poolOk p hp).1
      have := inPage_disjoint hpal hqal hpa ha
      subst this
      rcases hp with hp | hp
      · exact h.kidDisj i j (le_refl _) (by omega) hj p hp hq
      · exact h.kidPool j (by omega) hj p hq hp

theorem split_fill_apply (p rp inc : Nat) :
    ∀ (n i paddr : Nat) (m : Mem) (x : Nat), paddr < U64 →
      split_fill p rp inc n i paddr m x =
        if p + 8 * i ≤ x ∧ x < p + 8 * (i + n) ∧ (x - p) % 8 = 0 then
          u64 (paddr + ((x - p) / 8 - i) * inc) ||| rp
        else m x := by
  intro n
  induction n with
  | zero =>
    intro i paddr m x _
    have : ¬ (p + 8 * i ≤ x ∧ x < p + 8 * (i + 0) ∧ (x - p) % 8 = 0) := by omega
    rw [if_neg this]; rfl
  | succ n ih =>
    intro i paddr m x hp
    unfold split_fill
    rw [ih (i + 1) (u64 (paddr + inc)) _ x (Nat.mod_lt _ (by decide))]
    by_cases hx : x = p + 8 * i
    · have h1 : ¬ (p + 8 * (i + 1) ≤ x ∧ x < p + 8 * (i + 1 + n) ∧ (x - p) % 8 = 0) := by omega
      have h2 : p + 8 * i ≤ x ∧ x < p + 8 * (i + (n + 1)) ∧ (x - p) % 8 = 0 := by omega
      rw [if_neg h1, if_pos h2]
      have h3 : (x - p) / 8 - i = 0 := by omega
      rw [h3]
      simp only [set_pte, hx, if_true, Nat.zero_mul, Nat.add_zero]
      unfold u64
      rw [Nat.mod_eq_of_lt hp]
    · by_cases hc : p + 8 * (i + 1) ≤ x ∧ x < p + 8 * (i + 1 + n) ∧ (x - p) % 8 = 0
      · have h2 : p + 8 * i ≤ x ∧ x < p + 8 * (i + (n + 1)) ∧ (x - p) % 8 = 0 := by omega
        rw [if_pos hc, if_pos h2]
        have h3 : (x - p) / 8 - i = ((x - p) / 8 - (i + 1)) + 1 := by omega
        rw [h3]
        unfold u64
        congr 1
        rw [Nat.add_mul, Nat.one_mul, Nat.mod_add_mod]
        congr 1
        ring
      · have h2 : ¬ (p + 8 * i ≤ x ∧ x < p + 8 * (i + (n + 1)) ∧ (x - p) % 8 = 0) := by omega
        rw [if_neg hc, if_neg h2]
        simp only [set_pte, hx, if_false]

theorem lvSize_pred_one : lvSize (1 - 1) = PTE_SIZE := by decide
theorem lvSize_pred_two : lvSize (2 - 1) = PDE_SIZE := by decide

theorem split_large_page_cons (a L : Nat) (ptt : _page_table_type) (m : Mem) (p : Nat)
    (rest : List Nat) (hL : L = 1 ∨ L = 2) :
    split_large_page a (lvlOf L) ptt ⟨m, p :: rest⟩ = (0, ⟨splitMem L a p m, rest⟩) := by
  have hpt : (if ptt = PTT_HOST then PAGE_TABLE else EPT_RWX) = 7 := by
    cases ptt <;> simp [PAGE_TABLE, EPT_RWX]
  have key : ∀ (inc rp : Nat), inc = lvSize (L - 1) → rp = splitProt L (m a) →
      set_pte (split_fill p rp inc PTRS_PER_PTE 0 (m a &&& PFN_MASK) (zero_page m p)) a
        (HVA2HPA p ||| 7) = splitMem L a p m := by
    intro inc rp hinc hrp
    funext x
    unfold set_pte splitMem
    by_cases hx : x = a
    · simp [hx, HVA2HPA]
    · rw [if_neg hx, if_neg hx]
      rw [split_fill_apply p rp inc _ 0 _ _ x (lt_trans (and_PFN_lt _) (by decide))]
      unfold PTRS_PER_PTE zero_page inPage PAGE_SIZE_4K
      by_cases hin : p ≤ x ∧ x < p + 4096
      · by_cases h8 : (x - p) % 8 = 0
        · have : p + 8 * 0 ≤ x ∧ x < p + 8 * (0 + 512) ∧ (x - p) % 8 = 0 := by omega
          rw [if_pos this, hinc, hrp]
          simp [hin, h8]
        · have : ¬ (p + 8 * 0 ≤ x ∧ x < p + 8 * (0 + 512) ∧ (x - p) % 8 = 0) := by omega
          rw [if_neg this]
          simp [hin, h8]
      · have : ¬ (p + 8 * 0 ≤ x ∧ x < p + 8 * (0 + 512) ∧ (x - p) % 8 = 0) := by omega
        rw [if_neg this]
        simp [hin]
  rcases hL with h | h
  · subst h
    have := key PTE_SIZE ((m a &&& not64 PDE_PFN_MASK) &&& not64 PAGE_PSE) lvSize_pred_one.symm
      (by simp [splitProt, PDE_PFN_MASK, PFN_MASK])
    simp only [split_large_page, lvlOf, alloc_paging_struct, hpt]
    rw [show PDE_PFN_MASK = PFN_MASK from rfl] at *
    rw [this]
  · subst h
    have := key PDE_SIZE (m a &&& not64 PDPTE_PFN_MASK) lvSize_pred_two.symm
      (by simp [splitProt, PDPTE_PFN_MASK, PFN_MASK])
    simp only [split_large_page, lvlOf, alloc_paging_struct, hpt]
    rw [show PDPTE_PFN_MASK = PFN_MASK from rfl] at *
    rw [this]

theorem kid_eq_tables {ptt : _page_table_type} {m : Mem} {L T j : Nat}
    (ht : isTable ptt (L + 1) (m (T + 8 * j))) :
    kid ptt m (L + 1) T j = tables ptt m L (m (T + 8 * j) &&& PFN_MASK) := by
  rw [kid_succ, if_pos ht]

theorem Touch.lift {ptt : _page_table_type} {m : Mem} {L T i0 i i1 : Nat} {taken : List Nat}
    {a : Nat} (ht : isTable ptt (L + 1) (m (T + 8 * i))) (hi0 : i0 ≤ i) (hi : i < 512)
    (h : Touch ptt m L (m (T + 8 * i) &&& PFN_MASK) i1 taken a) :
    Touch ptt m (L + 1) T i0 taken a := by
  obtain ⟨p, hp, hpa⟩ := h.page
  rcases hp with hp | hp
  · exact Or.inr (Or.inl ⟨i, hi0, hi, p, by rw [kid_eq_tables ht]; exact hp, hpa⟩)
  · exact Or.inr (Or.inr ⟨p, hp, hpa⟩)

theorem Touch.cont {ptt : _page_table_type} {m m1 : Mem} {L T i : Nat} {taken taken1 : List Nat}
    {a : Nat} (hag : Agree ptt L T (i + 1) m m1) (hsub : ∀ p ∈ taken1, p ∈ taken)
    (h : Touch ptt m1 L T (i + 1) taken1 a) : Touch ptt m L T i taken a := by
  rcases h with ⟨j, hj, hj2, rfl⟩ | ⟨j, hj, hj2, p, hp, hpa⟩ | ⟨p, hp, hpa⟩
  · exact Or.inl ⟨j, by omega, hj2, rfl⟩
  · exact Or.inr (Or.inl ⟨j, by omega, hj2, p, by rw [← hag.kid_eq hj hj2]; exact hp, hpa⟩)
  · exact Or.inr (Or.inr ⟨p, hsub p hp, hpa⟩)

theorem modify_ne {set clr a : Nat} {s : PgState} {x : Nat}
    (h : (modState set clr a s).mem x ≠ s.mem x) : x = a := by
  by_contra hx
  apply h
  simp [modState, __modify_pte, set_pte, hx]

theorem modState_pool (set clr a : Nat) (s : PgState) : (modState set clr a s).pool = s.pool := rfl

theorem SepFrom.leafCont {ptt : _page_table_type} {L T i : Nat} {s : PgState} (set clr : Nat)
    (h : SepFrom ptt L T i s) (hi : i < 512) :
    Agree ptt L T (i + 1) s.mem (modState set clr (T + 8 * i) s).mem ∧
      SepFrom ptt L T (i + 1) (modState set clr (T + 8 * i) s) := by
  have hag : Agree ptt L T (i + 1) s.mem (modState set clr (T + 8 * i) s).mem :=
    agree_of_frame h hi (fun a ha => Or.inl (modify_ne ha))
  exact ⟨hag, SepFrom.agree (h.mono (Nat.le_succ i)) hag (fun p hp => hp) h.poolNodup⟩

theorem or7_and_PFN (p : Nat) (hp : p % 4096 = 0) (hp2 : p < 2 ^ 48) :
    (p ||| 7) &&& PFN_MASK = p := by
  rw [and_PFN_MASK]
  have h7 : (7 : Nat) < 2 ^ 12 := by decide
  obtain ⟨c, hc⟩ : ∃ c, p = 2 ^ 12 * c := ⟨p / 4096, by omega⟩
  rw [hc, ← Nat.mul_add_lt_is_or h7]
  omega

theorem splitMem_entry (L a p : Nat) (m : Mem) : splitMem L a p m a = p ||| 7 := by
  simp [splitMem]

theorem splitMem_ne {L a p : Nat} {m : Mem} {x : Nat} (h : splitMem L a p m x ≠ m x) :
    x = a ∨ inPage p x := by
  by_contra hx
  push_neg at hx
  apply h
  simp [splitMem, hx.1, hx.2]

theorem splitMem_slot {L a p : Nat} {m : Mem} {k : Nat} (hk : k < 512) (hne : p + 8 * k ≠ a) :
    splitMem L a p m (p + 8 * k) =
      u64 ((m a &&& PFN_MASK) + k * lvSize (L - 1)) ||| splitProt L (m a) := by
  have h1 : inPage p (p + 8 * k) := inPage_entry hk
  have h2 : (p + 8 * k - p) % 8 = 0 := by omega
  have h3 : (p + 8 * k - p) / 8 = k := by omega
  simp [splitMem, hne, h1, h2, h3]

theorem testBit_not64 (x i : Nat) : (not64 x).testBit i = (decide (i < 64) && !x.testBit i) := by
  unfold not64 U64
  have e1 : (0xFFFFFFFFFFFFFFFF : Nat) = 2 ^ 64 - 1 := by decide
  have e2 : (0x10000000000000000 : Nat) = 2 ^ 64 := by decide
  rw [e1, e2, Nat.testBit_xor, Nat.testBit_two_pow_sub_one, Nat.testBit_mod_two_pow]
  by_cases h : i < 64 <;> simp [h]

theorem testBit_PFN_MASK (i : Nat) : PFN_MASK.testBit i = (decide (12 ≤ i) && decide (i < 48)) := by
  rw [PFN_MASK_eq, Nat.testBit_shiftLeft, Nat.testBit_two_pow_sub_one]
  by_cases h : 12 ≤ i
  · by_cases h2 : i < 48
    · have : i - 12 < 36 := by omega
      simp [h, h2, this]
    · have : ¬ (i - 12 < 36) := by omega
      simp [h, h2, this]
  · simp [h]

theorem testBit_PAGE_PSE (i : Nat) : PAGE_PSE.testBit i = decide (i = 7) := by
  have : PAGE_PSE = 2 ^ 7 := by decide
  rw [this, Nat.testBit_two_pow]
  by_cases h : i = 7
  · simp [h]
  · have : ¬ (7 = i) := fun h2 => h h2.symm
    simp [h, this]

theorem testBit_seven (i : Nat) : (7 : Nat).testBit i = decide (i < 3) := by
  have : (7 : Nat) = 2 ^ 3 - 1 := by decide
  rw [this, Nat.testBit_two_pow_sub_one]

theorem testBit_one (i : Nat) : (1 : Nat).testBit i = decide (i < 1) := by
  have h := Nat.testBit_two_pow_sub_one 1 i
  simpa using h

theorem and_ne_zero_iff (x y : Nat) : x &&& y ≠ 0 ↔ ∃ i, x.testBit i = true ∧ y.testBit i = true := by
  constructor
  · intro h
    obtain ⟨i, hi⟩ := Nat.ne_zero_implies_bit_true h
    rw [Nat.testBit_and] at hi
    exact ⟨i, by simpa using hi⟩
  · rintro ⟨i, h1, h2⟩ h0
    have : (x &&& y).testBit i = true := by rw [Nat.testBit_and, h1, h2]; rfl
    rw [h0] at this
    simp at this

/-- The number of low bits that make up the presence test. -/
theorem present_iff (ptt : _page_table_type) (e : Nat) :
    pgentry_present ptt e ≠ 0 ↔
      ∃ i, i < (if ptt = PTT_HOST then 1 else 3) ∧ e.testBit i = true := by
  cases ptt
  · simp only [pgentry_present, PAGE_PRESENT, and_ne_zero_iff, testBit_one, if_true]
    constructor
    · rintro ⟨i, h1, h2⟩; exact ⟨i, by simpa using h2, h1⟩
    · rintro ⟨i, h1, h2⟩; exact ⟨i, h2, by simpa using h1⟩
  · simp only [pgentry_present, EPT_RWX, and_ne_zero_iff, testBit_seven]
    constructor
    · rintro ⟨i, h1, h2⟩; exact ⟨i, by simpa using h2, h1⟩
    · rintro ⟨i, h1, h2⟩; exact ⟨i, h2, by simpa using h1⟩

theorem large_iff (e : Nat) : e &&& PAGE_PSE ≠ 0 ↔ e.testBit 7 = true := by
  rw [and_ne_zero_iff]
  constructor
  · rintro ⟨i, h1, h2⟩
    rw [testBit_PAGE_PSE] at h2
    have : i = 7 := by simpa using h2
    rw [← this]; exact h1
  · intro h
    exact ⟨7, h, by rw [testBit_PAGE_PSE]; simp⟩

theorem testBit_aligned {p : Nat} (hp : p % 4096 = 0) {i : Nat} (hi : i < 12) :
    p.testBit i = false := by
  obtain ⟨c, hc⟩ : ∃ c, p = 2 ^ 12 * c := ⟨p / 4096, by omega⟩
  rw [hc, Nat.testBit_mul_pow_two]
  have : ¬ (i ≥ 12) := by omega
  simp [this]

theorem testBit_splitProt (L e i : Nat) :
    (splitProt L e).testBit i =
      (e.testBit i && decide (i < 64) && !(decide (12 ≤ i) && decide (i < 48)) &&
        !(decide (L = 1) && decide (i = 7))) := by
  unfold splitProt
  by_cases hL : L = 1
  · simp only [hL, if_true, Nat.testBit_and, testBit_not64, testBit_PFN_MASK, testBit_PAGE_PSE]
    by_cases h7 : i = 7
    · subst h7; simp
    · by_cases h64 : i < 64 <;> simp [h7, h64]
  · simp only [hL, if_false, Nat.testBit_and, testBit_not64, testBit_PFN_MASK]
    by_cases h64 : i < 64 <;> simp [h64]

theorem present_or_splitProt (ptt : _page_table_type) (L e v : Nat)
    (h : pgentry_present ptt e ≠ 0) : pgentry_present ptt (v ||| splitProt L e) ≠ 0 := by
  rw [present_iff] at *
  obtain ⟨i, hi, hb⟩ := h
  refine ⟨i, hi, ?_⟩
  have hi3 : i < 3 := by cases ptt <;> simp at hi <;> omega
  rw [Nat.testBit_or, testBit_splitProt, hb]
  have h1 : i < 64 := by omega
  have h2 : ¬ (12 ≤ i) := by omega
  have h3 : ¬ (i = 7) := by omega
  simp [h1, h2, h3]

theorem large_or_splitProt (e v : Nat) (h : e &&& PAGE_PSE ≠ 0) :
    (v ||| splitProt 2 e) &&& PAGE_PSE ≠ 0 := by
  rw [large_iff] at *
  rw [Nat.testBit_or, testBit_splitProt, h]
  simp

theorem present_or7 (ptt : _page_table_type) (p : Nat) : pgentry_present ptt (p ||| 7) ≠ 0 := by
  rw [present_iff]
  refine ⟨0, by cases ptt <;> simp, ?_⟩
  rw [Nat.testBit_or, testBit_seven]; simp

theorem not_large_or7 (p : Nat) (hp : p % 4096 = 0) : ¬ ((p ||| 7) &&& PAGE_PSE ≠ 0) := by
  rw [large_iff, Nat.testBit_or, testBit_seven, testBit_aligned hp (by decide)]
  simp

theorem isTable_or7 (ptt : _page_table_type) (L p : Nat) (hp : p % 4096 = 0) :
    isTable ptt (L + 1) (p ||| 7) := by
  refine ⟨present_or7 ptt p, ?_⟩
  unfold isLeaf
  rintro (h | ⟨_, h⟩)
  · omega
  · exact not_large_or7 p hp h

theorem isLeaf_succ {L e : Nat} (h : isLeaf (L + 1) e) : (L + 1 = 1 ∨ L + 1 = 2) ∧ e &&& PAGE_PSE ≠ 0 := by
  rcases h with h | h
  · omega
  · exact h

theorem entry_not_in_pool_page {ptt : _page_table_type} {L T i : Nat} {s : PgState}
    (h : SepFrom ptt L T i s) {p : Nat} (hp : p ∈ s.pool) {j : Nat} (hj : j < 512) :
    ¬ inPage p (T + 8 * j) := by
  intro hin
  have := inPage_disjoint (h.poolOk p hp).1 h.tAligned hin (inPage_entry hj)
  subst this
  exact h.tPool hp

/-- The new table of a split has leaf entries only. -/
theorem kid_splitMem {ptt : _page_table_type} {L T i : Nat} {s : PgState} {p : Nat}
    {rest : List Nat} (h : SepFrom ptt (L + 1) T i s) (hpool : s.pool = p :: rest)
    (hi : i < 512) (hleaf : isLeaf (L + 1) (s.mem (T + 8 * i))) (k : Nat) (hk : k < 512) :
    kid ptt (splitMem (L + 1) (T + 8 * i) p s.mem) L p k = [] := by
  have hp : p ∈ s.pool := by rw [hpool]; exact List.mem_cons_self _ _
  have hne : p + 8 * k ≠ T + 8 * i := by
    intro he
    apply entry_not_in_pool_page h hp hi
    rw [← he]; exact inPage_entry hk
  obtain ⟨hL, hlarge⟩ := isLeaf_succ hleaf
  cases L with
  | zero => rfl
  | succ L =>
    have hL1 : L = 0 := by omega
    subst hL1
    rw [kid_succ, splitMem_slot hk hne]
    have : ¬ isTable ptt 1 (u64 ((s.mem (T + 8 * i) &&& PFN_MASK) + k * lvSize (0 + 1 + 1 - 1)) |||
        splitProt (0 + 1 + 1) (s.mem (T + 8 * i))) := by
      intro ht
      apply ht.2
      exact Or.inr ⟨Or.inl rfl, large_or_splitProt _ _ hlarge⟩
    rw [if_neg this]

theorem SepFrom.split {ptt : _page_table_type} {L T i : Nat} {s : PgState} {p : Nat}
    {rest : List Nat} (h : SepFrom ptt (L + 1) T i s) (hpool : s.pool = p :: rest)
    (hi : i < 512) (hleaf : isLeaf (L + 1) (s.mem (T + 8 * i))) (i1 : Nat) :
    SepFrom ptt L p i1 ⟨splitMem (L + 1) (T + 8 * i) p s.mem, rest⟩ := by
  have hp : p ∈ s.pool := by rw [hpool]; exact List.mem_cons_self _ _
  have hnd := h.poolNodup
  rw [hpool, List.nodup_cons] at hnd
  have hk := kid_splitMem h hpool hi hleaf
  refine ⟨(h.poolOk p hp).1, fun q hq => h.poolOk q (by rw [hpool]; exact List.mem_cons_of_mem _ hq),
    hnd.2, hnd.1, ?_, ?_, ?_, ?_⟩
  · intro j _ hj; simp only [hk j hj]; simp
  · intro j _ hj; simp only [hk j hj]; simp
  · intro j j1 _ hj hj1; simp only [hk j (by omega)]; simp
  · intro j _ hj; simp only [hk j hj]; simp

theorem split_child {ptt : _page_table_type} {L T i : Nat} {s : PgState} {p : Nat}
    (h : SepFrom ptt L T i s) (hp : p ∈ s.pool) (L1 a : Nat) :
    splitMem L1 a p s.mem a &&& PFN_MASK = p := by
  rw [splitMem_entry]
  exact or7_and_PFN p (h.poolOk p hp).1 (h.poolOk p hp).2

theorem Run.frame {ptt : _page_table_type} {set clr ve L T vs : Nat} {s : PgState}
    {res : Int × PgState} (hrun : Run ptt set clr ve L T vs s res) :
    SepFrom ptt L T (lvIndex L vs) s →
      ∃ taken, s.pool = taken ++ res.2.pool ∧
        ∀ a, res.2.mem a ≠ s.mem a → Touch ptt s.mem L T (lvIndex L vs) taken a := by
  induction hrun with
  | notPresent L T vs s hp =>
    intro _
    exact ⟨[], rfl, fun a ha => absurd rfl ha⟩
  | leafStop L T vs s hp hleaf hle hstop =>
    intro _
    refine ⟨[], rfl, fun a ha => ?_⟩
    have := modify_ne ha
    exact Or.inl ⟨lvIndex L vs, le_refl _, lvIndex_lt L vs, this⟩
  | leafCont L T vs s res hp hleaf hlt hidx hrun ih =>
    intro hsep
    obtain ⟨hag, hsep1⟩ := SepFrom.leafCont set clr hsep (lvIndex_lt L vs)
    rw [lvIndex_next L vs hidx] at ih
    obtain ⟨taken, h1, h2⟩ := ih hsep1
    refine ⟨taken, h1, fun a ha => ?_⟩
    by_cases hc : res.2.mem a = (modState set clr (entryAddr L T vs) s).mem a
    · rw [hc] at ha
      exact Or.inl ⟨lvIndex L vs, le_refl _, lvIndex_lt L vs, modify_ne ha⟩
    · exact Touch.cont hag (fun p hp => hp) (h2 a hc)
  | splitFail L T vs s hp hleaf hgt hpool =>
    intro _
    exact ⟨[], by simp, fun a ha => absurd rfl ha⟩
  | splitOk L T vs s s1 res hp hleaf hgt hpool hsplit hrun ih =>
    intro hsep
    obtain ⟨m, pool⟩ := s
    cases pool with
    | nil => exact absurd rfl hpool
    | cons p rest =>
      rw [split_large_page_cons _ (L + 1) ptt m p rest (isLeaf_succ hleaf).1] at hsplit
      have hs1 : s1 = ⟨splitMem (L + 1) (entryAddr (L + 1) T vs) p m, rest⟩ :=
        (Prod.mk.inj hsplit).2.symm
      subst hs1
      dsimp only at *
      have hpin : p ∈ (PgState.mk m (p :: rest)).pool := List.mem_cons_self _ _
      have hk0 := kid_splitMem hsep rfl (lvIndex_lt _ vs) hleaf
      dsimp only at hk0
      have hchild := split_child hsep hpin (L + 1) (entryAddr (L + 1) T vs)
      simp only at hchild
      rw [hchild] at ih
      obtain ⟨taken, h1, h2⟩ := ih (SepFrom.split hsep rfl (lvIndex_lt _ vs) hleaf _)
      refine ⟨p :: taken, by simp [h1], fun a ha => ?_⟩
      by_cases hc : res.2.mem a = splitMem (L + 1) (entryAddr (L + 1) T vs) p m a
      · rw [hc] at ha
        rcases splitMem_ne ha with h | h
        · exact Or.inl ⟨lvIndex (L + 1) vs, le_refl _, lvIndex_lt _ vs, h⟩
        · exact Or.inr (Or.inr ⟨p, List.mem_cons_self _ _, h⟩)
      · obtain ⟨q, hq, hqa⟩ := (h2 a hc).page
        rcases hq with hq | hq
        · rw [mem_tables_iff] at hq
          rcases hq with hq | ⟨k, hk, hq⟩
          · subst hq; exact Or.inr (Or.inr ⟨q, List.mem_cons_self _ _, hqa⟩)
          · rw [hk0 k hk] at hq
            simp at hq
        · exact Or.inr (Or.inr ⟨q, List.mem_cons_of_mem _ hq, hqa⟩)
  | descStop L T vs s res hp hleaf hrun hstop ih =>
    intro hsep
    have ht : isTable ptt (L + 1) (s.mem (T + 8 * lvIndex (L + 1) vs)) := ⟨hp, hleaf⟩
    obtain ⟨taken, h1, h2⟩ := ih ((hsep.desc (le_refl _) (lvIndex_lt _ vs) ht).mono (Nat.zero_le _))
    exact ⟨taken, h1, fun a ha => Touch.lift ht (le_refl _) (lvIndex_lt _ vs) (h2 a ha)⟩
  | descCont L T vs s s1 res hp hleaf hrun1 hlt hidx hrun2 ih1 ih2 =>
    intro hsep
    have ht : isTable ptt (L + 1) (s.mem (T + 8 * lvIndex (L + 1) vs)) := ⟨hp, hleaf⟩
    obtain ⟨taken1, h1, h2⟩ :=
      ih1 ((hsep.desc (le_refl _) (lvIndex_lt _ vs) ht).mono (Nat.zero_le _))
    simp only at h1 h2
    have hag : Agree ptt (L + 1) T (lvIndex (L + 1) vs + 1) s.mem s1.mem := by
      apply agree_of_frame hsep (lvIndex_lt _ vs)
      intro a ha
      obtain ⟨q, hq, hqa⟩ := (h2 a ha).page
      refine Or.inr ⟨q, ?_, hqa⟩
      rcases hq with hq | hq
      · left; rw [kid_eq_tables ht]; exact hq
      · right; rw [h1]; exact List.mem_append_left _ hq
    have hnd := hsep.poolNodup
    rw [h1] at hnd
    have hsep1 : SepFrom ptt (L + 1) T (lvIndex (L + 1) vs + 1) s1 :=
      SepFrom.agree (hsep.mono (Nat.le_succ _)) hag
        (fun p hp => by rw [h1]; exact List.mem_append_right _ hp) (List.Nodup.of_append_right hnd)
    rw [lvIndex_next _ vs hidx] at ih2
    obtain ⟨taken2, h3, h4⟩ := ih2 hsep1
    refine ⟨taken1 ++ taken2, by rw [h1, h3, List.append_assoc], fun a ha => ?_⟩
    by_cases hc : res.2.mem a = s1.mem a
    · rw [hc] at ha
      have : Touch ptt s.mem (L + 1) T (lvIndex (L + 1) vs) taken1 a :=
        Touch.lift ht (le_refl _) (lvIndex_lt _ vs) (h2 a ha)
      rcases this with h | h | ⟨p, hp, hpa⟩
      · exact Or.inl h
      · exact Or.inr (Or.inl h)
      · exact Or.inr (Or.inr ⟨p, List.mem_append_left _ hp, hpa⟩)
    · exact Touch.cont hag (fun p hp => List.mem_append_right _ hp) (h4 a hc)

theorem slot_zero (ptt : _page_table_type) (m : Mem) (T va : Nat) :
    slot ptt m 0 T va = (0, entryAddr 0 T va) := rfl

theorem slot_table {ptt : _page_table_type} {m : Mem} {L T va : Nat}
    (h : isTable ptt (L + 1) (m (entryAddr (L + 1) T va))) :
    slot ptt m (L + 1) T va = slot ptt m L (m (entryAddr (L + 1) T va) &&& PFN_MASK) va := by
  rw [slot, if_pos h]

theorem slot_stop {ptt : _page_table_type} {m : Mem} {L T va : Nat}
    (h : ¬ isTable ptt L (m (entryAddr L T va))) :
    slot ptt m L T va = (L, entryAddr L T va) := by
  cases L with
  | zero => rfl
  | succ L => rw [slot, if_neg h]

theorem slot_leaf {ptt : _page_table_type} {m : Mem} {L T va : Nat}
    (h : isLeaf L (m (entryAddr L T va))) : slot ptt m L T va = (L, entryAddr L T va) :=
  slot_stop (fun ht => ht.2 h)

theorem slot_notPresent {ptt : _page_table_type} {m : Mem} {L T va : Nat}
    (h : pgentry_present ptt (m (entryAddr L T va)) = 0) :
    slot ptt m L T va = (L, entryAddr L T va) :=
  slot_stop (fun ht => ht.1 h)

theorem modState_mem (set clr a : Nat) (s : PgState) (x : Nat) :
    (modState set clr a s).mem x = if x = a then applyMask set clr (s.mem a) else s.mem x := by
  simp [modState, __modify_pte, set_pte, applyMask]

theorem agree_of_pages {ptt : _page_table_type} {m m1 : Mem} {L T : Nat}
    (h : ∀ p ∈ tables ptt m L T, ∀ a, inPage p a → m1 a = m a) : Agree ptt L T 0 m m1 := by
  constructor
  · intro j _ hj
    exact h T (mem_tables_self _ _ _ _) _ (inPage_entry hj)
  · intro j _ hj p hp a ha
    exact h p ((mem_tables_iff _ _ _ _ _).2 (Or.inr ⟨j, hj, hp⟩)) a ha

theorem Agree.child {ptt : _page_table_type} {m m1 : Mem} {L T i j : Nat}
    (h : Agree ptt (L + 1) T i m m1) (hij : i ≤ j) (hj : j < 512)
    (ht : isTable ptt (L + 1) (m (T + 8 * j))) :
    Agree ptt L (m (T + 8 * j) &&& PFN_MASK) 0 m m1 := by
  apply agree_of_pages
  intro p hp a ha
  apply h.2 j hij hj p _ a ha
  rw [kid_eq_tables ht]; exact hp

theorem slot_congr {ptt : _page_table_type} {m m1 : Mem} :
    ∀ {L T i va : Nat}, Agree ptt L T i m m1 → i ≤ lvIndex L va →
      slot ptt m1 L T va = slot ptt m L T va ∧
        m1 (slot ptt m L T va).2 = m (slot ptt m L T va).2 := by
  intro L
  induction L with
  | zero =>
    intro T i va h hi
    exact ⟨rfl, h.1 _ hi (lvIndex_lt 0 va)⟩
  | succ L ih =>
    intro T i va h hi
    have he := h.1 _ hi (lvIndex_lt (L + 1) va)
    by_cases ht : isTable ptt (L + 1) (m (entryAddr (L + 1) T va))
    · have ht1 : isTable ptt (L + 1) (m1 (entryAddr (L + 1) T va)) := by rw [he]; exact ht
      rw [slot_table ht, slot_table ht1, he]
      exact ih (h.child hi (lvIndex_lt (L + 1) va) ht) (Nat.zero_le _)
    · have ht1 : ¬ isTable ptt (L + 1) (m1 (entryAddr (L + 1) T va)) := by rw [he]; exact ht
      rw [slot_stop ht, slot_stop ht1]
      exact ⟨rfl, he⟩

theorem gov_congr {ptt : _page_table_type} {m m1 : Mem} {L T i va : Nat}
    (h : Agree ptt L T i m m1) (hi : i ≤ lvIndex L va) :
    gov ptt m1 L T va = gov ptt m L T va := by
  unfold gov
  rw [(slot_congr h hi).1]
  exact (slot_congr h hi).2

theorem mapped_congr {ptt : _page_table_type} {m m1 : Mem} {L T i va : Nat}
    (h : Agree ptt L T i m m1) (hi : i ≤ lvIndex L va) :
    mapped ptt m1 L T va ↔ mapped ptt m L T va := by
  unfold mapped; rw [gov_congr h hi]

/-- Where the governing entry of an address lies. -/
theorem slot_loc (ptt : _page_table_type) (m : Mem) :
    ∀ (L T va : Nat), (slot ptt m L T va).2 = T + 8 * lvIndex L va ∨
      ∃ p ∈ kid ptt m L T (lvIndex L va), inPage p (slot ptt m L T va).2 := by
  intro L
  induction L with
  | zero => intro T va; exact Or.inl rfl
  | succ L ih =>
    intro T va
    by_cases ht : isTable ptt (L + 1) (m (entryAddr (L + 1) T va))
    · right
      rw [slot_table ht, kid_eq_tables ht]
      rcases ih (m (entryAddr (L + 1) T va) &&& PFN_MASK) va with h | ⟨p, hp, hpa⟩
      · exact ⟨_, mem_tables_self _ _ _ _, by rw [h]; exact inPage_entry (lvIndex_lt L va)⟩
      · exact ⟨p, (mem_tables_iff _ _ _ _ _).2 (Or.inr ⟨_, lvIndex_lt L va, hp⟩), hpa⟩
    · left
      rw [slot_stop ht]

theorem slot_level_le (ptt : _page_table_type) (m : Mem) :
    ∀ (L T va : Nat), (slot ptt m L T va).1 ≤ L := by
  intro L
  induction L with
  | zero => intro T va; exact le_refl _
  | succ L ih =>
    intro T va
    by_cases ht : isTable ptt (L + 1) (m (entryAddr (L + 1) T va))
    · rw [slot_table ht]; exact Nat.le_succ_of_le (ih _ _)
    · rw [slot_stop ht]

theorem div_lvSize_succ (L va : Nat) : va / lvSize (L + 1) = va / lvSize L / 512 := by
  rw [lvSize_succ, Nat.mul_comm, Nat.div_div_eq_div_mul]

theorem sameTable_refl (L va : Nat) : sameTable L va va := rfl

theorem sameTable_desc (L va vs : Nat) :
    sameTable L va vs ↔ sameTable (L + 1) va vs ∧ lvIndex (L + 1) va = lvIndex (L + 1) vs := by
  unfold sameTable lvIndex
  rw [div_lvSize_succ (L + 1) va, div_lvSize_succ (L + 1) vs]
  omega

theorem lvNext_le_iff (L vs va : Nat) : lvNext L vs ≤ va ↔ vs / lvSize L < va / lvSize L := by
  unfold lvNext
  rw [show vs / lvSize L * lvSize L + lvSize L = (vs / lvSize L + 1) * lvSize L by ring]
  rw [← Nat.le_div_iff_mul_le (lvSize_pos L)]
  omega

theorem lt_lvNext_iff (L vs va : Nat) : va < lvNext L vs ↔ va / lvSize L ≤ vs / lvSize L := by
  have := lvNext_le_iff L vs va
  omega

theorem div_le_of_le (L : Nat) {va vs : Nat} (h : va ≤ vs) : va / lvSize L ≤ vs / lvSize L :=
  Nat.div_le_div_right h

/-- Within one table the order of addresses is the order of their indices. -/
theorem lvIndex_le_iff {L va vs : Nat} (h : sameTable L va vs) :
    lvIndex L va ≤ lvIndex L vs ↔ va / lvSize L ≤ vs / lvSize L := by
  unfold sameTable at h
  unfold lvIndex
  rw [div_lvSize_succ, div_lvSize_succ] at h
  omega

theorem lvIndex_eq_iff {L va vs : Nat} (h : sameTable L va vs) :
    lvIndex L va = lvIndex L vs ↔ va / lvSize L = vs / lvSize L := by
  unfold sameTable at h
  unfold lvIndex
  rw [div_lvSize_succ, div_lvSize_succ] at h
  omega

theorem lvIndex_mono {L va vs : Nat} (h : sameTable L va vs) (hle : vs ≤ va) :
    lvIndex L vs ≤ lvIndex L va := by
  have h2 : sameTable L vs va := h.symm
  rw [lvIndex_le_iff h2]
  exact div_le_of_le L hle

/-- An address of the range at or above `vs` and below the next boundary,
or in the last entry of the table, has the entry of `vs`. -/
theorem same_entry {L va vs : Nat} (h : sameTable L va vs) (hle : vs ≤ va)
    (hc : va < lvNext L vs ∨ ¬ lvIndex L vs + 1 < 512) : lvIndex L va = lvIndex L vs := by
  have h1 := lvIndex_mono h hle
  rcases hc with hc | hc
  · rw [lvIndex_eq_iff h]
    have := (lt_lvNext_iff L vs va).1 hc
    have := div_le_of_le L hle
    omega
  · have := lvIndex_lt L va
    omega

theorem sameTable_next {L vs : Nat} (h : lvIndex L vs + 1 < 512) : sameTable L (lvNext L vs) vs := by
  unfold sameTable
  rw [div_lvSize_succ, div_lvSize_succ, lvNext_div]
  unfold lvIndex at h
  omega

theorem lvIndex_ge_of_next {L va vs : Nat} (h : sameTable L va vs) (hge : lvNext L vs ≤ va) :
    lvIndex L vs + 1 ≤ lvIndex L va := by
  have h1 := (lvNext_le_iff L vs va).1 hge
  unfold sameTable at h
  unfold lvIndex
  rw [div_lvSize_succ, div_lvSize_succ] at h
  omega

theorem lvNext_congr {L va vs : Nat} (h : va / lvSize L = vs / lvSize L) :
    lvNext L va = lvNext L vs := by
  unfold lvNext; rw [h]

theorem lvNext_desc {L va vs : Nat} (h : sameTable L va vs) : lvNext (L + 1) va = lvNext (L + 1) vs :=
  lvNext_congr h

theorem lvNext_mono_level (L vs : Nat) : lvNext L vs ≤ lvNext (L + 1) vs := by
  rw [lvNext_le_iff]
  have h : lvNext (L + 1) vs = ((vs / lvSize L / 512 + 1) * 512) * lvSize L := by
    unfold lvNext
    rw [div_lvSize_succ, lvSize_succ]; ring
  rw [h, Nat.mul_div_cancel _ (lvSize_pos L)]
  omega

/-- Addresses governed by distinct entries of a table have distinct
governing entries. -/
theorem slot_sep {ptt : _page_table_type} {L T i : Nat} {s : PgState}
    (h : SepFrom ptt L T i s) {va va1 : Nat} (hi : i ≤ lvIndex L va)
    (hlt : lvIndex L va < lvIndex L va1) :
    (slot ptt s.mem L T va).2 ≠ (slot ptt s.mem L T va1).2 := by
  intro he
  have hj := lvIndex_lt L va
  have hj1 := lvIndex_lt L va1
  rcases slot_loc ptt s.mem L T va with h1 | ⟨p, hp, hpa⟩
  · rcases slot_loc ptt s.mem L T va1 with h2 | ⟨q, hq, hqa⟩
    · rw [h1, h2] at he; omega
    · rw [← he, h1] at hqa
      have := inPage_disjoint (kid_aligned _ _ _ _ _ _ hq) h.tAligned hqa (inPage_entry hj)
      subst this
      exact h.kidT _ (by omega) hj1 hq
  · rcases slot_loc ptt s.mem L T va1 with h2 | ⟨q, hq, hqa⟩
    · rw [he, h2] at hpa
      have := inPage_disjoint (kid_aligned _ _ _ _ _ _ hp) h.tAligned hpa (inPage_entry hj1)
      subst this
      exact h.kidT _ hi hj hp
    · rw [he] at hpa
      have := inPage_disjoint (kid_aligned _ _ _ _ _ _ hp) (kid_aligned _ _ _ _ _ _ hq) hpa hqa
      subst this
      exact h.kidDisj _ _ hi hlt hj1 p hp hq

/-- The governing entry of an address above entry `i` is not entry `i`. -/
theorem slot_ne_entry {ptt : _page_table_type} {L T i : Nat} {s : PgState}
    (h : SepFrom ptt L T i s) {va : Nat} (hlt : i < lvIndex L va) :
    (slot ptt s.mem L T va).2 ≠ T + 8 * i := by
  intro he
  have hj := lvIndex_lt L va
  rcases slot_loc ptt s.mem L T va with h1 | ⟨p, hp, hpa⟩
  · rw [h1] at he; omega
  · rw [he] at hpa
    have := inPage_disjoint (kid_aligned _ _ _ _ _ _ hp) h.tAligned hpa
      (inPage_entry (show i < 512 by omega))
    subst this
    exact h.kidT _ (by omega) hj hp

/-- Every address is mapped by the new table of a split, at the level of
the new table. -/
theorem slot_splitMem {ptt : _page_table_type} {L T i : Nat} {s : PgState} {p : Nat}
    {rest : List Nat} (h : SepFrom ptt (L + 1) T i s) (hpool : s.pool = p :: rest)
    (hi : i < 512) (hleaf : isLeaf (L + 1) (s.mem (T + 8 * i))) (va : Nat) :
    slot ptt (splitMem (L + 1) (T + 8 * i) p s.mem) L p va = (L, p + 8 * lvIndex L va) ∧
    splitMem (L + 1) (T + 8 * i) p s.mem (p + 8 * lvIndex L va) =
      u64 ((s.mem (T + 8 * i) &&& PFN_MASK) + lvIndex L va * lvSize L) |||
        splitProt (L + 1) (s.mem (T + 8 * i)) := by
  have hp : p ∈ s.pool := by rw [hpool]; exact List.mem_cons_self _ _
  have hk := lvIndex_lt L va
  have hne : p + 8 * lvIndex L va ≠ T + 8 * i := by
    intro he
    apply entry_not_in_pool_page h hp hi
    rw [← he]; exact inPage_entry hk
  have hval := splitMem_slot (L := L + 1) (m := s.mem) hk hne
  rw [Nat.add_sub_cancel] at hval
  refine ⟨?_, hval⟩
  apply slot_stop
  obtain ⟨hL, hlarge⟩ := isLeaf_succ hleaf
  intro ht
  apply ht.2
  show isLeaf L (splitMem (L + 1) (T + 8 * i) p s.mem (p + 8 * lvIndex L va))
  rw [hval]
  cases L with
  | zero => exact Or.inl rfl
  | succ L =>
    have hL1 : L = 0 := by omega
    subst hL1
    exact Or.inr ⟨Or.inl rfl, large_or_splitProt _ _ hlarge⟩

theorem mapped_splitMem {ptt : _page_table_type} {L T i : Nat} {s : PgState} {p : Nat}
    {rest : List Nat} (h : SepFrom ptt (L + 1) T i s) (hpool : s.pool = p :: rest)
    (hi : i < 512) (hleaf : isLeaf (L + 1) (s.mem (T + 8 * i)))
    (hpres : pgentry_present ptt (s.mem (T + 8 * i)) ≠ 0) (va : Nat) :
    mapped ptt (splitMem (L + 1) (T + 8 * i) p s.mem) L p va := by
  obtain ⟨h1, h2⟩ := slot_splitMem h hpool hi hleaf va
  unfold mapped gov
  rw [h1]
  show pgentry_present ptt (splitMem (L + 1) (T + 8 * i) p s.mem (p + 8 * lvIndex L va)) ≠ 0
  rw [h2]
  exact present_or_splitProt ptt _ _ _ hpres

theorem pool_ne_of_append {pool taken rest : List Nat} {p : Nat}
    (h : rest = taken ++ pool) : pool ≠ p :: rest := by
  intro he
  have := congrArg List.length he
  have h2 := congrArg List.length h
  simp at this h2
  omega

theorem pool_eq_of_append {a b c : List Nat} (h1 : a = b ++ c) :
    c = a → b = [] := by
  intro he
  have h2 := congrArg List.length h1
  rw [← he, List.length_append] at h2
  exact List.length_eq_zero.1 (by omega)

theorem EFAULT_ne_zero : (-EFAULT : Int) ≠ 0 := by decide
theorem ENOMEM_ne_zero : (-ENOMEM : Int) ≠ 0 := by decide
theorem EFAULT_ne_ENOMEM : (-EFAULT : Int) ≠ -ENOMEM := by decide

theorem mapped_of_stop {ptt : _page_table_type} {m : Mem} {L T va : Nat}
    (hnt : ¬ isTable ptt L (m (entryAddr L T va))) :
    (mapped ptt m L T va ↔ pgentry_present ptt (m (entryAddr L T va)) ≠ 0) := by
  unfold mapped gov
  rw [slot_stop hnt]

theorem entryAddr_congr {L T va vs : Nat} (h : lvIndex L va = lvIndex L vs) :
    entryAddr L T va = entryAddr L T vs := by
  unfold entryAddr; rw [h]

theorem lvSize_dvd_of_le {k L : Nat} (h : k ≤ L) : lvSize k ∣ lvSize L := by
  unfold lvSize
  exact pow_dvd_pow 2 (by omega)

theorem lvNext_mod {k L : Nat} (h : k ≤ L) (v : Nat) : lvNext L v % lvSize k = 0 := by
  apply Nat.mod_eq_zero_of_dvd
  have : lvNext L v = (v / lvSize L + 1) * lvSize L := by unfold lvNext; ring
  rw [this]
  exact Dvd.dvd.mul_left (lvSize_dvd_of_le h) _

theorem ctl_notPresent {ptt : _page_table_type} {set clr ve L T vs : Nat} {s : PgState}
    (hp : pgentry_present ptt (s.mem (entryAddr L T vs)) = 0) (hlt : vs < ve) :
    Ctl ptt set clr ve L T vs s (-EFAULT, s) vs where
  le1 := le_refl _
  le2 := le_of_lt hlt
  ok := fun h => absurd h EFAULT_ne_zero
  bad := fun _ => ⟨hlt, sameTable_refl L vs⟩
  below := fun va _ h1 h2 => by omega
  efault := fun _ => ⟨by rw [mapped_of_stop (fun ht => ht.1 hp)]; exact fun h => h hp, rfl⟩
  enomem := fun h => absurd h EFAULT_ne_ENOMEM
  memIn := fun _ va _ h1 h2 => by omega
  memOut := fun _ a _ => rfl
  nosplit := fun _ => ⟨EFAULT_ne_ENOMEM, rfl⟩
  edge := fun _ _ => Or.inl rfl
  needs := fun h => absurd h EFAULT_ne_zero
  whole := fun _ => ⟨EFAULT_ne_ENOMEM, rfl⟩

theorem ctl_leafStop {ptt : _page_table_type} {set clr ve L T vs : Nat} {s : PgState}
    (hp : pgentry_present ptt (s.mem (entryAddr L T vs)) ≠ 0)
    (hleaf : isLeaf L (s.mem (entryAddr L T vs)))
    (hle : lvNext L vs ≤ ve) (hstop : ¬ (lvNext L vs < ve ∧ lvIndex L vs + 1 < 512))
    (hlt : vs < ve) :
    Ctl ptt set clr ve L T vs s (0, modState set clr (entryAddr L T vs) s) ve := by
  have hsame : ∀ va, sameTable L va vs → vs ≤ va → va < ve →
      slot ptt s.mem L T va = (L, entryAddr L T vs) := by
    intro va h1 h2 h3
    have hidx : lvIndex L va = lvIndex L vs :=
      same_entry h1 h2 (by by_cases h : lvIndex L vs + 1 < 512 <;> [left; right] <;> omega)
    have := entryAddr_congr (T := T) hidx
    rw [← this]
    apply slot_leaf
    rw [this]; exact hleaf
  refine ⟨le_of_lt hlt, le_refl _, fun _ => rfl, fun h => absurd rfl h, ?_,
    fun h => absurd h.symm EFAULT_ne_zero, fun h => absurd h.symm ENOMEM_ne_zero, ?_, ?_,
    fun _ => ⟨fun h => ENOMEM_ne_zero h.symm, rfl⟩, fun h => absurd rfl h, ?_,
    fun _ => ⟨fun h => ENOMEM_ne_zero h.symm, rfl⟩⟩
  · intro va h1 h2 h3
    unfold mapped gov
    rw [hsame va h1 h2 h3]; exact hp
  · intro _ va h1 h2 h3
    rw [hsame va h1 h2 h3]
    simp [modState_mem]
  · intro _ a h
    have := h vs (sameTable_refl L vs) (le_refl _) hlt
    rw [hsame vs (sameTable_refl L vs) (le_refl _) hlt] at this
    rw [modState_mem, if_neg (fun h => this h.symm)]
  · intro _ _ va h1 h2 h3
    rw [hsame va h1 h2 h3]
    have hidx : lvIndex L va = lvIndex L vs :=
      same_entry h1 h2 (by by_cases h : lvIndex L vs + 1 < 512 <;> [left; right] <;> omega)
    show lvNext L va ≤ ve
    rw [lvNext_congr ((lvIndex_eq_iff h1).1 hidx)]
    exact hle

theorem ctl_splitFail {ptt : _page_table_type} {set clr ve L T vs : Nat} {s : PgState}
    (hp : pgentry_present ptt (s.mem (entryAddr (L + 1) T vs)) ≠ 0)
    (hleaf : isLeaf (L + 1) (s.mem (entryAddr (L + 1) T vs)))
    (hgt : ve < lvNext (L + 1) vs) (hpool : s.pool = []) (hlt : vs < ve) :
    Ctl ptt set clr ve (L + 1) T vs s (-ENOMEM, s) vs where
  le1 := le_refl _
  le2 := le_of_lt hlt
  ok := fun h => absurd h ENOMEM_ne_zero
  bad := fun _ => ⟨hlt, sameTable_refl _ vs⟩
  below := fun va _ h1 h2 => by omega
  efault := fun h => absurd h.symm EFAULT_ne_ENOMEM
  enomem := fun _ => by
    refine ⟨hpool, ?_, ?_⟩
    · rw [mapped_of_stop (fun ht => ht.2 hleaf)]; exact hp
    · rw [slot_leaf hleaf]; exact hgt
  memIn := fun _ va _ h1 h2 => by omega
  memOut := fun _ a _ => rfl
  nosplit := fun h => by
    have := lvNext_mono_level (L + 1) vs
    omega
  edge := fun _ _ => Or.inl rfl
  needs := fun h => absurd h ENOMEM_ne_zero
  whole := fun h => by
    have := h vs (sameTable_refl _ vs) (le_refl _) hlt
      (by rw [mapped_of_stop (fun ht => ht.2 hleaf)]; exact hp)
    rw [slot_leaf hleaf] at this
    exact absurd this (by show ¬ lvNext (L + 1) vs ≤ ve; omega)

theorem sameTable_trans {L a b c : Nat} (h1 : sameTable L a b) (h2 : sameTable L b c) :
    sameTable L a c := Eq.trans h1 h2

theorem ctl_leafCont {ptt : _page_table_type} {set clr ve L T vs : Nat} {s : PgState}
    {res : Int × PgState} {stop : Nat}
    (hsep : SepFrom ptt L T (lvIndex L vs) s)
    (hp : pgentry_present ptt (s.mem (entryAddr L T vs)) ≠ 0)
    (hleaf : isLeaf L (s.mem (entryAddr L T vs)))
    (hidx : lvIndex L vs + 1 < 512)
    (hsub : Ctl ptt set clr ve L T (lvNext L vs) (modState set clr (entryAddr L T vs) s) res stop) :
    Ctl ptt set clr ve L T vs s res stop := by
  obtain ⟨hag, hsep1⟩ := SepFrom.leafCont set clr hsep (lvIndex_lt L vs)
  have hnext := sameTable_next hidx
  have hgt := lvNext_gt L vs
  -- addresses below the next boundary have the entry of `vs`
  have hlow : ∀ va, sameTable L va vs → vs ≤ va → va < lvNext L vs →
      slot ptt s.mem L T va = (L, entryAddr L T vs) := by
    intro va h1 h2 h3
    have := entryAddr_congr (T := T) (same_entry h1 h2 (Or.inl h3))
    rw [← this]
    apply slot_leaf
    rw [this]; exact hleaf
  -- addresses from the next boundary on are untouched by this step
  have hhigh : ∀ va, sameTable L va vs → lvNext L vs ≤ va →
      lvIndex L vs + 1 ≤ lvIndex L va := fun va h1 h2 => lvIndex_ge_of_next h1 h2
  have hstopidx : res.1 ≠ 0 → lvIndex L vs + 1 ≤ lvIndex L stop := fun h =>
    hhigh stop (sameTable_trans (hsub.bad h).2 hnext) hsub.le1
  refine ⟨le_trans (le_of_lt hgt) hsub.le1, hsub.le2, hsub.ok,
    fun h => ⟨(hsub.bad h).1, sameTable_trans (hsub.bad h).2 hnext⟩, ?_, ?_, ?_, ?_, ?_,
    fun h => hsub.nosplit (by rw [lvNext_desc hnext]; exact h), ?_, ?_, ?_⟩
  · intro va h1 h2 h3
    by_cases hc : va < lvNext L vs
    · unfold mapped gov
      rw [hlow va h1 h2 hc]; exact hp
    · have hc' : lvNext L vs ≤ va := by omega
      rw [← mapped_congr hag (hhigh va h1 hc')]
      exact hsub.below va (sameTable_trans h1 hnext.symm) hc' h3
  · intro h
    obtain ⟨h1, h2⟩ := hsub.efault h
    have hne : res.1 ≠ 0 := by rw [h]; exact EFAULT_ne_zero
    rw [mapped_congr hag (hstopidx hne)] at h1
    exact ⟨h1, h2⟩
  · intro h
    obtain ⟨h1, h2, h3⟩ := hsub.enomem h
    have hne : res.1 ≠ 0 := by rw [h]; exact ENOMEM_ne_zero
    rw [mapped_congr hag (hstopidx hne)] at h2
    rw [(slot_congr hag (hstopidx hne)).1] at h3
    exact ⟨h1, h2, h3⟩
  · intro hpool va h1 h2 h3
    by_cases hc : va < lvNext L vs
    · rw [hlow va h1 h2 hc]
      have := hsub.memOut hpool (entryAddr L T vs) (fun va1 g1 g2 _ => by
        have hi := hhigh va1 (sameTable_trans g1 hnext) g2
        rw [(slot_congr hag hi).1]
        exact slot_ne_entry hsep (by omega))
      rw [this]
      simp [modState_mem]
    · have hc' : lvNext L vs ≤ va := by omega
      have hi := hhigh va h1 hc'
      have := hsub.memIn hpool va (sameTable_trans h1 hnext.symm) hc' h3
      rw [(slot_congr hag hi).1, (slot_congr hag hi).2] at this
      exact this
  · intro hpool a h
    have h0 := h vs (sameTable_refl L vs) (le_refl _) (lt_of_lt_of_le hgt hsub.le1)
    rw [hlow vs (sameTable_refl L vs) (le_refl _) hgt] at h0
    have := hsub.memOut hpool a (fun va1 g1 g2 g3 => by
      have hi := hhigh va1 (sameTable_trans g1 hnext) g2
      rw [(slot_congr hag hi).1]
      exact h va1 (sameTable_trans g1 hnext) (le_trans (le_of_lt hgt) g2) g3)
    rw [this, modState_mem, if_neg (fun h => h0 h.symm)]
  · intro h hpool
    right
    rcases hsub.edge h hpool with he | he
    · rw [he]; exact lvNext_mod (slot_level_le _ _ _ _ _) vs
    · rw [(slot_congr hag (hstopidx h)).1] at he
      exact he
  · intro h0 hpool va h1 h2 h3
    by_cases hc : va < lvNext L vs
    · rw [hlow va h1 h2 hc]
      show lvNext L va ≤ ve
      rw [lvNext_congr ((lvIndex_eq_iff h1).1 (same_entry h1 h2 (Or.inl hc)))]
      exact le_trans hsub.le1 hsub.le2
    · have hc' : lvNext L vs ≤ va := by omega
      have hi := hhigh va h1 hc'
      have := hsub.needs h0 hpool va (sameTable_trans h1 hnext.symm) hc' h3
      rw [(slot_congr hag hi).1] at this
      exact this
  · intro h
    apply hsub.whole
    intro va g1 g2 g3 g4
    have hi := hhigh va (sameTable_trans g1 hnext) g2
    rw [mapped_congr hag hi] at g4
    rw [(slot_congr hag hi).1]
    exact h va (sameTable_trans g1 hnext) (le_trans (le_of_lt hgt) g2) g3 g4

/-- Below a table entry the governing entry is the one of the child table. -/
theorem slot_child {ptt : _page_table_type} {m : Mem} {L T va vs : Nat}
    (ht : isTable ptt (L + 1) (m (entryAddr (L + 1) T vs))) (h : sameTable L va vs) :
    slot ptt m (L + 1) T va = slot ptt m L (m (entryAddr (L + 1) T vs) &&& PFN_MASK) va := by
  have := entryAddr_congr (T := T) ((sameTable_desc L va vs).1 h).2
  rw [← this] at ht ⊢
  exact slot_table ht

theorem mapped_child {ptt : _page_table_type} {m : Mem} {L T va vs : Nat}
    (ht : isTable ptt (L + 1) (m (entryAddr (L + 1) T vs))) (h : sameTable L va vs) :
    mapped ptt m (L + 1) T va ↔ mapped ptt m L (m (entryAddr (L + 1) T vs) &&& PFN_MASK) va := by
  unfold mapped gov
  rw [slot_child ht h]

/-- Addresses of the range that a run of one entry covers lie below that
entry. -/
theorem below_entry {L va vs stop ve : Nat} (h : sameTable (L + 1) va vs) (h1 : vs ≤ va)
    (h2 : va < stop) (hle : stop ≤ ve)
    (hc : sameTable L stop vs ∨ ¬ (lvNext (L + 1) vs < ve ∧ lvIndex (L + 1) vs + 1 < 512)) :
    sameTable L va vs := by
  rcases hc with hc | hc
  · unfold sameTable at hc ⊢
    have a1 := div_le_of_le (L + 1) h1
    have a2 := div_le_of_le (L + 1) (le_of_lt h2)
    omega
  · rw [sameTable_desc]
    refine ⟨h, same_entry h h1 ?_⟩
    by_cases hi : lvIndex (L + 1) vs + 1 < 512
    · left; omega
    · right; exact hi

theorem ctl_descStop {ptt : _page_table_type} {set clr ve L T vs : Nat} {s : PgState}
    {res : Int × PgState} {stop : Nat}
    (ht : isTable ptt (L + 1) (s.mem (entryAddr (L + 1) T vs)))
    (hstop : res.1 ≠ 0 ∨ ¬ (lvNext (L + 1) vs < ve ∧ lvIndex (L + 1) vs + 1 < 512))
    (hsub : Ctl ptt set clr ve L (s.mem (entryAddr (L + 1) T vs) &&& PFN_MASK) vs s res stop) :
    Ctl ptt set clr ve (L + 1) T vs s res stop := by
  have hL : ∀ va, sameTable (L + 1) va vs → vs ≤ va → va < stop → sameTable L va vs := by
    intro va h h1 h2
    apply below_entry h h1 h2 hsub.le2
    rcases hstop with hc | hc
    · exact Or.inl (hsub.bad hc).2
    · exact Or.inr hc
  have hup : ∀ {va}, sameTable L va vs → sameTable (L + 1) va vs := fun h =>
    ((sameTable_desc L _ vs).1 h).1
  refine ⟨hsub.le1, hsub.le2, hsub.ok, fun h => ⟨(hsub.bad h).1, hup (hsub.bad h).2⟩,
    ?_, ?_, ?_, ?_, ?_,
    fun h => hsub.nosplit (le_trans (lvNext_mono_level (L + 1) vs) h), ?_, ?_, ?_⟩
  · intro va h h1 h2
    rw [mapped_child ht (hL va h h1 h2)]
    exact hsub.below va (hL va h h1 h2) h1 h2
  · intro h
    have hne : res.1 ≠ 0 := by rw [h]; exact EFAULT_ne_zero
    rw [mapped_child ht (hsub.bad hne).2]
    exact hsub.efault h
  · intro h
    have hne : res.1 ≠ 0 := by rw [h]; exact ENOMEM_ne_zero
    rw [mapped_child ht (hsub.bad hne).2, slot_child ht (hsub.bad hne).2]
    exact hsub.enomem h
  · intro hpool va h h1 h2
    rw [slot_child ht (hL va h h1 h2)]
    exact hsub.memIn hpool va (hL va h h1 h2) h1 h2
  · intro hpool a h
    apply hsub.memOut hpool a
    intro va g g1 g2
    rw [← slot_child ht g]
    exact h va (hup g) g1 g2
  · intro h hpool
    rw [slot_child ht (hsub.bad h).2]
    exact hsub.edge h hpool
  · intro h0 hpool va h h1 h2
    have hs := hL va h h1 (by rw [hsub.ok h0]; exact h2)
    rw [slot_child ht hs]
    exact hsub.needs h0 hpool va hs h1 h2
  · intro h
    apply hsub.whole
    intro va g g1 g2 g3
    rw [← slot_child ht g]
    rw [← mapped_child ht g] at g3
    exact h va (hup g) g1 g2 g3

theorem descCont_facts {ptt : _page_table_type} {set clr ve L T vs : Nat} {s s1 : PgState}
    {r1 : Int} (hsep : SepFrom ptt (L + 1) T (lvIndex (L + 1) vs) s)
    (ht : isTable ptt (L + 1) (s.mem (entryAddr (L + 1) T vs)))
    (hrun1 : Run ptt set clr ve L (s.mem (entryAddr (L + 1) T vs) &&& PFN_MASK) vs s (r1, s1)) :
    (∃ taken, s.pool = taken ++ s1.pool) ∧
      Agree ptt (L + 1) T (lvIndex (L + 1) vs + 1) s.mem s1.mem ∧
      SepFrom ptt (L + 1) T (lvIndex (L + 1) vs + 1) s1 := by
  obtain ⟨taken1, h1, h2⟩ :=
    hrun1.frame ((hsep.desc (le_refl _) (lvIndex_lt _ vs) ht).mono (Nat.zero_le _))
  simp only at h1 h2
  have hag : Agree ptt (L + 1) T (lvIndex (L + 1) vs + 1) s.mem s1.mem := by
    apply agree_of_frame hsep (lvIndex_lt _ vs)
    intro a ha
    obtain ⟨q, hq, hqa⟩ := (h2 a ha).page
    refine Or.inr ⟨q, ?_, hqa⟩
    rcases hq with hq | hq
    · left; rw [kid_eq_tables ht]; exact hq
    · right; rw [h1]; exact List.mem_append_left _ hq
  have hnd := hsep.poolNodup
  rw [h1] at hnd
  exact ⟨⟨taken1, h1⟩, hag, SepFrom.agree (hsep.mono (Nat.le_succ _)) hag
    (fun p hp => by rw [h1]; exact List.mem_append_right _ hp) (List.Nodup.of_append_right hnd)⟩

theorem ctl_descCont {ptt : _page_table_type} {set clr ve L T vs : Nat} {s s1 : PgState}
    {res : Int × PgState} {stop stop1 : Nat}
    (hsep : SepFrom ptt (L + 1) T (lvIndex (L + 1) vs) s)
    (ht : isTable ptt (L + 1) (s.mem (entryAddr (L + 1) T vs)))
    (hlt2 : lvNext (L + 1) vs < ve) (hidx : lvIndex (L + 1) vs + 1 < 512)
    (hag : Agree ptt (L + 1) T (lvIndex (L + 1) vs + 1) s.mem s1.mem)
    (hsub1 : Ctl ptt set clr ve L (s.mem (entryAddr (L + 1) T vs) &&& PFN_MASK) vs s (0, s1) stop1)
    (hsub2 : Ctl ptt set clr ve (L + 1) T (lvNext (L + 1) vs) s1 res stop) :
    Ctl ptt set clr ve (L + 1) T vs s res stop := by
  have hnext := sameTable_next hidx
  have hgt := lvNext_gt (L + 1) vs
  have hpool1 : s1.pool = s.pool := (hsub1.nosplit (le_of_lt hlt2)).2
  have hstop1 : stop1 = ve := hsub1.ok rfl
  have hlowT : ∀ va, sameTable (L + 1) va vs → vs ≤ va → va < lvNext (L + 1) vs →
      sameTable L va vs := by
    intro va h1 h2 h3
    rw [sameTable_desc]
    exact ⟨h1, same_entry h1 h2 (Or.inl h3)⟩
  have hhigh : ∀ va, sameTable (L + 1) va vs → lvNext (L + 1) vs ≤ va →
      lvIndex (L + 1) vs + 1 ≤ lvIndex (L + 1) va := fun va h1 h2 => lvIndex_ge_of_next h1 h2
  have hstopidx : res.1 ≠ 0 → lvIndex (L + 1) vs + 1 ≤ lvIndex (L + 1) stop := fun h =>
    hhigh stop (sameTable_trans (hsub2.bad h).2 hnext) hsub2.le1
  have hlowlt : ∀ va, sameTable L va vs → va < lvNext (L + 1) vs := by
    intro va h
    rw [lt_lvNext_iff]; exact le_of_eq h
  refine ⟨le_trans (le_of_lt hgt) hsub2.le1, hsub2.le2, hsub2.ok,
    fun h => ⟨(hsub2.bad h).1, sameTable_trans (hsub2.bad h).2 hnext⟩, ?_, ?_, ?_, ?_, ?_,
    fun h => by
      obtain ⟨a1, a2⟩ := hsub2.nosplit (by rw [lvNext_desc hnext]; exact h)
      exact ⟨a1, a2.trans hpool1⟩, ?_, ?_, ?_⟩
  · intro va h1 h2 h3
    by_cases hc : va < lvNext (L + 1) vs
    · rw [mapped_child ht (hlowT va h1 h2 hc)]
      exact hsub1.below va (hlowT va h1 h2 hc) h2 (by omega)
    · have hc' : lvNext (L + 1) vs ≤ va := by omega
      rw [← mapped_congr hag (hhigh va h1 hc')]
      exact hsub2.below va (sameTable_trans h1 hnext.symm) hc' h3
  · intro h
    obtain ⟨h1, h2⟩ := hsub2.efault h
    have hne : res.1 ≠ 0 := by rw [h]; exact EFAULT_ne_zero
    rw [mapped_congr hag (hstopidx hne)] at h1
    exact ⟨h1, h2.trans hpool1⟩
  · intro h
    obtain ⟨h1, h2, h3⟩ := hsub2.enomem h
    have hne : res.1 ≠ 0 := by rw [h]; exact ENOMEM_ne_zero
    rw [mapped_congr hag (hstopidx hne)] at h2
    rw [(slot_congr hag (hstopidx hne)).1] at h3
    exact ⟨h1, h2, h3⟩
  · intro hpool va h1 h2 h3
    have hpool2 : res.2.pool = s1.pool := hpool.trans hpool1.symm
    by_cases hc : va < lvNext (L + 1) vs
    · have hs := hlowT va h1 h2 hc
      have := hsub2.memOut hpool2 (slot ptt s.mem (L + 1) T va).2 (fun va1 g1 g2 _ => by
        have hi := hhigh va1 (sameTable_trans g1 hnext) g2
        rw [(slot_congr hag hi).1]
        refine Ne.symm (slot_sep hsep ?_ ?_)
        · rw [((sameTable_desc L va vs).1 hs).2]
        · rw [((sameTable_desc L va vs).1 hs).2]; omega)
      rw [this, slot_child ht hs]
      exact hsub1.memIn hpool1 va hs h2 (by omega)
    · have hc' : lvNext (L + 1) vs ≤ va := by omega
      have hi := hhigh va h1 hc'
      have := hsub2.memIn hpool2 va (sameTable_trans h1 hnext.symm) hc' h3
      rw [(slot_congr hag hi).1, (slot_congr hag hi).2] at this
      exact this
  · intro hpool a h
    have hpool2 : res.2.pool = s1.pool := hpool.trans hpool1.symm
    have e1 := hsub1.memOut hpool1 a (fun va g g1 _ => by
      rw [← slot_child ht g]
      exact h va ((sameTable_desc L va vs).1 g).1 g1
        (lt_of_lt_of_le (hlowlt va g) hsub2.le1))
    have e2 := hsub2.memOut hpool2 a (fun va1 g1 g2 g3 => by
      have hi := hhigh va1 (sameTable_trans g1 hnext) g2
      rw [(slot_congr hag hi).1]
      exact h va1 (sameTable_trans g1 hnext) (le_trans (le_of_lt hgt) g2) g3)
    rw [e2]; exact e1
  · intro h hpool
    have hpool2 : res.2.pool = s1.pool := hpool.trans hpool1.symm
    right
    rcases hsub2.edge h hpool2 with he | he
    · rw [he]; exact lvNext_mod (slot_level_le _ _ _ _ _) vs
    · rw [(slot_congr hag (hstopidx h)).1] at he
      exact he
  · intro h0 hpool va h1 h2 h3
    have hpool2 : res.2.pool = s1.pool := hpool.trans hpool1.symm
    by_cases hc : va < lvNext (L + 1) vs
    · have hs := hlowT va h1 h2 hc
      rw [slot_child ht hs]
      exact hsub1.needs rfl hpool1 va hs h2 h3
    · have hc' : lvNext (L + 1) vs ≤ va := by omega
      have hi := hhigh va h1 hc'
      have := hsub2.needs h0 hpool2 va (sameTable_trans h1 hnext.symm) hc' h3
      rw [(slot_congr hag hi).1] at this
      exact this
  · intro h
    have := hsub2.whole (fun va g1 g2 g3 g4 => by
      have hi := hhigh va (sameTable_trans g1 hnext) g2
      rw [mapped_congr hag hi] at g4
      rw [(slot_congr hag hi).1]
      exact h va (sameTable_trans g1 hnext) (le_trans (le_of_lt hgt) g2) g3 g4)
    exact ⟨this.1, this.2.trans hpool1⟩

theorem ctl_splitOk {ptt : _page_table_type} {set clr ve L T vs : Nat} {s : PgState}
    {res : Int × PgState} {stop p : Nat} {rest : List Nat}
    (hsep : SepFrom ptt (L + 1) T (lvIndex (L + 1) vs) s)
    (hp : pgentry_present ptt (s.mem (entryAddr (L + 1) T vs)) ≠ 0)
    (hleaf : isLeaf (L + 1) (s.mem (entryAddr (L + 1) T vs)))
    (hgt : ve < lvNext (L + 1) vs) (hpool : s.pool = p :: rest) (hlt : vs < ve)
    (hne : res.2.pool ≠ s.pool)
    (hsub : Ctl ptt set clr ve L p vs
      ⟨splitMem (L + 1) (entryAddr (L + 1) T vs) p s.mem, rest⟩ res stop) :
    Ctl ptt set clr ve (L + 1) T vs s res stop := by
  have hup : ∀ {va}, sameTable L va vs → sameTable (L + 1) va vs := fun h =>
    ((sameTable_desc L _ vs).1 h).1
  have hsame : ∀ va, sameTable (L + 1) va vs → vs ≤ va → va < lvNext (L + 1) vs →
      slot ptt s.mem (L + 1) T va = (L + 1, entryAddr (L + 1) T vs) := by
    intro va h1 h2 h3
    have := entryAddr_congr (T := T) (same_entry h1 h2 (Or.inl h3))
    rw [← this]
    apply slot_leaf
    rw [this]; exact hleaf
  have hstopsame : res.1 ≠ 0 →
      slot ptt s.mem (L + 1) T stop = (L + 1, entryAddr (L + 1) T vs) := fun h =>
    hsame stop (hup (hsub.bad h).2) hsub.le1 (by have := hsub.le2; omega)
  refine ⟨hsub.le1, hsub.le2, hsub.ok, fun h => ⟨(hsub.bad h).1, hup (hsub.bad h).2⟩,
    ?_, ?_, ?_, fun h => absurd h hne, fun h => absurd h hne, fun h => by
      have := lvNext_mono_level (L + 1) vs
      omega, fun _ h => absurd h hne, fun _ h => absurd h hne, fun h => by
      have := h vs (sameTable_refl _ vs) (le_refl _) hlt
        (by unfold mapped gov; rw [hsame vs (sameTable_refl _ vs) (le_refl _) (lvNext_gt _ vs)]
            exact hp)
      rw [hsame vs (sameTable_refl _ vs) (le_refl _) (lvNext_gt _ vs)] at this
      exact absurd this (by show ¬ lvNext (L + 1) vs ≤ ve; omega)⟩
  · intro va h1 h2 h3
    unfold mapped gov
    rw [hsame va h1 h2 (by have := hsub.le2; omega)]
    exact hp
  · intro h
    exact absurd (mapped_splitMem hsep hpool (lvIndex_lt _ vs) hleaf hp stop) (hsub.efault h).1
  · intro h
    have hne0 : res.1 ≠ 0 := by rw [h]; exact ENOMEM_ne_zero
    refine ⟨(hsub.enomem h).1, ?_, ?_⟩
    · unfold mapped gov
      rw [hstopsame hne0]; exact hp
    · rw [hstopsame hne0]
      show ve < lvNext (L + 1) stop
      rw [lvNext_desc (hsub.bad hne0).2]; exact hgt

/-- Every run comes to an address `stop` that describes what it did. -/
theorem Run.control {ptt : _page_table_type} {set clr ve L T vs : Nat} {s : PgState}
    {res : Int × PgState} (hrun : Run ptt set clr ve L T vs s res) :
    SepFrom ptt L T (lvIndex L vs) s → vs < ve →
      ∃ stop, Ctl ptt set clr ve L T vs s res stop := by
  induction hrun with
  | notPresent L T vs s hp =>
    intro _ hlt
    exact ⟨vs, ctl_notPresent hp hlt⟩
  | leafStop L T vs s hp hleaf hle hstop =>
    intro _ hlt
    exact ⟨ve, ctl_leafStop hp hleaf hle hstop hlt⟩
  | leafCont L T vs s res hp hleaf hlt2 hidx hrun ih =>
    intro hsep hlt
    obtain ⟨_, hsep1⟩ := SepFrom.leafCont set clr hsep (lvIndex_lt L vs)
    rw [lvIndex_next L vs hidx] at ih
    obtain ⟨stop, hc⟩ := ih hsep1 hlt2
    exact ⟨stop, ctl_leafCont hsep hp hleaf hidx hc⟩
  | splitFail L T vs s hp hleaf hgt hpool =>
    intro _ hlt
    exact ⟨vs, ctl_splitFail hp hleaf hgt hpool hlt⟩
  | splitOk L T vs s s1 res hp hleaf hgt hpool hsplit hrun ih =>
    intro hsep hlt
    obtain ⟨m, pool⟩ := s
    cases pool with
    | nil => exact absurd rfl hpool
    | cons p rest =>
      rw [split_large_page_cons _ (L + 1) ptt m p rest (isLeaf_succ hleaf).1] at hsplit
      have hs1 : s1 = ⟨splitMem (L + 1) (entryAddr (L + 1) T vs) p m, rest⟩ :=
        (Prod.mk.inj hsplit).2.symm
      subst hs1
      dsimp only at *
      have hpin : p ∈ (PgState.mk m (p :: rest)).pool := List.mem_cons_self _ _
      have hchild := split_child hsep hpin (L + 1) (entryAddr (L + 1) T vs)
      dsimp only at hchild
      rw [hchild] at ih hrun
      have hsep1 := SepFrom.split hsep rfl (lvIndex_lt _ vs) hleaf (lvIndex L vs)
      obtain ⟨stop, hc⟩ := ih hsep1 hlt
      obtain ⟨taken, h1, _⟩ := hrun.frame hsep1
      exact ⟨stop, ctl_splitOk hsep hp hleaf hgt rfl hlt (pool_ne_of_append h1) hc⟩
  | descStop L T vs s res hp hleaf hrun hstop ih =>
    intro hsep hlt
    have ht : isTable ptt (L + 1) (s.mem (entryAddr (L + 1) T vs)) := ⟨hp, hleaf⟩
    obtain ⟨stop, hc⟩ :=
      ih ((hsep.desc (le_refl _) (lvIndex_lt _ vs) ht).mono (Nat.zero_le _)) hlt
    exact ⟨stop, ctl_descStop ht hstop hc⟩
  | descCont L T vs s s1 res hp hleaf hrun1 hlt2 hidx hrun2 ih1 ih2 =>
    intro hsep hlt
    have ht : isTable ptt (L + 1) (s.mem (entryAddr (L + 1) T vs)) := ⟨hp, hleaf⟩
    obtain ⟨_, hag, hsep1⟩ := descCont_facts hsep ht hrun1
    obtain ⟨stop1, hc1⟩ :=
      ih1 ((hsep.desc (le_refl _) (lvIndex_lt _ vs) ht).mono (Nat.zero_le _)) hlt
    rw [lvIndex_next _ vs hidx] at ih2
    obtain ⟨stop, hc2⟩ := ih2 hsep1 hlt2
    exact ⟨stop, ctl_descCont hsep ht hlt2 hidx hag hc1 hc2⟩

theorem modify_pte_loop_codes (T ve set clr : Nat) (ptt : _page_table_type) :
    ∀ (n index vaddr : Nat) (m : Mem),
      (modify_pte_loop T ve set clr ptt n index vaddr m).1 = 0 ∨
      (modify_pte_loop T ve set clr ptt n index vaddr m).1 = -EFAULT := by
  intro n
  induction n with
  | zero => intro index vaddr m; left; rfl
  | succ n ih =>
    intro index vaddr m
    unfold modify_pte_loop
    dsimp only
    split
    · right; rfl
    · split
      · left; rfl
      · exact ih _ _ _

theorem modify_pte_codes (pde vs ve set clr : Nat) (ptt : _page_table_type) (s : PgState) :
    (modify_pte pde vs ve set clr ptt s).1 = 0 ∨
      (modify_pte pde vs ve set clr ptt s).1 = -EFAULT := by
  unfold modify_pte
  exact modify_pte_loop_codes _ _ _ _ _ _ _ _ _

theorem split_large_page_codes (a : Nat) (lvl : _page_table_level) (ptt : _page_table_type)
    (s : PgState) (hl : lvl = IA32E_PD ∨ lvl = IA32E_PDPT) :
    (split_large_page a lvl ptt s).1 = 0 ∨ (split_large_page a lvl ptt s).1 = -ENOMEM := by
  obtain ⟨m, pool⟩ := s
  rcases hl with h | h <;> subst h <;> cases pool <;>
    simp [split_large_page, alloc_paging_struct]

theorem modify_pde_loop_codes (T ve set clr : Nat) (ptt : _page_table_type) :
    ∀ (n index vaddr : Nat) (ret : Int) (s : PgState), ret = 0 →
      (modify_pde_loop T ve set clr ptt n index vaddr ret s).1 = 0 ∨
      (modify_pde_loop T ve set clr ptt n index vaddr ret s).1 = -EFAULT ∨
      (modify_pde_loop T ve set clr ptt n index vaddr ret s).1 = -ENOMEM := by
  intro n
  induction n with
  | zero => intro index vaddr ret s h; left; exact h
  | succ n ih =>
    intro index vaddr ret s hret
    have hdesc : ∀ s0 : PgState,
        (if (modify_pte (T + 8 * index) vaddr ve set clr ptt s0).1 ≠ 0 ∨
            u64 ((vaddr &&& PDE_MASK) + PDE_SIZE) ≥ ve then
          modify_pte (T + 8 * index) vaddr ve set clr ptt s0
        else modify_pde_loop T ve set clr ptt n (index + 1) (u64 ((vaddr &&& PDE_MASK) + PDE_SIZE))
          (modify_pte (T + 8 * index) vaddr ve set clr ptt s0).1
          (modify_pte (T + 8 * index) vaddr ve set clr ptt s0).2).1 = 0 ∨
        (if (modify_pte (T + 8 * index) vaddr ve set clr ptt s0).1 ≠ 0 ∨
            u64 ((vaddr &&& PDE_MASK) + PDE_SIZE) ≥ ve then
          modify_pte (T + 8 * index) vaddr ve set clr ptt s0
        else modify_pde_loop T ve set clr ptt n (index + 1) (u64 ((vaddr &&& PDE_MASK) + PDE_SIZE))
          (modify_pte (T + 8 * index) vaddr ve set clr ptt s0).1
          (modify_pte (T + 8 * index) vaddr ve set clr ptt s0).2).1 = -EFAULT ∨
        (if (modify_pte (T + 8 * index) vaddr ve set clr ptt s0).1 ≠ 0 ∨
            u64 ((vaddr &&& PDE_MASK) + PDE_SIZE) ≥ ve then
          modify_pte (T + 8 * index) vaddr ve set clr ptt s0
        else modify_pde_loop T ve set clr ptt n (index + 1) (u64 ((vaddr &&& PDE_MASK) + PDE_SIZE))
          (modify_pte (T + 8 * index) vaddr ve set clr ptt s0).1
          (modify_pte (T + 8 * index) vaddr ve set clr ptt s0).2).1 = -ENOMEM := by
      intro s0
      split
      · rcases modify_pte_codes (T + 8 * index) vaddr ve set clr ptt s0 with h | h
        · exact Or.inl h
        · exact Or.inr (Or.inl h)
      · rename_i hc
        apply ih
        by_contra h
        exact hc (Or.inl h)
    unfold modify_pde_loop
    dsimp only
    split
    · right; left; rfl
    · split
      · split
        · split
          · rename_i hne
            rcases split_large_page_codes (T + 8 * index) IA32E_PD ptt s (Or.inl rfl) with h | h
            · exact absurd h hne
            · exact Or.inr (Or.inr h)
          · exact hdesc _
        · split
          · exact ih _ _ _ _ hret
          · left; rfl
      · exact hdesc _

theorem modify_pde_codes (pdpte vs ve set clr : Nat) (ptt : _page_table_type) (s : PgState) :
    (modify_pde pdpte vs ve set clr ptt s).1 = 0 ∨
      (modify_pde pdpte vs ve set clr ptt s).1 = -EFAULT ∨
      (modify_pde pdpte vs ve set clr ptt s).1 = -ENOMEM := by
  unfold modify_pde
  exact modify_pde_loop_codes _ _ _ _ _ _ _ _ _ _ rfl

theorem modify_pdpte_loop_codes (T ve set clr : Nat) (ptt : _page_table_type) :
    ∀ (n index vaddr : Nat) (ret : Int) (s : PgState), ret = 0 →
      (modify_pdpte_loop T ve set clr ptt n index vaddr ret s).1 = 0 ∨
      (modify_pdpte_loop T ve set clr ptt n index vaddr ret s).1 = -EFAULT ∨
      (modify_pdpte_loop T ve set clr ptt n index vaddr ret s).1 = -ENOMEM := by
  intro n
  induction n with
  | zero => intro index vaddr ret s h; left; exact h
  | succ n ih =>
    intro index vaddr ret s hret
    have hdesc : ∀ s0 : PgState,
        (if (modify_pde (T + 8 * index) vaddr ve set clr ptt s0).1 ≠ 0 ∨
            u64 ((vaddr &&& PDPTE_MASK) + PDPTE_SIZE) ≥ ve then
          modify_pde (T + 8 * index) vaddr ve set clr ptt s0
        else modify_pdpte_loop T ve set clr ptt n (index + 1) (u64 ((vaddr &&& PDPTE_MASK) + PDPTE_SIZE))
          (modify_pde (T + 8 * index) vaddr ve set clr ptt s0).1
          (modify_pde (T + 8 * index) vaddr ve set clr ptt s0).2).1 = 0 ∨
        (if (modify_pde (T + 8 * index) vaddr ve set clr ptt s0).1 ≠ 0 ∨
            u64 ((vaddr &&& PDPTE_MASK) + PDPTE_SIZE) ≥ ve then
          modify_pde (T + 8 * index) vaddr ve set clr ptt s0
        else modify_pdpte_loop T ve set clr ptt n (index + 1) (u64 ((vaddr &&& PDPTE_MASK) + PDPTE_SIZE))
          (modify_pde (T + 8 * index) vaddr ve set clr ptt s0).1
          (modify_pde (T + 8 * index) vaddr ve set clr ptt s0).2).1 = -EFAULT ∨
        (if (modify_pde (T + 8 * index) vaddr ve set clr ptt s0).1 ≠ 0 ∨
            u64 ((vaddr &&& PDPTE_MASK) + PDPTE_SIZE) ≥ ve then
          modify_pde (T + 8 * index) vaddr ve set clr ptt s0
        else modify_pdpte_loop T ve set clr ptt n (index + 1) (u64 ((vaddr &&& PDPTE_MASK) + PDPTE_SIZE))
          (modify_pde (T + 8 * index) vaddr ve set clr ptt s0).1
          (modify_pde (T + 8 * index) vaddr ve set clr ptt s0).2).1 = -ENOMEM := by
      intro s0
      split
      · exact modify_pde_codes (T + 8 * index) vaddr ve set clr ptt s0
      · rename_i hc
        apply ih
        by_contra h
        exact hc (Or.inl h)
    unfold modify_pdpte_loop
    dsimp only
    split
    · right; left; rfl
    · split
      · split
        · split
          · rename_i hne
            rcases split_large_page_codes (T + 8 * index) IA32E_PDPT ptt s (Or.inr rfl) with h | h
            · exact absurd h hne
            · exact Or.inr (Or.inr h)
          · exact hdesc _
        · split
          · exact ih _ _ _ _ hret
          · left; rfl
      · exact hdesc _

theorem modify_pdpte_codes (pdpte vs ve set clr : Nat) (ptt : _page_table_type) (s : PgState) :
    (modify_pdpte pdpte vs ve set clr ptt s).1 = 0 ∨
      (modify_pdpte pdpte vs ve set clr ptt s).1 = -EFAULT ∨
      (modify_pdpte pdpte vs ve set clr ptt s).1 = -ENOMEM := by
  unfold modify_pdpte
  exact modify_pdpte_loop_codes _ _ _ _ _ _ _ _ _ _ rfl

theorem mmu_modify_loop_codes (root ve set clr : Nat) (ptt : _page_table_type) :
    ∀ (fuel vaddr : Nat) (s : PgState) (res : Int × PgState),
      mmu_modify_loop root ve set clr ptt fuel vaddr s = some res →
      res.1 = 0 ∨ res.1 = -EFAULT ∨ res.1 = -ENOMEM := by
  intro fuel
  induction fuel with
  | zero =>
    intro vaddr s res h
    unfold mmu_modify_loop at h
    split at h
    · exact absurd h (by simp)
    · left; rw [← Option.some.inj h]
  | succ n ih =>
    intro vaddr s res h
    unfold mmu_modify_loop at h
    dsimp only at h
    split at h
    · split at h
      · right; left; rw [← Option.some.inj h]
      · split at h
        · rw [← Option.some.inj h]
          exact modify_pdpte_codes _ _ _ _ _ _ _
        · exact ih _ _ _ h
    · left; rw [← Option.some.inj h]

theorem EINVAL_ne : (-EINVAL : Int) ≠ 0 ∧ (-EINVAL : Int) ≠ -EFAULT ∧ (-EINVAL : Int) ≠ -ENOMEM := by
  decide

theorem mmu_modify_aligned (fuel root base size set clr : Nat) (ptt : _page_table_type)
    (s : PgState) (hb : base % 4096 = 0) (hs : size % 4096 = 0) :
    mmu_modify fuel root base size set clr ptt s =
      mmu_modify_loop root (u64 (base + size)) set clr ptt fuel base s := by
  unfold mmu_modify
  simp only [MEM_ALIGNED_CHECK_4K, hb, hs, decide_True, Bool.not_true, Bool.or_self,
    Bool.false_eq_true, if_false]

theorem mmu_modify_loop_total (root ve set clr : Nat) (ptt : _page_table_type)
    (hve : ve ≤ 2 ^ 64 - 2 ^ 39) :
    ∀ (fuel vaddr : Nat) (s : PgState), ve / lvSize 3 + 1 ≤ fuel + vaddr / lvSize 3 →
      ∃ res, mmu_modify_loop root ve set clr ptt fuel vaddr s = some res := by
  intro fuel
  induction fuel with
  | zero =>
    intro vaddr s hf
    have hge : ¬ vaddr < ve := by
      intro hlt
      have := div_le_of_le 3 (le_of_lt hlt)
      omega
    exact ⟨_, mmu_modify_loop_done _ _ _ _ _ _ _ _ hge⟩
  | succ n ih =>
    intro vaddr s hf
    by_cases hlt : vaddr < ve
    · have hle := lvNext_le 3 vaddr
      have hu : u64 ((vaddr &&& PML4E_MASK) + PML4E_SIZE) = lvNext 3 vaddr := by
        rw [and_PML4E_MASK vaddr (by omega)]
        unfold u64 U64 PML4E_SIZE lvNext
        rw [lvSize_three] at *
        unfold lvNext at hle
        omega
      unfold mmu_modify_loop
      simp only [hu, hlt, if_true]
      split
      · exact ⟨_, rfl⟩
      · split
        · exact ⟨_, rfl⟩
        · apply ih
          rw [lvNext_div]
          omega
    · exact ⟨_, mmu_modify_loop_done _ _ _ _ _ _ _ _ hlt⟩

theorem mmu_modify_total (root base size set clr : Nat) (ptt : _page_table_type) (s : PgState)
    (hend : base + size ≤ 2 ^ 64 - 2 ^ 39) (fuel : Nat) (hf : 2 ^ 25 ≤ fuel) :
    ∃ res, mmu_modify fuel root base size set clr ptt s = some res := by
  by_cases hal : base % 4096 = 0 ∧ size % 4096 = 0
  · rw [mmu_modify_aligned _ _ _ _ _ _ _ _ hal.1 hal.2]
    have hu : u64 (base + size) = base + size := by unfold u64 U64; omega
    rw [hu]
    apply mmu_modify_loop_total _ _ _ _ _ hend
    rw [lvSize_three]
    omega
  · refine ⟨(-EINVAL, s), ?_⟩
    unfold mmu_modify
    simp only [MEM_ALIGNED_CHECK_4K]
    have : (!decide (base % 4096 = 0) || !decide (size % 4096 = 0)) = true := by
      by_cases h1 : base % 4096 = 0
      · have h2 : ¬ size % 4096 = 0 := fun h => hal ⟨h1, h⟩
        simp [h1, h2]
      · simp [h1]
    rw [if_pos this]

theorem mmu_modify_codes_aux (fuel root base size set clr : Nat) (ptt : _page_table_type)
    (s : PgState) (res : Int × PgState)
    (h : mmu_modify fuel root base size set clr ptt s = some res) :
    (res.1 = 0 ∨ res.1 = -EINVAL ∨ res.1 = -EFAULT ∨ res.1 = -ENOMEM) ∧
      (res.1 = -EINVAL ↔ ¬ (base % 4096 = 0 ∧ size % 4096 = 0)) := by
  by_cases hal : base % 4096 = 0 ∧ size % 4096 = 0
  · rw [mmu_modify_aligned _ _ _ _ _ _ _ _ hal.1 hal.2] at h
    have := mmu_modify_loop_codes _ _ _ _ _ _ _ _ _ h
    obtain ⟨e1, e2, e3⟩ := EINVAL_ne
    rcases this with h0 | h0 | h0
    · exact ⟨Or.inl h0, by rw [h0]; exact ⟨fun g => absurd g.symm e1, fun g => absurd hal g⟩⟩
    · exact ⟨Or.inr (Or.inr (Or.inl h0)),
        by rw [h0]; exact ⟨fun g => absurd g.symm e2, fun g => absurd hal g⟩⟩
    · exact ⟨Or.inr (Or.inr (Or.inr h0)),
        by rw [h0]; exact ⟨fun g => absurd g.symm e3, fun g => absurd hal g⟩⟩
  · unfold mmu_modify at h
    simp only [MEM_ALIGNED_CHECK_4K] at h
    have : (!decide (base % 4096 = 0) || !decide (size % 4096 = 0)) = true := by
      by_cases h1 : base % 4096 = 0
      · have h2 : ¬ size % 4096 = 0 := fun h => hal ⟨h1, h⟩
        simp [h1, h2]
      · simp [h1]
    rw [if_pos this] at h
    rw [← Option.some.inj h]
    exact ⟨Or.inr (Or.inl rfl), fun _ => hal, fun _ => rfl⟩

theorem mmu_modify_einval (fuel root base size set clr : Nat) (ptt : _page_table_type)
    (s : PgState) (h : base % 4096 ≠ 0 ∨ size % 4096 ≠ 0) :
    mmu_modify fuel root base size set clr ptt s = some (-EINVAL, s) := by
  unfold mmu_modify
  simp only [MEM_ALIGNED_CHECK_4K]
  have : (!decide (base % 4096 = 0) || !decide (size % 4096 = 0)) = true := by
    rcases h with h | h
    · simp [h]
    · simp [h]
  rw [if_pos this]

theorem div_eq_mono {k L va vb : Nat} (hk : k ≤ L) (h : va / lvSize k = vb / lvSize k) :
    va / lvSize L = vb / lvSize L := by
  induction L with
  | zero =>
    have : k = 0 := by omega
    subst this; exact h
  | succ L ih =>
    by_cases hkl : k = L + 1
    · subst hkl; exact h
    · rw [div_lvSize_succ, div_lvSize_succ, ih (by omega)]

theorem lvIndex_congr {L va vb : Nat} (h : va / lvSize L = vb / lvSize L) :
    lvIndex L va = lvIndex L vb := by
  unfold lvIndex; rw [h]

/-- Addresses in the region of one leaf have the same governing entry. -/
theorem slot_same_leaf {ptt : _page_table_type} {m : Mem} :
    ∀ {L T va vb : Nat}, va / lvSize (slot ptt m L T vb).1 = vb / lvSize (slot ptt m L T vb).1 →
      slot ptt m L T va = slot ptt m L T vb := by
  intro L
  induction L with
  | zero =>
    intro T va vb h
    rw [slot_zero] at h
    rw [slot_zero, slot_zero, entryAddr_congr (lvIndex_congr h)]
  | succ L ih =>
    intro T va vb h
    have hle := slot_level_le ptt m (L + 1) T vb
    have hidx : lvIndex (L + 1) va = lvIndex (L + 1) vb := lvIndex_congr (div_eq_mono hle h)
    have hea := entryAddr_congr (T := T) hidx
    by_cases ht : isTable ptt (L + 1) (m (entryAddr (L + 1) T vb))
    · have ht1 : isTable ptt (L + 1) (m (entryAddr (L + 1) T va)) := by rw [hea]; exact ht
      rw [slot_table ht] at h ⊢
      rw [slot_table ht1, hea]
      exact ih h
    · have ht1 : ¬ isTable ptt (L + 1) (m (entryAddr (L + 1) T va)) := by rw [hea]; exact ht
      rw [slot_stop ht, slot_stop ht1, hea]

theorem sameTable_three {va vb : Nat} (ha : va < 2 ^ 48) (hb : vb < 2 ^ 48) : sameTable 3 va vb := by
  unfold sameTable
  have : lvSize (3 + 1) = 2 ^ 48 := by decide
  rw [this, Nat.div_eq_of_lt ha, Nat.div_eq_of_lt hb]

theorem Separated.sepFrom {ptt : _page_table_type} {root : Nat} {s : PgState}
    (h : Separated ptt root s) (i : Nat) : SepFrom ptt 3 root i s := by
  obtain ⟨h1, h2, h3⟩ := h
  rw [List.nodup_append] at h3
  exact (sepFrom_of_nodup ptt 3 root s h1 h2 h3.1 h3.2.1 (fun p hp hq => h3.2.2 hp hq)).mono
    (Nat.zero_le _)

/-- The entry point on a separated table, from a range inside the 48-bit
address space, is a run of the PML4 level that comes to some address. -/
theorem mmu_modify_ctl (ptt : _page_table_type) (set clr root base size : Nat) (s : PgState)
    (fuel : Nat) (hf : 512 ≤ fuel) (hsep : Separated ptt root s)
    (hb : base % 4096 = 0) (hs : size % 4096 = 0) (hpos : 0 < size) (hend : base + size ≤ 2 ^ 48) :
    ∃ res stop, mmu_modify fuel root base size set clr ptt s = some res ∧
      Run ptt set clr (base + size) 3 root base s res ∧
      Ctl ptt set clr (base + size) 3 root base s res stop := by
  obtain ⟨res, h1, h2⟩ := mmu_modify_run ptt set clr root base size s fuel hf hb hs hpos hend
  obtain ⟨stop, h3⟩ := h2.control (hsep.sepFrom _) (by omega)
  exact ⟨res, stop, h1, h2, h3⟩

/-- Addresses with the same governing entry lie in the region of one leaf. -/
theorem slot_inj {ptt : _page_table_type} {s : PgState} :
    ∀ {L T va vb : Nat}, SepFrom ptt L T 0 s → sameTable L va vb →
      (slot ptt s.mem L T va).2 = (slot ptt s.mem L T vb).2 →
      va / lvSize (slot ptt s.mem L T va).1 = vb / lvSize (slot ptt s.mem L T va).1 := by
  intro L
  induction L with
  | zero =>
    intro T va vb _ hst he
    rw [slot_zero] at he ⊢
    rw [slot_zero] at he
    have : lvIndex 0 va = lvIndex 0 vb := by
      unfold entryAddr at he; omega
    exact (lvIndex_eq_iff hst).1 this
  | succ L ih =>
    intro T va vb hsep hst he
    have hidx : lvIndex (L + 1) va = lvIndex (L + 1) vb := by
      by_contra hne
      rcases Nat.lt_or_gt_of_ne hne with h | h
      · exact slot_sep hsep (Nat.zero_le _) h he
      · exact slot_sep hsep (Nat.zero_le _) h he.symm
    have hea := entryAddr_congr (T := T) hidx
    by_cases ht : isTable ptt (L + 1) (s.mem (entryAddr (L + 1) T va))
    · have ht1 : isTable ptt (L + 1) (s.mem (entryAddr (L + 1) T vb)) := by rw [← hea]; exact ht
      rw [slot_table ht] at he ⊢
      rw [slot_table ht1, ← hea] at he
      exact ih (hsep.desc (Nat.zero_le _) (lvIndex_lt _ va) ht)
        ((sameTable_desc L va vb).2 ⟨hst, hidx⟩) he
    · rw [slot_stop ht]
      exact (lvIndex_eq_iff hst).1 hidx

/-- After a failure that took no page from the allocator, the entries
governing the addresses from `stop` on have the value they had. -/
theorem Ctl.above {ptt : _page_table_type} {set clr ve L T vs : Nat} {s : PgState}
    {res : Int × PgState} {stop : Nat} (h : Ctl ptt set clr ve L T vs s res stop)
    (hsep : SepFrom ptt L T 0 s) (hne : res.1 ≠ 0) (hpool : res.2.pool = s.pool)
    (va : Nat) (hst : sameTable L va vs) (hva : stop ≤ va) :
    res.2.mem (slot ptt s.mem L T va).2 = s.mem (slot ptt s.mem L T va).2 := by
  apply h.memOut hpool
  intro vb g1 g2 g3 he
  have hinj := slot_inj hsep (sameTable_trans g1 hst.symm) he
  -- `stop` lies between `vb` and `va`, so in the region of the same leaf
  have h1 := div_le_of_le (slot ptt s.mem L T vb).1 (le_of_lt g3)
  have h2 := div_le_of_le (slot ptt s.mem L T vb).1 hva
  have hstop : stop / lvSize (slot ptt s.mem L T vb).1 = vb / lvSize (slot ptt s.mem L T vb).1 := by
    omega
  have hslot := slot_same_leaf hstop
  rcases h.edge hne hpool with hedge | hedge
  · omega
  · rw [hslot] at hedge
    have := Nat.div_add_mod stop (lvSize (slot ptt s.mem L T vb).1)
    have := Nat.div_add_mod vb (lvSize (slot ptt s.mem L T vb).1)
    have hpos := lvSize_pos (slot ptt s.mem L T vb).1
    rw [hstop, hedge] at *
    omega

theorem exMem_slot_large (va : Nat) (h : va < 0x200000) :
    slot PTT_HOST exMem 3 0x1000 va = (1, 0x3000) := by
  have h0 : slot PTT_HOST exMem 3 0x1000 0 = (1, 0x3000) := by decide
  have := @slot_same_leaf PTT_HOST exMem 3 0x1000 va 0
    (by rw [h0]; show va / lvSize 1 = 0 / lvSize 1; rw [lvSize_one]; omega)
  rw [this, h0]

theorem exMem_mapped_large (va : Nat) (h : va < 0x200000) :
    mapped PTT_HOST exMem 3 0x1000 va := by
  unfold mapped gov
  rw [exMem_slot_large va h]
  decide

/-- The result of the entry point on a separated table has the pool of the
start if that pool is empty. -/
theorem Run.pool_nil {ptt : _page_table_type} {set clr ve L T vs : Nat} {s : PgState}
    {res : Int × PgState} (hrun : Run ptt set clr ve L T vs s res)
    (hsep : SepFrom ptt L T (lvIndex L vs) s) (hpool : s.pool = []) : res.2.pool = s.pool := by
  obtain ⟨taken, h1, _⟩ := hrun.frame hsep
  rw [hpool] at h1 ⊢
  have := congrArg List.length h1
  rw [List.length_append] at this
  simp at this
  exact List.length_eq_zero.1 (by omega)

theorem mmu_modify_codes3 {ptt : _page_table_type} {set clr root base size : Nat} {s : PgState}
    {fuel : Nat} {res : Int × PgState}
    (h : mmu_modify fuel root base size set clr ptt s = some res)
    (hb : base % 4096 = 0) (hs : size % 4096 = 0) :
    res.1 = 0 ∨ res.1 = -EFAULT ∨ res.1 = -ENOMEM := by
  rw [mmu_modify_aligned _ _ _ _ _ _ _ _ hb hs] at h
  exact mmu_modify_loop_codes _ _ _ _ _ _ _ _ _ h

theorem testBit_of_and_eq_zero {x y i : Nat} (h : x &&& y = 0) (hy : y.testBit i = true) :
    x.testBit i = false := by
  have := congrArg (fun n => n.testBit i) h
  simp only [Nat.testBit_and, hy, Bool.and_true, Nat.zero_testBit] at this
  exact this

theorem testBit_applyMask (set clr e i : Nat) :
    (applyMask set clr e).testBit i =
      ((e.testBit i && (decide (i < 64) && !clr.testBit i)) || set.testBit i) := by
  unfold applyMask
  rw [Nat.testBit_or, Nat.testBit_and, testBit_not64]

theorem AttrMask.set_bit {set clr : Nat} (h : AttrMask set clr) {i : Nat}
    (hi : (12 ≤ i ∧ i < 48) ∨ i = 7 ∨ 64 ≤ i) : set.testBit i = false := by
  rcases hi with hi | hi | hi
  · apply testBit_of_and_eq_zero h.2.1
    rw [Nat.testBit_or, testBit_PFN_MASK]
    simp [hi.1, hi.2]
  · apply testBit_of_and_eq_zero h.2.1
    rw [Nat.testBit_or, testBit_PAGE_PSE]
    simp [hi]
  · exact testBit_false_of_lt h.1 hi

theorem AttrMask.clr_bit {set clr : Nat} (h : AttrMask set clr) {i : Nat}
    (hi : (12 ≤ i ∧ i < 48) ∨ i = 7) : clr.testBit i = false := by
  rcases hi with hi | hi
  · apply testBit_of_and_eq_zero h.2.2
    rw [Nat.testBit_or, testBit_PFN_MASK]
    simp [hi.1, hi.2]
  · apply testBit_of_and_eq_zero h.2.2
    rw [Nat.testBit_or, testBit_PAGE_PSE]
    simp [hi]

theorem applyMask_PFN {set clr : Nat} (h : AttrMask set clr) (e : Nat) :
    applyMask set clr e &&& PFN_MASK = e &&& PFN_MASK := by
  apply Nat.eq_of_testBit_eq
  intro i
  rw [Nat.testBit_and, Nat.testBit_and, testBit_applyMask, testBit_PFN_MASK]
  by_cases hi : 12 ≤ i ∧ i < 48
  · have h64 : i < 64 := by omega
    simp [h.set_bit (Or.inl hi), h.clr_bit (Or.inl hi), hi.1, hi.2, h64]
  · have : (decide (12 ≤ i) && decide (i < 48)) = false := by
      by_cases h1 : 12 ≤ i
      · have : ¬ i < 48 := fun h2 => hi ⟨h1, h2⟩
        simp [this]
      · simp [h1]
    rw [this]; simp

theorem applyMask_large {set clr : Nat} (h : AttrMask set clr) (e : Nat) :
    applyMask set clr e &&& PAGE_PSE ≠ 0 ↔ e &&& PAGE_PSE ≠ 0 := by
  rw [large_iff, large_iff, testBit_applyMask,
    h.set_bit (Or.inr (Or.inl rfl)), h.clr_bit (Or.inr rfl)]
  simp

theorem applyMask_isLeaf {set clr : Nat} (h : AttrMask set clr) (L e : Nat) :
    isLeaf L (applyMask set clr e) ↔ isLeaf L e := by
  unfold isLeaf
  rw [applyMask_large h]

theorem testBit_attrOf (lv e i : Nat) :
    (attrOf lv e).testBit i =
      (e.testBit i && decide (i < 64) && !(decide (12 ≤ i) && decide (i < 48)) &&
        !(decide (lv ≠ 0) && decide (i = 7))) := by
  unfold attrOf
  by_cases hL : lv = 0
  · simp only [hL, if_true, Nat.testBit_and, testBit_not64, testBit_PFN_MASK]
    by_cases h64 : i < 64 <;> simp [h64]
  · simp only [hL, if_false, Nat.testBit_and, testBit_not64, testBit_PFN_MASK, testBit_PAGE_PSE]
    by_cases h7 : i = 7
    · subst h7; simp [hL]
    · by_cases h64 : i < 64 <;> simp [h7, h64]

theorem attrOf_applyMask {set clr : Nat} (h : AttrMask set clr) (lv e : Nat) :
    attrOf lv (applyMask set clr e) = applyMask set clr (attrOf lv e) := by
  apply Nat.eq_of_testBit_eq
  intro i
  rw [testBit_attrOf, testBit_applyMask, testBit_applyMask, testBit_attrOf]
  by_cases h64 : i < 64
  · by_cases hp : 12 ≤ i ∧ i < 48
    · simp [h.set_bit (Or.inl hp), hp.1, hp.2]
    · have hp' : (decide (12 ≤ i) && decide (i < 48)) = false := by
        by_cases h1 : 12 ≤ i
        · have : ¬ i < 48 := fun h2 => hp ⟨h1, h2⟩
          simp [this]
        · simp [h1]
      by_cases h7 : i = 7
      · subst h7
        simp [h.set_bit (Or.inr (Or.inl rfl)), h.clr_bit (Or.inr rfl)]
      · rw [hp']
        simp [h64, h7]
  · have := h.set_bit (Or.inr (Or.inr (show 64 ≤ i by omega)))
    simp [h64, this]

/-- The presence test reads attribute bits only. -/
theorem present_attrOf (ptt : _page_table_type) (lv e : Nat) :
    pgentry_present ptt (attrOf lv e) ≠ 0 ↔ pgentry_present ptt e ≠ 0 := by
  rw [present_iff, present_iff]
  constructor
  · rintro ⟨i, hi, hb⟩
    rw [testBit_attrOf] at hb
    refine ⟨i, hi, ?_⟩
    cases h : e.testBit i
    · rw [h] at hb; simp at hb
    · rfl
  · rintro ⟨i, hi, hb⟩
    refine ⟨i, hi, ?_⟩
    have hi3 : i < 3 := by cases ptt <;> simp at hi <;> omega
    rw [testBit_attrOf, hb]
    have h1 : i < 64 := by omega
    have h2 : ¬ (12 ≤ i) := by omega
    have h3 : ¬ (i = 7) := by omega
    simp [h1, h2, h3]

theorem applyMask_zero_attr (lv e : Nat) : applyMask 0 0 (attrOf lv e) = attrOf lv e := by
  apply Nat.eq_of_testBit_eq
  intro i
  rw [testBit_applyMask, testBit_attrOf]
  by_cases h64 : i < 64 <;> simp [h64]

theorem applyMask_zero {e : Nat} (h : e < 2 ^ 64) : applyMask 0 0 e = e := by
  apply Nat.eq_of_testBit_eq
  intro i
  rw [testBit_applyMask]
  by_cases h64 : i < 64
  · simp [h64]
  · simp [h64, testBit_false_of_lt h (show 64 ≤ i by omega)]

theorem LargeOK_succ (ptt : _page_table_type) (m : Mem) (L T : Nat) :
    LargeOK ptt m (L + 1) T ↔ ∀ j, j < 512 →
      (pgentry_present ptt (m (T + 8 * j)) ≠ 0 → isLeaf (L + 1) (m (T + 8 * j)) →
        (m (T + 8 * j) &&& PFN_MASK) % lvSize (L + 1) = 0) ∧
      (isTable ptt (L + 1) (m (T + 8 * j)) → LargeOK ptt m L (m (T + 8 * j) &&& PFN_MASK)) :=
  Iff.rfl

theorem LargeOK_congr (ptt : _page_table_type) (m m1 : Mem) :
    ∀ (L T : Nat), (∀ p ∈ tables ptt m L T, ∀ a, inPage p a → m1 a = m a) →
      LargeOK ptt m L T → LargeOK ptt m1 L T := by
  intro L
  induction L with
  | zero => intro T _ _; trivial
  | succ L ih =>
    intro T h hok
    rw [LargeOK_succ] at hok ⊢
    intro j hj
    have he : m1 (T + 8 * j) = m (T + 8 * j) :=
      h T (mem_tables_self ptt m (L + 1) T) _ (inPage_entry hj)
    rw [he]
    refine ⟨(hok j hj).1, fun ht => ?_⟩
    apply ih _ _ ((hok j hj).2 ht)
    intro p hp a ha
    apply h p _ a ha
    rw [mem_tables_iff]
    exact Or.inr ⟨j, hj, by rw [kid_eq_tables ht]; exact hp⟩

theorem tables_eq_of_kid {ptt : _page_table_type} {m m1 : Mem} {L T : Nat}
    (h : ∀ j, j < 512 → kid ptt m1 L T j = kid ptt m L T j) :
    tables ptt m1 L T = tables ptt m L T := by
  cases L with
  | zero => rfl
  | succ L =>
    rw [tables_succ, tables_succ]
    refine congrArg (List.cons T) ?_
    apply List.flatMap_congr
    intro j hj
    exact h j (List.mem_range.1 hj)

theorem SepFrom.kid_disj {ptt : _page_table_type} {L T : Nat} {s : PgState}
    (h : SepFrom ptt L T 0 s) {j j1 : Nat} (hj : j < 512) (hj1 : j1 < 512) (hne : j ≠ j1)
    {p : Nat} (hp : p ∈ kid ptt s.mem L T j) : p ∉ kid ptt s.mem L T j1 := by
  rcases Nat.lt_or_gt_of_ne hne with hlt | hlt
  · exact h.kidDisj j j1 (Nat.zero_le _) hlt hj1 p hp
  · intro hp1
    exact h.kidDisj j1 j (Nat.zero_le _) hlt hj p hp1 hp

/-- A write to entry `i` alone leaves the table pages below the other
entries as they were. -/
theorem kid_of_entry_write {ptt : _page_table_type} {L T i : Nat} {s : PgState} {m1 : Mem}
    (h : SepFrom ptt L T 0 s) (hi : i < 512)
    (hfr : ∀ a, m1 a ≠ s.mem a → a = T + 8 * i) {j : Nat} (hj : j < 512) (hne : j ≠ i) :
    kid ptt m1 L T j = kid ptt s.mem L T j := by
  apply kid_congr
  · by_contra hc
    have := hfr _ hc
    omega
  · intro p hp a ha
    by_contra hc
    have := hfr _ hc
    subst this
    have := inPage_disjoint (kid_aligned _ _ _ _ _ _ hp) h.tAligned ha (inPage_entry hi)
    subst this
    exact h.kidT j (Nat.zero_le _) hj hp

theorem kid_leaf {ptt : _page_table_type} {m : Mem} {L T j : Nat}
    (h : isLeaf L (m (T + 8 * j))) : kid ptt m L T j = [] := by
  cases L with
  | zero => rfl
  | succ L =>
    rw [kid_succ, if_neg (fun ht => ht.2 h)]

theorem kid_modState {ptt : _page_table_type} {set clr L T i : Nat} {s : PgState}
    (h : SepFrom ptt L T 0 s) (hm : AttrMask set clr) (hi : i < 512)
    (hleaf : isLeaf L (s.mem (T + 8 * i))) (j : Nat) (hj : j < 512) :
    kid ptt (modState set clr (T + 8 * i) s).mem L T j = kid ptt s.mem L T j := by
  by_cases hne : j = i
  · subst hne
    rw [kid_leaf hleaf]
    apply kid_leaf
    rw [modState_mem, if_pos rfl, applyMask_isLeaf hm]
    exact hleaf
  · exact kid_of_entry_write h hi (fun a ha => modify_ne ha) hj hne

theorem largeOK_modState {ptt : _page_table_type} {set clr L T i : Nat} {s : PgState}
    (h : SepFrom ptt L T 0 s) (hm : AttrMask set clr) (hi : i < 512)
    (hp : pgentry_present ptt (s.mem (T + 8 * i)) ≠ 0)
    (hleaf : isLeaf L (s.mem (T + 8 * i))) (hok : LargeOK ptt s.mem L T) :
    LargeOK ptt (modState set clr (T + 8 * i) s).mem L T := by
  cases L with
  | zero => trivial
  | succ L =>
    rw [LargeOK_succ] at hok ⊢
    intro j hj
    by_cases hne : j = i
    · subst hne
      rw [modState_mem, if_pos rfl]
      refine ⟨fun _ _ => ?_, fun ht => ?_⟩
      · rw [applyMask_PFN hm]
        exact (hok j hj).1 hp hleaf
      · exact absurd ((applyMask_isLeaf hm _ _).2 hleaf) ht.2
    · have he : (modState set clr (T + 8 * i) s).mem (T + 8 * j) = s.mem (T + 8 * j) := by
        rw [modState_mem, if_neg (by omega)]
      rw [he]
      refine ⟨(hok j hj).1, fun ht => ?_⟩
      apply LargeOK_congr ptt s.mem _ L _ _ ((hok j hj).2 ht)
      intro p hp1 a ha
      rw [modState_mem, if_neg]
      intro hc
      subst hc
      have hpk : p ∈ kid ptt s.mem (L + 1) T j := by rw [kid_eq_tables ht]; exact hp1
      have := inPage_disjoint (kid_aligned _ _ _ _ _ _ hpk) h.tAligned ha (inPage_entry hi)
      subst this
      exact h.kidT j (Nat.zero_le _) hj hpk

theorem SepFrom.of_kid {ptt : _page_table_type} {L T i : Nat} {s s1 : PgState}
    (h : SepFrom ptt L T i s) (hk : ∀ j, j < 512 → kid ptt s1.mem L T j = kid ptt s.mem L T j)
    (hpool : s1.pool = s.pool) : SepFrom ptt L T i s1 where
  tAligned := h.tAligned
  poolOk := by rw [hpool]; exact h.poolOk
  poolNodup := by rw [hpool]; exact h.poolNodup
  tPool := by rw [hpool]; exact h.tPool
  kidT := fun j hj hj2 => by rw [hk j hj2]; exact h.kidT j hj hj2
  kidPool := fun j hj hj2 => by rw [hk j hj2, hpool]; exact h.kidPool j hj hj2
  kidDisj := fun j j1 hj hj2 hj3 => by
    rw [hk j (by omega), hk j1 hj3]; exact h.kidDisj j j1 hj hj2 hj3
  kidNodup := fun j hj hj2 => by rw [hk j hj2]; exact h.kidNodup j hj hj2

theorem Good.down {ptt : _page_table_type} {L T : Nat} {s : PgState}
    (h : Good ptt (L + 1) T s) {j : Nat} (hj : j < 512)
    (ht : isTable ptt (L + 1) (s.mem (T + 8 * j))) :
    Good ptt L (s.mem (T + 8 * j) &&& PFN_MASK) s :=
  ⟨h.1.desc (Nat.zero_le _) hj ht, (((LargeOK_succ ptt s.mem L T).1 h.2) j hj).2 ht⟩

/-- Writes below entry `i` that keep the table pages of the child and its
large pages aligned keep them for the whole table. -/
theorem ns_desc {ptt : _page_table_type} {L T i : Nat} {s : PgState} {m1 : Mem}
    (hg : Good ptt (L + 1) T s) (hi : i < 512)
    (ht : isTable ptt (L + 1) (s.mem (T + 8 * i)))
    (hfr : ∀ a, m1 a ≠ s.mem a →
      ∃ p ∈ tables ptt s.mem L (s.mem (T + 8 * i) &&& PFN_MASK), inPage p a)
    (hk : ∀ k, k < 512 → kid ptt m1 L (s.mem (T + 8 * i) &&& PFN_MASK) k =
      kid ptt s.mem L (s.mem (T + 8 * i) &&& PFN_MASK) k)
    (hok : LargeOK ptt m1 L (s.mem (T + 8 * i) &&& PFN_MASK)) :
    (∀ j, j < 512 → kid ptt m1 (L + 1) T j = kid ptt s.mem (L + 1) T j) ∧
      LargeOK ptt m1 (L + 1) T := by
  have hki := kid_eq_tables ht
  have hent : ∀ j, j < 512 → m1 (T + 8 * j) = s.mem (T + 8 * j) := by
    intro j hj
    by_contra hc
    obtain ⟨p, hp, hpa⟩ := hfr _ hc
    rw [← hki] at hp
    have := inPage_disjoint (kid_aligned _ _ _ _ _ _ hp) hg.1.tAligned hpa (inPage_entry hj)
    subst this
    exact hg.1.kidT i (Nat.zero_le _) hi hp
  have hpages : ∀ j, j < 512 → j ≠ i → ∀ q ∈ kid ptt s.mem (L + 1) T j, ∀ a, inPage q a →
      m1 a = s.mem a := by
    intro j hj hne q hq a ha
    by_contra hc
    obtain ⟨p, hp, hpa⟩ := hfr _ hc
    rw [← hki] at hp
    have := inPage_disjoint (kid_aligned _ _ _ _ _ _ hp) (kid_aligned _ _ _ _ _ _ hq) hpa ha
    subst this
    exact hg.1.kid_disj hi hj (Ne.symm hne) hp hq
  constructor
  · intro j hj
    by_cases hne : j = i
    · subst hne
      rw [kid_succ, hent j hj, if_pos ht, tables_eq_of_kid hk, hki]
    · exact kid_congr ptt s.mem m1 (L + 1) T j (hent j hj) (hpages j hj hne)
  · rw [LargeOK_succ]
    intro j hj
    rw [hent j hj]
    by_cases hne : j = i
    · subst hne
      exact ⟨fun _ hl => absurd hl ht.2, fun _ => hok⟩
    · have hs := ((LargeOK_succ ptt s.mem L T).1 hg.2) j hj
      refine ⟨hs.1, fun htj => ?_⟩
      apply LargeOK_congr ptt s.mem m1 L _ _ (hs.2 htj)
      intro p hp a ha
      exact hpages j hj hne p (by rw [kid_eq_tables htj]; exact hp) a ha

theorem Good.keep {ptt : _page_table_type} {L T : Nat} {s s1 : PgState}
    (h : Good ptt L T s) (hk : ∀ j, j < 512 → kid ptt s1.mem L T j = kid ptt s.mem L T j)
    (hok : LargeOK ptt s1.mem L T) (hpool : s1.pool = s.pool) : Good ptt L T s1 :=
  ⟨h.1.of_kid hk hpool, hok⟩

/-- A run that takes no page from the allocator, with masks that change
attributes only, keeps the table pages below every entry and the alignment
of the large pages. -/
theorem Run.keeps {ptt : _page_table_type} {set clr ve L T vs : Nat} {s : PgState}
    {res : Int × PgState} (hrun : Run ptt set clr ve L T vs s res) (hm : AttrMask set clr) :
    Good ptt L T s → res.2.pool = s.pool →
      (∀ j, j < 512 → kid ptt res.2.mem L T j = kid ptt s.mem L T j) ∧
        LargeOK ptt res.2.mem L T := by
  induction hrun with
  | notPresent L T vs s hp =>
    intro hg _
    exact ⟨fun _ _ => rfl, hg.2⟩
  | leafStop L T vs s hp hleaf hle hstop =>
    intro hg _
    exact ⟨kid_modState hg.1 hm (lvIndex_lt L vs) hleaf,
      largeOK_modState hg.1 hm (lvIndex_lt L vs) hp hleaf hg.2⟩
  | leafCont L T vs s res hp hleaf hlt hidx hrun ih =>
    intro hg hpool
    have hk1 := kid_modState hg.1 hm (lvIndex_lt L vs) hleaf
    have hg1 : Good ptt L T (modState set clr (entryAddr L T vs) s) :=
      hg.keep hk1 (largeOK_modState hg.1 hm (lvIndex_lt L vs) hp hleaf hg.2) rfl
    obtain ⟨h1, h2⟩ := ih hg1 hpool
    exact ⟨fun j hj => (h1 j hj).trans (hk1 j hj), h2⟩
  | splitFail L T vs s hp hleaf hgt hpool =>
    intro hg _
    exact ⟨fun _ _ => rfl, hg.2⟩
  | splitOk L T vs s s1 res hp hleaf hgt hpool hsplit hrun ih =>
    intro hg hpeq
    exfalso
    obtain ⟨m, pool⟩ := s
    cases pool with
    | nil => exact absurd rfl hpool
    | cons p rest =>
      rw [split_large_page_cons _ (L + 1) ptt m p rest (isLeaf_succ hleaf).1] at hsplit
      have hs1 : s1 = ⟨splitMem (L + 1) (entryAddr (L + 1) T vs) p m, rest⟩ :=
        (Prod.mk.inj hsplit).2.symm
      subst hs1
      dsimp only at *
      have hsep := hg.1.mono (Nat.zero_le (lvIndex (L + 1) vs))
      have hpin : p ∈ (PgState.mk m (p :: rest)).pool := List.mem_cons_self _ _
      have hchild := split_child hsep hpin (L + 1) (entryAddr (L + 1) T vs)
      dsimp only at hchild
      rw [hchild] at hrun
      obtain ⟨taken, h1, _⟩ :=
        hrun.frame (SepFrom.split hsep rfl (lvIndex_lt _ vs) hleaf (lvIndex L vs))
      exact pool_ne_of_append h1 hpeq
  | descStop L T vs s res hp hleaf hrun hstop ih =>
    intro hg hpool
    have ht : isTable ptt (L + 1) (s.mem (T + 8 * lvIndex (L + 1) vs)) := ⟨hp, hleaf⟩
    have hgc := hg.down (lvIndex_lt _ vs) ht
    obtain ⟨h1, h2⟩ := ih hgc hpool
    obtain ⟨taken, e1, e2⟩ := hrun.frame (hgc.1.mono (Nat.zero_le _))
    have htk := pool_eq_of_append e1 hpool
    subst htk
    refine ns_desc hg (lvIndex_lt _ vs) ht (fun a ha => ?_) h1 h2
    obtain ⟨p, hp1, hpa⟩ := (e2 a ha).page
    rcases hp1 with hp1 | hp1
    · exact ⟨p, hp1, hpa⟩
    · simp at hp1
  | descCont L T vs s s1 res hp hleaf hrun1 hlt2 hidx hrun2 ih1 ih2 =>
    intro hg hpool
    have ht : isTable ptt (L + 1) (s.mem (T + 8 * lvIndex (L + 1) vs)) := ⟨hp, hleaf⟩
    have hgc := hg.down (lvIndex_lt _ vs) ht
    obtain ⟨taken1, e1, e2⟩ := hrun1.frame (hgc.1.mono (Nat.zero_le _))
    obtain ⟨⟨_, f1⟩, hag, hsep1⟩ := descCont_facts (hg.1.mono (Nat.zero_le _)) ht hrun1
    obtain ⟨taken2, e3, _⟩ := hrun2.frame (by rw [lvIndex_next _ vs hidx]; exact hsep1)
    dsimp only at e1 e3
    have hp1 : s1.pool = s.pool := by
      have a1 := congrArg List.length e1
      have a2 := congrArg List.length e3
      rw [List.length_append] at a1 a2
      have a3 := congrArg List.length hpool
      have : taken1.length = 0 := by omega
      rw [List.length_eq_zero.1 this] at e1
      simpa using e1.symm
    have htk := pool_eq_of_append e1 hp1
    subst htk
    obtain ⟨h1, h2⟩ := ih1 hgc hp1
    have hns := ns_desc hg (lvIndex_lt _ vs) ht (fun a ha => by
      obtain ⟨p, hq, hpa⟩ := (e2 a ha).page
      rcases hq with hq | hq
      · exact ⟨p, hq, hpa⟩
      · simp at hq) h1 h2
    have hg1 : Good ptt (L + 1) T s1 := hg.keep hns.1 hns.2 hp1
    obtain ⟨h3, h4⟩ := ih2 hg1 (hpool.trans hp1.symm)
    exact ⟨fun j hj => (h3 j hj).trans (hns.1 j hj), h4⟩

theorem applyMask_idem (set clr e : Nat) :
    applyMask set clr (applyMask set clr e) = applyMask set clr e := by
  apply Nat.eq_of_testBit_eq
  intro i
  simp only [testBit_applyMask]
  cases e.testBit i <;> cases clr.testBit i <;> cases set.testBit i <;> simp

theorem applyV_idem (set clr : Nat) (v : Nat × Nat) :
    applyV set clr (applyV set clr v) = applyV set clr v := by
  unfold applyV
  rw [applyMask_idem]

theorem slot_congr_at {ptt : _page_table_type} {m m1 : Mem} {L T va : Nat}
    (he : m1 (entryAddr L T va) = m (entryAddr L T va))
    (hk : ∀ p ∈ kid ptt m L T (lvIndex L va), ∀ a, inPage p a → m1 a = m a) :
    slot ptt m1 L T va = slot ptt m L T va ∧
      m1 (slot ptt m L T va).2 = m (slot ptt m L T va).2 := by
  cases L with
  | zero => exact ⟨rfl, he⟩
  | succ L =>
    by_cases ht : isTable ptt (L + 1) (m (entryAddr (L + 1) T va))
    · have ht1 : isTable ptt (L + 1) (m1 (entryAddr (L + 1) T va)) := by rw [he]; exact ht
      rw [slot_table ht, slot_table ht1, he]
      apply slot_congr (i := 0) _ (Nat.zero_le _)
      apply agree_of_pages
      intro p hp a ha
      exact hk p (by rw [kid_eq_tables ht]; exact hp) a ha
    · have ht1 : ¬ isTable ptt (L + 1) (m1 (entryAddr (L + 1) T va)) := by rw [he]; exact ht
      rw [slot_stop ht, slot_stop ht1]
      exact ⟨rfl, he⟩

theorem view_congr_at {ptt : _page_table_type} {m m1 : Mem} {L T va : Nat}
    (he : m1 (entryAddr L T va) = m (entryAddr L T va))
    (hk : ∀ p ∈ kid ptt m L T (lvIndex L va), ∀ a, inPage p a → m1 a = m a) :
    view ptt m1 L T va = view ptt m L T va := by
  obtain ⟨h1, h2⟩ := slot_congr_at he hk
  unfold view gov
  rw [h1, h2]

theorem view_table {ptt : _page_table_type} {m : Mem} {L T va : Nat}
    (h : isTable ptt (L + 1) (m (entryAddr (L + 1) T va))) :
    view ptt m (L + 1) T va = view ptt m L (m (entryAddr (L + 1) T va) &&& PFN_MASK) va := by
  unfold view gov
  rw [slot_table h]

theorem view_stop {ptt : _page_table_type} {m : Mem} {L T va : Nat}
    (h : ¬ isTable ptt L (m (entryAddr L T va))) :
    view ptt m L T va =
      (physOf L (m (entryAddr L T va)) va, attrOf L (m (entryAddr L T va))) := by
  unfold view gov
  rw [slot_stop h]

/-- The address `va` is governed by another entry than `i`, and the writes
are confined to entry `i`, the pages below it and free pages: what the table
says about `va` stays. -/
theorem view_other {ptt : _page_table_type} {L T i : Nat} {s : PgState} {m1 : Mem}
    (h : SepFrom ptt L T 0 s) (hi : i < 512)
    (hfr : ∀ a, m1 a ≠ s.mem a →
      a = T + 8 * i ∨ ∃ p, (p ∈ kid ptt s.mem L T i ∨ p ∈ s.pool) ∧ inPage p a)
    {va : Nat} (hne : lvIndex L va ≠ i) :
    view ptt m1 L T va = view ptt s.mem L T va := by
  have hj := lvIndex_lt L va
  apply view_congr_at
  · by_contra hc
    rcases hfr _ hc with h1 | ⟨p, hp, hpa⟩
    · unfold entryAddr at h1; omega
    · have hpal : p % 4096 = 0 := by
        rcases hp with hp | hp
        · exact kid_aligned _ _ _ _ _ _ hp
        · exact (h.poolOk p hp).1
      have := inPage_disjoint hpal h.tAligned hpa (inPage_entry hj)
      subst this
      rcases hp with hp | hp
      · exact h.kidT i (Nat.zero_le _) hi hp
      · exact h.tPool hp
  · intro q hq a ha
    by_contra hc
    have hqal := kid_aligned _ _ _ _ _ _ hq
    rcases hfr _ hc with h1 | ⟨p, hp, hpa⟩
    · subst h1
      have := inPage_disjoint hqal h.tAligned ha (inPage_entry hi)
      subst this
      exact h.kidT _ (Nat.zero_le _) hj hq
    · have hpal : p % 4096 = 0 := by
        rcases hp with hp | hp
        · exact kid_aligned _ _ _ _ _ _ hp
        · exact (h.poolOk p hp).1
      have := inPage_disjoint hpal hqal hpa ha
      subst this
      rcases hp with hp | hp
      · exact h.kid_disj hi hj (Ne.symm hne) hp hq
      · exact h.kidPool _ (Nat.zero_le _) hj p hq hp

/-- After `__modify_pte` on the leaf entry that governs `va`, the table says
about `va` what it said, with the masks applied to the attributes. -/
theorem view_modState {ptt : _page_table_type} {set clr L T : Nat} {s : PgState}
    (hm : AttrMask set clr) {vs va : Nat} (hleaf : isLeaf L (s.mem (entryAddr L T vs)))
    (hidx : lvIndex L va = lvIndex L vs) :
    view ptt (modState set clr (entryAddr L T vs) s).mem L T va =
      applyV set clr (view ptt s.mem L T va) := by
  have hea := entryAddr_congr (T := T) hidx
  have h1 : ¬ isTable ptt L ((modState set clr (entryAddr L T vs) s).mem (entryAddr L T va)) := by
    rw [hea, modState_mem, if_pos rfl]
    exact fun ht => ht.2 ((applyMask_isLeaf hm _ _).2 hleaf)
  have h2 : ¬ isTable ptt L (s.mem (entryAddr L T va)) := by
    rw [hea]; exact fun ht => ht.2 hleaf
  rw [view_stop h1, view_stop h2, hea, modState_mem, if_pos rfl]
  unfold applyV physOf
  rw [applyMask_PFN hm, attrOf_applyMask hm]

theorem or_splitProt_PFN (L e v : Nat) (hv : v < 2 ^ 48) (hal : v % 4096 = 0) :
    (v ||| splitProt L e) &&& PFN_MASK = v := by
  apply Nat.eq_of_testBit_eq
  intro i
  rw [Nat.testBit_and, Nat.testBit_or, testBit_splitProt, testBit_PFN_MASK]
  by_cases hp : 12 ≤ i ∧ i < 48
  · simp [hp.1, hp.2]
  · have hv0 : v.testBit i = false := by
      by_cases h1 : 12 ≤ i
      · exact testBit_false_of_lt hv (by omega)
      · exact testBit_aligned hal (by omega)
    have : (decide (12 ≤ i) && decide (i < 48)) = false := by
      by_cases h1 : 12 ≤ i
      · have : ¬ i < 48 := fun h2 => hp ⟨h1, h2⟩
        simp [this]
      · simp [h1]
    rw [this, hv0]; simp

theorem attrOf_or_splitProt (L e v : Nat) (hL : L + 1 = 1 ∨ L + 1 = 2) (hv : v < 2 ^ 48)
    (hal : v % 4096 = 0) : attrOf L (v ||| splitProt (L + 1) e) = attrOf (L + 1) e := by
  apply Nat.eq_of_testBit_eq
  intro i
  rw [testBit_attrOf, testBit_attrOf, Nat.testBit_or, testBit_splitProt]
  by_cases hp : 12 ≤ i ∧ i < 48
  · simp [hp.1, hp.2]
  · have hv0 : v.testBit i = false := by
      by_cases h1 : 12 ≤ i
      · exact testBit_false_of_lt hv (by omega)
      · exact testBit_aligned hal (by omega)
    have hpf : (decide (12 ≤ i) && decide (i < 48)) = false := by
      by_cases h1 : 12 ≤ i
      · have : ¬ i < 48 := fun h2 => hp ⟨h1, h2⟩
        simp [this]
      · simp [h1]
    rw [hv0, hpf]
    rcases hL with h | h
    · have h0 : L = 0 := by omega
      subst h0
      by_cases h7 : i = 7 <;> by_cases h64 : i < 64 <;> simp [h7, h64]
    · have h1 : L = 1 := by omega
      subst h1
      by_cases h7 : i = 7 <;> by_cases h64 : i < 64 <;> simp [h7, h64]

/-- The frame of entry `k` of the new table of a split. -/
theorem split_frame_bound {L : Nat} (hL : L + 1 = 1 ∨ L + 1 = 2) {f k : Nat} (hf : f < 2 ^ 48)
    (hal : f % lvSize (L + 1) = 0) (hk : k < 512) :
    u64 (f + k * lvSize L) = f + k * lvSize L ∧ f + k * lvSize L < 2 ^ 48 ∧
      (f + k * lvSize L) % 4096 = 0 ∧ (f + k * lvSize L) % lvSize L = 0 := by
  unfold u64 U64
  rcases hL with h | h
  · have h0 : L = 0 := by omega
    subst h0
    rw [lvSize_zero]
    rw [show lvSize (0 + 1) = 0x200000 from lvSize_one] at hal
    omega
  · have h1 : L = 1 := by omega
    subst h1
    rw [lvSize_one]
    rw [show lvSize (1 + 1) = 0x40000000 from lvSize_two] at hal
    omega

theorem mod_lvSize_succ {L : Nat} (hL : L + 1 = 1 ∨ L + 1 = 2) (va : Nat) :
    va % lvSize (L + 1) = lvIndex L va * lvSize L + va % lvSize L := by
  unfold lvIndex
  rcases hL with h | h
  · have h0 : L = 0 := by omega
    subst h0
    rw [lvSize_zero, show lvSize (0 + 1) = 0x200000 from lvSize_one]
    omega
  · have h1 : L = 1 := by omega
    subst h1
    rw [lvSize_one, show lvSize (1 + 1) = 0x40000000 from lvSize_two]
    omega

/-- Translation is preserved by a split: through the rewritten entry and
the new table every address has the physical address and the attributes it
had through the large entry. -/
theorem view_splitMem (ptt : _page_table_type) (L T p : Nat) (m : Mem) (va : Nat)
    (hL : L + 1 = 1 ∨ L + 1 = 2)
    (hlarge : m (entryAddr (L + 1) T va) &&& PAGE_PSE ≠ 0)
    (hal : (m (entryAddr (L + 1) T va) &&& PFN_MASK) % lvSize (L + 1) = 0)
    (hp : p % 4096 = 0) (hp2 : p < 2 ^ 48) (hne : ¬ inPage p (entryAddr (L + 1) T va)) :
    view ptt (splitMem (L + 1) (entryAddr (L + 1) T va) p m) (L + 1) T va =
      view ptt m (L + 1) T va := by
  have hleaf : isLeaf (L + 1) (m (entryAddr (L + 1) T va)) := Or.inr ⟨hL, hlarge⟩
  have hk := lvIndex_lt L va
  have hne2 : p + 8 * lvIndex L va ≠ entryAddr (L + 1) T va := by
    intro he
    apply hne
    rw [← he]; exact inPage_entry hk
  obtain ⟨b1, b2, b3, b4⟩ := split_frame_bound hL (and_PFN_lt (m (entryAddr (L + 1) T va))) hal hk
  have hval := splitMem_slot (L := L + 1) (m := m) hk hne2
  rw [Nat.add_sub_cancel, b1] at hval
  have ht : isTable ptt (L + 1)
      (splitMem (L + 1) (entryAddr (L + 1) T va) p m (entryAddr (L + 1) T va)) := by
    rw [splitMem_entry]; exact isTable_or7 ptt L p hp
  rw [view_table ht, splitMem_entry, or7_and_PFN p hp hp2]
  have hnt : ¬ isTable ptt L
      (splitMem (L + 1) (entryAddr (L + 1) T va) p m (entryAddr L p va)) := by
    show ¬ isTable ptt L (splitMem (L + 1) (entryAddr (L + 1) T va) p m (p + 8 * lvIndex L va))
    rw [hval]
    intro h
    apply h.2
    cases L with
    | zero => exact Or.inl rfl
    | succ L =>
      have hL1 : L = 0 := by omega
      subst hL1
      exact Or.inr ⟨Or.inl rfl, large_or_splitProt _ _ hlarge⟩
  rw [view_stop hnt, view_stop (fun h => h.2 hleaf)]
  show (physOf L (splitMem (L + 1) (entryAddr (L + 1) T va) p m (p + 8 * lvIndex L va)) va,
      attrOf L (splitMem (L + 1) (entryAddr (L + 1) T va) p m (p + 8 * lvIndex L va))) = _
  rw [hval, attrOf_or_splitProt L _ _ hL b2 b3]
  unfold physOf
  rw [or_splitProt_PFN _ _ _ b2 b3, mod_lvSize_succ hL va]
  rw [Nat.add_assoc]

theorem largeOK_splitMem {ptt : _page_table_type} {L T i : Nat} {s : PgState} {p : Nat}
    {rest : List Nat} (h : SepFrom ptt (L + 1) T 0 s) (hpool : s.pool = p :: rest)
    (hi : i < 512) (hleaf : isLeaf (L + 1) (s.mem (T + 8 * i)))
    (hal : (s.mem (T + 8 * i) &&& PFN_MASK) % lvSize (L + 1) = 0) :
    LargeOK ptt (splitMem (L + 1) (T + 8 * i) p s.mem) L p := by
  obtain ⟨hL, hlarge⟩ := isLeaf_succ hleaf
  cases L with
  | zero => trivial
  | succ L =>
    have hL1 : L = 0 := by omega
    subst hL1
    rw [LargeOK_succ]
    intro k hk
    have hp : p ∈ s.pool := by rw [hpool]; exact List.mem_cons_self _ _
    have hne : p + 8 * k ≠ T + 8 * i := by
      intro he
      apply entry_not_in_pool_page h hp hi
      rw [← he]; exact inPage_entry hk
    obtain ⟨b1, b2, b3, b4⟩ :=
      split_frame_bound (L := 1) (Or.inr rfl) (and_PFN_lt (s.mem (T + 8 * i))) hal hk
    have hval := splitMem_slot (L := 0 + 1 + 1) (m := s.mem) hk hne
    rw [show 0 + 1 + 1 - 1 = 1 from rfl, b1] at hval
    rw [hval]
    refine ⟨fun _ _ => ?_, fun ht => ?_⟩
    · rw [or_splitProt_PFN _ _ _ b2 b3]
      exact b4
    · exact absurd (Or.inr ⟨Or.inl rfl, large_or_splitProt _ _ hlarge⟩) ht.2

theorem Good.afterSplit {ptt : _page_table_type} {L T i : Nat} {s : PgState} {p : Nat}
    {rest : List Nat} (h : Good ptt (L + 1) T s) (hpool : s.pool = p :: rest)
    (hi : i < 512) (hp : pgentry_present ptt (s.mem (T + 8 * i)) ≠ 0)
    (hleaf : isLeaf (L + 1) (s.mem (T + 8 * i))) :
    Good ptt L p ⟨splitMem (L + 1) (T + 8 * i) p s.mem, rest⟩ :=
  ⟨SepFrom.split (h.1.mono (Nat.zero_le i)) hpool hi hleaf 0,
    largeOK_splitMem h.1 hpool hi hleaf ((((LargeOK_succ ptt s.mem L T).1 h.2) i hi).1 hp hleaf)⟩

/-- What the table says after writes confined to the tree below entry `i`
and to free pages: below entry `i` it is what the child table says, below
the other entries it is what it was. -/
theorem views_desc {ptt : _page_table_type} {L T i : Nat} {s : PgState} {m1 : Mem}
    (hsep : SepFrom ptt (L + 1) T 0 s) (hi : i < 512)
    (ht : isTable ptt (L + 1) (s.mem (T + 8 * i)))
    (hfr : ∀ a, m1 a ≠ s.mem a →
      ∃ p, (p ∈ tables ptt s.mem L (s.mem (T + 8 * i) &&& PFN_MASK) ∨ p ∈ s.pool) ∧ inPage p a) :
    (∀ va, lvIndex (L + 1) va = i →
      view ptt m1 (L + 1) T va = view ptt m1 L (s.mem (T + 8 * i) &&& PFN_MASK) va ∧
      view ptt s.mem (L + 1) T va = view ptt s.mem L (s.mem (T + 8 * i) &&& PFN_MASK) va) ∧
    (∀ va, lvIndex (L + 1) va ≠ i → view ptt m1 (L + 1) T va = view ptt s.mem (L + 1) T va) := by
  have hki := kid_eq_tables ht
  have hfr2 : ∀ a, m1 a ≠ s.mem a →
      a = T + 8 * i ∨ ∃ p, (p ∈ kid ptt s.mem (L + 1) T i ∨ p ∈ s.pool) ∧ inPage p a := by
    intro a ha
    obtain ⟨p, hp, hpa⟩ := hfr a ha
    exact Or.inr ⟨p, by rw [hki]; exact hp, hpa⟩
  have hent : m1 (T + 8 * i) = s.mem (T + 8 * i) := by
    by_contra hc
    obtain ⟨p, hp, hpa⟩ := hfr _ hc
    have hpal : p % 4096 = 0 := by
      rcases hp with hp | hp
      · rw [← hki] at hp; exact kid_aligned _ _ _ _ _ _ hp
      · exact (hsep.poolOk p hp).1
    have := inPage_disjoint hpal hsep.tAligned hpa (inPage_entry hi)
    subst this
    rcases hp with hp | hp
    · rw [← hki] at hp; exact hsep.kidT i (Nat.zero_le _) hi hp
    · exact hsep.tPool hp
  constructor
  · intro va hva
    subst hva
    have ht1 : isTable ptt (L + 1) (m1 (entryAddr (L + 1) T va)) := by
      show isTable ptt (L + 1) (m1 (T + 8 * lvIndex (L + 1) va))
      rw [hent]; exact ht
    refine ⟨?_, view_table ht⟩
    rw [view_table ht1]
    show view ptt m1 L (m1 (T + 8 * lvIndex (L + 1) va) &&& PFN_MASK) va = _
    rw [hent]
  · intro va hva
    exact view_other hsep hi hfr2 hva

theorem frame_pages {ptt : _page_table_type} {m : Mem} {L T i : Nat} {taken : List Nat}
    (pool : List Nat) {m1 : Mem} (hsub : ∀ p ∈ taken, p ∈ pool)
    (h : ∀ a, m1 a ≠ m a → Touch ptt m L T i taken a) :
    ∀ a, m1 a ≠ m a → ∃ p, (p ∈ tables ptt m L T ∨ p ∈ pool) ∧ inPage p a := by
  intro a ha
  obtain ⟨p, hp, hpa⟩ := (h a ha).page
  rcases hp with hp | hp
  · exact ⟨p, Or.inl hp, hpa⟩
  · exact ⟨p, Or.inr (hsub p hp), hpa⟩


theorem idx_in_range {L va vs ve : Nat} (hs : sameTable L va vs) (hle : vs ≤ va) (hlt : va < ve)
    (hstop : ve ≤ lvNext L vs ∨ ¬ lvIndex L vs + 1 < 512) : lvIndex L va = lvIndex L vs := by
  apply same_entry hs hle
  rcases hstop with h | h
  · left; omega
  · right; exact h

theorem mapped_iff_view (ptt : _page_table_type) (m : Mem) (L T va : Nat) :
    mapped ptt m L T va ↔ pgentry_present ptt (view ptt m L T va).2 ≠ 0 := by
  unfold mapped view
  exact (present_attrOf ptt _ _).symm

theorem view_present_leaf {ptt : _page_table_type} {m : Mem} {L T va vs : Nat}
    (hp : pgentry_present ptt (m (entryAddr L T vs)) ≠ 0) (hleaf : isLeaf L (m (entryAddr L T vs)))
    (h : lvIndex L va = lvIndex L vs) : pgentry_present ptt (view ptt m L T va).2 ≠ 0 := by
  rw [← entryAddr_congr (T := T) h] at hp hleaf
  rw [view_stop (fun ht => ht.2 hleaf)]
  exact (present_attrOf ptt _ _).2 hp

theorem views_combine (ptt : _page_table_type) {set clr : Nat} {a b c : Nat × Nat}
    (h1 : b = a ∨ (pgentry_present ptt a.2 ≠ 0 ∧ b = applyV set clr a))
    (h2 : c = b ∨ (pgentry_present ptt b.2 ≠ 0 ∧ c = applyV set clr b)) :
    c = a ∨ (pgentry_present ptt a.2 ≠ 0 ∧ c = applyV set clr a) := by
  rcases h1 with h1 | ⟨p1, h1⟩ <;> rcases h2 with h2 | ⟨p2, h2⟩
  · left; rw [h2, h1]
  · right; rw [h1] at p2; exact ⟨p2, by rw [h2, h1]⟩
  · right; exact ⟨p1, by rw [h2, h1]⟩
  · right; exact ⟨p1, by rw [h2, h1, applyV_idem]⟩

theorem views_after (ptt : _page_table_type) {set clr : Nat} {a b c : Nat × Nat}
    (h1 : b = applyV set clr a)
    (h2 : c = b ∨ (pgentry_present ptt b.2 ≠ 0 ∧ c = applyV set clr b)) :
    c = applyV set clr a := by
  rcases h2 with h2 | ⟨_, h2⟩
  · rw [h2, h1]
  · rw [h2, h1, applyV_idem]

/-- Writes confined to the tree below entry `i` and to free pages leave
entry `i` itself as it was. -/
theorem entry_kept {ptt : _page_table_type} {L T i : Nat} {s : PgState} {m1 : Mem}
    (hsep : SepFrom ptt (L + 1) T 0 s) (hi : i < 512)
    (ht : isTable ptt (L + 1) (s.mem (T + 8 * i)))
    (hfr : ∀ a, m1 a ≠ s.mem a →
      ∃ p, (p ∈ tables ptt s.mem L (s.mem (T + 8 * i) &&& PFN_MASK) ∨ p ∈ s.pool) ∧ inPage p a) :
    m1 (T + 8 * i) = s.mem (T + 8 * i) := by
  have hki := kid_eq_tables ht
  by_contra hc
  obtain ⟨p, hp, hpa⟩ := hfr _ hc
  have hpal : p % 4096 = 0 := by
    rcases hp with hp | hp
    · rw [← hki] at hp; exact kid_aligned _ _ _ _ _ _ hp
    · exact (hsep.poolOk p hp).1
  have := inPage_disjoint hpal hsep.tAligned hpa (inPage_entry hi)
  subst this
  rcases hp with hp | hp
  · rw [← hki] at hp; exact hsep.kidT i (Nat.zero_le _) hi hp
  · exact hsep.tPool hp

/-- What a run does to what the table says: every address keeps what it
had or, if it was mapped, has the masks applied to its attributes; after a
run that returns 0 every address of the range has the masks applied; a run
that returns an error stopped at an address `stop` of the range, from which
on every address keeps what it had, and when the error is `-ENOMEM` the
allocator is empty and `stop` is still mapped by a large entry that reaches
beyond the range. -/
theorem Run.views {ptt : _page_table_type} {set clr ve L T vs : Nat} {s : PgState}
    {res : Int × PgState} (hrun : Run ptt set clr ve L T vs s res) (hm : AttrMask set clr) :
    Good ptt L T s → vs < ve →
      (∀ va, view ptt res.2.mem L T va = view ptt s.mem L T va ∨
        (mapped ptt s.mem L T va ∧
          view ptt res.2.mem L T va = applyV set clr (view ptt s.mem L T va))) ∧
      (res.1 = 0 → ∀ va, sameTable L va vs → vs ≤ va → va < ve →
        view ptt res.2.mem L T va = applyV set clr (view ptt s.mem L T va)) ∧
      (res.1 ≠ 0 → ∃ stop, vs ≤ stop ∧ stop < ve ∧ sameTable L stop vs ∧
        (∀ va, sameTable L va vs → stop ≤ va →
          view ptt res.2.mem L T va = view ptt s.mem L T va) ∧
        (res.1 = -ENOMEM → res.2.pool = [] ∧ mapped ptt res.2.mem L T stop ∧
          ve < lvNext (slot ptt res.2.mem L T stop).1 stop)) := by
  simp only [mapped_iff_view]
  induction hrun with
  | notPresent L T vs s hp =>
    intro _ hlt
    refine ⟨fun _ => Or.inl rfl, fun h0 => ?_, fun _ => ?_⟩
    · simp [EFAULT] at h0
    · exact ⟨vs, le_refl _, hlt, sameTable_refl L vs, fun _ _ _ => rfl,
        fun h => absurd h EFAULT_ne_ENOMEM⟩
  | leafStop L T vs s hp hleaf hle hstop =>
    intro hg hlt
    have hmod : ∀ va, lvIndex L va = lvIndex L vs →
        view ptt (modState set clr (entryAddr L T vs) s).mem L T va =
          applyV set clr (view ptt s.mem L T va) := fun va h => view_modState hm hleaf h
    have hoth : ∀ va, lvIndex L va ≠ lvIndex L vs →
        view ptt (modState set clr (entryAddr L T vs) s).mem L T va = view ptt s.mem L T va :=
      fun va h => view_other hg.1 (lvIndex_lt L vs) (fun a ha => Or.inl (modify_ne ha)) h
    refine ⟨fun va => ?_, fun _ va hs hle2 hlt2 => ?_, fun hne => absurd rfl hne⟩
    · by_cases h : lvIndex L va = lvIndex L vs
      · exact Or.inr ⟨view_present_leaf hp hleaf h, hmod va h⟩
      · exact Or.inl (hoth va h)
    · apply hmod
      apply idx_in_range hs hle2 hlt2
      by_cases hi : lvIndex L vs + 1 < 512
      · left
        have : ¬ lvNext L vs < ve := fun h => hstop ⟨h, hi⟩
        omega
      · right; exact hi
  | leafCont L T vs s res hp hleaf hlt1 hidx hrun ih =>
    intro hg hlt
    have hk1 := kid_modState hg.1 hm (lvIndex_lt L vs) hleaf
    have hg1 : Good ptt L T (modState set clr (entryAddr L T vs) s) :=
      hg.keep hk1 (largeOK_modState hg.1 hm (lvIndex_lt L vs) hp hleaf hg.2) rfl
    obtain ⟨any1, done1, bey1⟩ := ih hg1 hlt1
    have hmod : ∀ va, lvIndex L va = lvIndex L vs →
        view ptt (modState set clr (entryAddr L T vs) s).mem L T va =
          applyV set clr (view ptt s.mem L T va) := fun va h => view_modState hm hleaf h
    have hoth : ∀ va, lvIndex L va ≠ lvIndex L vs →
        view ptt (modState set clr (entryAddr L T vs) s).mem L T va = view ptt s.mem L T va :=
      fun va h => view_other hg.1 (lvIndex_lt L vs) (fun a ha => Or.inl (modify_ne ha)) h
    have hany : ∀ va, lvIndex L va = lvIndex L vs →
        view ptt res.2.mem L T va = applyV set clr (view ptt s.mem L T va) :=
      fun va h => views_after ptt (hmod va h) (any1 va)
    refine ⟨fun va => ?_, fun h0 va hs hle2 hlt2 => ?_, fun hne => ?_⟩
    rotate_left 2
    · obtain ⟨stop, b1, b2, b3, b4, b5⟩ := bey1 hne
      have hvn := lvNext_gt L vs
      refine ⟨stop, by omega, b2, sameTable_trans b3 (sameTable_next hidx),
        fun va hs hle2 => ?_, b5⟩
      have hge := lvIndex_ge_of_next hs (by omega)
      have hne2 : lvIndex L va ≠ lvIndex L vs := by omega
      rw [← hoth va hne2]
      exact b4 va (sameTable_trans hs (sameTable_next hidx).symm) hle2
    · by_cases h : lvIndex L va = lvIndex L vs
      · exact Or.inr ⟨view_present_leaf hp hleaf h, hany va h⟩
      · rw [← hoth va h]; exact any1 va
    · by_cases hv : va < lvNext L vs
      · exact hany va (same_entry hs hle2 (Or.inl hv))
      · have hge := lvIndex_ge_of_next hs (not_lt.1 hv)
        have hne : lvIndex L va ≠ lvIndex L vs := by omega
        rw [← hoth va hne]
        exact done1 h0 va (sameTable_trans hs (sameTable_next hidx).symm) (not_lt.1 hv) hlt2
  | splitFail L T vs s hp hleaf hgt hpool =>
    intro _ hlt
    refine ⟨fun _ => Or.inl rfl, fun h0 => ?_, fun _ => ?_⟩
    · simp [ENOMEM] at h0
    · refine ⟨vs, le_refl _, hlt, sameTable_refl _ vs, fun _ _ _ => rfl,
        fun _ => ⟨hpool, view_present_leaf hp hleaf rfl, ?_⟩⟩
      rw [slot_stop (fun ht => ht.2 hleaf)]
      exact hgt
  | splitOk L T vs s s1 res hp hleaf hgt hpool hsplit hrun ih =>
    intro hg hlt
    obtain ⟨m, pool⟩ := s
    cases pool with
    | nil => exact absurd rfl hpool
    | cons p rest =>
      rw [split_large_page_cons _ (L + 1) ptt m p rest (isLeaf_succ hleaf).1] at hsplit
      have hs1 : s1 = ⟨splitMem (L + 1) (entryAddr (L + 1) T vs) p m, rest⟩ :=
        (Prod.mk.inj hsplit).2.symm
      subst hs1
      dsimp only at *
      have hsep := hg.1.mono (Nat.zero_le (lvIndex (L + 1) vs))
      have hpin : p ∈ (PgState.mk m (p :: rest)).pool := List.mem_cons_self _ _
      have hpok := hg.1.poolOk p hpin
      have hchild := split_child hsep hpin (L + 1) (entryAddr (L + 1) T vs)
      dsimp only at hchild
      rw [hchild] at hrun ih
      have hg1 : Good ptt L p ⟨splitMem (L + 1) (T + 8 * lvIndex (L + 1) vs) p m, rest⟩ :=
        Good.afterSplit hg rfl (lvIndex_lt _ vs) hp hleaf
      obtain ⟨any1, done1, bey1⟩ := ih hg1 hlt
      obtain ⟨taken, e1, e2⟩ := hrun.frame (hg1.1.mono (Nat.zero_le _))
      dsimp only at e1 e2 any1 done1 bey1
      have hpne : ¬ inPage p (T + 8 * lvIndex (L + 1) vs) :=
        entry_not_in_pool_page hg.1 hpin (lvIndex_lt _ vs)
      have hin : ∀ a, res.2.mem a ≠ splitMem (L + 1) (T + 8 * lvIndex (L + 1) vs) p m a →
          ∃ q ∈ p :: rest, inPage q a := by
        intro a ha
        obtain ⟨q, hq, hqa⟩ := (e2 a ha).page
        refine ⟨q, ?_, hqa⟩
        rcases hq with hq | hq
        · rcases (mem_tables_iff _ _ _ _ _).1 hq with hq | ⟨j, hj, hq⟩
          · rw [hq]; exact List.mem_cons_self _ _
          · have hk := kid_splitMem (s := PgState.mk m (p :: rest)) hsep rfl
              (lvIndex_lt _ vs) hleaf j hj
            dsimp only at hk
            rw [hk] at hq
            exact absurd hq (List.not_mem_nil _)
        · rw [e1]; exact List.mem_cons_of_mem _ (List.mem_append_left _ hq)
      have hent : res.2.mem (T + 8 * lvIndex (L + 1) vs) = p ||| 7 := by
        by_contra hc
        obtain ⟨q, hq, hqa⟩ := hin _ (by rw [splitMem_entry]; exact hc)
        exact entry_not_in_pool_page hg.1 hq (lvIndex_lt _ vs) hqa
      have hfr : ∀ a, res.2.mem a ≠ m a → a = T + 8 * lvIndex (L + 1) vs ∨
          ∃ q, (q ∈ kid ptt m (L + 1) T (lvIndex (L + 1) vs) ∨ q ∈ p :: rest) ∧ inPage q a := by
        intro a ha
        by_cases hc : res.2.mem a = splitMem (L + 1) (T + 8 * lvIndex (L + 1) vs) p m a
        · rw [hc] at ha
          rcases splitMem_ne ha with h | h
          · exact Or.inl h
          · exact Or.inr ⟨p, Or.inr (List.mem_cons_self _ _), h⟩
        · obtain ⟨q, hq, hqa⟩ := hin a hc
          exact Or.inr ⟨q, Or.inr hq, hqa⟩
      have hal := (((LargeOK_succ ptt m L T).1 hg.2) _ (lvIndex_lt _ vs)).1 hp hleaf
      have hsame : ∀ va, lvIndex (L + 1) va = lvIndex (L + 1) vs →
          view ptt res.2.mem (L + 1) T va = view ptt res.2.mem L p va ∧
          view ptt m (L + 1) T va =
            view ptt (splitMem (L + 1) (T + 8 * lvIndex (L + 1) vs) p m) L p va := by
        intro va hva
        have hea : entryAddr (L + 1) T va = T + 8 * lvIndex (L + 1) vs := by
          show T + 8 * lvIndex (L + 1) va = _
          rw [hva]
        constructor
        · have ht1 : isTable ptt (L + 1) (res.2.mem (entryAddr (L + 1) T va)) := by
            rw [hea, hent]; exact isTable_or7 ptt L p hpok.1
          rw [view_table ht1, hea, hent, or7_and_PFN p hpok.1 hpok.2]
        · have h1 := view_splitMem ptt L T p m va (isLeaf_succ hleaf).1
            (by rw [hea]; exact (isLeaf_succ hleaf).2) (by rw [hea]; exact hal)
            hpok.1 hpok.2 (by rw [hea]; exact hpne)
          rw [hea] at h1
          rw [← h1]
          have ht1 : isTable ptt (L + 1)
              (splitMem (L + 1) (T + 8 * lvIndex (L + 1) vs) p m (entryAddr (L + 1) T va)) := by
            rw [hea, splitMem_entry]; exact isTable_or7 ptt L p hpok.1
          rw [view_table ht1, hea, splitMem_entry, or7_and_PFN p hpok.1 hpok.2]
      refine ⟨fun va => ?_, fun h0 va hs hle2 hlt2 => ?_, fun hne => ?_⟩
      rotate_left 2
      · obtain ⟨stop, b1, b2, b3, b4, b5⟩ := bey1 hne
        have hidxs : lvIndex (L + 1) stop = lvIndex (L + 1) vs :=
          ((sameTable_desc L stop vs).1 b3).2
        refine ⟨stop, b1, b2, ((sameTable_desc L stop vs).1 b3).1, fun va hs hle2 => ?_,
          fun h => ?_⟩
        · by_cases h : lvIndex (L + 1) va = lvIndex (L + 1) vs
          · rw [(hsame va h).1, (hsame va h).2]
            exact b4 va ((sameTable_desc L va vs).2 ⟨hs, h⟩) hle2
          · exact view_other hg.1 (lvIndex_lt _ vs) hfr h
        · obtain ⟨c1, c2, c3⟩ := b5 h
          refine ⟨c1, by rw [(hsame stop hidxs).1]; exact c2, ?_⟩
          have hea : entryAddr (L + 1) T stop = T + 8 * lvIndex (L + 1) vs := by
            show T + 8 * lvIndex (L + 1) stop = _
            rw [hidxs]
          have ht1 : isTable ptt (L + 1) (res.2.mem (entryAddr (L + 1) T stop)) := by
            rw [hea, hent]; exact isTable_or7 ptt L p hpok.1
          rw [slot_table ht1, hea, hent, or7_and_PFN p hpok.1 hpok.2]
          exact c3
      · by_cases h : lvIndex (L + 1) va = lvIndex (L + 1) vs
        · rw [(hsame va h).1, (hsame va h).2]; exact any1 va
        · exact Or.inl (view_other hg.1 (lvIndex_lt _ vs) hfr h)
      · have h := idx_in_range hs hle2 hlt2 (Or.inl (le_of_lt hgt))
        rw [(hsame va h).1, (hsame va h).2]
        exact done1 h0 va ((sameTable_desc L va vs).2 ⟨hs, h⟩) hle2 hlt2
  | descStop L T vs s res hp hleaf hrun hstop ih =>
    intro hg hlt
    have ht : isTable ptt (L + 1) (s.mem (T + 8 * lvIndex (L + 1) vs)) := ⟨hp, hleaf⟩
    have hgc := hg.down (lvIndex_lt _ vs) ht
    obtain ⟨any1, done1, bey1⟩ := ih hgc hlt
    obtain ⟨taken, e1, e2⟩ := hrun.frame (hgc.1.mono (Nat.zero_le _))
    have hfr := frame_pages s.pool
      (fun q hq => by rw [e1]; exact List.mem_append_left _ hq) e2
    obtain ⟨v1, v2⟩ := views_desc hg.1 (lvIndex_lt _ vs) ht hfr
    have hent := entry_kept hg.1 (lvIndex_lt _ vs) ht hfr
    refine ⟨fun va => ?_, fun h0 va hs hle2 hlt2 => ?_, fun hne => ?_⟩
    rotate_left 2
    · obtain ⟨stop, b1, b2, b3, b4, b5⟩ := bey1 hne
      have hidxs : lvIndex (L + 1) stop = lvIndex (L + 1) vs :=
        ((sameTable_desc L stop vs).1 b3).2
      refine ⟨stop, b1, b2, ((sameTable_desc L stop vs).1 b3).1, fun va hs hle2 => ?_,
        fun h => ?_⟩
      · by_cases h : lvIndex (L + 1) va = lvIndex (L + 1) vs
        · rw [(v1 va h).1, (v1 va h).2]
          exact b4 va ((sameTable_desc L va vs).2 ⟨hs, h⟩) hle2
        · exact v2 va h
      · obtain ⟨c1, c2, c3⟩ := b5 h
        refine ⟨c1, by rw [(v1 stop hidxs).1]; exact c2, ?_⟩
        have hea : entryAddr (L + 1) T stop = T + 8 * lvIndex (L + 1) vs := by
          show T + 8 * lvIndex (L + 1) stop = _
          rw [hidxs]
        have ht1 : isTable ptt (L + 1) (res.2.mem (entryAddr (L + 1) T stop)) := by
          rw [hea, hent]; exact ht
        rw [slot_table ht1, hea, hent]
        exact c3
    · by_cases h : lvIndex (L + 1) va = lvIndex (L + 1) vs
      · rw [(v1 va h).1, (v1 va h).2]; exact any1 va
      · exact Or.inl (v2 va h)
    · have hst : ¬ (lvNext (L + 1) vs < ve ∧ lvIndex (L + 1) vs + 1 < 512) := by
        rcases hstop with h | h
        · exact absurd h0 h
        · exact h
      have h : lvIndex (L + 1) va = lvIndex (L + 1) vs := by
        apply idx_in_range hs hle2 hlt2
        by_cases hi : lvIndex (L + 1) vs + 1 < 512
        · left
          have : ¬ lvNext (L + 1) vs < ve := fun h => hst ⟨h, hi⟩
          omega
        · right; exact hi
      rw [(v1 va h).1, (v1 va h).2]
      exact done1 h0 va ((sameTable_desc L va vs).2 ⟨hs, h⟩) hle2 hlt2
  | descCont L T vs s s1 res hp hleaf hrun1 hlt2 hidx hrun2 ih1 ih2 =>
    intro hg hlt
    have ht : isTable ptt (L + 1) (s.mem (T + 8 * lvIndex (L + 1) vs)) := ⟨hp, hleaf⟩
    have hgc := hg.down (lvIndex_lt _ vs) ht
    obtain ⟨any1, done1, _⟩ := ih1 hgc hlt
    obtain ⟨taken, e1, e2⟩ := hrun1.frame (hgc.1.mono (Nat.zero_le _))
    obtain ⟨stop1, hc1⟩ := hrun1.control (hgc.1.mono (Nat.zero_le _)) hlt
    have hp1 : s1.pool = s.pool := (hc1.nosplit (le_of_lt hlt2)).2
    dsimp only at e1 e2 any1 done1
    have htk := pool_eq_of_append e1 hp1
    subst htk
    have hfr := frame_pages s.pool (fun q hq => by simp at hq) e2
    obtain ⟨v1, v2⟩ := views_desc hg.1 (lvIndex_lt _ vs) ht hfr
    obtain ⟨h1, h2⟩ := hrun1.keeps hm hgc hp1
    have hns := ns_desc hg (lvIndex_lt _ vs) ht (fun a ha => by
      obtain ⟨p, hq, hpa⟩ := (e2 a ha).page
      rcases hq with hq | hq
      · exact ⟨p, hq, hpa⟩
      · simp at hq) h1 h2
    have hg1 : Good ptt (L + 1) T s1 := hg.keep hns.1 hns.2 hp1
    obtain ⟨any2, done2, bey2⟩ := ih2 hg1 hlt2
    have anyA : ∀ va, view ptt s1.mem (L + 1) T va = view ptt s.mem (L + 1) T va ∨
        (pgentry_present ptt (view ptt s.mem (L + 1) T va).2 ≠ 0 ∧
          view ptt s1.mem (L + 1) T va = applyV set clr (view ptt s.mem (L + 1) T va)) := by
      intro va
      by_cases h : lvIndex (L + 1) va = lvIndex (L + 1) vs
      · rw [(v1 va h).1, (v1 va h).2]; exact any1 va
      · exact Or.inl (v2 va h)
    refine ⟨fun va => views_combine ptt (anyA va) (any2 va), fun h0 va hs hle2 hlt3 => ?_,
      fun hne => ?_⟩
    rotate_left
    · obtain ⟨stop, b1, b2, b3, b4, b5⟩ := bey2 hne
      have hvn := lvNext_gt (L + 1) vs
      refine ⟨stop, by omega, b2, sameTable_trans b3 (sameTable_next hidx),
        fun va hs hle2 => ?_, b5⟩
      have hge := lvIndex_ge_of_next hs (by omega)
      have hne2 : lvIndex (L + 1) va ≠ lvIndex (L + 1) vs := by omega
      rw [← v2 va hne2]
      exact b4 va (sameTable_trans hs (sameTable_next hidx).symm) hle2
    by_cases hv : va < lvNext (L + 1) vs
    · have h := same_entry hs hle2 (Or.inl hv)
      have hA : view ptt s1.mem (L + 1) T va = applyV set clr (view ptt s.mem (L + 1) T va) := by
        rw [(v1 va h).1, (v1 va h).2]
        exact done1 rfl va ((sameTable_desc L va vs).2 ⟨hs, h⟩) hle2 hlt3
      exact views_after ptt hA (any2 va)
    · have hge := lvIndex_ge_of_next hs (not_lt.1 hv)
      have hne : lvIndex (L + 1) va ≠ lvIndex (L + 1) vs := by omega
      rw [← v2 va hne]
      exact done2 h0 va (sameTable_trans hs (sameTable_next hidx).symm) (not_lt.1 hv) hlt3

theorem testBit_presentMask (ptt : _page_table_type) (i : Nat) :
    (presentMask ptt).testBit i = decide (i < (if ptt = PTT_HOST then 1 else 3)) := by
  cases ptt
  · simp only [presentMask, PAGE_PRESENT, if_true]
    exact testBit_one i
  · simp only [presentMask, EPT_RWX]
    rw [testBit_seven]
    simp

/-- Masks that clear no presence bit, or set one, keep a present entry
present. -/
theorem present_applyMask (ptt : _page_table_type) {set clr e : Nat}
    (hk : clr &&& presentMask ptt = 0 ∨ set &&& presentMask ptt ≠ 0)
    (hp : pgentry_present ptt e ≠ 0) : pgentry_present ptt (applyMask set clr e) ≠ 0 := by
  rw [present_iff] at hp ⊢
  rcases hk with hk | hk
  · obtain ⟨i, hi, hb⟩ := hp
    have hc : clr.testBit i = false := by
      apply testBit_of_and_eq_zero hk
      rw [testBit_presentMask]; simpa using hi
    have h64 : i < 64 := by
      split at hi <;> omega
    refine ⟨i, hi, ?_⟩
    rw [testBit_applyMask, hb, hc]
    simp [h64]
  · rw [and_ne_zero_iff] at hk
    obtain ⟨i, h1, h2⟩ := hk
    rw [testBit_presentMask] at h2
    refine ⟨i, by simpa using h2, ?_⟩
    rw [testBit_applyMask, h1]
    simp

theorem mmu_modify_size_zero (fuel root base set clr : Nat) (ptt : _page_table_type)
    (s : PgState) (hb : base % 4096 = 0) :
    mmu_modify fuel root base 0 set clr ptt s = some (0, s) := by
  rw [mmu_modify_aligned _ _ _ _ _ _ _ _ hb (by decide)]
  have hu : ¬ base < u64 (base + 0) := by
    unfold u64
    have := Nat.mod_le base U64
    simpa using this
  cases fuel with
  | zero => unfold mmu_modify_loop; rw [if_neg hu]
  | succ n => unfold mmu_modify_loop; rw [if_neg hu]

/-- What `mmu_modify` does to what a well-formed table says, for masks that
change attributes only and a range inside the 48-bit address space. -/
theorem mmu_modify_views (ptt : _page_table_type) (set clr root base size : Nat) (s : PgState)
    (fuel : Nat) (hf : 512 ≤ fuel) (hwf : WellFormed ptt root s) (hm : AttrMask set clr)
    (hend : base + size ≤ 2 ^ 48) :
    ∃ res, mmu_modify fuel root base size set clr ptt s = some res ∧
      (∀ va, view ptt res.2.mem 3 root va = view ptt s.mem 3 root va ∨
        (mapped ptt s.mem 3 root va ∧
          view ptt res.2.mem 3 root va = applyV set clr (view ptt s.mem 3 root va))) ∧
      (res.1 = 0 → ∀ va, base ≤ va → va < base + size →
        mapped ptt s.mem 3 root va ∧
          view ptt res.2.mem 3 root va = applyV set clr (view ptt s.mem 3 root va)) := by
  by_cases hal : base % 4096 = 0 ∧ size % 4096 = 0
  · by_cases hpos : 0 < size
    · obtain ⟨res, stop, e, hrun, hc⟩ :=
        mmu_modify_ctl ptt set clr root base size s fuel hf hwf.1 hal.1 hal.2 hpos hend
      obtain ⟨hany, hdone, _⟩ := hrun.views hm ⟨hwf.1.sepFrom 0, hwf.2⟩ (by omega)
      refine ⟨res, e, hany, fun h0 va h1 h2 => ?_⟩
      have hst : sameTable 3 va base := sameTable_three (by omega) (by omega)
      exact ⟨hc.below va hst h1 (by rw [hc.ok h0]; exact h2), hdone h0 va hst h1 h2⟩
    · have h0 : size = 0 := by omega
      subst h0
      refine ⟨(0, s), mmu_modify_size_zero fuel root base set clr ptt s hal.1,
        fun _ => Or.inl rfl, fun _ va h1 h2 => ?_⟩
      omega
  · refine ⟨(-EINVAL, s), mmu_modify_einval fuel root base size set clr ptt s (by omega),
      fun _ => Or.inl rfl, fun h0 => ?_⟩
    simp [EINVAL] at h0

theorem some_of_map_fst {o : Option (Int × PgState)} {r : Int} (d : Int × PgState)
    (h : o.map Prod.fst = some r) : o = some (r, (o.getD d).2) := by
  cases o with
  | none => simp at h
  | some x =>
    simp only [Option.map_some', Option.some.injEq] at h
    subst h
    rfl

theorem exMem_lt (a : Nat) : exMem a < 2 ^ 64 := by
  unfold exMem
  split_ifs <;> decide

/-- A call of `mmu_modify` that returns `-ENOMEM`, on a well-formed table
with masks that change attributes only: the allocator is empty, the walk
stopped at an address `stop` of the range that is still mapped by a large
entry reaching beyond the range, and from `stop` on every address keeps what
the table said about it. -/
theorem mmu_modify_beyond (ptt : _page_table_type) (set clr root base size : Nat) (s : PgState)
    (fuel : Nat) (hf : 512 ≤ fuel) (hwf : WellFormed ptt root s) (hm : AttrMask set clr)
    (hb : base % 4096 = 0) (hs : size % 4096 = 0) (hend : base + size ≤ 2 ^ 48)
    (s1 : PgState) (hret : mmu_modify fuel root base size set clr ptt s = some (-ENOMEM, s1)) :
    ∃ stop, base ≤ stop ∧ stop < base + size ∧ s1.pool = [] ∧
      mapped ptt s1.mem 3 root stop ∧
      base + size < lvNext (slot ptt s1.mem 3 root stop).1 stop ∧
      (∀ va, stop ≤ va → va < 2 ^ 48 → view ptt s1.mem 3 root va = view ptt s.mem 3 root va) := by
  have hpos : 0 < size := by
    by_contra h0
    have h0 : size = 0 := by omega
    subst h0
    rw [mmu_modify_size_zero fuel root base set clr ptt s hb] at hret
    simp [ENOMEM] at hret
  obtain ⟨res, h1, hrun⟩ := mmu_modify_run ptt set clr root base size s fuel hf hb hs hpos hend
  rw [hret] at h1
  have hres : res = (-ENOMEM, s1) := (Option.some.inj h1).symm
  subst hres
  obtain ⟨_, _, hbey⟩ := hrun.views hm ⟨hwf.1.sepFrom 0, hwf.2⟩ (by omega)
  obtain ⟨stop, b1, b2, b3, b4, b5⟩ := hbey ENOMEM_ne_zero
  obtain ⟨c1, c2, c3⟩ := b5 rfl
  refine ⟨stop, b1, b2, c1, c2, c3, fun va h1 h2 => ?_⟩
  exact b4 va (sameTable_three h2 (by omega)) h1

/-- With an allocator that has no page, a fully mapped range that covers a
large page only in part makes `mmu_modify` return `-ENOMEM` at an address
`stop`: the entry governing `stop` reaches beyond the range, and every entry
governing an address at or beyond `stop` keeps its value. -/
theorem mmu_modify_enomem_empty (ptt : _page_table_type) (set clr root base size : Nat)
    (s : PgState) (fuel : Nat) (hf : 512 ≤ fuel) (hsep : Separated ptt root s)
    (hb : base % 4096 = 0) (hs : size % 4096 = 0) (hend : base + size ≤ 2 ^ 48)
    (hpool : s.pool = [])
    (hmapped : ∀ va, base ≤ va → va < base + size → mapped ptt s.mem 3 root va)
    (va0 : Nat) (h1 : base ≤ va0) (h2 : va0 < base + size)
    (hneed : base + size < lvNext (slot ptt s.mem 3 root va0).1 va0) :
    ∃ s1 stop, mmu_modify fuel root base size set clr ptt s = some (-ENOMEM, s1) ∧
      base ≤ stop ∧ stop < base + size ∧ s1.pool = [] ∧
      mapped ptt s.mem 3 root stop ∧
      base + size < lvNext (slot ptt s.mem 3 root stop).1 stop ∧
      (∀ va, stop ≤ va → va < 2 ^ 48 →
        s1.mem (slot ptt s.mem 3 root va).2 = s.mem (slot ptt s.mem 3 root va).2) := by
  obtain ⟨res, stop, e, hrun, hc⟩ :=
    mmu_modify_ctl ptt set clr root base size s fuel hf hsep hb hs (by omega) hend
  have hst : ∀ v, v < base + size → sameTable 3 v base := fun v hv =>
    sameTable_three (by omega) (by omega)
  have hp : res.2.pool = s.pool := hrun.pool_nil (hsep.sepFrom _) hpool
  have h0 : res.1 = -ENOMEM := by
    rcases mmu_modify_codes3 e hb hs with h0 | h0 | h0
    · have := hc.needs h0 hp va0 (hst va0 h2) h1 h2
      omega
    · have := (hc.bad (by rw [h0]; exact EFAULT_ne_zero)).1
      exact absurd (hmapped stop hc.le1 this) (hc.efault h0).1
    · exact h0
  have hne : res.1 ≠ 0 := by rw [h0]; exact ENOMEM_ne_zero
  obtain ⟨g1, g2, g3⟩ := hc.enomem h0
  refine ⟨res.2, stop, by rw [e, ← h0], hc.le1, (hc.bad hne).1, g1, g2, g3, ?_⟩
  intro va a1 a2
  exact hc.above (hsep.sepFrom 0) hne hp va (sameTable_three a2 (by omega)) a1

/-- A run that starts at an address that is not mapped fails at once: it
returns `-EFAULT` and leaves the state as it was. -/
theorem Run.unmapped {ptt : _page_table_type} {set clr ve L T vs : Nat} {s : PgState}
    {res : Int × PgState} (hrun : Run ptt set clr ve L T vs s res) :
    ¬ mapped ptt s.mem L T vs → res = (-EFAULT, s) := by
  induction hrun with
  | notPresent L T vs s hp => intro _; rfl
  | leafStop L T vs s hp hleaf hle hstop =>
    intro h
    exact absurd ((mapped_of_stop (fun ht => ht.2 hleaf)).2 hp) h
  | leafCont L T vs s res hp hleaf hlt1 hidx hrun ih =>
    intro h
    exact absurd ((mapped_of_stop (fun ht => ht.2 hleaf)).2 hp) h
  | splitFail L T vs s hp hleaf hgt hpool =>
    intro h
    exact absurd ((mapped_of_stop (fun ht => ht.2 hleaf)).2 hp) h
  | splitOk L T vs s s1 res hp hleaf hgt hpool hsplit hrun ih =>
    intro h
    exact absurd ((mapped_of_stop (fun ht => ht.2 hleaf)).2 hp) h
  | descStop L T vs s res hp hleaf hrun hstop ih =>
    intro h
    exact ih (fun hm => h ((mapped_child ⟨hp, hleaf⟩ (sameTable_refl L vs)).2 hm))
  | descCont L T vs s s1 res hp hleaf hrun1 hlt2 hidx hrun2 ih1 ih2 =>
    intro h
    have := ih1 (fun hm => h ((mapped_child ⟨hp, hleaf⟩ (sameTable_refl L vs)).2 hm))
    have h0 := congrArg Prod.fst this
    simp [EFAULT] at h0

theorem modify_pte_loop_tr_fst (pt_page ve set clr : Nat) (ptt : _page_table_type) :
    ∀ (n index vaddr : Nat) (m : Mem),
      (modify_pte_loop_tr pt_page ve set clr ptt n index vaddr m).1 =
        modify_pte_loop pt_page ve set clr ptt n index vaddr m := by
  intro n
  induction n with
  | zero => intro index vaddr m; rfl
  | succ n ih =>
    intro index vaddr m
    unfold modify_pte_loop_tr modify_pte_loop
    simp only
    split_ifs
    · rfl
    · rfl
    · exact ih _ _ _

theorem modify_pde_loop_tr_fst (pd_page ve set clr : Nat) (ptt : _page_table_type) :
    ∀ (n index vaddr : Nat) (ret : Int) (s : PgState),
      (modify_pde_loop_tr pd_page ve set clr ptt n index vaddr ret s).1 =
        modify_pde_loop pd_page ve set clr ptt n index vaddr ret s := by
  intro n
  induction n with
  | zero => intro index vaddr ret s; rfl
  | succ n ih =>
    intro index vaddr ret s
    unfold modify_pde_loop_tr modify_pde_loop
    simp only
    split_ifs <;> first | rfl | exact ih _ _ _ _

theorem modify_pdpte_loop_tr_fst (pdpt_page ve set clr : Nat) (ptt : _page_table_type) :
    ∀ (n index vaddr : Nat) (ret : Int) (s : PgState),
      (modify_pdpte_loop_tr pdpt_page ve set clr ptt n index vaddr ret s).1 =
        modify_pdpte_loop pdpt_page ve set clr ptt n index vaddr ret s := by
  intro n
  induction n with
  | zero => intro index vaddr ret s; rfl
  | succ n ih =>
    intro index vaddr ret s
    unfold modify_pdpte_loop_tr modify_pdpte_loop
    simp only
    split_ifs <;> first | rfl | exact ih _ _ _ _

theorem mmu_modify_loop_tr_fst (root ve set clr : Nat) (ptt : _page_table_type) :
    ∀ (n vaddr : Nat) (s : PgState),
      (mmu_modify_loop_tr root ve set clr ptt n vaddr s).1 =
        mmu_modify_loop root ve set clr ptt n vaddr s := by
  intro n
  induction n with
  | zero => intro vaddr s; rfl
  | succ n ih =>
    intro vaddr s
    unfold mmu_modify_loop_tr mmu_modify_loop
    simp only
    split_ifs <;> first | rfl | exact ih _ _

theorem pte_index_step (vaddr : Nat) (_h : vaddr < 2 ^ 64) (hi : pte_index vaddr + 1 < 512) :
    pte_index (u64 (vaddr + PTE_SIZE)) = pte_index vaddr + 1 := by
  rw [pte_index_eq, pte_index_eq] at *
  unfold lvIndex at *
  rw [lvSize_zero] at *
  unfold u64 U64 PTE_SIZE
  omega

theorem pde_index_step (vaddr : Nat) (h : vaddr < 2 ^ 64) (hi : pde_index vaddr + 1 < 512) :
    pde_index (u64 ((vaddr &&& PDE_MASK) + PDE_SIZE)) = pde_index vaddr + 1 := by
  rw [pde_index_eq, pde_index_eq] at *
  rw [and_PDE_MASK vaddr h]
  unfold lvIndex at *
  rw [lvSize_one] at *
  unfold u64 U64 PDE_SIZE
  omega

theorem pdpte_index_step (vaddr : Nat) (h : vaddr < 2 ^ 64) (hi : pdpte_index vaddr + 1 < 512) :
    pdpte_index (u64 ((vaddr &&& PDPTE_MASK) + PDPTE_SIZE)) = pdpte_index vaddr + 1 := by
  rw [pdpte_index_eq, pdpte_index_eq] at *
  rw [and_PDPTE_MASK vaddr h]
  unfold lvIndex at *
  rw [lvSize_two] at *
  unfold u64 U64 PDPTE_SIZE
  omega

theorem u64_lt (x : Nat) : u64 x < 2 ^ 64 := by
  unfold u64 U64
  exact Nat.mod_lt _ (by decide)

/-- The walker invariant of the loop of `modify_pte`, and the bound on the
number of its iterations. -/
theorem modify_pte_loop_tr_inv (pt_page ve set clr : Nat) (ptt : _page_table_type) :
    ∀ (n index vaddr : Nat) (m : Mem), n + index = 512 →
      (0 < n → index = pte_index vaddr ∧ vaddr < 2 ^ 64) →
      (∀ p ∈ (modify_pte_loop_tr pt_page ve set clr ptt n index vaddr m).2,
        p.1 < 512 ∧ p.1 = pte_index p.2) ∧
      (modify_pte_loop_tr pt_page ve set clr ptt n index vaddr m).2.length ≤ n := by
  intro n
  induction n with
  | zero =>
    intro index vaddr m _ _
    exact ⟨fun p hp => by simp [modify_pte_loop_tr] at hp, by simp [modify_pte_loop_tr]⟩
  | succ n ih =>
    intro index vaddr m hn hinv
    obtain ⟨h1, h2⟩ := hinv (Nat.succ_pos n)
    have hhead : index < 512 ∧ index = pte_index vaddr := ⟨by omega, h1⟩
    have hrec := ih (index + 1) (u64 (vaddr + PTE_SIZE))
      (__modify_pte m (pt_page + 8 * index) set clr) (by omega)
      (fun hpos => ⟨by rw [pte_index_step vaddr h2 (by omega), ← h1], u64_lt _⟩)
    unfold modify_pte_loop_tr
    simp only
    split_ifs
    · exact ⟨fun p hp => by simp at hp; subst hp; exact hhead, by simp⟩
    · exact ⟨fun p hp => by simp at hp; subst hp; exact hhead, by simp⟩
    · refine ⟨fun p hp => ?_, ?_⟩
      · simp only [List.mem_cons] at hp
        rcases hp with hp | hp
        · subst hp; exact hhead
        · exact hrec.1 p hp
      · simp only [List.length_cons]
        have := hrec.2
        omega

/-- The walker invariant of the loop of `modify_pde`, and the bound on the
number of its iterations. -/
theorem modify_pde_loop_tr_inv (pd_page ve set clr : Nat) (ptt : _page_table_type) :
    ∀ (n index vaddr : Nat) (ret : Int) (s : PgState), n + index = 512 →
      (0 < n → index = pde_index vaddr ∧ vaddr < 2 ^ 64) →
      (∀ p ∈ (modify_pde_loop_tr pd_page ve set clr ptt n index vaddr ret s).2,
        p.1 < 512 ∧ p.1 = pde_index p.2) ∧
      (modify_pde_loop_tr pd_page ve set clr ptt n index vaddr ret s).2.length ≤ n := by
  intro n
  induction n with
  | zero =>
    intro index vaddr ret s _ _
    exact ⟨fun p hp => by simp [modify_pde_loop_tr] at hp, by simp [modify_pde_loop_tr]⟩
  | succ n ih =>
    intro index vaddr ret s hn hinv
    obtain ⟨h1, h2⟩ := hinv (Nat.succ_pos n)
    have hhead : index < 512 ∧ index = pde_index vaddr := ⟨by omega, h1⟩
    have hrec := fun (r : Int) (s0 : PgState) =>
      ih (index + 1) (u64 ((vaddr &&& PDE_MASK) + PDE_SIZE)) r s0 (by omega)
        (fun hpos => ⟨by rw [pde_index_step vaddr h2 (by omega), ← h1], u64_lt _⟩)
    have one : ∀ (l : List (Nat × Nat)), l = [(index, vaddr)] →
        (∀ p ∈ l, p.1 < 512 ∧ p.1 = pde_index p.2) ∧ l.length ≤ n + 1 := by
      intro l hl
      subst hl
      exact ⟨fun p hp => by simp at hp; subst hp; exact hhead, by simp⟩
    have more : ∀ (r : Int) (s0 : PgState) (l : List (Nat × Nat)),
        l = (index, vaddr) :: (modify_pde_loop_tr pd_page ve set clr ptt n (index + 1)
          (u64 ((vaddr &&& PDE_MASK) + PDE_SIZE)) r s0).2 →
        (∀ p ∈ l, p.1 < 512 ∧ p.1 = pde_index p.2) ∧ l.length ≤ n + 1 := by
      intro r s0 l hl
      subst hl
      refine ⟨fun p hp => ?_, ?_⟩
      · simp only [List.mem_cons] at hp
        rcases hp with hp | hp
        · subst hp; exact hhead
        · exact (hrec r s0).1 p hp
      · simp only [List.length_cons]
        have := (hrec r s0).2
        omega
    unfold modify_pde_loop_tr
    simp only
    split_ifs <;> first | exact one _ rfl | exact more _ _ _ rfl

/-- The walker invariant of the loop of `modify_pdpte`, and the bound on the
number of its iterations. -/
theorem modify_pdpte_loop_tr_inv (pdpt_page ve set clr : Nat) (ptt : _page_table_type) :
    ∀ (n index vaddr : Nat) (ret : Int) (s : PgState), n + index = 512 →
      (0 < n → index = pdpte_index vaddr ∧ vaddr < 2 ^ 64) →
      (∀ p ∈ (modify_pdpte_loop_tr pdpt_page ve set clr ptt n index vaddr ret s).2,
        p.1 < 512 ∧ p.1 = pdpte_index p.2) ∧
      (modify_pdpte_loop_tr pdpt_page ve set clr ptt n index vaddr ret s).2.length ≤ n := by
  intro n
  induction n with
  | zero =>
    intro index vaddr ret s _ _
    exact ⟨fun p hp => by simp [modify_pdpte_loop_tr] at hp, by simp [modify_pdpte_loop_tr]⟩
  | succ n ih =>
    intro index vaddr ret s hn hinv
    obtain ⟨h1, h2⟩ := hinv (Nat.succ_pos n)
    have hhead : index < 512 ∧ index = pdpte_index vaddr := ⟨by omega, h1⟩
    have hrec := fun (r : Int) (s0 : PgState) =>
      ih (index + 1) (u64 ((vaddr &&& PDPTE_MASK) + PDPTE_SIZE)) r s0 (by omega)
        (fun hpos => ⟨by rw [pdpte_index_step vaddr h2 (by omega), ← h1], u64_lt _⟩)
    have one : ∀ (l : List (Nat × Nat)), l = [(index, vaddr)] →
        (∀ p ∈ l, p.1 < 512 ∧ p.1 = pdpte_index p.2) ∧ l.length ≤ n + 1 := by
      intro l hl
      subst hl
      exact ⟨fun p hp => by simp at hp; subst hp; exact hhead, by simp⟩
    have more : ∀ (r : Int) (s0 : PgState) (l : List (Nat × Nat)),
        l = (index, vaddr) :: (modify_pdpte_loop_tr pdpt_page ve set clr ptt n (index + 1)
          (u64 ((vaddr &&& PDPTE_MASK) + PDPTE_SIZE)) r s0).2 →
        (∀ p ∈ l, p.1 < 512 ∧ p.1 = pdpte_index p.2) ∧ l.length ≤ n + 1 := by
      intro r s0 l hl
      subst hl
      refine ⟨fun p hp => ?_, ?_⟩
      · simp only [List.mem_cons] at hp
        rcases hp with hp | hp
        · subst hp; exact hhead
        · exact (hrec r s0).1 p hp
      · simp only [List.length_cons]
        have := (hrec r s0).2
        omega
    unfold modify_pdpte_loop_tr
    simp only
    split_ifs <;> first | exact one _ rfl | exact more _ _ _ rfl

/-- The loop of `mmu_modify` for a range that ends at most at
`2 ^ 64 - 2 ^ 39`: every iteration starts at an address of the range, at or
above the address the loop was entered with, and each iteration starts in a
later 512 GiB region than the ones before it. -/
theorem mmu_modify_loop_tr_inv (root ve set clr : Nat) (ptt : _page_table_type)
    (hve : ve ≤ 2 ^ 64 - 2 ^ 39) :
    ∀ (n vaddr : Nat) (s : PgState),
      (∀ v ∈ (mmu_modify_loop_tr root ve set clr ptt n vaddr s).2, vaddr ≤ v ∧ v < ve) ∧
      (mmu_modify_loop_tr root ve set clr ptt n vaddr s).2.Pairwise
        (fun a b => a / lvSize 3 < b / lvSize 3) := by
  intro n
  induction n with
  | zero =>
    intro vaddr s
    exact ⟨fun v hv => by simp [mmu_modify_loop_tr] at hv, by simp [mmu_modify_loop_tr]⟩
  | succ n ih =>
    intro vaddr s
    unfold mmu_modify_loop_tr
    by_cases hlt : vaddr < ve
    · have hnext : u64 ((vaddr &&& PML4E_MASK) + PML4E_SIZE) = lvNext 3 vaddr := by
        rw [and_PML4E_MASK vaddr (by omega)]
        unfold lvNext u64 U64 PML4E_SIZE
        rw [lvSize_three]
        apply Nat.mod_eq_of_lt
        have := Nat.div_mul_le_self vaddr 0x8000000000
        omega
      have one : ∀ (l : List Nat), l = [vaddr] →
          (∀ v ∈ l, vaddr ≤ v ∧ v < ve) ∧
            l.Pairwise (fun a b => a / lvSize 3 < b / lvSize 3) := by
        intro l hl
        subst hl
        exact ⟨fun v hv => by simp at hv; subst hv; exact ⟨le_refl _, hlt⟩, by simp⟩
      have more : ∀ (s0 : PgState) (l : List Nat),
          l = vaddr :: (mmu_modify_loop_tr root ve set clr ptt n
            (u64 ((vaddr &&& PML4E_MASK) + PML4E_SIZE)) s0).2 →
          (∀ v ∈ l, vaddr ≤ v ∧ v < ve) ∧
            l.Pairwise (fun a b => a / lvSize 3 < b / lvSize 3) := by
        intro s0 l hl
        subst hl
        obtain ⟨i1, i2⟩ := ih (u64 ((vaddr &&& PML4E_MASK) + PML4E_SIZE)) s0
        have hgt := lvNext_gt 3 vaddr
        refine ⟨fun v hv => ?_, ?_⟩
        · simp only [List.mem_cons] at hv
          rcases hv with hv | hv
          · subst hv; exact ⟨le_refl _, hlt⟩
          · have h1 := (i1 v hv).1
            rw [hnext] at h1
            exact ⟨by omega, (i1 v hv).2⟩
        · rw [List.pairwise_cons]
          refine ⟨fun b hb => ?_, i2⟩
          have h1 := (i1 b hb).1
          rw [hnext] at h1
          exact (lvNext_le_iff 3 vaddr b).1 h1
      simp only [hlt, if_true]
      split_ifs <;> first | exact one _ rfl | exact more _ _ rfl
    · simp only [hlt, if_false]
      exact ⟨fun v hv => by simp at hv, by simp⟩

/-- The loop of `split_large_page` writes the `n` entries of the new table
from `i` on, and nothing else. -/
theorem split_fill_writes (pbase ref_prot paddrinc : Nat) :
    ∀ (n i paddr : Nat) (m : Mem) (a : Nat),
      split_fill pbase ref_prot paddrinc n i paddr m a ≠ m a →
        ∃ k, i ≤ k ∧ k < i + n ∧ a = pbase + 8 * k := by
  intro n
  induction n with
  | zero => intro i paddr m a h; exact absurd rfl h
  | succ n ih =>
    intro i paddr m a h
    unfold split_fill at h
    by_cases hc : split_fill pbase ref_prot paddrinc n (i + 1) (u64 (paddr + paddrinc))
        (set_pte m (pbase + 8 * i) (paddr ||| ref_prot)) a =
        set_pte m (pbase + 8 * i) (paddr ||| ref_prot) a
    · rw [hc] at h
      have : a = pbase + 8 * i := by
        by_contra hne
        apply h
        simp [set_pte, hne]
      exact ⟨i, le_refl _, by omega, this⟩
    · obtain ⟨k, h1, h2, h3⟩ := ih _ _ _ _ hc
      exact ⟨k, by omega, by omega, h3⟩

theorem mmu_modify_iters_aligned (fuel root base size set clr : Nat) (ptt : _page_table_type)
    (s : PgState) (hb : base % 4096 = 0) (hs : size % 4096 = 0) :
    mmu_modify_iters fuel root base size set clr ptt s =
      (mmu_modify_loop_tr root (u64 (base + size)) set clr ptt fuel base s).2 := by
  unfold mmu_modify_iters
  simp only [MEM_ALIGNED_CHECK_4K, hb, hs, decide_True, Bool.not_true, Bool.or_self,
    Bool.false_eq_true, if_false]

theorem modify_pte_iters_inv (pde vs ve set clr : Nat) (ptt : _page_table_type) (s : PgState)
    (h : vs < 2 ^ 64) :
    (∀ p ∈ modify_pte_iters pde vs ve set clr ptt s, p.1 < 512 ∧ p.1 = pte_index p.2) ∧
      (modify_pte_iters pde vs ve set clr ptt s).length ≤ 512 := by
  have hi : pte_index vs < 512 := by rw [pte_index_eq]; exact lvIndex_lt 0 vs
  have := modify_pte_loop_tr_inv (pde_page_vaddr (s.mem pde)) ve set clr ptt
    (PTRS_PER_PTE - pte_index vs) (pte_index vs) vs s.mem (by unfold PTRS_PER_PTE; omega)
    (fun _ => ⟨rfl, h⟩)
  exact ⟨this.1, le_trans this.2 (by unfold PTRS_PER_PTE; omega)⟩

theorem modify_pde_iters_inv (pdpte vs ve set clr : Nat) (ptt : _page_table_type) (s : PgState)
    (h : vs < 2 ^ 64) :
    (∀ p ∈ modify_pde_iters pdpte vs ve set clr ptt s, p.1 < 512 ∧ p.1 = pde_index p.2) ∧
      (modify_pde_iters pdpte vs ve set clr ptt s).length ≤ 512 := by
  have hi : pde_index vs < 512 := by rw [pde_index_eq]; exact lvIndex_lt 1 vs
  have := modify_pde_loop_tr_inv (pdpte_page_vaddr (s.mem pdpte)) ve set clr ptt
    (PTRS_PER_PDE - pde_index vs) (pde_index vs) vs 0 s (by unfold PTRS_PER_PDE; omega)
    (fun _ => ⟨rfl, h⟩)
  exact ⟨this.1, le_trans this.2 (by unfold PTRS_PER_PDE; omega)⟩

theorem modify_pdpte_iters_inv (pml4e vs ve set clr : Nat) (ptt : _page_table_type)
    (s : PgState) (h : vs < 2 ^ 64) :
    (∀ p ∈ modify_pdpte_iters pml4e vs ve set clr ptt s, p.1 < 512 ∧ p.1 = pdpte_index p.2) ∧
      (modify_pdpte_iters pml4e vs ve set clr ptt s).length ≤ 512 := by
  have hi : pdpte_index vs < 512 := by rw [pdpte_index_eq]; exact lvIndex_lt 2 vs
  have := modify_pdpte_loop_tr_inv (pml4e_page_vaddr (s.mem pml4e)) ve set clr ptt
    (PTRS_PER_PDPTE - pdpte_index vs) (pdpte_index vs) vs 0 s (by unfold PTRS_PER_PDPTE; omega)
    (fun _ => ⟨rfl, h⟩)
  exact ⟨this.1, le_trans this.2 (by unfold PTRS_PER_PDPTE; omega)⟩

/-- A run over a table entry whose region holds the rest of the range is
the run of the table below it. -/
theorem Run.descend {ptt : _page_table_type} {set clr ve L T vs : Nat} {s : PgState}
    {res : Int × PgState} (hrun : Run ptt set clr ve (L + 1) T vs s res)
    (ht : isTable ptt (L + 1) (s.mem (entryAddr (L + 1) T vs)))
    (hle : ve ≤ lvNext (L + 1) vs) :
    Run ptt set clr ve L (s.mem (entryAddr (L + 1) T vs) &&& PFN_MASK) vs s res := by
  cases hrun with
  | notPresent _ _ _ _ hp => exact absurd hp ht.1
  | leafStop _ _ _ _ hp hleaf _ _ => exact absurd hleaf ht.2
  | leafCont _ _ _ _ _ hp hleaf _ _ _ => exact absurd hleaf ht.2
  | splitFail _ _ _ _ hp hleaf _ _ => exact absurd hleaf ht.2
  | splitOk _ _ _ _ _ _ hp hleaf _ _ _ _ => exact absurd hleaf ht.2
  | descStop _ _ _ _ _ hp hleaf hrun hstop => exact hrun
  | descCont _ _ _ _ _ _ hp hleaf hrun1 hlt2 hidx hrun2 => omega

/-- A run over a present large entry that reaches beyond the range: without
a free page it fails with `-ENOMEM`, with a free page `p` it is the run of
the new table at `p` from the state after the split. -/
theorem Run.split_inv {ptt : _page_table_type} {set clr ve L T vs : Nat} {s : PgState}
    {res : Int × PgState} (hrun : Run ptt set clr ve (L + 1) T vs s res)
    (hp : pgentry_present ptt (s.mem (entryAddr (L + 1) T vs)) ≠ 0)
    (hleaf : isLeaf (L + 1) (s.mem (entryAddr (L + 1) T vs)))
    (hgt : ve < lvNext (L + 1) vs)
    (hpool : ∀ p ∈ s.pool, p % 4096 = 0 ∧ p < 2 ^ 48) :
    (s.pool = [] ∧ res = (-ENOMEM, s)) ∨
    (∃ p rest, s.pool = p :: rest ∧
      Run ptt set clr ve L p vs ⟨splitMem (L + 1) (entryAddr (L + 1) T vs) p s.mem, rest⟩ res) := by
  cases hrun with
  | notPresent _ _ _ _ hp0 => exact absurd hp0 hp
  | leafStop _ _ _ _ _ _ hle _ => omega
  | leafCont _ _ _ _ _ _ _ hlt _ _ => omega
  | splitFail _ _ _ _ _ _ _ hnil => exact Or.inl ⟨hnil, rfl⟩
  | splitOk _ _ _ _ s1 _ _ _ _ hne hsplit hrun =>
    right
    obtain ⟨m, pool⟩ := s
    cases pool with
    | nil => exact absurd rfl hne
    | cons p rest =>
      rw [split_large_page_cons _ (L + 1) ptt m p rest (isLeaf_succ hleaf).1] at hsplit
      have hs1 : s1 = ⟨splitMem (L + 1) (entryAddr (L + 1) T vs) p m, rest⟩ :=
        (Prod.mk.inj hsplit).2.symm
      subst hs1
      have hpk := hpool p (List.mem_cons_self _ _)
      have hchild : splitMem (L + 1) (entryAddr (L + 1) T vs) p m (entryAddr (L + 1) T vs)
          &&& PFN_MASK = p := by
        rw [splitMem_entry]
        exact or7_and_PFN p hpk.1 hpk.2
      dsimp only at hrun
      rw [hchild] at hrun
      exact ⟨p, rest, rfl, hrun⟩
  | descStop _ _ _ _ _ _ hnl _ _ => exact absurd hleaf hnl
  | descCont _ _ _ _ _ _ _ hnl _ _ _ _ => exact absurd hleaf hnl

/-- The entries on the way to a PD-level governing entry. -/
theorem slot_eq_one {ptt : _page_table_type} {m : Mem} {root va a : Nat}
    (h : slot ptt m 3 root va = (1, a)) :
    isTable ptt 3 (m (entryAddr 3 root va)) ∧
    isTable ptt 2 (m (entryAddr 2 (m (entryAddr 3 root va) &&& PFN_MASK) va)) ∧
    a = entryAddr 1
      (m (entryAddr 2 (m (entryAddr 3 root va) &&& PFN_MASK) va) &&& PFN_MASK) va ∧
    ¬ isTable ptt 1 (m a) := by
  by_cases h3 : isTable ptt (2 + 1) (m (entryAddr (2 + 1) root va))
  · rw [show (3 : Nat) = 2 + 1 from rfl, slot_table h3] at h
    by_cases h2 : isTable ptt (1 + 1)
        (m (entryAddr (1 + 1) (m (entryAddr (2 + 1) root va) &&& PFN_MASK) va))
    · rw [show (2 : Nat) = 1 + 1 from rfl, slot_table h2] at h
      by_cases h1 : isTable ptt (0 + 1) (m (entryAddr (0 + 1)
          (m (entryAddr (1 + 1) (m (entryAddr (2 + 1) root va) &&& PFN_MASK) va) &&& PFN_MASK) va))
      · rw [show (1 : Nat) = 0 + 1 from rfl, slot_table h1, slot_zero] at h
        have := congrArg Prod.fst h
        simp at this
      · rw [show (1 : Nat) = 0 + 1 from rfl, slot_stop h1] at h
        have ha := (congrArg Prod.snd h).symm
        simp only at ha
        refine ⟨h3, h2, ha, ?_⟩
        rw [ha]; exact h1
    · rw [show (2 : Nat) = 1 + 1 from rfl, slot_stop h2] at h
      have := congrArg Prod.fst h
      simp at this
  · rw [show (3 : Nat) = 2 + 1 from rfl, slot_stop h3] at h
    have := congrArg Prod.fst h
    simp at this

/-- A successful run of the PD level that starts on a present 2 MiB entry
and ends strictly inside its region: one page `p` is taken from the
allocator, the PD entry points at it, and entry `i` of the new table holds
frame `F + i * 4 KiB` with the attribute bits of the large entry without the
large-page flag, with the masks applied exactly when its page lies in the
range. -/
theorem split_pd_result {ptt : _page_table_type} {set clr ve T vs : Nat} {s s1 : PgState}
    (hsep : SepFrom ptt 1 T (lvIndex 1 vs) s)
    (hp : pgentry_present ptt (s.mem (entryAddr 1 T vs)) ≠ 0)
    (hl : s.mem (entryAddr 1 T vs) &&& PAGE_PSE ≠ 0)
    (hvs : vs % 4096 = 0) (hve : ve % 4096 = 0) (hlt : vs < ve) (hgt : ve < lvNext 1 vs)
    (hrun : Run ptt set clr ve 1 T vs s (0, s1)) :
    ∃ p rest, s.pool = p :: rest ∧ s1.pool = rest ∧
      s1.mem (entryAddr 1 T vs) = p ||| 7 ∧
      ∀ i, i < 512 →
        s1.mem (p + 8 * i) =
          if vs ≤ vs / 0x200000 * 0x200000 + i * 0x1000 ∧
              vs / 0x200000 * 0x200000 + i * 0x1000 < ve then
            applyMask set clr (((s.mem (entryAddr 1 T vs) &&& PFN_MASK) + i * 0x1000) |||
              splitProt 1 (s.mem (entryAddr 1 T vs)))
          else ((s.mem (entryAddr 1 T vs) &&& PFN_MASK) + i * 0x1000) |||
              splitProt 1 (s.mem (entryAddr 1 T vs)) := by
  have hleaf : isLeaf (0 + 1) (s.mem (entryAddr (0 + 1) T vs)) := Or.inr ⟨Or.inl rfl, hl⟩
  have hgt1 : ve < vs / 0x200000 * 0x200000 + 0x200000 := by
    unfold lvNext at hgt; rw [lvSize_one] at hgt; exact hgt
  rcases Run.split_inv (L := 0) hrun hp hleaf hgt hsep.poolOk with ⟨_, h0⟩ | ⟨p, rest, hpool, hrun0⟩
  · have := congrArg Prod.fst h0
    simp [ENOMEM] at this
  have hpin : p ∈ s.pool := by rw [hpool]; exact List.mem_cons_self _ _
  have hsep0 := SepFrom.split (L := 0) hsep hpool (lvIndex_lt 1 vs) hleaf (lvIndex 0 vs)
  obtain ⟨stop, hc⟩ := hrun0.control hsep0 hlt
  have hstop : stop = ve := hc.ok rfl
  subst hstop
  have hidx : ∀ va, (slot ptt (splitMem (0 + 1) (entryAddr (0 + 1) T vs) p s.mem) 0 p va).2 =
      p + 8 * lvIndex 0 va := fun va => rfl
  have hpl : s1.pool = rest := by
    refine (hc.whole (fun va _ h1 h2 _ => ?_)).2
    show lvNext 0 va ≤ stop
    unfold lvNext
    rw [lvSize_zero]
    omega
  have hnin : ¬ inPage p (entryAddr 1 T vs) := entry_not_in_pool_page hsep hpin (lvIndex_lt 1 vs)
  have hne : ∀ k, k < 512 → p + 8 * k ≠ entryAddr 1 T vs := by
    intro k hk he
    apply hnin
    rw [← he]; exact inPage_entry hk
  have hval : ∀ k, k < 512 →
      splitMem (0 + 1) (entryAddr (0 + 1) T vs) p s.mem (p + 8 * k) =
        ((s.mem (entryAddr 1 T vs) &&& PFN_MASK) + k * 0x1000) |||
          splitProt 1 (s.mem (entryAddr 1 T vs)) := by
    intro k hk
    rw [splitMem_slot (L := 0 + 1) (m := s.mem) hk (hne k hk)]
    have hf := and_PFN_lt (s.mem (entryAddr 1 T vs))
    have : u64 ((s.mem (entryAddr (0 + 1) T vs) &&& PFN_MASK) + k * lvSize (0 + 1 - 1)) =
        (s.mem (entryAddr 1 T vs) &&& PFN_MASK) + k * 0x1000 := by
      show u64 ((s.mem (entryAddr 1 T vs) &&& PFN_MASK) + k * lvSize 0) = _
      rw [lvSize_zero]
      unfold u64 U64
      apply Nat.mod_eq_of_lt
      omega
    rw [this]
  refine ⟨p, rest, hpool, hpl, ?_, fun i hi => ?_⟩
  · have := hc.memOut hpl (entryAddr 1 T vs) (fun va _ _ _ he => by
      rw [hidx va] at he
      exact hne _ (lvIndex_lt 0 va) he)
    rw [this]
    exact splitMem_entry _ _ _ _
  · by_cases hin : vs ≤ vs / 0x200000 * 0x200000 + i * 0x1000 ∧
        vs / 0x200000 * 0x200000 + i * 0x1000 < stop
    · rw [if_pos hin]
      have hst : sameTable 0 (vs / 0x200000 * 0x200000 + i * 0x1000) vs := by
        show (vs / 0x200000 * 0x200000 + i * 0x1000) / lvSize 1 = vs / lvSize 1
        rw [lvSize_one]
        omega
      have hix : lvIndex 0 (vs / 0x200000 * 0x200000 + i * 0x1000) = i := by
        unfold lvIndex
        rw [lvSize_zero]
        omega
      have := hc.memIn hpl _ hst hin.1 hin.2
      rw [hidx, hix] at this
      rw [← hval i hi]
      exact this
    · rw [if_neg hin]
      rw [← hval i hi]
      apply hc.memOut hpl
      intro va g1 g2 g3 he
      rw [hidx va] at he
      have hix : lvIndex 0 va = i := by omega
      apply hin
      have g1' : va / 0x200000 = vs / 0x200000 := by
        have : va / lvSize 1 = vs / lvSize 1 := g1
        rw [lvSize_one] at this
        exact this
      unfold lvIndex at hix
      rw [lvSize_zero] at hix
      omega

/-- The table pages of a separated tree are pairwise distinct. -/
theorem SepFrom.tables_nodup {ptt : _page_table_type} {L T : Nat} {s : PgState}
    (h : SepFrom ptt L T 0 s) : (tables ptt s.mem L T).Nodup := by
  cases L with
  | zero => simp [tables_zero]
  | succ L =>
    rw [tables_succ, List.nodup_cons]
    constructor
    · intro hin
      rw [List.mem_flatMap] at hin
      obtain ⟨j, hj, hq⟩ := hin
      exact h.kidT j (Nat.zero_le _) (List.mem_range.1 hj) hq
    · rw [List.nodup_flatMap]
      constructor
      · intro j hj
        exact h.kidNodup j (Nat.zero_le _) (List.mem_range.1 hj)
      · refine (List.pairwise_lt_range 512).imp_of_mem ?_
        intro j j1 _ hj1 hlt q hq hq1
        exact h.kidDisj j j1 (Nat.zero_le _) hlt (List.mem_range.1 hj1) q hq hq1

/-- Writes confined to entry `i`, the table pages below it and free pages,
after which entry `i` points at a good table whose pages are pages that
were below entry `i` or free pages no longer free: the table is good again,
and its table pages are old ones or pages taken from the allocator. -/
theorem lift_good {ptt : _page_table_type} {L T i : Nat} {s : PgState} {m1 : Mem}
    {pool1 : List Nat} (hg : Good ptt (L + 1) T s) (hi : i < 512)
    (ht1 : isTable ptt (L + 1) (m1 (T + 8 * i)))
    (hgc : Good ptt L (m1 (T + 8 * i) &&& PFN_MASK) ⟨m1, pool1⟩)
    (hsuf : ∃ taken, s.pool = taken ++ pool1)
    (hfr : ∀ a, m1 a ≠ s.mem a →
      a = T + 8 * i ∨ ∃ q, (q ∈ kid ptt s.mem (L + 1) T i ∨ q ∈ s.pool) ∧ inPage q a)
    (hsub : ∀ q ∈ tables ptt m1 L (m1 (T + 8 * i) &&& PFN_MASK),
      q ∈ kid ptt s.mem (L + 1) T i ∨ (q ∈ s.pool ∧ q ∉ pool1)) :
    Good ptt (L + 1) T ⟨m1, pool1⟩ ∧
    (∀ q ∈ tables ptt m1 (L + 1) T,
      q ∈ tables ptt s.mem (L + 1) T ∨ (q ∈ s.pool ∧ q ∉ pool1)) := by
  obtain ⟨taken, htk⟩ := hsuf
  have hps : ∀ q ∈ pool1, q ∈ s.pool := fun q hq => by
    rw [htk]; exact List.mem_append_right _ hq
  have hsep := hg.1
  have hqal : ∀ q, (q ∈ kid ptt s.mem (L + 1) T i ∨ q ∈ s.pool) → q % 4096 = 0 := by
    intro q hq
    rcases hq with hq | hq
    · exact kid_aligned _ _ _ _ _ _ hq
    · exact (hsep.poolOk q hq).1
  have hent : ∀ j, j < 512 → j ≠ i → m1 (T + 8 * j) = s.mem (T + 8 * j) := by
    intro j hj hne
    by_contra hc
    rcases hfr _ hc with h | ⟨q, hq, hqa⟩
    · omega
    · have := inPage_disjoint (hqal q hq) hsep.tAligned hqa (inPage_entry hj)
      subst this
      rcases hq with hq | hq
      · exact hsep.kidT i (Nat.zero_le _) hi hq
      · exact hsep.tPool hq
  have hpages : ∀ j, j < 512 → j ≠ i → ∀ q ∈ kid ptt s.mem (L + 1) T j, ∀ a, inPage q a →
      m1 a = s.mem a := by
    intro j hj hne q hq a ha
    by_contra hc
    rcases hfr _ hc with h | ⟨q1, hq1, hqa⟩
    · subst h
      have := inPage_disjoint (kid_aligned _ _ _ _ _ _ hq) hsep.tAligned ha (inPage_entry hi)
      subst this
      exact hsep.kidT j (Nat.zero_le _) hj hq
    · have := inPage_disjoint (hqal q1 hq1) (kid_aligned _ _ _ _ _ _ hq) hqa ha
      subst this
      rcases hq1 with hq1 | hq1
      · exact hsep.kid_disj hi hj (Ne.symm hne) hq1 hq
      · exact hsep.kidPool j (Nat.zero_le _) hj _ hq hq1
  have hkj : ∀ j, j < 512 → j ≠ i → kid ptt m1 (L + 1) T j = kid ptt s.mem (L + 1) T j :=
    fun j hj hne => kid_congr ptt s.mem m1 (L + 1) T j (hent j hj hne) (hpages j hj hne)
  have hki : kid ptt m1 (L + 1) T i = tables ptt m1 L (m1 (T + 8 * i) &&& PFN_MASK) :=
    kid_eq_tables ht1
  have hnd : pool1.Nodup := by
    have := hsep.poolNodup
    rw [htk] at this
    exact this.sublist (List.sublist_append_right _ _)
  have hsepn : SepFrom ptt (L + 1) T 0 ⟨m1, pool1⟩ := by
    refine ⟨hsep.tAligned, fun q hq => hsep.poolOk q (hps q hq), hnd,
      fun h => hsep.tPool (hps _ h), ?_, ?_, ?_, ?_⟩
    · intro j _ hj hin
      by_cases hne : j = i
      · subst hne
        rw [show kid ptt (PgState.mk m1 pool1).mem (L + 1) T j = kid ptt m1 (L + 1) T j from rfl,
          hki] at hin
        rcases hsub _ hin with h | h
        · exact hsep.kidT j (Nat.zero_le _) hj h
        · exact hsep.tPool h.1
      · rw [show kid ptt (PgState.mk m1 pool1).mem (L + 1) T j = kid ptt m1 (L + 1) T j from rfl,
          hkj j hj hne] at hin
        exact hsep.kidT j (Nat.zero_le _) hj hin
    · intro j _ hj q hq hqp
      by_cases hne : j = i
      · subst hne
        rw [show kid ptt (PgState.mk m1 pool1).mem (L + 1) T j = kid ptt m1 (L + 1) T j from rfl,
          hki] at hq
        rcases hsub _ hq with h | h
        · exact hsep.kidPool j (Nat.zero_le _) hj q h (hps q hqp)
        · exact h.2 hqp
      · rw [show kid ptt (PgState.mk m1 pool1).mem (L + 1) T j = kid ptt m1 (L + 1) T j from rfl,
          hkj j hj hne] at hq
        exact hsep.kidPool j (Nat.zero_le _) hj q hq (hps q hqp)
    · intro j j1 _ hlt hj1 q hq hq1
      have hj : j < 512 := by omega
      change q ∈ kid ptt m1 (L + 1) T j at hq
      change q ∈ kid ptt m1 (L + 1) T j1 at hq1
      by_cases hne : j = i
      · subst hne
        rw [hki] at hq
        rw [hkj j1 hj1 (by omega)] at hq1
        rcases hsub _ hq with h | h
        · exact hsep.kid_disj hj hj1 (by omega) h hq1
        · exact hsep.kidPool j1 (Nat.zero_le _) hj1 q hq1 h.1
      · rw [hkj j hj hne] at hq
        by_cases hne1 : j1 = i
        · subst hne1
          rw [hki] at hq1
          rcases hsub _ hq1 with h | h
          · exact hsep.kid_disj hj hj1 (by omega) hq h
          · exact hsep.kidPool j (Nat.zero_le _) hj q hq h.1
        · rw [hkj j1 hj1 hne1] at hq1
          exact hsep.kid_disj hj hj1 (by omega) hq hq1
    · intro j _ hj
      change (kid ptt m1 (L + 1) T j).Nodup
      by_cases hne : j = i
      · subst hne
        rw [hki]
        exact hgc.1.tables_nodup
      · rw [hkj j hj hne]
        exact hsep.kidNodup j (Nat.zero_le _) hj
  have hok : LargeOK ptt m1 (L + 1) T := by
    rw [LargeOK_succ]
    intro j hj
    by_cases hne : j = i
    · subst hne
      exact ⟨fun _ hl => absurd hl ht1.2, fun _ => hgc.2⟩
    · rw [hent j hj hne]
      have hs := ((LargeOK_succ ptt s.mem L T).1 hg.2) j hj
      refine ⟨hs.1, fun htj => ?_⟩
      apply LargeOK_congr ptt s.mem m1 L _ _ (hs.2 htj)
      intro p hp a ha
      exact hpages j hj hne p (by rw [kid_eq_tables htj]; exact hp) a ha
  refine ⟨⟨hsepn, hok⟩, fun q hq => ?_⟩
  rcases (mem_tables_iff _ _ _ _ _).1 hq with h | ⟨j, hj, h⟩
  · left; rw [h]; exact mem_tables_self _ _ _ _
  · by_cases hne : j = i
    · subst hne
      rw [hki] at h
      rcases hsub _ h with h1 | h1
      · left; exact (mem_tables_iff _ _ _ _ _).2 (Or.inr ⟨j, hj, h1⟩)
      · right; exact h1
    · rw [hkj j hj hne] at h
      left; exact (mem_tables_iff _ _ _ _ _).2 (Or.inr ⟨j, hj, h⟩)

/-- The table is good after writes of a run of the child table below the
table entry `i`. -/
theorem desc_good {ptt : _page_table_type} {L T i : Nat} {s s1 : PgState}
    (hg : Good ptt (L + 1) T s) (hi : i < 512)
    (ht : isTable ptt (L + 1) (s.mem (T + 8 * i)))
    (hgc : Good ptt L (s.mem (T + 8 * i) &&& PFN_MASK) s1)
    (hsuf : ∃ taken, s.pool = taken ++ s1.pool)
    (hfr : ∀ a, s1.mem a ≠ s.mem a →
      ∃ p, (p ∈ tables ptt s.mem L (s.mem (T + 8 * i) &&& PFN_MASK) ∨ p ∈ s.pool) ∧ inPage p a)
    (hsub : ∀ q ∈ tables ptt s1.mem L (s.mem (T + 8 * i) &&& PFN_MASK),
      q ∈ tables ptt s.mem L (s.mem (T + 8 * i) &&& PFN_MASK) ∨ (q ∈ s.pool ∧ q ∉ s1.pool)) :
    Good ptt (L + 1) T s1 ∧
    (∀ q ∈ tables ptt s1.mem (L + 1) T,
      q ∈ tables ptt s.mem (L + 1) T ∨ (q ∈ s.pool ∧ q ∉ s1.pool)) := by
  have hent := entry_kept hg.1 hi ht hfr
  have hki := kid_eq_tables ht
  have := @lift_good ptt L T i s s1.mem s1.pool hg hi (by rw [hent]; exact ht)
    (by rw [hent]; exact hgc) hsuf
    (fun a ha => by
      obtain ⟨p, hp, hpa⟩ := hfr a ha
      exact Or.inr ⟨p, by rw [hki]; exact hp, hpa⟩)
    (fun q hq => by
      rw [hent] at hq
      rw [hki]; exact hsub q hq)
  exact this

theorem final_trans {ptt : _page_table_type} {L T : Nat} {s s1 s2 : PgState}
    (h1 : ∃ taken, s.pool = taken ++ s1.pool)
    (f1 : ∀ q ∈ tables ptt s1.mem L T, q ∈ tables ptt s.mem L T ∨ (q ∈ s.pool ∧ q ∉ s1.pool))
    (h2 : ∃ taken, s1.pool = taken ++ s2.pool)
    (f2 : ∀ q ∈ tables ptt s2.mem L T, q ∈ tables ptt s1.mem L T ∨ (q ∈ s1.pool ∧ q ∉ s2.pool)) :
    (∃ taken, s.pool = taken ++ s2.pool) ∧
    (∀ q ∈ tables ptt s2.mem L T, q ∈ tables ptt s.mem L T ∨ (q ∈ s.pool ∧ q ∉ s2.pool)) := by
  obtain ⟨t1, e1⟩ := h1
  obtain ⟨t2, e2⟩ := h2
  refine ⟨⟨t1 ++ t2, by rw [e1, e2, List.append_assoc]⟩, fun q hq => ?_⟩
  rcases f2 q hq with h | ⟨h, h'⟩
  · rcases f1 q h with g | ⟨g, g'⟩
    · exact Or.inl g
    · refine Or.inr ⟨g, fun hc => g' ?_⟩
      rw [e2]; exact List.mem_append_right _ hc
  · refine Or.inr ⟨?_, h'⟩
    rw [e1]; exact List.mem_append_right _ h

/-- A run, with masks that change attributes only, leaves a good table
good; the free pages left are the last of the free pages it started with,
and the table pages of the result are old table pages or free pages taken
from the allocator. -/
theorem Run.final {ptt : _page_table_type} {set clr ve L T vs : Nat} {s : PgState}
    {res : Int × PgState} (hrun : Run ptt set clr ve L T vs s res) (hm : AttrMask set clr) :
    Good ptt L T s →
      Good ptt L T res.2 ∧ (∃ taken, s.pool = taken ++ res.2.pool) ∧
      (∀ q ∈ tables ptt res.2.mem L T,
        q ∈ tables ptt s.mem L T ∨ (q ∈ s.pool ∧ q ∉ res.2.pool)) := by
  induction hrun with
  | notPresent L T vs s hp =>
    intro hg
    exact ⟨hg, ⟨[], rfl⟩, fun q hq => Or.inl hq⟩
  | leafStop L T vs s hp hleaf hle hstop =>
    intro hg
    have hk1 := kid_modState hg.1 hm (lvIndex_lt L vs) hleaf
    refine ⟨hg.keep hk1 (largeOK_modState hg.1 hm (lvIndex_lt L vs) hp hleaf hg.2) rfl,
      ⟨[], rfl⟩, fun q hq => Or.inl ?_⟩
    rw [← tables_eq_of_kid hk1]; exact hq
  | leafCont L T vs s res hp hleaf hlt1 hidx hrun ih =>
    intro hg
    have hk1 := kid_modState hg.1 hm (lvIndex_lt L vs) hleaf
    have hg1 : Good ptt L T (modState set clr (entryAddr L T vs) s) :=
      hg.keep hk1 (largeOK_modState hg.1 hm (lvIndex_lt L vs) hp hleaf hg.2) rfl
    obtain ⟨a1, a2, a3⟩ := ih hg1
    refine ⟨a1, a2, fun q hq => ?_⟩
    rcases a3 q hq with h | h
    · left; rw [← tables_eq_of_kid hk1]; exact h
    · exact Or.inr h
  | splitFail L T vs s hp hleaf hgt hpool =>
    intro hg
    exact ⟨hg, ⟨[], rfl⟩, fun q hq => Or.inl hq⟩
  | splitOk L T vs s s1 res hp hleaf hgt hpool hsplit hrun ih =>
    intro hg
    obtain ⟨m, pool⟩ := s
    cases pool with
    | nil => exact absurd rfl hpool
    | cons p rest =>
      rw [split_large_page_cons _ (L + 1) ptt m p rest (isLeaf_succ hleaf).1] at hsplit
      have hs1 : s1 = ⟨splitMem (L + 1) (entryAddr (L + 1) T vs) p m, rest⟩ :=
        (Prod.mk.inj hsplit).2.symm
      subst hs1
      dsimp only at *
      have hsep := hg.1.mono (Nat.zero_le (lvIndex (L + 1) vs))
      have hpin : p ∈ (PgState.mk m (p :: rest)).pool := List.mem_cons_self _ _
      have hpok := hg.1.poolOk p hpin
      have hchild := split_child hsep hpin (L + 1) (entryAddr (L + 1) T vs)
      dsimp only at hchild
      rw [hchild] at hrun ih
      have hg1 : Good ptt L p ⟨splitMem (L + 1) (T + 8 * lvIndex (L + 1) vs) p m, rest⟩ :=
        Good.afterSplit hg rfl (lvIndex_lt _ vs) hp hleaf
      obtain ⟨a1, ⟨taken, a2⟩, a3⟩ := ih hg1
      obtain ⟨taken0, e1, e2⟩ := hrun.frame (hg1.1.mono (Nat.zero_le _))
      dsimp only at e1 e2 a2 a3
      have hkn : ∀ j, j < 512 →
          kid ptt (splitMem (L + 1) (T + 8 * lvIndex (L + 1) vs) p m) L p j = [] := fun j hj =>
        kid_splitMem (s := PgState.mk m (p :: rest)) hsep rfl (lvIndex_lt _ vs) hleaf j hj
      have htb : ∀ q ∈ tables ptt (splitMem (L + 1) (T + 8 * lvIndex (L + 1) vs) p m) L p,
          q = p := by
        intro q hq
        rcases (mem_tables_iff _ _ _ _ _).1 hq with h | ⟨j, hj, h⟩
        · exact h
        · rw [hkn j hj] at h
          exact absurd h (List.not_mem_nil _)
      have hin : ∀ a, res.2.mem a ≠ splitMem (L + 1) (T + 8 * lvIndex (L + 1) vs) p m a →
          ∃ q ∈ p :: rest, inPage q a := by
        intro a ha
        obtain ⟨q, hq, hqa⟩ := (e2 a ha).page
        refine ⟨q, ?_, hqa⟩
        rcases hq with hq | hq
        · rw [htb q hq]; exact List.mem_cons_self _ _
        · rw [e1]; exact List.mem_cons_of_mem _ (List.mem_append_left _ hq)
      have hent : res.2.mem (T + 8 * lvIndex (L + 1) vs) = p ||| 7 := by
        by_contra hc
        obtain ⟨q, hq, hqa⟩ := hin _ (by rw [splitMem_entry]; exact hc)
        exact entry_not_in_pool_page hg.1 hq (lvIndex_lt _ vs) hqa
      have hC : res.2.mem (T + 8 * lvIndex (L + 1) vs) &&& PFN_MASK = p := by
        rw [hent]; exact or7_and_PFN p hpok.1 hpok.2
      have hnd := hg.1.poolNodup
      dsimp only at hnd
      rw [List.nodup_cons] at hnd
      have hpnr : p ∉ res.2.pool := fun hc => hnd.1 (by rw [a2]; exact List.mem_append_right _ hc)
      have hl := @lift_good ptt L T (lvIndex (L + 1) vs) (PgState.mk m (p :: rest)) res.2.mem
        res.2.pool hg (lvIndex_lt (L + 1) vs)
        (by rw [hent]; exact isTable_or7 ptt L p hpok.1)
        (by rw [hC]; exact a1)
        ⟨p :: taken, by dsimp only; rw [a2]; rfl⟩
        (fun a ha => by
          dsimp only at ha ⊢
          by_cases hc : res.2.mem a = splitMem (L + 1) (T + 8 * lvIndex (L + 1) vs) p m a
          · rw [hc] at ha
            rcases splitMem_ne ha with h | h
            · exact Or.inl h
            · exact Or.inr ⟨p, Or.inr (List.mem_cons_self _ _), h⟩
          · obtain ⟨q, hq, hqa⟩ := hin a hc
            exact Or.inr ⟨q, Or.inr hq, hqa⟩)
        (fun q hq => by
          rw [hC] at hq
          dsimp only
          rcases a3 q hq with h | ⟨h, h'⟩
          · rw [htb q h]
            exact Or.inr ⟨List.mem_cons_self _ _, hpnr⟩
          · exact Or.inr ⟨List.mem_cons_of_mem _ h, h'⟩)
      exact ⟨hl.1, ⟨p :: taken, by rw [a2]; rfl⟩, hl.2⟩
  | descStop L T vs s res hp hleaf hrun hstop ih =>
    intro hg
    have ht : isTable ptt (L + 1) (s.mem (T + 8 * lvIndex (L + 1) vs)) := ⟨hp, hleaf⟩
    have hgc := hg.down (lvIndex_lt _ vs) ht
    obtain ⟨a1, a2, a3⟩ := ih hgc
    obtain ⟨taken, e1, e2⟩ := hrun.frame (hgc.1.mono (Nat.zero_le _))
    have hfr := frame_pages s.pool
      (fun q hq => by rw [e1]; exact List.mem_append_left _ hq) e2
    have := desc_good hg (lvIndex_lt _ vs) ht a1 a2 hfr a3
    exact ⟨this.1, a2, this.2⟩
  | descCont L T vs s s1 res hp hleaf hrun1 hlt2 hidx hrun2 ih1 ih2 =>
    intro hg
    have ht : isTable ptt (L + 1) (s.mem (T + 8 * lvIndex (L + 1) vs)) := ⟨hp, hleaf⟩
    have hgc := hg.down (lvIndex_lt _ vs) ht
    obtain ⟨a1, a2, a3⟩ := ih1 hgc
    obtain ⟨taken, e1, e2⟩ := hrun1.frame (hgc.1.mono (Nat.zero_le _))
    dsimp only at a1 a2 a3 e1 e2
    have hfr := frame_pages s.pool
      (fun q hq => by rw [e1]; exact List.mem_append_left _ hq) e2
    have h1 := desc_good hg (lvIndex_lt _ vs) ht a1 a2 hfr a3
    obtain ⟨b1, b2, b3⟩ := ih2 h1.1
    have := final_trans a2 h1.2 b2 b3
    exact ⟨b1, this.1, this.2⟩

/-- Writes of a run from entry `i` on leave an earlier entry and the table
pages below it as they were. -/
theorem before_untouched {ptt : _page_table_type} {L T i j : Nat} {s : PgState} {m1 : Mem}
    {taken : List Nat} (hsep : SepFrom ptt L T 0 s) (hlt : j < i) (hj : j < 512)
    (hsub : ∀ p ∈ taken, p ∈ s.pool)
    (hfr : ∀ a, m1 a ≠ s.mem a → Touch ptt s.mem L T i taken a) :
    m1 (T + 8 * j) = s.mem (T + 8 * j) ∧
      ∀ q ∈ kid ptt s.mem L T j, ∀ a, inPage q a → m1 a = s.mem a := by
  constructor
  · by_contra hc
    rcases hfr _ hc with ⟨k, h1, h2, h3⟩ | ⟨k, h1, h2, p, hp, hpa⟩ | ⟨p, hp, hpa⟩
    · omega
    · have := inPage_disjoint (kid_aligned _ _ _ _ _ _ hp) hsep.tAligned hpa (inPage_entry hj)
      subst this
      exact hsep.kidT k (Nat.zero_le _) h2 hp
    · exact entry_not_in_pool_page hsep (hsub p hp) hj hpa
  · intro q hq a ha
    by_contra hc
    rcases hfr _ hc with ⟨k, h1, h2, h3⟩ | ⟨k, h1, h2, p, hp, hpa⟩ | ⟨p, hp, hpa⟩
    · subst h3
      have := inPage_disjoint (kid_aligned _ _ _ _ _ _ hq) hsep.tAligned ha (inPage_entry h2)
      subst this
      exact hsep.kidT j (Nat.zero_le _) hj hq
    · have := inPage_disjoint (kid_aligned _ _ _ _ _ _ hp) (kid_aligned _ _ _ _ _ _ hq) hpa ha
      subst this
      exact hsep.kid_disj h2 hj (by omega) hp hq
    · have := inPage_disjoint (hsep.poolOk p (hsub p hp)).1 (kid_aligned _ _ _ _ _ _ hq) hpa ha
      subst this
      exact hsep.kidPool j (Nat.zero_le _) hj _ hq (hsub _ hp)

/-- After a run that returns 0, with masks that change attributes only,
every address of the range is governed by an entry whose page ends inside
the range and whose value is a value `__modify_pte` stored. -/
theorem Run.stable {ptt : _page_table_type} {set clr ve L T vs : Nat} {s : PgState}
    {res : Int × PgState} (hrun : Run ptt set clr ve L T vs s res) (hm : AttrMask set clr) :
    Good ptt L T s → vs < ve → res.1 = 0 →
      ∀ va, sameTable L va vs → vs ≤ va → va < ve →
        lvNext (slot ptt res.2.mem L T va).1 va ≤ ve ∧
          ∃ x, res.2.mem (slot ptt res.2.mem L T va).2 = applyMask set clr x := by
  induction hrun with
  | notPresent L T vs s hp =>
    intro _ _ h0
    simp [EFAULT] at h0
  | leafStop L T vs s hp hleaf hle hstop =>
    intro hg hlt _ va hs hle2 hlt2
    have h : lvIndex L va = lvIndex L vs := by
      apply idx_in_range hs hle2 hlt2
      by_cases hi : lvIndex L vs + 1 < 512
      · left
        have : ¬ lvNext L vs < ve := fun h => hstop ⟨h, hi⟩
        omega
      · right; exact hi
    have hea := entryAddr_congr (T := T) h
    have hv : (modState set clr (entryAddr L T vs) s).mem (entryAddr L T va) =
        applyMask set clr (s.mem (entryAddr L T vs)) := by
      rw [hea, modState_mem, if_pos rfl]
    have h1 : ¬ isTable ptt L ((modState set clr (entryAddr L T vs) s).mem (entryAddr L T va)) := by
      rw [hv]
      exact fun ht => ht.2 ((applyMask_isLeaf hm _ _).2 hleaf)
    rw [slot_stop h1]
    refine ⟨?_, _, hv⟩
    show lvNext L va ≤ ve
    rw [lvNext_congr ((lvIndex_eq_iff hs).1 h)]
    exact hle
  | leafCont L T vs s res hp hleaf hlt1 hidx hrun ih =>
    intro hg hlt h0 va hs hle2 hlt2
    have hk1 := kid_modState hg.1 hm (lvIndex_lt L vs) hleaf
    have hg1 : Good ptt L T (modState set clr (entryAddr L T vs) s) :=
      hg.keep hk1 (largeOK_modState hg.1 hm (lvIndex_lt L vs) hp hleaf hg.2) rfl
    by_cases hv : va < lvNext L vs
    · have h := same_entry hs hle2 (Or.inl hv)
      have hea := entryAddr_congr (T := T) h
      obtain ⟨taken, e1, e2⟩ := hrun.frame (hg1.1.mono (Nat.zero_le _))
      rw [lvIndex_next L vs hidx] at e2
      have hb := before_untouched hg1.1 (Nat.lt_succ_self (lvIndex L vs)) (lvIndex_lt L vs)
        (fun p hp => by rw [e1]; exact List.mem_append_left _ hp) e2
      have hval : res.2.mem (entryAddr L T va) = applyMask set clr (s.mem (entryAddr L T vs)) := by
        rw [hea]
        show res.2.mem (T + 8 * lvIndex L vs) = _
        rw [hb.1]
        show (modState set clr (entryAddr L T vs) s).mem (entryAddr L T vs) = _
        rw [modState_mem, if_pos rfl]
      have h1 : ¬ isTable ptt L (res.2.mem (entryAddr L T va)) := by
        rw [hval]
        exact fun ht => ht.2 ((applyMask_isLeaf hm _ _).2 hleaf)
      rw [slot_stop h1]
      refine ⟨?_, _, hval⟩
      show lvNext L va ≤ ve
      rw [lvNext_congr ((lvIndex_eq_iff hs).1 h)]
      exact le_of_lt hlt1
    · exact ih hg1 hlt1 h0 va (sameTable_trans hs (sameTable_next hidx).symm) (not_lt.1 hv) hlt2
  | splitFail L T vs s hp hleaf hgt hpool =>
    intro _ _ h0
    simp [ENOMEM] at h0
  | splitOk L T vs s s1 res hp hleaf hgt hpool hsplit hrun ih =>
    intro hg hlt h0 va hs hle2 hlt2
    obtain ⟨m, pool⟩ := s
    cases pool with
    | nil => exact absurd rfl hpool
    | cons p rest =>
      rw [split_large_page_cons _ (L + 1) ptt m p rest (isLeaf_succ hleaf).1] at hsplit
      have hs1 : s1 = ⟨splitMem (L + 1) (entryAddr (L + 1) T vs) p m, rest⟩ :=
        (Prod.mk.inj hsplit).2.symm
      subst hs1
      dsimp only at *
      have hsep := hg.1.mono (Nat.zero_le (lvIndex (L + 1) vs))
      have hpin : p ∈ (PgState.mk m (p :: rest)).pool := List.mem_cons_self _ _
      have hpok := hg.1.poolOk p hpin
      have hchild := split_child hsep hpin (L + 1) (entryAddr (L + 1) T vs)
      dsimp only at hchild
      rw [hchild] at hrun ih
      have hg1 : Good ptt L p ⟨splitMem (L + 1) (T + 8 * lvIndex (L + 1) vs) p m, rest⟩ :=
        Good.afterSplit hg rfl (lvIndex_lt _ vs) hp hleaf
      obtain ⟨taken0, e1, e2⟩ := hrun.frame (hg1.1.mono (Nat.zero_le _))
      dsimp only at e1 e2
      have hkn : ∀ j, j < 512 →
          kid ptt (splitMem (L + 1) (T + 8 * lvIndex (L + 1) vs) p m) L p j = [] := fun j hj =>
        kid_splitMem (s := PgState.mk m (p :: rest)) hsep rfl (lvIndex_lt _ vs) hleaf j hj
      have hin : ∀ a, res.2.mem a ≠ splitMem (L + 1) (T + 8 * lvIndex (L + 1) vs) p m a →
          ∃ q ∈ p :: rest, inPage q a := by
        intro a ha
        obtain ⟨q, hq, hqa⟩ := (e2 a ha).page
        refine ⟨q, ?_, hqa⟩
        rcases hq with hq | hq
        · rcases (mem_tables_iff _ _ _ _ _).1 hq with h | ⟨j, hj, h⟩
          · rw [h]; exact List.mem_cons_self _ _
          · rw [hkn j hj] at h
            exact absurd h (List.not_mem_nil _)
        · rw [e1]; exact List.mem_cons_of_mem _ (List.mem_append_left _ hq)
      have hent : res.2.mem (T + 8 * lvIndex (L + 1) vs) = p ||| 7 := by
        by_contra hc
        obtain ⟨q, hq, hqa⟩ := hin _ (by rw [splitMem_entry]; exact hc)
        exact entry_not_in_pool_page hg.1 hq (lvIndex_lt _ vs) hqa
      have h := idx_in_range hs hle2 hlt2 (Or.inl (le_of_lt hgt))
      have hea : entryAddr (L + 1) T va = T + 8 * lvIndex (L + 1) vs := by
        show T + 8 * lvIndex (L + 1) va = _
        rw [h]
      have ht1 : isTable ptt (L + 1) (res.2.mem (entryAddr (L + 1) T va)) := by
        rw [hea, hent]; exact isTable_or7 ptt L p hpok.1
      rw [slot_table ht1, hea, hent, or7_and_PFN p hpok.1 hpok.2]
      exact ih hg1 hlt h0 va ((sameTable_desc L va vs).2 ⟨hs, h⟩) hle2 hlt2
  | descStop L T vs s res hp hleaf hrun hstop ih =>
    intro hg hlt h0 va hs hle2 hlt2
    have ht : isTable ptt (L + 1) (s.mem (T + 8 * lvIndex (L + 1) vs)) := ⟨hp, hleaf⟩
    have hgc := hg.down (lvIndex_lt _ vs) ht
    obtain ⟨taken, e1, e2⟩ := hrun.frame (hgc.1.mono (Nat.zero_le _))
    have hfr := frame_pages s.pool
      (fun q hq => by rw [e1]; exact List.mem_append_left _ hq) e2
    have hent := entry_kept hg.1 (lvIndex_lt _ vs) ht hfr
    have hst : ¬ (lvNext (L + 1) vs < ve ∧ lvIndex (L + 1) vs + 1 < 512) := by
      rcases hstop with h | h
      · exact absurd h0 h
      · exact h
    have h : lvIndex (L + 1) va = lvIndex (L + 1) vs := by
      apply idx_in_range hs hle2 hlt2
      by_cases hi : lvIndex (L + 1) vs + 1 < 512
      · left
        have : ¬ lvNext (L + 1) vs < ve := fun h => hst ⟨h, hi⟩
        omega
      · right; exact hi
    have hea : entryAddr (L + 1) T va = T + 8 * lvIndex (L + 1) vs := by
      show T + 8 * lvIndex (L + 1) va = _
      rw [h]
    have ht1 : isTable ptt (L + 1) (res.2.mem (entryAddr (L + 1) T va)) := by
      rw [hea, hent]; exact ht
    rw [slot_table ht1, hea, hent]
    exact ih hgc hlt h0 va ((sameTable_desc L va vs).2 ⟨hs, h⟩) hle2 hlt2
  | descCont L T vs s s1 res hp hleaf hrun1 hlt2 hidx hrun2 ih1 ih2 =>
    intro hg hlt h0 va hs hle2 hlt3
    have ht : isTable ptt (L + 1) (s.mem (T + 8 * lvIndex (L + 1) vs)) := ⟨hp, hleaf⟩
    have hgc := hg.down (lvIndex_lt _ vs) ht
    obtain ⟨a1, a2, a3⟩ := hrun1.final hm hgc
    obtain ⟨taken, e1, e2⟩ := hrun1.frame (hgc.1.mono (Nat.zero_le _))
    dsimp only at a1 a2 a3 e1 e2
    have hfr := frame_pages s.pool
      (fun q hq => by rw [e1]; exact List.mem_append_left _ hq) e2
    have hg1 := (desc_good hg (lvIndex_lt _ vs) ht a1 a2 hfr a3).1
    by_cases hv : va < lvNext (L + 1) vs
    · have h := same_entry hs hle2 (Or.inl hv)
      have hea : entryAddr (L + 1) T va = T + 8 * lvIndex (L + 1) vs := by
        show T + 8 * lvIndex (L + 1) va = _
        rw [h]
      have hent := entry_kept hg.1 (lvIndex_lt _ vs) ht hfr
      have hst1 := ih1 hgc hlt rfl va ((sameTable_desc L va vs).2 ⟨hs, h⟩) hle2 hlt3
      dsimp only at hst1
      have ht1 : isTable ptt (L + 1) (s1.mem (entryAddr (L + 1) T va)) := by
        rw [hea, hent]; exact ht
      have hsl : slot ptt s1.mem (L + 1) T va =
          slot ptt s1.mem L (s.mem (T + 8 * lvIndex (L + 1) vs) &&& PFN_MASK) va := by
        rw [slot_table ht1, hea, hent]
      obtain ⟨taken2, f1, f2⟩ := hrun2.frame (hg1.1.mono (Nat.zero_le _))
      rw [lvIndex_next (L + 1) vs hidx] at f2
      have hb := before_untouched hg1.1 (Nat.lt_succ_self (lvIndex (L + 1) vs))
        (lvIndex_lt (L + 1) vs)
        (fun p hp => by rw [f1]; exact List.mem_append_left _ hp) f2
      have hc := @slot_congr_at ptt s1.mem res.2.mem (L + 1) T va
        (by rw [hea]; exact hb.1) (by rw [h]; exact hb.2)
      rw [hc.1, hc.2, hsl]
      exact hst1
    · exact ih2 hg1 hlt2 h0 va (sameTable_trans hs (sameTable_next hidx).symm) (not_lt.1 hv) hlt3

/-- Two addresses of the same `2 ^ 48` block of the address space are
governed through the same entries of the PML4 table. -/
theorem sameTable_block {va vb : Nat} (h : va / 2 ^ 48 = vb / 2 ^ 48) : sameTable 3 va vb := by
  unfold sameTable
  have : lvSize (3 + 1) = 2 ^ 48 := by decide
  rw [this]; exact h

/-- An address of a range that stays inside the `2 ^ 48` block of its base
lies in that block. -/
theorem block_of_range {base size v : Nat}
    (hwin : base + size ≤ (base / 2 ^ 48 + 1) * 2 ^ 48) (h1 : base ≤ v) (h2 : v < base + size) :
    v / 2 ^ 48 = base / 2 ^ 48 := by
  omega

theorem mmu_modify_loop_run_block (ptt : _page_table_type) (set clr ve root k : Nat)
    (hve : ve % 4096 = 0) (hve2 : ve ≤ 2 ^ 64 - 2 ^ 39) (hk : ve ≤ (k + 1) * 2 ^ 48) :
    ∀ (fuel vaddr : Nat) (s : PgState), 512 - lvIndex 3 vaddr ≤ fuel →
      vaddr % 4096 = 0 → vaddr < ve → k * 2 ^ 48 ≤ vaddr →
      ∃ res, mmu_modify_loop root ve set clr ptt fuel vaddr s = some res ∧
        Run ptt set clr ve 3 root vaddr s res := by
  intro fuel
  induction fuel with
  | zero =>
    intro vaddr s hf
    have := lvIndex_lt 3 vaddr
    omega
  | succ n ih =>
    intro vaddr s hf hal hlt hlow
    have hle := lvNext_le 3 vaddr
    have hgt := lvNext_gt 3 vaddr
    have hna := lvNext_aligned 3 vaddr
    have hu : u64 ((vaddr &&& PML4E_MASK) + PML4E_SIZE) = lvNext 3 vaddr := by
      rw [and_PML4E_MASK vaddr (by omega)]
      unfold u64 U64 PML4E_SIZE lvNext
      rw [lvSize_three] at *
      unfold lvNext at hle
      omega
    have hea : pml4e_offset root vaddr = entryAddr 3 root vaddr := by
      unfold pml4e_offset entryAddr; rw [pml4e_index_eq]
    unfold mmu_modify_loop
    simp only [hu, hea, hlt, if_true]
    have hleaf := not_isLeaf_three (s.mem (entryAddr 3 root vaddr))
    by_cases hp : pgentry_present ptt (s.mem (entryAddr 3 root vaddr)) = 0
    · rw [if_pos hp]
      exact ⟨_, rfl, Run.notPresent 3 root vaddr s hp⟩
    · rw [if_neg hp]
      have h1 := modify_pdpte_run ptt set clr ve (entryAddr 3 root vaddr) vaddr s hve
        hve2 hal hlt
      by_cases hr : (modify_pdpte (entryAddr 3 root vaddr) vaddr ve set clr ptt s).1 ≠ 0
      · rw [if_pos hr]
        exact ⟨_, rfl, Run.descStop 2 root vaddr s _ hp hleaf h1 (Or.inl hr)⟩
      · rw [if_neg hr]
        have hr0 : (modify_pdpte (entryAddr 3 root vaddr) vaddr ve set clr ptt s).1 = 0 := by
          by_contra h; exact hr h
        have hres : (modify_pdpte (entryAddr 3 root vaddr) vaddr ve set clr ptt s) =
            (0, (modify_pdpte (entryAddr 3 root vaddr) vaddr ve set clr ptt s).2) :=
          Prod.ext hr0 rfl
        by_cases hlt2 : lvNext 3 vaddr < ve
        · have hidx : lvIndex 3 vaddr + 1 < 512 := by
            unfold lvIndex lvNext at *
            rw [lvSize_three] at *
            omega
          obtain ⟨res, e1, e2⟩ := ih (lvNext 3 vaddr)
            (modify_pdpte (entryAddr 3 root vaddr) vaddr ve set clr ptt s).2
            (by rw [lvIndex_next 3 vaddr hidx]; omega) hna hlt2 (by omega)
          refine ⟨res, e1, Run.descCont 2 root vaddr s _ _ hp hleaf ?_ hlt2 hidx e2⟩
          rw [← hres]; exact h1
        · rw [mmu_modify_loop_done _ _ _ _ _ _ _ _ hlt2]
          have hstop : ¬ (lvNext 3 vaddr < ve ∧ lvIndex 3 vaddr + 1 < 512) := by omega
          refine ⟨_, rfl, ?_⟩
          rw [← hres]
          exact Run.descStop 2 root vaddr s _ hp hleaf h1 (Or.inr hstop)

/-- The entry point, for a range that stays inside one `2 ^ 48` block of the
address space and ends at most at `2 ^ 64 - 2 ^ 39`, is a run of the PML4
level. -/
theorem mmu_modify_run_block (ptt : _page_table_type) (set clr root base size : Nat)
    (s : PgState) (fuel : Nat) (hf : 512 ≤ fuel)
    (hb : base % 4096 = 0) (hs : size % 4096 = 0) (hpos : 0 < size)
    (hwin : base + size ≤ (base / 2 ^ 48 + 1) * 2 ^ 48) (hend : base + size ≤ 2 ^ 64 - 2 ^ 39) :
    ∃ res, mmu_modify fuel root base size set clr ptt s = some res ∧
      Run ptt set clr (base + size) 3 root base s res := by
  unfold mmu_modify
  have hu : u64 (base + size) = base + size := by unfold u64 U64; omega
  simp only [MEM_ALIGNED_CHECK_4K, hb, hs, hu, decide_True, Bool.not_true, Bool.or_self,
    Bool.false_eq_true, if_false]
  exact mmu_modify_loop_run_block ptt set clr (base + size) root (base / 2 ^ 48) (by omega) hend
    hwin fuel base s (by omega) hb (by omega) (Nat.div_mul_le_self _ _)

/-- The entry point on a separated table, for a range that stays inside one
`2 ^ 48` block of the address space and ends at most at `2 ^ 64 - 2 ^ 39`,
is a run of the PML4 level that comes to some address. -/
theorem mmu_modify_ctl_block (ptt : _page_table_type) (set clr root base size : Nat)
    (s : PgState) (fuel : Nat) (hf : 512 ≤ fuel) (hsep : Separated ptt root s)
    (hb : base % 4096 = 0) (hs : size % 4096 = 0) (hpos : 0 < size)
    (hwin : base + size ≤ (base / 2 ^ 48 + 1) * 2 ^ 48) (hend : base + size ≤ 2 ^ 64 - 2 ^ 39) :
    ∃ res stop, mmu_modify fuel root base size set clr ptt s = some res ∧
      Run ptt set clr (base + size) 3 root base s res ∧
      Ctl ptt set clr (base + size) 3 root base s res stop := by
  obtain ⟨res, h1, h2⟩ :=
    mmu_modify_run_block ptt set clr root base size s fuel hf hb hs hpos hwin hend
  obtain ⟨stop, h3⟩ := h2.control (hsep.sepFrom _) (by omega)
  exact ⟨res, stop, h1, h2, h3⟩

/-- When `mmu_modify` returns `-ENOMEM` on a well-formed table, with masks
that change attributes only and a range inside one `2 ^ 48` block: the
allocator is empty, the walk stopped at an address `stop` of the range that
is still mapped by a large entry reaching beyond the range, and from `stop`
on every address of the block keeps what the table said about it. -/
theorem mmu_modify_beyond_block (ptt : _page_table_type) (set clr root base size : Nat)
    (s : PgState) (fuel : Nat) (hf : 512 ≤ fuel) (hwf : WellFormed ptt root s)
    (hm : AttrMask set clr) (hb : base % 4096 = 0) (hs : size % 4096 = 0)
    (hwin : base + size ≤ (base / 2 ^ 48 + 1) * 2 ^ 48) (hend : base + size ≤ 2 ^ 64 - 2 ^ 39)
    (s1 : PgState) (hret : mmu_modify fuel root base size set clr ptt s = some (-ENOMEM, s1)) :
    ∃ stop, base ≤ stop ∧ stop < base + size ∧ s1.pool = [] ∧
      mapped ptt s1.mem 3 root stop ∧
      base + size < lvNext (slot ptt s1.mem 3 root stop).1 stop ∧
      (∀ va, stop ≤ va → va / 2 ^ 48 = base / 2 ^ 48 →
        view ptt s1.mem 3 root va = view ptt s.mem 3 root va) := by
  have hpos : 0 < size := by
    by_contra h0
    have h0 : size = 0 := by omega
    subst h0
    rw [mmu_modify_size_zero fuel root base set clr ptt s hb] at hret
    simp [ENOMEM] at hret
  obtain ⟨res, h1, hrun⟩ :=
    mmu_modify_run_block ptt set clr root base size s fuel hf hb hs hpos hwin hend
  rw [hret] at h1
  have hres : res = (-ENOMEM, s1) := (Option.some.inj h1).symm
  subst hres
  obtain ⟨_, _, hbey⟩ := hrun.views hm ⟨hwf.1.sepFrom 0, hwf.2⟩ (by omega)
  obtain ⟨stop, b1, b2, b3, b4, b5⟩ := hbey ENOMEM_ne_zero
  obtain ⟨c1, c2, c3⟩ := b5 rfl
  refine ⟨stop, b1, b2, c1, c2, c3, fun va h1 h2 => ?_⟩
  exact b4 va (sameTable_block h2) h1

/-- With an allocator that has no page, a fully mapped range inside one
`2 ^ 48` block that covers a large page only in part makes `mmu_modify`
return `-ENOMEM` at an address `stop`: the entry governing `stop` reaches
beyond the range, and every entry governing an address of the block at or
beyond `stop` keeps its value. -/
theorem mmu_modify_enomem_empty_block (ptt : _page_table_type) (set clr root base size : Nat)
    (s : PgState) (fuel : Nat) (hf : 512 ≤ fuel) (hsep : Separated ptt root s)
    (hb : base % 4096 = 0) (hs : size % 4096 = 0)
    (hwin : base + size ≤ (base / 2 ^ 48 + 1) * 2 ^ 48) (hend : base + size ≤ 2 ^ 64 - 2 ^ 39)
    (hpool : s.pool = [])
    (hmapped : ∀ va, base ≤ va → va < base + size → mapped ptt s.mem 3 root va)
    (va0 : Nat) (h1 : base ≤ va0) (h2 : va0 < base + size)
    (hneed : base + size < lvNext (slot ptt s.mem 3 root va0).1 va0) :
    ∃ s1 stop, mmu_modify fuel root base size set clr ptt s = some (-ENOMEM, s1) ∧
      base ≤ stop ∧ stop < base + size ∧ s1.pool = [] ∧
      mapped ptt s.mem 3 root stop ∧
      base + size < lvNext (slot ptt s.mem 3 root stop).1 stop ∧
      (∀ va, stop ≤ va → va / 2 ^ 48 = base / 2 ^ 48 →
        s1.mem (slot ptt s.mem 3 root va).2 = s.mem (slot ptt s.mem 3 root va).2) := by
  obtain ⟨res, stop, e, hrun, hc⟩ :=
    mmu_modify_ctl_block ptt set clr root base size s fuel hf hsep hb hs (by omega) hwin hend
  have hst : ∀ v, base ≤ v → v < base + size → sameTable 3 v base := fun v g1 g2 =>
    sameTable_block (block_of_range hwin g1 g2)
  have hp : res.2.pool = s.pool := hrun.pool_nil (hsep.sepFrom _) hpool
  have h0 : res.1 = -ENOMEM := by
    rcases mmu_modify_codes3 e hb hs with h0 | h0 | h0
    · have := hc.needs h0 hp va0 (hst va0 h1 h2) h1 h2
      omega
    · have := (hc.bad (by rw [h0]; exact EFAULT_ne_zero)).1
      exact absurd (hmapped stop hc.le1 this) (hc.efault h0).1
    · exact h0
  have hne : res.1 ≠ 0 := by rw [h0]; exact ENOMEM_ne_zero
  obtain ⟨g1, g2, g3⟩ := hc.enomem h0
  refine ⟨res.2, stop, by rw [e, ← h0], hc.le1, (hc.bad hne).1, g1, g2, g3, ?_⟩
  intro va a1 a2
  exact hc.above (hsep.sepFrom 0) hne hp va (sameTable_block a2) a1

/-- A walk of a PT that starts at an address that is not mapped fails at
once, whatever the end of the range is. -/
theorem modify_pte_unmapped (ptt : _page_table_type) (set clr pde vs ve : Nat) (s : PgState)
    (h : ¬ mapped ptt s.mem 0 (s.mem pde &&& PFN_MASK) vs) :
    modify_pte pde vs ve set clr ptt s = (-EFAULT, s) := by
  have hp : pgentry_present ptt (s.mem (entryAddr 0 (s.mem pde &&& PFN_MASK) vs)) = 0 := by
    by_contra hne
    exact h ((mapped_of_stop (fun ht => ht.2 (Or.inl rfl))).2 hne)
  have hi := lvIndex_lt 0 vs
  obtain ⟨n, hn⟩ : ∃ n, 512 - lvIndex 0 vs = n + 1 := ⟨511 - lvIndex 0 vs, by omega⟩
  unfold modify_pte
  simp only [pte_index_eq, PTRS_PER_PTE, hn]
  unfold modify_pte_loop
  have hT : pde_page_vaddr (s.mem pde) = s.mem pde &&& PFN_MASK := rfl
  rw [hT]
  unfold entryAddr at hp
  simp only [hp, if_true]

/-- A walk of a PD that starts at an address that is not mapped fails at
once. -/
theorem modify_pde_unmapped (ptt : _page_table_type) (set clr pdpte vs ve : Nat) (s : PgState)
    (h : ¬ mapped ptt s.mem 1 (s.mem pdpte &&& PFN_MASK) vs) :
    modify_pde pdpte vs ve set clr ptt s = (-EFAULT, s) := by
  have hi := lvIndex_lt 1 vs
  obtain ⟨n, hn⟩ : ∃ n, 512 - lvIndex 1 vs = n + 1 := ⟨511 - lvIndex 1 vs, by omega⟩
  have hT : pdpte_page_vaddr (s.mem pdpte) = s.mem pdpte &&& PFN_MASK := rfl
  unfold modify_pde
  simp only [pde_index_eq, PTRS_PER_PDE, hn, hT]
  unfold modify_pde_loop
  show (if pgentry_present ptt (s.mem (entryAddr 1 (s.mem pdpte &&& PFN_MASK) vs)) = 0 then _
    else _) = _
  by_cases hp : pgentry_present ptt (s.mem (entryAddr 1 (s.mem pdpte &&& PFN_MASK) vs)) = 0
  · rw [if_pos hp]
  · rw [if_neg hp]
    by_cases hl : isLeaf 1 (s.mem (entryAddr 1 (s.mem pdpte &&& PFN_MASK) vs))
    · exact absurd ((mapped_of_stop (fun ht => ht.2 hl)).2 hp) h
    · have hl0 : ¬ pde_large (s.mem (entryAddr 1 (s.mem pdpte &&& PFN_MASK) vs)) ≠ 0 := by
        intro hne
        exact hl (Or.inr ⟨Or.inl rfl, hne⟩)
      rw [if_neg hl0]
      have hc := modify_pte_unmapped ptt set clr (entryAddr 1 (s.mem pdpte &&& PFN_MASK) vs)
        vs ve s (fun hm => h ((mapped_child ⟨hp, hl⟩ (sameTable_refl 0 vs)).2 hm))
      simp only [hc]
      rw [if_pos (Or.inl EFAULT_ne_zero)]

/-- A walk of a PDPT that starts at an address that is not mapped fails at
once. -/
theorem modify_pdpte_unmapped (ptt : _page_table_type) (set clr pml4e vs ve : Nat) (s : PgState)
    (h : ¬ mapped ptt s.mem 2 (s.mem pml4e &&& PFN_MASK) vs) :
    modify_pdpte pml4e vs ve set clr ptt s = (-EFAULT, s) := by
  have hi := lvIndex_lt 2 vs
  obtain ⟨n, hn⟩ : ∃ n, 512 - lvIndex 2 vs = n + 1 := ⟨511 - lvIndex 2 vs, by omega⟩
  have hT : pml4e_page_vaddr (s.mem pml4e) = s.mem pml4e &&& PFN_MASK := rfl
  unfold modify_pdpte
  simp only [pdpte_index_eq, PTRS_PER_PDPTE, hn, hT]
  unfold modify_pdpte_loop
  show (if pgentry_present ptt (s.mem (entryAddr 2 (s.mem pml4e &&& PFN_MASK) vs)) = 0 then _
    else _) = _
  by_cases hp : pgentry_present ptt (s.mem (entryAddr 2 (s.mem pml4e &&& PFN_MASK) vs)) = 0
  · rw [if_pos hp]
  · rw [if_neg hp]
    by_cases hl : isLeaf 2 (s.mem (entryAddr 2 (s.mem pml4e &&& PFN_MASK) vs))
    · exact absurd ((mapped_of_stop (fun ht => ht.2 hl)).2 hp) h
    · have hl0 : ¬ pdpte_large (s.mem (entryAddr 2 (s.mem pml4e &&& PFN_MASK) vs)) ≠ 0 := by
        intro hne
        exact hl (Or.inr ⟨Or.inr rfl, hne⟩)
      rw [if_neg hl0]
      have hc := modify_pde_unmapped ptt set clr (entryAddr 2 (s.mem pml4e &&& PFN_MASK) vs)
        vs ve s (fun hm => h ((mapped_child ⟨hp, hl⟩ (sameTable_refl 1 vs)).2 hm))
      simp only [hc]
      rw [if_pos (Or.inl EFAULT_ne_zero)]

/-- A call of `mmu_modify` whose first page is not mapped, for a range that
does not wrap around `2 ^ 64`, fails at once and leaves the state as it
was. -/
theorem mmu_modify_unmapped (ptt : _page_table_type) (set clr root base size : Nat)
    (s : PgState) (fuel : Nat) (hf : 0 < fuel)
    (hb : base % 4096 = 0) (hs : size % 4096 = 0) (hpos : 0 < size) (hend : base + size < 2 ^ 64)
    (h : ¬ mapped ptt s.mem 3 root base) :
    mmu_modify fuel root base size set clr ptt s = some (-EFAULT, s) := by
  unfold mmu_modify
  have hu : u64 (base + size) = base + size := by unfold u64 U64; omega
  simp only [MEM_ALIGNED_CHECK_4K, hb, hs, hu, decide_True, Bool.not_true, Bool.or_self,
    Bool.false_eq_true, if_false]
  obtain ⟨n, rfl⟩ : ∃ n, fuel = n + 1 := ⟨fuel - 1, by omega⟩
  have hea : pml4e_offset root base = entryAddr 3 root base := by
    unfold pml4e_offset entryAddr; rw [pml4e_index_eq]
  unfold mmu_modify_loop
  have hlt : base < base + size := by omega
  simp only [hea, hlt, if_true]
  have hleaf := not_isLeaf_three (s.mem (entryAddr 3 root base))
  by_cases hp : pgentry_present ptt (s.mem (entryAddr 3 root base)) = 0
  · rw [if_pos hp]
  · rw [if_neg hp]
    have hc := modify_pdpte_unmapped ptt set clr (entryAddr 3 root base) base (base + size) s
      (fun hm => h ((mapped_child ⟨hp, hleaf⟩ (sameTable_refl 2 base)).2 hm))
    simp only [hc]
    rw [if_pos EFAULT_ne_zero]

theorem exMemFull_root (i : Nat) (hi : i < 512) :
    exMemFull (0x1000 + 8 * i) = (0x200000 + 0x1000 * i) ||| 0x7 := by
  unfold exMemFull
  rw [if_pos ⟨by omega, by omega, by omega⟩]
  have : (0x1000 + 8 * i - 0x1000) / 8 = i := by omega
  rw [this]

theorem exMemFull_pdpt (i j : Nat) (hi : i < 512) (hj : j < 512) :
    exMemFull (0x200000 + 0x1000 * i + 8 * j) = ((512 * i + j) * 0x40000000) ||| 0x83 := by
  unfold exMemFull
  rw [if_neg (by omega), if_pos ⟨by omega, by omega, by omega⟩]
  have : (0x200000 + 0x1000 * i + 8 * j - 0x200000) / 8 = 512 * i + j := by omega
  rw [this]

/-- A present, writable large entry: presence test, large-page test and
width. -/
theorem large_entry_facts (ptt : _page_table_type) (f : Nat) (hf : f < 2 ^ 64) :
    pgentry_present ptt (f ||| 0x83) ≠ 0 ∧ pdpte_large (f ||| 0x83) ≠ 0 ∧ f ||| 0x83 < 2 ^ 64 := by
  refine ⟨?_, ?_, Nat.or_lt_two_pow hf (by decide)⟩
  · rw [present_iff]
    refine ⟨0, by cases ptt <;> simp, ?_⟩
    rw [Nat.testBit_or]
    have : (0x83 : Nat).testBit 0 = true := by decide
    rw [this]; simp
  · unfold pdpte_large
    rw [large_iff, Nat.testBit_or]
    have : (0x83 : Nat).testBit 7 = true := by decide
    rw [this]; simp

/-- With both masks zero `__modify_pte` stores the value the entry has. -/
theorem modify_zero_masks (s : PgState) (a : Nat) (h : s.mem a < 2 ^ 64) :
    ({ s with mem := __modify_pte s.mem a 0 0 } : PgState) = s := by
  have hm : __modify_pte s.mem a 0 0 = s.mem := by
    funext x
    show (if x = a then applyMask 0 0 (s.mem a) else s.mem x) = s.mem x
    by_cases hx : x = a
    · rw [if_pos hx, applyMask_zero h, hx]
    · rw [if_neg hx]
  rw [hm]

/-- The loop of `modify_pdpte` with zero masks over a PDPT of present large
entries, when no boundary it comes to lies beyond the end of the range: it
returns 0 and leaves the state as it was. -/
theorem modify_pdpte_loop_large (ptt : _page_table_type) (s : PgState) (T ve : Nat)
    (hT : ∀ j, j < 512 → pgentry_present ptt (s.mem (T + 8 * j)) ≠ 0 ∧
      pdpte_large (s.mem (T + 8 * j)) ≠ 0 ∧ s.mem (T + 8 * j) < 2 ^ 64) :
    ∀ n index vaddr, index + n ≤ 512 → vaddr % 2 ^ 30 = 0 → vaddr < 2 ^ 64 →
      (∀ i, 1 ≤ i → i ≤ n → u64 (vaddr + i * 2 ^ 30) ≤ ve) →
      modify_pdpte_loop T ve 0 0 ptt n index vaddr 0 s = (0, s) := by
  intro n
  induction n with
  | zero => intro index vaddr _ _ _ _; rfl
  | succ n ih =>
    intro index vaddr hidx hal hlt hve
    obtain ⟨h1, h2, h3⟩ := hT index (by omega)
    have hmask : vaddr &&& PDPTE_MASK = vaddr := by
      rw [and_PDPTE_MASK vaddr hlt, lvSize_two]
      omega
    have hnext := hve 1 (by omega) (by omega)
    rw [Nat.one_mul] at hnext
    have hsz : PDPTE_SIZE = 2 ^ 30 := by decide
    unfold modify_pdpte_loop
    simp only [hmask, hsz, h1, h2, if_false, ne_eq, not_false_eq_true, if_true,
      modify_zero_masks s _ h3]
    rw [if_neg (by omega)]
    by_cases hc : u64 (vaddr + 2 ^ 30) < ve
    · rw [if_pos hc]
      apply ih (index + 1) (u64 (vaddr + 2 ^ 30)) (by omega)
      · unfold u64 U64; omega
      · unfold u64 U64; omega
      · intro i hi1 hi2
        have := hve (i + 1) (by omega) (by omega)
        unfold u64 U64 at this ⊢
        have e : (vaddr + 2 ^ 30) % 18446744073709551616 + i * 2 ^ 30 ≡
            vaddr + (i + 1) * 2 ^ 30 [MOD 18446744073709551616] := by
          have : vaddr + (i + 1) * 2 ^ 30 = (vaddr + 2 ^ 30) + i * 2 ^ 30 := by ring
          rw [this]
          exact Nat.ModEq.add_right _ (Nat.mod_modEq _ _)
        rw [e]
        exact this
    · rw [if_neg hc]

/-- On the table `exMemFull`, with zero masks, the walk of the region of one
PML4 entry returns 0 and leaves the state as it was, when no 1 GiB boundary
of the region lies beyond the end of the range. -/
theorem exFull_pdpte (ve vaddr : Nat) (hal : vaddr % 2 ^ 39 = 0) (hlt : vaddr < 2 ^ 64)
    (hve : ∀ i, 1 ≤ i → i ≤ 512 → u64 (vaddr + i * 2 ^ 30) ≤ ve) :
    pgentry_present PTT_HOST (exStateFull.mem (pml4e_offset 0x1000 vaddr)) ≠ 0 ∧
      modify_pdpte (pml4e_offset 0x1000 vaddr) vaddr ve 0 0 PTT_HOST exStateFull =
        (0, exStateFull) := by
  have hi := lvIndex_lt 3 vaddr
  have hea : pml4e_offset 0x1000 vaddr = 0x1000 + 8 * lvIndex 3 vaddr := by
    unfold pml4e_offset; rw [pml4e_index_eq]
  have hm : exStateFull.mem (0x1000 + 8 * lvIndex 3 vaddr) =
      (0x200000 + 0x1000 * lvIndex 3 vaddr) ||| 0x7 := exMemFull_root _ hi
  rw [hea]
  refine ⟨by rw [hm]; exact present_or7 _ _, ?_⟩
  have hT : pml4e_page_vaddr (exStateFull.mem (0x1000 + 8 * lvIndex 3 vaddr)) =
      0x200000 + 0x1000 * lvIndex 3 vaddr := by
    rw [hm]
    exact or7_and_PFN _ (by omega) (by omega)
  have hidx : pdpte_index vaddr = 0 := by
    rw [pdpte_index_eq]
    unfold lvIndex
    rw [lvSize_two]
    omega
  unfold modify_pdpte
  simp only [hT, hidx, PTRS_PER_PDPTE]
  apply modify_pdpte_loop_large PTT_HOST exStateFull _ ve _ 512 0 vaddr (by omega) (by omega) hlt hve
  intro j hj
  have := exMemFull_pdpt (lvIndex 3 vaddr) j hi hj
  show pgentry_present PTT_HOST (exMemFull _) ≠ 0 ∧ pdpte_large (exMemFull _) ≠ 0 ∧
    exMemFull _ < 2 ^ 64
  rw [this]
  exact large_entry_facts PTT_HOST _ (by omega)

/-- On the table `exMemFull`, the loop of `mmu_modify` for a range that ends
at `2 ^ 64 - 0x1000`, in the region of the last PML4 entry, does not come to
an end: from every 512 GiB boundary it runs on, through the wrap of `vaddr`
to 0, however many iterations it is given. -/
theorem exFull_loop_none : ∀ fuel vaddr, vaddr % 2 ^ 39 = 0 → vaddr < 2 ^ 64 →
    mmu_modify_loop 0x1000 (2 ^ 64 - 0x1000) 0 0 PTT_HOST fuel vaddr exStateFull = none := by
  intro fuel
  induction fuel with
  | zero =>
    intro vaddr hal hlt
    unfold mmu_modify_loop
    rw [if_pos (by omega)]
  | succ n ih =>
    intro vaddr hal hlt
    obtain ⟨hp, hr⟩ := exFull_pdpte (2 ^ 64 - 0x1000) vaddr hal hlt (by
      intro i _ _
      unfold u64 U64
      omega)
    have hmask : vaddr &&& PML4E_MASK = vaddr := by
      rw [and_PML4E_MASK vaddr hlt, lvSize_three]
      omega
    unfold mmu_modify_loop
    rw [if_pos (by omega)]
    simp only [hmask, hp, hr, if_false, ne_eq, not_true_eq_false]
    apply ih
    · unfold u64 U64 PML4E_SIZE; omega
    · unfold u64 U64 PML4E_SIZE; omega

/-- On the table `exMemFull`, the iterations of the loop of `mmu_modify`
over `[0, 2 ^ 48 + 2 ^ 39)` with zero masks: they start at the 513
boundaries `k * 2 ^ 39`, and the call returns 0. -/
theorem exFull_loop_tr : ∀ n k, k + n = 513 →
    mmu_modify_loop_tr 0x1000 (2 ^ 48 + 2 ^ 39) 0 0 PTT_HOST n (k * 2 ^ 39) exStateFull =
      (some (0, exStateFull), (List.range' k n).map (fun j => j * 2 ^ 39)) := by
  intro n
  induction n with
  | zero =>
    intro k hk
    unfold mmu_modify_loop_tr
    rw [if_neg (by omega)]
    rfl
  | succ n ih =>
    intro k hk
    obtain ⟨hp, hr⟩ := exFull_pdpte (2 ^ 48 + 2 ^ 39) (k * 2 ^ 39) (by omega) (by omega) (by
      intro i _ _
      unfold u64 U64
      omega)
    have hmask : (k * 2 ^ 39) &&& PML4E_MASK = k * 2 ^ 39 := by
      rw [and_PML4E_MASK _ (by omega), lvSize_three]
      omega
    have hnext : u64 (k * 2 ^ 39 + PML4E_SIZE) = (k + 1) * 2 ^ 39 := by
      unfold u64 U64 PML4E_SIZE; omega
    unfold mmu_modify_loop_tr
    rw [if_pos (by omega)]
    simp only [hmask, hp, hr, hnext, if_false, ne_eq, not_true_eq_false]
    rw [ih (k + 1) (by omega)]
    rfl

/-- A call whose range ends at or beyond `2 ^ 64` does not enter the loop:
`vaddr_end` is the sum reduced modulo `2 ^ 64`, which is not above
`vaddr_base`. -/
theorem mmu_modify_wrapped (fuel root base size set clr : Nat) (ptt : _page_table_type)
    (s : PgState) (hb : base % 4096 = 0) (hs : size % 4096 = 0)
    (h1 : base < 2 ^ 64) (h2 : size < 2 ^ 64) (h3 : 2 ^ 64 ≤ base + size) :
    mmu_modify fuel root base size set clr ptt s = some (0, s) := by
  unfold mmu_modify
  simp only [MEM_ALIGNED_CHECK_4K, hb, hs, decide_True, Bool.not_true, Bool.or_self,
    Bool.false_eq_true, if_false]
  exact mmu_modify_loop_done ptt set clr _ root fuel base s (by unfold u64 U64; omega)

/-- In the table `exMemFull` every address is mapped, by a 1 GiB entry. -/
theorem exFull_mapped (va : Nat) :
    (slot PTT_HOST exMemFull 3 0x1000 va).1 = 2 ∧ mapped PTT_HOST exMemFull 3 0x1000 va := by
  have hi := lvIndex_lt 3 va
  have hj := lvIndex_lt 2 va
  have hroot : exMemFull (entryAddr 3 0x1000 va) = (0x200000 + 0x1000 * lvIndex 3 va) ||| 0x7 :=
    exMemFull_root _ hi
  have ht : isTable PTT_HOST (2 + 1) (exMemFull (entryAddr (2 + 1) 0x1000 va)) := by
    rw [hroot]; exact isTable_or7 PTT_HOST 2 _ (by omega)
  have hT : exMemFull (entryAddr (2 + 1) 0x1000 va) &&& PFN_MASK =
      0x200000 + 0x1000 * lvIndex 3 va := by
    rw [hroot]; exact or7_and_PFN _ (by omega) (by omega)
  have hent : exMemFull (entryAddr 2 (0x200000 + 0x1000 * lvIndex 3 va) va) =
      ((512 * lvIndex 3 va + lvIndex 2 va) * 0x40000000) ||| 0x83 :=
    exMemFull_pdpt _ _ hi hj
  obtain ⟨f1, f2, _⟩ := large_entry_facts PTT_HOST ((512 * lvIndex 3 va + lvIndex 2 va) * 0x40000000)
    (by omega)
  have hnt : ¬ isTable PTT_HOST 2 (exMemFull (entryAddr 2 (0x200000 + 0x1000 * lvIndex 3 va) va)) := by
    rw [hent]
    exact fun h => h.2 (Or.inr ⟨Or.inr rfl, f2⟩)
  have hslot : slot PTT_HOST exMemFull 3 0x1000 va =
      (2, entryAddr 2 (0x200000 + 0x1000 * lvIndex 3 va) va) := by
    rw [slot_table ht, hT, slot_stop hnt]
  refine ⟨by rw [hslot], ?_⟩
  unfold mapped gov
  rw [hslot]
  show pgentry_present PTT_HOST (exMemFull (entryAddr 2 (0x200000 + 0x1000 * lvIndex 3 va) va)) ≠ 0
  rw [hent]
  exact f1

theorem lvSize_four : lvSize 4 = 2 ^ 48 := by decide

/-- The next PML4 boundary lies in the same `2 ^ 48` block, or is its
end. -/
theorem lvNext_four_of_three (v : Nat) (h : lvIndex 3 v + 1 < 512) :
    lvNext 4 (lvNext 3 v) = lvNext 4 v := by
  unfold lvNext lvIndex at *
  rw [lvSize_three, lvSize_four] at *
  omega

theorem lvNext_three_last (v : Nat) (h : ¬ lvIndex 3 v + 1 < 512) : lvNext 3 v = lvNext 4 v := by
  have := lvIndex_lt 3 v
  unfold lvNext lvIndex at *
  rw [lvSize_three, lvSize_four] at *
  omega

theorem Passes.cons {ptt : _page_table_type} {set clr ve root vs : Nat} {s s1 : PgState}
    {res : Int × PgState}
    (hp : pgentry_present ptt (s.mem (entryAddr 3 root vs)) ≠ 0)
    (h1 : Run ptt set clr ve 2 (s.mem (entryAddr 3 root vs) &&& PFN_MASK) vs s (0, s1))
    (hlt : lvNext 3 vs < ve) (hidx : lvIndex 3 vs + 1 < 512)
    (h : Passes ptt set clr ve root (lvNext 3 vs) s1 res) :
    Passes ptt set clr ve root vs s res := by
  have hleaf := not_isLeaf_three (s.mem (entryAddr 3 root vs))
  have hb := lvNext_four_of_three vs hidx
  cases h with
  | last _ _ _ hrun hc =>
    rw [hb] at hc
    exact Passes.last vs s res (Run.descCont 2 root vs s s1 res hp hleaf h1 hlt hidx hrun) hc
  | more _ _ s2 _ hrun hc hrest =>
    rw [hb] at hc hrest
    exact Passes.more vs s s2 res (Run.descCont 2 root vs s s1 (0, s2) hp hleaf h1 hlt hidx hrun)
      hc hrest

/-- Whenever the loop of `mmu_modify` returns, for a range that ends at most
at `2 ^ 64 - 2 ^ 39`, what it did is a sequence of passes. -/
theorem mmu_modify_loop_passes (ptt : _page_table_type) (set clr ve root : Nat)
    (hve : ve % 4096 = 0) (hve2 : ve ≤ 2 ^ 64 - 2 ^ 39) :
    ∀ (fuel vaddr : Nat) (s : PgState) (res : Int × PgState),
      vaddr % 4096 = 0 → vaddr < ve →
      mmu_modify_loop root ve set clr ptt fuel vaddr s = some res →
      Passes ptt set clr ve root vaddr s res := by
  intro fuel
  induction fuel with
  | zero =>
    intro vaddr s res _ hlt h
    unfold mmu_modify_loop at h
    rw [if_pos hlt] at h
    exact absurd h (by simp)
  | succ n ih =>
    intro vaddr s res hal hlt h
    have hle := lvNext_le 3 vaddr
    have hgt := lvNext_gt 3 vaddr
    have hna := lvNext_aligned 3 vaddr
    have hu : u64 ((vaddr &&& PML4E_MASK) + PML4E_SIZE) = lvNext 3 vaddr := by
      rw [and_PML4E_MASK vaddr (by omega)]
      unfold u64 U64 PML4E_SIZE lvNext
      rw [lvSize_three] at *
      unfold lvNext at hle
      omega
    have hea : pml4e_offset root vaddr = entryAddr 3 root vaddr := by
      unfold pml4e_offset entryAddr; rw [pml4e_index_eq]
    unfold mmu_modify_loop at h
    simp only [hu, hea, hlt, if_true] at h
    have hleaf := not_isLeaf_three (s.mem (entryAddr 3 root vaddr))
    have h4 : lvNext 3 vaddr ≤ lvNext 4 vaddr := lvNext_mono_level 3 vaddr
    by_cases hp : pgentry_present ptt (s.mem (entryAddr 3 root vaddr)) = 0
    · rw [if_pos hp] at h
      have hres : res = (-EFAULT, s) := (Option.some.inj h).symm
      subst hres
      exact Passes.last vaddr s _ (Run.notPresent 3 root vaddr s hp) (Or.inl EFAULT_ne_zero)
    · rw [if_neg hp] at h
      have h1 := modify_pdpte_run ptt set clr ve (entryAddr 3 root vaddr) vaddr s hve
        hve2 hal hlt
      by_cases hr : (modify_pdpte (entryAddr 3 root vaddr) vaddr ve set clr ptt s).1 ≠ 0
      · rw [if_pos hr] at h
        have hres : res = modify_pdpte (entryAddr 3 root vaddr) vaddr ve set clr ptt s :=
          (Option.some.inj h).symm
        subst hres
        exact Passes.last vaddr s _ (Run.descStop 2 root vaddr s _ hp hleaf h1 (Or.inl hr))
          (Or.inl hr)
      · rw [if_neg hr] at h
        have hr0 : (modify_pdpte (entryAddr 3 root vaddr) vaddr ve set clr ptt s).1 = 0 := by
          by_contra h'; exact hr h'
        have hres : (modify_pdpte (entryAddr 3 root vaddr) vaddr ve set clr ptt s) =
            (0, (modify_pdpte (entryAddr 3 root vaddr) vaddr ve set clr ptt s).2) :=
          Prod.ext hr0 rfl
        rw [hres] at h1
        by_cases hlt2 : lvNext 3 vaddr < ve
        · have hrest := ih (lvNext 3 vaddr) _ res hna hlt2 h
          by_cases hidx : lvIndex 3 vaddr + 1 < 512
          · exact Passes.cons hp h1 hlt2 hidx hrest
          · have e := lvNext_three_last vaddr hidx
            rw [e] at hrest hlt2
            refine Passes.more vaddr s _ res ?_ hlt2 hrest
            exact Run.descStop 2 root vaddr s _ hp hleaf h1 (Or.inr (fun hc => hidx hc.2))
        · rw [mmu_modify_loop_done _ _ _ _ _ _ _ _ hlt2] at h
          have hres2 : res = (0, (modify_pdpte (entryAddr 3 root vaddr) vaddr ve set clr ptt s).2) :=
            (Option.some.inj h).symm
          subst hres2
          exact Passes.last vaddr s _
            (Run.descStop 2 root vaddr s _ hp hleaf h1 (Or.inr (fun hc => hlt2 hc.1)))
            (Or.inr (by omega))

theorem sameTable_of_range {va vs : Nat} (h1 : vs ≤ va) (h2 : va < lvNext 4 vs) :
    sameTable 3 va vs := by
  unfold sameTable
  unfold lvNext at h2
  have e : lvSize (3 + 1) = 2 ^ 48 := lvSize_four
  rw [lvSize_four] at h2
  rw [e]
  omega

/-- A run returns 0, `-EFAULT` or `-ENOMEM`. -/
theorem Run.codes {ptt : _page_table_type} {set clr ve L T vs : Nat} {s : PgState}
    {res : Int × PgState} (hrun : Run ptt set clr ve L T vs s res) :
    res.1 = 0 ∨ res.1 = -EFAULT ∨ res.1 = -ENOMEM := by
  induction hrun with
  | notPresent L T vs s hp => exact Or.inr (Or.inl rfl)
  | leafStop L T vs s hp hleaf hle hstop => exact Or.inl rfl
  | leafCont L T vs s res hp hleaf hlt hidx hrun ih => exact ih
  | splitFail L T vs s hp hleaf hgt hpool => exact Or.inr (Or.inr rfl)
  | splitOk L T vs s s1 res hp hleaf hgt hpool hsplit hrun ih => exact ih
  | descStop L T vs s res hp hleaf hrun hstop ih => exact ih
  | descCont L T vs s s1 res hp hleaf hrun1 hlt2 hidx hrun2 ih1 ih2 => exact ih2

/-- What a sequence of passes does to what a good table says, for masks
that change attributes only: the table stays good, pages are only taken
from the allocator, every address keeps what the table said about it or was
mapped and has the masks applied, and after a return of 0 every address of
the range was mapped and has the masks applied. -/
theorem Passes.masked {ptt : _page_table_type} {set clr ve root vs : Nat} {s : PgState}
    {res : Int × PgState} (h : Passes ptt set clr ve root vs s res) (hm : AttrMask set clr) :
    Good ptt 3 root s → vs < ve →
      Good ptt 3 root res.2 ∧ (∃ taken, s.pool = taken ++ res.2.pool) ∧
      (∀ va, view ptt res.2.mem 3 root va = view ptt s.mem 3 root va ∨
        (mapped ptt s.mem 3 root va ∧
          view ptt res.2.mem 3 root va = applyV set clr (view ptt s.mem 3 root va))) ∧
      (res.1 = 0 → ∀ va, vs ≤ va → va < ve →
        mapped ptt s.mem 3 root va ∧
          view ptt res.2.mem 3 root va = applyV set clr (view ptt s.mem 3 root va)) := by
  induction h with
  | last vs s res hrun hc =>
    intro hg hlt
    obtain ⟨hany, hdone, _⟩ := hrun.views hm hg hlt
    obtain ⟨hg', hpool, _⟩ := hrun.final hm hg
    obtain ⟨stop, hctl⟩ := hrun.control (hg.1.mono (Nat.zero_le _)) hlt
    refine ⟨hg', hpool, hany, fun h0 va h1 h2 => ?_⟩
    have hve : ve ≤ lvNext 4 vs := by
      rcases hc with hc | hc
      · exact absurd h0 hc
      · exact hc
    have hst : sameTable 3 va vs := sameTable_of_range h1 (by omega)
    exact ⟨hctl.below va hst h1 (by rw [hctl.ok h0]; exact h2), hdone h0 va hst h1 h2⟩
  | more vs s s1 res hrun hlt4 hrest ih =>
    intro hg hlt
    obtain ⟨hany1, hdone1, _⟩ := hrun.views hm hg hlt
    obtain ⟨hg1, hpool1, _⟩ := hrun.final hm hg
    obtain ⟨stop, hctl⟩ := hrun.control (hg.1.mono (Nat.zero_le _)) hlt
    obtain ⟨hg2, hpool2, hany2, hdone2⟩ := ih hg1 hlt4
    have hstop : stop = ve := hctl.ok rfl
    refine ⟨hg2, ?_, fun va => ?_, fun h0 va h1 h2 => ?_⟩
    · obtain ⟨t1, e1⟩ := hpool1
      obtain ⟨t2, e2⟩ := hpool2
      exact ⟨t1 ++ t2, by rw [e1, e2, List.append_assoc]⟩
    · have a1 := hany1 va
      have a2 := hany2 va
      simp only [mapped_iff_view] at a1 a2 ⊢
      exact views_combine ptt a1 a2
    · by_cases hva : va < lvNext 4 vs
      · have hst : sameTable 3 va vs := sameTable_of_range h1 hva
        have hmap := hctl.below va hst h1 (by rw [hstop]; exact h2)
        have hv1 := hdone1 rfl va hst h1 h2
        have a2 := hany2 va
        simp only [mapped_iff_view] at a2
        exact ⟨hmap, views_after ptt hv1 a2⟩
      · obtain ⟨hm2, hv2⟩ := hdone2 h0 va (by omega) h2
        rcases hany1 va with a1 | ⟨hm1, a1⟩
        · refine ⟨?_, by rw [hv2, a1]⟩
          rw [mapped_iff_view] at hm2 ⊢
          rw [← a1]; exact hm2
        · exact ⟨hm1, by rw [hv2, a1, applyV_idem]⟩

/-- For a range that ends in the region of the last PML4 entry, below
`2 ^ 64`, the loop of `mmu_modify` never returns 0: every boundary it comes
to, also the wrapped one, is below the end of the range. -/
theorem mmu_modify_loop_top (ptt : _page_table_type) (set clr ve root : Nat)
    (h1 : 2 ^ 64 - 2 ^ 39 < ve) (h2 : ve < 2 ^ 64) :
    ∀ (fuel vaddr : Nat) (s : PgState) (res : Int × PgState), vaddr < ve →
      mmu_modify_loop root ve set clr ptt fuel vaddr s = some res → res.1 ≠ 0 := by
  intro fuel
  induction fuel with
  | zero =>
    intro vaddr s res hlt h
    unfold mmu_modify_loop at h
    rw [if_pos hlt] at h
    exact absurd h (by simp)
  | succ n ih =>
    intro vaddr s res hlt h
    have hnext : u64 ((vaddr &&& PML4E_MASK) + PML4E_SIZE) < ve := by
      rw [and_PML4E_MASK vaddr (by omega), lvSize_three]
      unfold u64 U64 PML4E_SIZE
      omega
    unfold mmu_modify_loop at h
    simp only [hlt, if_true] at h
    split at h
    · have hres : res = (-EFAULT, s) := (Option.some.inj h).symm
      rw [hres]; exact EFAULT_ne_zero
    · split at h
      · rename_i hr
        have hres := (Option.some.inj h).symm
        rw [hres]; exact hr
      · exact ih _ _ res hnext h

/-- A run with both masks zero that took no page from the allocator leaves
a memory of 64-bit entries as it was. -/
theorem Ctl.zero_mem {ptt : _page_table_type} {ve L T vs : Nat} {s : PgState}
    {res : Int × PgState} {stop : Nat} (hc : Ctl ptt 0 0 ve L T vs s res stop)
    (h64 : ∀ a, s.mem a < 2 ^ 64) (hpool : res.2.pool = s.pool) (a : Nat) :
    res.2.mem a = s.mem a := by
  by_cases hex : ∃ va, sameTable L va vs ∧ vs ≤ va ∧ va < stop ∧ (slot ptt s.mem L T va).2 = a
  · obtain ⟨va, g1, g2, g3, g4⟩ := hex
    have := hc.memIn hpool va g1 g2 g3
    rw [g4, applyMask_zero (h64 a)] at this
    exact this
  · apply hc.memOut hpool a
    intro va g1 g2 g3 g4
    exact hex ⟨va, g1, g2, g3, g4⟩

/-- A sequence of passes with both masks zero over a fully mapped range of a
good table of 64-bit entries returns 0 or `-ENOMEM`, and leaves the memory
as it was when it took no page from the allocator. -/
theorem Passes.unchanged {ptt : _page_table_type} {ve root vs : Nat} {s : PgState}
    {res : Int × PgState} (h : Passes ptt 0 0 ve root vs s res) :
    Good ptt 3 root s → (∀ a, s.mem a < 2 ^ 64) → vs < ve →
      (∀ va, vs ≤ va → va < ve → mapped ptt s.mem 3 root va) →
      (res.1 = 0 ∨ res.1 = -ENOMEM) ∧ (res.2.pool = s.pool → ∀ a, res.2.mem a = s.mem a) := by
  induction h with
  | last vs s res hrun hc =>
    intro hg h64 hlt hmapped
    obtain ⟨stop, hctl⟩ := hrun.control (hg.1.mono (Nat.zero_le _)) hlt
    refine ⟨?_, fun hpool a => hctl.zero_mem h64 hpool a⟩
    rcases hrun.codes with h0 | h0 | h0
    · exact Or.inl h0
    · have := (hctl.bad (by rw [h0]; exact EFAULT_ne_zero)).1
      exact absurd (hmapped stop hctl.le1 this) (hctl.efault h0).1
    · exact Or.inr h0
  | more vs s s1 res hrun hlt4 hrest ih =>
    intro hg h64 hlt hmapped
    obtain ⟨hg1, hpool1, _⟩ := hrun.final (by decide) hg
    obtain ⟨stop, hctl⟩ := hrun.control (hg.1.mono (Nat.zero_le _)) hlt
    have hp1 : s1.pool = s.pool := (hctl.nosplit (le_of_lt hlt4)).2
    have hmem : ∀ a, s1.mem a = s.mem a := fun a => hctl.zero_mem h64 hp1 a
    have hfun : s1.mem = s.mem := funext hmem
    obtain ⟨c1, c2⟩ := ih hg1 (by rw [hfun]; exact h64) hlt4
      (fun va g1 g2 => by
        rw [hfun]
        exact hmapped va (le_trans (le_of_lt (lvNext_gt 4 vs)) g1) g2)
    refine ⟨c1, fun hpool a => ?_⟩
    rw [c2 (by rw [hpool, hp1]) a, hmem a]

/-- Whenever the entry point returns, for aligned arguments and a range that
is not empty and ends at most at `2 ^ 64 - 2 ^ 39`, what it did is a
sequence of passes. -/
theorem mmu_modify_passes (ptt : _page_table_type) (set clr root base size : Nat) (s : PgState)
    (fuel : Nat) (res : Int × PgState)
    (hb : base % 4096 = 0) (hs : size % 4096 = 0) (hpos : 0 < size)
    (hend : base + size ≤ 2 ^ 64 - 2 ^ 39)
    (hret : mmu_modify fuel root base size set clr ptt s = some res) :
    Passes ptt set clr (base + size) root base s res := by
  rw [mmu_modify_aligned _ _ _ _ _ _ _ _ hb hs] at hret
  have hu : u64 (base + size) = base + size := by unfold u64 U64; omega
  rw [hu] at hret
  exact mmu_modify_loop_passes ptt set clr (base + size) root (by omega) hend fuel base s res hb
    (by omega) hret

/-- What `mmu_modify` does, whenever it returns, to what a well-formed table
says, for masks that change attributes only and a range that ends at most at
`2 ^ 64 - 2 ^ 39`. -/
theorem mmu_modify_views_all (ptt : _page_table_type) (set clr root base size : Nat)
    (s : PgState) (fuel : Nat) (res : Int × PgState) (hwf : WellFormed ptt root s)
    (hm : AttrMask set clr) (hend : base + size ≤ 2 ^ 64 - 2 ^ 39)
    (hret : mmu_modify fuel root base size set clr ptt s = some res) :
    (∀ va, view ptt res.2.mem 3 root va = view ptt s.mem 3 root va ∨
      (mapped ptt s.mem 3 root va ∧
        view ptt res.2.mem 3 root va = applyV set clr (view ptt s.mem 3 root va))) ∧
    (res.1 = 0 → ∀ va, base ≤ va → va < base + size →
      mapped ptt s.mem 3 root va ∧
        view ptt res.2.mem 3 root va = applyV set clr (view ptt s.mem 3 root va)) := by
  by_cases hal : base % 4096 = 0 ∧ size % 4096 = 0
  · by_cases hpos : 0 < size
    · have hp := mmu_modify_passes ptt set clr root base size s fuel res hal.1 hal.2 hpos hend hret
      obtain ⟨_, _, hany, hdone⟩ := hp.masked hm ⟨hwf.1.sepFrom 0, hwf.2⟩ (by omega)
      exact ⟨hany, hdone⟩
    · have h0 : size = 0 := by omega
      subst h0
      rw [mmu_modify_size_zero fuel root base set clr ptt s hal.1] at hret
      have hres : res = (0, s) := (Option.some.inj hret).symm
      subst hres
      exact ⟨fun _ => Or.inl rfl, fun _ va h1 h2 => by omega⟩
  · rw [mmu_modify_einval fuel root base size set clr ptt s (by omega)] at hret
    have hres : res = (-EINVAL, s) := (Option.some.inj hret).symm
    subst hres
    refine ⟨fun _ => Or.inl rfl, fun h0 => ?_⟩
    simp [EINVAL] at h0

/-- A call that returns 0 had aligned arguments, and its range, when it does
not reach `2 ^ 64`, ends at most at `2 ^ 64 - 2 ^ 39` or is empty. -/
theorem mmu_modify_zero_range (ptt : _page_table_type) (set clr root base size : Nat)
    (s s1 : PgState) (fuel : Nat) (hend : base + size < 2 ^ 64)
    (hret : mmu_modify fuel root base size set clr ptt s = some (0, s1)) :
    base + size ≤ 2 ^ 64 - 2 ^ 39 ∨ size = 0 := by
  by_cases hal : base % 4096 = 0 ∧ size % 4096 = 0
  · by_contra hcon
    have h1 : 2 ^ 64 - 2 ^ 39 < base + size := by omega
    have hpos : 0 < size := by omega
    rw [mmu_modify_aligned _ _ _ _ _ _ _ _ hal.1 hal.2] at hret
    have hu : u64 (base + size) = base + size := by unfold u64 U64; omega
    rw [hu] at hret
    exact mmu_modify_loop_top ptt set clr (base + size) root h1 hend fuel base s (0, s1)
      (by omega) hret rfl
  · rw [mmu_modify_einval fuel root base size set clr ptt s (by omega)] at hret
    have := congrArg Prod.fst (Option.some.inj hret)
    simp [EINVAL] at this

/-- The presence test of a masked entry reads its attribute bits only. -/
theorem present_applyMask_attrOf (ptt : _page_table_type) {set clr : Nat} (hm : AttrMask set clr)
    (lv e : Nat) :
    pgentry_present ptt (applyMask set clr (attrOf lv e)) ≠ 0 ↔
      pgentry_present ptt (applyMask set clr e) ≠ 0 := by
  rw [← attrOf_applyMask hm]
  exact present_attrOf ptt lv _

/-- A call whose range reaches `2 ^ 64` returns with the state as it was. -/
theorem mmu_modify_wrapped_state (fuel root base size set clr : Nat) (ptt : _page_table_type)
    (s : PgState) (res : Int × PgState) (h1 : base < 2 ^ 64) (h2 : size < 2 ^ 64)
    (h3 : 2 ^ 64 ≤ base + size)
    (hret : mmu_modify fuel root base size set clr ptt s = some res) :
    (res.1 = 0 ∨ res.1 = -EINVAL) ∧ res.2 = s := by
  by_cases hal : base % 4096 = 0 ∧ size % 4096 = 0
  · rw [mmu_modify_wrapped fuel root base size set clr ptt s hal.1 hal.2 h1 h2 h3] at hret
    have hres : res = (0, s) := (Option.some.inj hret).symm
    subst hres
    exact ⟨Or.inl rfl, rfl⟩
  · rw [mmu_modify_einval fuel root base size set clr ptt s (by omega)] at hret
    have hres : res = (-EINVAL, s) := (Option.some.inj hret).symm
    subst hres
    exact ⟨Or.inr rfl, rfl⟩

/-! ## The claims -/

set_option maxRecDepth 100000

/-- C1: a call of `mmu_modify` whose `vaddr_base` or `size` is not a multiple
of 4 KiB returns `-EINVAL` and leaves the state, memory and allocator, as it
was: no entry is modified and no table is allocated. -/
theorem mmu_modify_rejects_unaligned (fuel root base size set clr : Nat)
    (ptt : _page_table_type) (s : PgState) (h : base % 4096 ≠ 0 ∨ size % 4096 ≠ 0) :
    mmu_modify fuel root base size set clr ptt s = some (-EINVAL, s) :=
  mmu_modify_einval fuel root base size set clr ptt s h

theorem mmu_modify_rejects_unaligned_witness :
    (0x1001 % 4096 ≠ 0 ∨ 0x1000 % 4096 ≠ 0) ∧
      mmu_modify 512 0x1000 0x1001 0x1000 0 2 PTT_HOST exState = some (-EINVAL, exState) :=
  ⟨by decide, mmu_modify_rejects_unaligned 512 0x1000 0x1001 0x1000 0 2 PTT_HOST exState
    (by decide)⟩

/-- C3, at the failing input: the range `[0x1000, 0x200000)` starts inside
the 2 MiB page at `[0, 0x200000)` of the example table and ends at its end.
Clearing the write bit over it returns 0 and takes no page from the
allocator: the large entry at `0x3000`, which governs address 0 before and
after the call, is mutated as a whole, so address 0, outside the range,
loses the write bit as well. -/
theorem mmu_modify_mutates_large_page_below_range :
    slot PTT_HOST exMem 3 0x1000 0 = (1, 0x3000) ∧ exMem 0x3000 = 0x200083 ∧
      (mmu_modify 512 0x1000 0x1000 0x1FF000 0 2 PTT_HOST exState).map
          (fun r => (r.1, r.2.mem 0x3000, r.2.pool, slot PTT_HOST r.2.mem 3 0x1000 0)) =
        some (0, 0x200081, [0x10000, 0x11000], (1, 0x3000)) := by
  decide

/-- C6, as stated, fails: in the table `exMemTop` the range
`[0xFFFFFFFFFFE00000, 2 ^ 64)` is exactly the present 2 MiB page of the PD
entry at `0x3FF8` (value `0x200083`), and the table is separated.  Clearing
the write bit over it returns 0 with the state as it was: `vaddr_end` is 0,
the loop is not entered, and the large entry keeps `0x200083` where
`(old & ~prot_clr) | prot_set` is `0x200081`. -/
theorem mmu_modify_skips_top_large_page :
    Separated PTT_HOST 0x1000 exStateTop ∧
      slot PTT_HOST exMemTop 3 0x1000 0xFFFFFFFFFFE00000 = (1, 0x3FF8) ∧
      exMemTop 0x3FF8 = 0x200083 ∧ pgentry_present PTT_HOST (exMemTop 0x3FF8) ≠ 0 ∧
      0xFFFFFFFFFFE00000 % lvSize 1 = 0 ∧ 0x200000 = lvSize 1 ∧
      applyMask 0 2 0x200083 = 0x200081 ∧
      ∀ fuel, mmu_modify fuel 0x1000 0xFFFFFFFFFFE00000 0x200000 0 2 PTT_HOST exStateTop =
        some (0, exStateTop) :=
  ⟨by decide, by decide, by decide, by decide, by decide, by decide, by decide, fun fuel =>
    mmu_modify_wrapped fuel 0x1000 0xFFFFFFFFFFE00000 0x200000 0 2 PTT_HOST exStateTop
      (by decide) (by decide) (by decide) (by decide) (by decide)⟩

/-- C6, amended: on a separated table, for a 4 KiB-aligned range that stays
inside one `2 ^ 48` block of the address space and ends at most at
`2 ^ 64 - 2 ^ 39`, and in which every address is mapped by an entry whose
page ends inside the range (the range is made of whole pages, large ones
included), `mmu_modify` returns 0 and takes no page from the allocator (no
split), the entry governing each address of the range has the value
`(old & ~prot_clr) | prot_set`, and every other entry has its old value. -/
theorem mmu_modify_whole_pages (ptt : _page_table_type) (set clr root base size : Nat)
    (s : PgState) (fuel : Nat) (hf : 512 ≤ fuel) (hsep : Separated ptt root s)
    (hb : base % 4096 = 0) (hs : size % 4096 = 0) (hpos : 0 < size)
    (hwin : base + size ≤ (base / 2 ^ 48 + 1) * 2 ^ 48) (hend : base + size ≤ 2 ^ 64 - 2 ^ 39)
    (hwhole : ∀ va, base ≤ va → va < base + size →
      mapped ptt s.mem 3 root va ∧ lvNext (slot ptt s.mem 3 root va).1 va ≤ base + size) :
    ∃ s1, mmu_modify fuel root base size set clr ptt s = some (0, s1) ∧ s1.pool = s.pool ∧
      (∀ va, base ≤ va → va < base + size →
        s1.mem (slot ptt s.mem 3 root va).2 = applyMask set clr (s.mem (slot ptt s.mem 3 root va).2)) ∧
      (∀ a, (∀ va, base ≤ va → va < base + size → (slot ptt s.mem 3 root va).2 ≠ a) →
        s1.mem a = s.mem a) := by
  obtain ⟨res, stop, e, hrun, hc⟩ :=
    mmu_modify_ctl_block ptt set clr root base size s fuel hf hsep hb hs hpos hwin hend
  have hst : ∀ v, base ≤ v → v < base + size → sameTable 3 v base := fun v g1 g2 =>
    sameTable_block (block_of_range hwin g1 g2)
  obtain ⟨hne, hpool⟩ := hc.whole (fun va _ g1 g2 _ => (hwhole va g1 g2).2)
  have h0 : res.1 = 0 := by
    rcases mmu_modify_codes3 e hb hs with h0 | h0 | h0
    · exact h0
    · have := (hc.bad (by rw [h0]; exact EFAULT_ne_zero)).1
      exact absurd (hwhole stop hc.le1 this).1 (hc.efault h0).1
    · exact absurd h0 hne
  have hstop := hc.ok h0
  refine ⟨res.2, by rw [e, ← h0], hpool, ?_, ?_⟩
  · intro va g1 g2
    exact hc.memIn hpool va (hst va g1 g2) g1 (by rw [hstop]; exact g2)
  · intro a ha
    apply hc.memOut hpool a
    intro va _ g1 g2
    exact ha va g1 (by rw [← hstop]; exact g2)

theorem mmu_modify_whole_pages_witness :
    Separated PTT_HOST 0x1000 exState ∧
      ∃ s1, mmu_modify 512 0x1000 0 0x200000 0 2 PTT_HOST exState = some (0, s1) ∧
        s1.pool = exState.pool ∧
        (∀ va, 0 ≤ va → va < 0 + 0x200000 →
          s1.mem (slot PTT_HOST exState.mem 3 0x1000 va).2 =
            applyMask 0 2 (exState.mem (slot PTT_HOST exState.mem 3 0x1000 va).2)) ∧
        (∀ a, (∀ va, 0 ≤ va → va < 0 + 0x200000 →
            (slot PTT_HOST exState.mem 3 0x1000 va).2 ≠ a) → s1.mem a = exState.mem a) :=
  ⟨by decide,
    mmu_modify_whole_pages PTT_HOST 0 2 0x1000 0 0x200000 exState 512 (by decide) (by decide)
      (by decide) (by decide) (by decide) (by decide) (by decide)
      (fun va _ h => ⟨exMem_mapped_large va (by omega), by
        show lvNext (slot PTT_HOST exMem 3 0x1000 va).1 va ≤ 0 + 0x200000
        rw [exMem_slot_large va (by omega)]
        show lvNext 1 va ≤ 0 + 0x200000
        unfold lvNext
        rw [lvSize_one]
        omega⟩)⟩

/-- C8, as stated, fails: in the table `exMemGiB` address 0 is governed by
the 1 GiB entry at `0x2000`, and the allocator has one free page.  Clearing
the write bit over `[0, 0x1000)` first splits the 1 GiB page, which takes
the free page `0x10000`, writes its 512 entries (the first is the 2 MiB
entry `0x40000083`) and rewrites the entry at `0x2000` from `0x40000083` to
`0x10007`; the split of the 2 MiB entry at `0x10000` that is needed next
finds no page.  The call returns `-ENOMEM`
with the allocator empty; the failure is at address 0, and the entry that
governed address 0 at the call has been written. -/
theorem mmu_modify_enomem_after_split :
    slot PTT_HOST exMemGiB 3 0x1000 0 = (2, 0x2000) ∧ exMemGiB 0x2000 = 0x40000083 ∧
      exMemGiB 0x10000 = 0 ∧
      (mmu_modify 512 0x1000 0 0x1000 0 2 PTT_HOST exStateGiB).map
          (fun r => (r.1, r.2.pool, r.2.mem 0x2000, r.2.mem 0x10000,
            slot PTT_HOST r.2.mem 3 0x1000 0)) =
        some (-ENOMEM, [], 0x10007, 0x40000083, (1, 0x10000)) := by
  decide

/-- C8, amended: on a separated table, for a 4 KiB-aligned range that stays
inside one `2 ^ 48` block of the address space and ends at most at
`2 ^ 64 - 2 ^ 39`.  First part: when the allocator has no page (the failed
allocation is the first of the call), the addresses of the range are all
mapped and the range covers a large page only in part (a split is
required), `mmu_modify` returns `-ENOMEM` at an address `stop` of the range;
the entry governing `stop` is the large entry that was to be split, it maps
`stop` and reaches beyond the range; that entry and every entry governing an
address of the block at or beyond `stop` keep their value.  Second part:
whenever `mmu_modify` returns `-ENOMEM` (only a failed allocation of
`split_large_page` produces it), also after an earlier split of the same
call succeeded, on a table with aligned large frames and masks that change
attribute bits only: the allocator has no page, the address `stop` where the
walk gave up is still mapped by a large entry that reaches beyond the range
(it was not split), and every address of the block at or beyond `stop`
translates to the same physical address with the same attribute bits as
before the call. -/
theorem mmu_modify_alloc_failure (ptt : _page_table_type) (set clr root base size : Nat)
    (s : PgState) (fuel : Nat) (hf : 512 ≤ fuel) (hsep : Separated ptt root s)
    (hb : base % 4096 = 0) (hs : size % 4096 = 0)
    (hwin : base + size ≤ (base / 2 ^ 48 + 1) * 2 ^ 48) (hend : base + size ≤ 2 ^ 64 - 2 ^ 39) :
    (s.pool = [] →
      (∀ va, base ≤ va → va < base + size → mapped ptt s.mem 3 root va) →
      (∃ va0, base ≤ va0 ∧ va0 < base + size ∧
        base + size < lvNext (slot ptt s.mem 3 root va0).1 va0) →
      ∃ s1 stop, mmu_modify fuel root base size set clr ptt s = some (-ENOMEM, s1) ∧
        base ≤ stop ∧ stop < base + size ∧ s1.pool = [] ∧
        mapped ptt s.mem 3 root stop ∧
        base + size < lvNext (slot ptt s.mem 3 root stop).1 stop ∧
        (∀ va, stop ≤ va → va / 2 ^ 48 = base / 2 ^ 48 →
          s1.mem (slot ptt s.mem 3 root va).2 = s.mem (slot ptt s.mem 3 root va).2)) ∧
    (AttrMask set clr → LargeOK ptt s.mem 3 root →
      ∀ s1, mmu_modify fuel root base size set clr ptt s = some (-ENOMEM, s1) →
        ∃ stop, base ≤ stop ∧ stop < base + size ∧ s1.pool = [] ∧
          mapped ptt s1.mem 3 root stop ∧
          1 ≤ (slot ptt s1.mem 3 root stop).1 ∧
          base + size < lvNext (slot ptt s1.mem 3 root stop).1 stop ∧
          (∀ va, stop ≤ va → va / 2 ^ 48 = base / 2 ^ 48 →
            view ptt s1.mem 3 root va = view ptt s.mem 3 root va)) := by
  refine ⟨fun hpool hmapped ⟨va0, h1, h2, hneed⟩ =>
    mmu_modify_enomem_empty_block ptt set clr root base size s fuel hf hsep hb hs hwin hend
      hpool hmapped va0 h1 h2 hneed, fun hm hok s1 hret => ?_⟩
  obtain ⟨stop, b1, b2, b3, b4, b5, b6⟩ :=
    mmu_modify_beyond_block ptt set clr root base size s fuel hf ⟨hsep, hok⟩ hm hb hs hwin hend
      s1 hret
  refine ⟨stop, b1, b2, b3, b4, ?_, b5, b6⟩
  by_contra hlv
  have h0 : (slot ptt s1.mem 3 root stop).1 = 0 := by omega
  rw [h0] at b5
  have : lvNext 0 stop ≤ base + size := by
    unfold lvNext
    rw [lvSize_zero]
    omega
  omega

theorem mmu_modify_alloc_failure_witness :
    Separated PTT_HOST 0x1000 exStateNoMem ∧ Separated PTT_HOST 0x1000 exStateGiB ∧
      (∃ s1 stop, mmu_modify 512 0x1000 0 0x1000 0 2 PTT_HOST exStateNoMem = some (-ENOMEM, s1) ∧
        0 ≤ stop ∧ stop < 0 + 0x1000 ∧ s1.pool = [] ∧
        mapped PTT_HOST exStateNoMem.mem 3 0x1000 stop ∧
        0 + 0x1000 < lvNext (slot PTT_HOST exStateNoMem.mem 3 0x1000 stop).1 stop ∧
        (∀ va, stop ≤ va → va / 2 ^ 48 = 0 / 2 ^ 48 →
          s1.mem (slot PTT_HOST exStateNoMem.mem 3 0x1000 va).2 =
            exStateNoMem.mem (slot PTT_HOST exStateNoMem.mem 3 0x1000 va).2)) ∧
      (mmu_modify 512 0x1000 0 0x1000 0 2 PTT_HOST exStateGiB).map Prod.fst = some (-ENOMEM) ∧
      (∃ stop, 0 ≤ stop ∧ stop < 0 + 0x1000 ∧
        ((mmu_modify 512 0x1000 0 0x1000 0 2 PTT_HOST exStateGiB).getD (0, exStateGiB)).2.pool
          = [] ∧
        ∀ va, stop ≤ va → va / 2 ^ 48 = 0 / 2 ^ 48 →
          view PTT_HOST
            ((mmu_modify 512 0x1000 0 0x1000 0 2 PTT_HOST exStateGiB).getD (0, exStateGiB)).2.mem
            3 0x1000 va = view PTT_HOST exStateGiB.mem 3 0x1000 va) :=
  ⟨by decide, by decide,
    (mmu_modify_alloc_failure PTT_HOST 0 2 0x1000 0 0x1000 exStateNoMem 512 (by decide)
      (by decide) (by decide) (by decide) (by decide) (by decide)).1 rfl
      (fun va _ h => exMem_mapped_large va (by omega)) ⟨0, by decide, by decide, by decide⟩,
    by decide,
    match (mmu_modify_alloc_failure PTT_HOST 0 2 0x1000 0 0x1000 exStateGiB 512 (by decide)
      (by decide) (by decide) (by decide) (by decide) (by decide)).2 (by decide) (by decide) _
      (some_of_map_fst (0, exStateGiB) (by decide)) with
    | ⟨stop, b1, b2, b3, _, _, _, b7⟩ => ⟨stop, b1, b2, b3, b7⟩⟩

/-- C9, as stated, fails: not every call returns.  The table `exMemFull`
maps every address by 1 GiB pages.  For the aligned range
`[2 ^ 64 - 2 ^ 39, 2 ^ 64 - 0x1000)`, in the region of the last PML4 entry,
with both masks zero, the next boundary of the last PDPT entry and of the
last PML4 entry is `2 ^ 64`, which is 0 in 64 bits: the walk of the region
returns 0, `vaddr` becomes 0, which is below `vaddr_end`, and the loop goes
through the 512 regions again and again.  No number of iterations of the
loop yields a result. -/
theorem mmu_modify_never_returns :
    (2 ^ 64 - 2 ^ 39) % 4096 = 0 ∧ (2 ^ 39 - 0x1000) % 4096 = 0 ∧
      (∀ va, mapped PTT_HOST exMemFull 3 0x1000 va) ∧
      ∀ fuel, mmu_modify fuel 0x1000 (2 ^ 64 - 2 ^ 39) (2 ^ 39 - 0x1000) 0 0 PTT_HOST
        exStateFull = none := by
  refine ⟨by decide, by decide, fun va => (exFull_mapped va).2, fun fuel => ?_⟩
  have hm := mmu_modify_aligned fuel 0x1000 (2 ^ 64 - 2 ^ 39) (2 ^ 39 - 0x1000) 0 0 PTT_HOST
    exStateFull (by decide) (by decide)
  have hu : u64 (2 ^ 64 - 2 ^ 39 + (2 ^ 39 - 0x1000)) = 2 ^ 64 - 0x1000 := by decide
  rw [hu] at hm
  rw [hm]
  exact exFull_loop_none fuel (2 ^ 64 - 2 ^ 39) (by decide) (by decide)

/-- C9, amended: whenever `mmu_modify` returns, it returns one of 0,
`-EINVAL`, `-EFAULT` and `-ENOMEM`, and `-EINVAL` exactly when `vaddr_base`
or `size` is not a multiple of 4 KiB (the check made before the walk; the
walkers never produce it).  It does return: at once, with `-EINVAL`, for
arguments that are not aligned; within `2 ^ 25` iterations of its loop over
the PML4 entries for every range that ends at most at `2 ^ 64 - 2 ^ 39`,
where the next PML4 boundary cannot wrap around; and at once, with 0 and the
state as it was, for aligned 64-bit arguments whose sum reaches `2 ^ 64`,
the wrapped `vaddr_end` not being above `vaddr_base`. -/
theorem mmu_modify_return_codes (root base size set clr : Nat) (ptt : _page_table_type)
    (s : PgState) :
    (∀ fuel res, mmu_modify fuel root base size set clr ptt s = some res →
      (res.1 = 0 ∨ res.1 = -EINVAL ∨ res.1 = -EFAULT ∨ res.1 = -ENOMEM) ∧
        (res.1 = -EINVAL ↔ ¬ (base % 4096 = 0 ∧ size % 4096 = 0))) ∧
    (¬ (base % 4096 = 0 ∧ size % 4096 = 0) →
      ∀ fuel, mmu_modify fuel root base size set clr ptt s = some (-EINVAL, s)) ∧
    (base + size ≤ 2 ^ 64 - 2 ^ 39 → ∀ fuel, 2 ^ 25 ≤ fuel →
      ∃ res, mmu_modify fuel root base size set clr ptt s = some res) ∧
    (base % 4096 = 0 → size % 4096 = 0 → base < 2 ^ 64 → size < 2 ^ 64 → 2 ^ 64 ≤ base + size →
      ∀ fuel, mmu_modify fuel root base size set clr ptt s = some (0, s)) :=
  ⟨fun fuel res h => mmu_modify_codes_aux fuel root base size set clr ptt s res h,
    fun hal fuel => mmu_modify_einval fuel root base size set clr ptt s (by omega),
    fun hend fuel hf => mmu_modify_total root base size set clr ptt s hend fuel hf,
    fun hb hs h1 h2 h3 fuel => mmu_modify_wrapped fuel root base size set clr ptt s hb hs h1 h2 h3⟩

theorem mmu_modify_return_codes_witness :
    (0 + 0x200000 ≤ 2 ^ 64 - 2 ^ 39) ∧ (2 ^ 25 ≤ 2 ^ 25) ∧
      (∃ res, mmu_modify (2 ^ 25) 0x1000 0 0x200000 0 2 PTT_HOST exState = some res) ∧
      ((-EINVAL : Int) = -EINVAL ↔ ¬ (0x1001 % 4096 = 0 ∧ 0x1000 % 4096 = 0)) ∧
      (∀ fuel, mmu_modify fuel 0x1000 0x1001 0x1000 0 2 PTT_HOST exState =
        some (-EINVAL, exState)) ∧
      (∀ fuel, mmu_modify fuel 0x1000 0xFFFFFFFFFFFFF000 0x1000 0 2 PTT_HOST exState =
        some (0, exState)) :=
  ⟨by decide, by decide,
    (mmu_modify_return_codes 0x1000 0 0x200000 0 2 PTT_HOST exState).2.2.1 (by decide) (2 ^ 25)
      (by decide),
    ((mmu_modify_return_codes 0x1000 0x1001 0x1000 0 2 PTT_HOST exState).1 512 (-EINVAL, exState)
      (mmu_modify_einval 512 0x1000 0x1001 0x1000 0 2 PTT_HOST exState (by decide))).2,
    (mmu_modify_return_codes 0x1000 0x1001 0x1000 0 2 PTT_HOST exState).2.1 (by decide),
    (mmu_modify_return_codes 0x1000 0xFFFFFFFFFFFFF000 0x1000 0 2 PTT_HOST exState).2.2.2
      (by decide) (by decide) (by decide) (by decide) (by decide)⟩

/-- C2, as stated, fails, in three ways.  (a) In the table `exMemTop` the
last page of the address space is mapped, with attribute bits 3; clearing
the write bit over `[0xFFFFFFFFFFFFF000, 2 ^ 64)` returns 0 with the state as
it was (`vaddr_end` is 0), so the attribute bits are still 3, not 1.  (b) In
the example host table, `prot_clr = PAGE_PSE` over the 2 MiB page
`[0, 0x200000)` returns 0 and turns the large entry into a pointer to a
table: after the call no entry maps address 0.  (c) `prot_set = 0x1000000`,
a bit of the frame-number field, over the 4 KiB page at `0x200000` returns
0; the attribute bits of the entry are 3 as before, not `3 | 0x1000000`. -/
theorem mmu_modify_masks_not_applied :
    (mapped PTT_HOST exMemTop 3 0x1000 0xFFFFFFFFFFFFF000 ∧
      (view PTT_HOST exMemTop 3 0x1000 0xFFFFFFFFFFFFF000).2 = 3 ∧ applyMask 0 2 3 = 1 ∧
      ∀ fuel, mmu_modify fuel 0x1000 0xFFFFFFFFFFFFF000 0x1000 0 2 PTT_HOST exStateTop =
        some (0, exStateTop)) ∧
    (mapped PTT_HOST exMem 3 0x1000 0 ∧
      (mmu_modify 512 0x1000 0 0x200000 0 PAGE_PSE PTT_HOST exState).map
          (fun r => (r.1, decide (mapped PTT_HOST r.2.mem 3 0x1000 0))) = some (0, false)) ∧
    ((view PTT_HOST exMem 3 0x1000 0x200000).2 = 3 ∧
      (mmu_modify 512 0x1000 0x200000 0x1000 0x1000000 0 PTT_HOST exState).map
          (fun r => (r.1, (view PTT_HOST r.2.mem 3 0x1000 0x200000).2)) = some (0, 3) ∧
      applyMask 0x1000000 0 3 = 0x1000003) :=
  ⟨⟨by decide, by decide, by decide, fun fuel =>
      mmu_modify_wrapped fuel 0x1000 0xFFFFFFFFFFFFF000 0x1000 0 2 PTT_HOST exStateTop
        (by decide) (by decide) (by decide) (by decide) (by decide)⟩,
    ⟨by decide, by decide⟩, ⟨by decide, by decide, by decide⟩⟩

/-- C2, amended: on a well-formed table (distinct, aligned table pages;
aligned large frames), for masks that change attribute bits only (no bit of
the frame-number field, not the large-page flag) and a range that ends below
`2 ^ 64`, when `mmu_modify` returns 0 every address of the range was mapped,
the attribute bits of the entry that governs it after the call are
`(old & ~prot_clr) | prot_set`, where `old` are the attribute bits of the
entry that governed it before the call, at whichever level (4 KiB, 2 MiB or
1 GiB) that entry was, and its physical address is the same. -/
theorem mmu_modify_applies_masks (ptt : _page_table_type) (set clr root base size : Nat)
    (s s1 : PgState) (fuel : Nat) (hwf : WellFormed ptt root s)
    (hm : AttrMask set clr) (hend : base + size < 2 ^ 64)
    (hret : mmu_modify fuel root base size set clr ptt s = some (0, s1)) :
    ∀ va, base ≤ va → va < base + size →
      mapped ptt s.mem 3 root va ∧
      attrOf (slot ptt s1.mem 3 root va).1 (gov ptt s1.mem 3 root va) =
        applyMask set clr (attrOf (slot ptt s.mem 3 root va).1 (gov ptt s.mem 3 root va)) ∧
      physOf (slot ptt s1.mem 3 root va).1 (gov ptt s1.mem 3 root va) va =
        physOf (slot ptt s.mem 3 root va).1 (gov ptt s.mem 3 root va) va := by
  intro va h1 h2
  rcases mmu_modify_zero_range ptt set clr root base size s s1 fuel hend hret with h | h
  · obtain ⟨hmap, hv⟩ :=
      (mmu_modify_views_all ptt set clr root base size s fuel (0, s1) hwf hm h hret).2 rfl va h1 h2
    exact ⟨hmap, congrArg Prod.snd hv, congrArg Prod.fst hv⟩
  · omega

theorem mmu_modify_applies_masks_witness :
    WellFormed PTT_HOST 0x1000 exState ∧ AttrMask 0 2 ∧
      ∀ va, 0 ≤ va → va < 0 + 0x1000 →
        mapped PTT_HOST exState.mem 3 0x1000 va ∧
        attrOf (slot PTT_HOST
            ((mmu_modify 512 0x1000 0 0x1000 0 2 PTT_HOST exState).getD (0, exState)).2.mem
            3 0x1000 va).1
          (gov PTT_HOST
            ((mmu_modify 512 0x1000 0 0x1000 0 2 PTT_HOST exState).getD (0, exState)).2.mem
            3 0x1000 va) =
          applyMask 0 2 (attrOf (slot PTT_HOST exState.mem 3 0x1000 va).1
            (gov PTT_HOST exState.mem 3 0x1000 va)) ∧
        physOf (slot PTT_HOST
            ((mmu_modify 512 0x1000 0 0x1000 0 2 PTT_HOST exState).getD (0, exState)).2.mem
            3 0x1000 va).1
          (gov PTT_HOST
            ((mmu_modify 512 0x1000 0 0x1000 0 2 PTT_HOST exState).getD (0, exState)).2.mem
            3 0x1000 va) va =
          physOf (slot PTT_HOST exState.mem 3 0x1000 va).1
            (gov PTT_HOST exState.mem 3 0x1000 va) va :=
  ⟨by decide, by decide,
    mmu_modify_applies_masks PTT_HOST 0 2 0x1000 0 0x1000 exState _ 512 (by decide) (by decide)
      (by decide) (some_of_map_fst (0, exState) (by decide))⟩

/-- C5, as stated, fails: on the example host table, clearing the presence
bit (`prot_clr = PAGE_PRESENT`) over the mapped 4 KiB page at `0x200000`
returns 0 and leaves the page unmapped; setting a bit of the frame-number
field (`prot_set = 0x1000000`) over it returns 0 and moves the page from
physical address `0x5000` to `0x1005000`, and clearing one
(`prot_clr = 0x4000`) moves it to `0x1000`; and clearing the large-page flag
(`prot_clr = PAGE_PSE`) over the 2 MiB page `[0, 0x200000)` returns 0 and
turns its entry into a pointer to a table, after which address `0x1000`,
mapped before, is not mapped. -/
theorem mmu_modify_unmaps_with_present_mask :
    mapped PTT_HOST exMem 3 0x1000 0x200000 ∧
      (mmu_modify 512 0x1000 0x200000 0x1000 0 PAGE_PRESENT PTT_HOST exState).map
          (fun r => (r.1, decide (mapped PTT_HOST r.2.mem 3 0x1000 0x200000))) =
        some (0, false) ∧
      (view PTT_HOST exMem 3 0x1000 0x200000).1 = 0x5000 ∧
      (mmu_modify 512 0x1000 0x200000 0x1000 0x1000000 0 PTT_HOST exState).map
          (fun r => (r.1, (view PTT_HOST r.2.mem 3 0x1000 0x200000).1)) =
        some (0, 0x1005000) ∧
      (mmu_modify 512 0x1000 0x200000 0x1000 0 0x4000 PTT_HOST exState).map
          (fun r => (r.1, (view PTT_HOST r.2.mem 3 0x1000 0x200000).1)) =
        some (0, 0x1000) ∧
      mapped PTT_HOST exMem 3 0x1000 0x1000 ∧
      (mmu_modify 512 0x1000 0 0x200000 0 PAGE_PSE PTT_HOST exState).map
          (fun r => (r.1, decide (mapped PTT_HOST r.2.mem 3 0x1000 0x1000))) =
        some (0, false) := by
  decide

/-- C5, amended: on a well-formed table, for masks that change attribute
bits only (no bit of the frame-number field, not the large-page flag) and
64-bit arguments whose range ends at most at `2 ^ 64 - 2 ^ 39` or reaches
`2 ^ 64`, `mmu_modify` returns (within `2 ^ 25` iterations of its loop), and
whatever it returns: every address translates to the same physical address
as before; no address is newly mapped; an address that was mapped is still
mapped whenever `(old & ~prot_clr) | prot_set` of its governing entry passes
the presence test of the table type; so the set of mapped addresses is the
same when `prot_clr` names no presence bit or `prot_set` names one. -/
theorem mmu_modify_keeps_translation (ptt : _page_table_type) (set clr root base size : Nat)
    (s : PgState) (hwf : WellFormed ptt root s) (hm : AttrMask set clr)
    (h1 : base < 2 ^ 64) (h2 : size < 2 ^ 64)
    (hend : base + size ≤ 2 ^ 64 - 2 ^ 39 ∨ 2 ^ 64 ≤ base + size) :
    (∀ fuel, 2 ^ 25 ≤ fuel → ∃ res, mmu_modify fuel root base size set clr ptt s = some res) ∧
    (∀ fuel res, mmu_modify fuel root base size set clr ptt s = some res →
      ∀ va,
        physOf (slot ptt res.2.mem 3 root va).1 (gov ptt res.2.mem 3 root va) va =
          physOf (slot ptt s.mem 3 root va).1 (gov ptt s.mem 3 root va) va ∧
        (mapped ptt res.2.mem 3 root va → mapped ptt s.mem 3 root va) ∧
        (mapped ptt s.mem 3 root va →
          pgentry_present ptt (applyMask set clr (gov ptt s.mem 3 root va)) ≠ 0 →
          mapped ptt res.2.mem 3 root va) ∧
        (clr &&& presentMask ptt = 0 ∨ set &&& presentMask ptt ≠ 0 →
          (mapped ptt res.2.mem 3 root va ↔ mapped ptt s.mem 3 root va))) := by
  constructor
  · intro fuel hf
    rcases hend with h | h
    · exact mmu_modify_total root base size set clr ptt s h fuel hf
    · by_cases hal : base % 4096 = 0 ∧ size % 4096 = 0
      · exact ⟨_, mmu_modify_wrapped fuel root base size set clr ptt s hal.1 hal.2 h1 h2 h⟩
      · exact ⟨_, mmu_modify_einval fuel root base size set clr ptt s (by omega)⟩
  · intro fuel res hret va
    have hany : view ptt res.2.mem 3 root va = view ptt s.mem 3 root va ∨
        (mapped ptt s.mem 3 root va ∧
          view ptt res.2.mem 3 root va = applyV set clr (view ptt s.mem 3 root va)) := by
      rcases hend with h | h
      · exact (mmu_modify_views_all ptt set clr root base size s fuel res hwf hm h hret).1 va
      · rw [(mmu_modify_wrapped_state fuel root base size set clr ptt s res h1 h2 h hret).2]
        exact Or.inl rfl
    have key : physOf (slot ptt res.2.mem 3 root va).1 (gov ptt res.2.mem 3 root va) va =
          physOf (slot ptt s.mem 3 root va).1 (gov ptt s.mem 3 root va) va ∧
        (mapped ptt res.2.mem 3 root va → mapped ptt s.mem 3 root va) ∧
        (mapped ptt s.mem 3 root va →
          pgentry_present ptt (applyMask set clr (gov ptt s.mem 3 root va)) ≠ 0 →
          mapped ptt res.2.mem 3 root va) := by
      rcases hany with h | ⟨hmap, h⟩
      · have hiff : mapped ptt res.2.mem 3 root va ↔ mapped ptt s.mem 3 root va := by
          rw [mapped_iff_view, mapped_iff_view, h]
        exact ⟨congrArg Prod.fst h, hiff.1, fun hs _ => hiff.2 hs⟩
      · refine ⟨congrArg Prod.fst h, fun _ => hmap, fun _ hp => ?_⟩
        rw [mapped_iff_view, h]
        exact (present_applyMask_attrOf ptt hm _ _).2 hp
    refine ⟨key.1, key.2.1, key.2.2, fun hk => ⟨key.2.1, fun hs => key.2.2 hs ?_⟩⟩
    exact present_applyMask ptt hk hs

theorem mmu_modify_keeps_translation_witness :
    WellFormed PTT_EPT 0x1000 exStateEpt ∧ AttrMask 0 4 ∧
      ∃ res, mmu_modify (2 ^ 25) 0x1000 0 0x1000 0 4 PTT_EPT exStateEpt = some res ∧
        mapped PTT_EPT res.2.mem 3 0x1000 0 ∧
        ∀ va,
          physOf (slot PTT_EPT res.2.mem 3 0x1000 va).1 (gov PTT_EPT res.2.mem 3 0x1000 va) va =
            physOf (slot PTT_EPT exStateEpt.mem 3 0x1000 va).1
              (gov PTT_EPT exStateEpt.mem 3 0x1000 va) va ∧
          (mapped PTT_EPT res.2.mem 3 0x1000 va → mapped PTT_EPT exStateEpt.mem 3 0x1000 va) :=
  have h := mmu_modify_keeps_translation PTT_EPT 0 4 0x1000 0 0x1000 exStateEpt (by decide)
    (by decide) (by decide) (by decide) (Or.inl (by decide))
  ⟨by decide, by decide,
    match h.1 (2 ^ 25) (by decide) with
    | ⟨res, e⟩ => ⟨res, e, (h.2 _ res e 0).2.2.1 (by decide) (by decide),
        fun va => ⟨(h.2 _ res e va).1, (h.2 _ res e va).2.1⟩⟩⟩

/-- C10, as stated, fails: on the example host table the range `[0, 0x1000)`
is mapped by the 2 MiB page of the PD entry at `0x3000`.  With
`prot_set = 0` and `prot_clr = 0` the walk returns 0 and has split that page:
the entry it touched changed from `0x200083` to `0x10007`, a pointer to the
new table in the page `0x10000` taken from the allocator. -/
theorem mmu_modify_zero_masks_rewrites_entry :
    (∀ k, k < 0x1000 → mapped PTT_HOST exMem 3 0x1000 k) ∧ exMem 0x3000 = 0x200083 ∧
      (mmu_modify 512 0x1000 0 0x1000 0 0 PTT_HOST exState).map
          (fun r => (r.1, r.2.mem 0x3000, r.2.pool)) = some (0, 0x10007, [0x11000]) :=
  ⟨fun k hk => exMem_mapped_large k (by omega), by decide, by decide⟩

/-- C10, amended: on a well-formed table of 64-bit entries, for a
fully-mapped, non-empty, 4 KiB-aligned range of 64-bit arguments that ends
at most at `2 ^ 64 - 2 ^ 39` or reaches `2 ^ 64`, `mmu_modify` with
`prot_set = 0` and `prot_clr = 0` returns (within `2 ^ 25` iterations of its
loop), it returns 0 or `-ENOMEM`, and it leaves what the table says about
every address, physical address and attribute bits, unchanged; when it took
no page from the allocator (no large page was split) every entry is
numerically unchanged. -/
theorem mmu_modify_zero_masks (ptt : _page_table_type) (root base size : Nat)
    (s : PgState) (hwf : WellFormed ptt root s) (h64 : ∀ a, s.mem a < 2 ^ 64)
    (hb : base % 4096 = 0) (hs : size % 4096 = 0) (hpos : 0 < size)
    (h1 : base < 2 ^ 64) (h2 : size < 2 ^ 64)
    (hend : base + size ≤ 2 ^ 64 - 2 ^ 39 ∨ 2 ^ 64 ≤ base + size)
    (hmapped : ∀ va, base ≤ va → va < base + size → mapped ptt s.mem 3 root va) :
    (∀ fuel, 2 ^ 25 ≤ fuel → ∃ res, mmu_modify fuel root base size 0 0 ptt s = some res) ∧
    (∀ fuel res, mmu_modify fuel root base size 0 0 ptt s = some res →
      (res.1 = 0 ∨ res.1 = -ENOMEM) ∧
      (∀ va, view ptt res.2.mem 3 root va = view ptt s.mem 3 root va) ∧
      (res.2.pool = s.pool → ∀ a, res.2.mem a = s.mem a)) := by
  rcases hend with hend | hend
  · refine ⟨fun fuel hf => mmu_modify_total root base size 0 0 ptt s hend fuel hf,
      fun fuel res hret => ?_⟩
    have hp := mmu_modify_passes ptt 0 0 root base size s fuel res hb hs hpos hend hret
    have hg : Good ptt 3 root s := ⟨hwf.1.sepFrom 0, hwf.2⟩
    obtain ⟨_, _, hany, _⟩ := hp.masked (by decide) hg (by omega)
    obtain ⟨c1, c2⟩ := hp.unchanged hg h64 (by omega) hmapped
    refine ⟨c1, fun va => ?_, c2⟩
    have hz : applyV 0 0 (view ptt s.mem 3 root va) = view ptt s.mem 3 root va := by
      unfold applyV view
      rw [applyMask_zero_attr]
    rcases hany va with h | ⟨_, h⟩
    · exact h
    · rw [h, hz]
  · have hw := fun fuel => mmu_modify_wrapped fuel root base size 0 0 ptt s hb hs h1 h2 hend
    refine ⟨fun fuel _ => ⟨_, hw fuel⟩, fun fuel res hret => ?_⟩
    rw [hw fuel] at hret
    have hres : res = (0, s) := (Option.some.inj hret).symm
    subst hres
    exact ⟨Or.inl rfl, fun _ => rfl, fun _ _ => rfl⟩

theorem mmu_modify_zero_masks_witness :
    WellFormed PTT_HOST 0x1000 exState ∧
      (∀ va, 0 ≤ va → va < 0 + 0x1000 → mapped PTT_HOST exState.mem 3 0x1000 va) ∧
      (∃ res, mmu_modify (2 ^ 25) 0x1000 0 0x1000 0 0 PTT_HOST exState = some res) ∧
      ∀ res, mmu_modify 512 0x1000 0 0x1000 0 0 PTT_HOST exState = some res →
        (res.1 = 0 ∨ res.1 = -ENOMEM) ∧
        (∀ va, view PTT_HOST res.2.mem 3 0x1000 va = view PTT_HOST exState.mem 3 0x1000 va) ∧
        (res.2.pool = exState.pool → ∀ a, res.2.mem a = exState.mem a) :=
  have h := mmu_modify_zero_masks PTT_HOST 0x1000 0 0x1000 exState (by decide) exMem_lt
    (by decide) (by decide) (by decide) (by decide) (by decide) (Or.inl (by decide))
    (fun va _ h => exMem_mapped_large va (by omega))
  ⟨by decide, fun va _ h => exMem_mapped_large va (by omega), h.1 (2 ^ 25) (by decide),
    fun res e => h.2 512 res e⟩

/-- C12, as stated, fails: the last page of the address space,
`0xFFFFFFFFFFFFF000`, is not mapped in the example host table.  The
single-page request for it, with both masks zero, has `vaddr_end = 0`, the
loop is not entered and the call returns 0, not `-EFAULT`. -/
theorem mmu_modify_zero_on_last_page :
    0xFFFFFFFFFFFFF000 % 4096 = 0 ∧
      ¬ mapped PTT_HOST exState.mem 3 0x1000 0xFFFFFFFFFFFFF000 ∧
      ∀ fuel, mmu_modify fuel 0x1000 0xFFFFFFFFFFFFF000 0x1000 0 0 PTT_HOST exState =
        some (0, exState) :=
  ⟨by decide, by decide, fun fuel =>
    mmu_modify_wrapped fuel 0x1000 0xFFFFFFFFFFFFF000 0x1000 0 0 PTT_HOST exState (by decide)
      (by decide) (by decide) (by decide) (by decide)⟩

/-- C12, amended: for a single-page request (`size` = 4 KiB, aligned
`vaddr_base`) whose page is not the last page of the 64-bit address space
(`vaddr_base + 4 KiB < 2 ^ 64`) and is not mapped (the entry governing it, at
whichever level, fails the presence test), for either table type, any masks
and any table, `mmu_modify` returns `-EFAULT` and the state is the one before
the call: no entry is written and no page is taken from the allocator
(nothing is split). -/
theorem mmu_modify_single_page_not_present (ptt : _page_table_type)
    (set clr root base : Nat) (s : PgState) (fuel : Nat) (hf : 0 < fuel)
    (hb : base % 4096 = 0) (hend : base + 0x1000 < 2 ^ 64)
    (hnp : ¬ mapped ptt s.mem 3 root base) :
    mmu_modify fuel root base 0x1000 set clr ptt s = some (-EFAULT, s) :=
  mmu_modify_unmapped ptt set clr root base 0x1000 s fuel hf hb (by decide) (by decide) hend hnp

theorem mmu_modify_single_page_not_present_witness :
    ¬ mapped PTT_HOST exStateTop.mem 3 0x1000 0x1000 ∧
      mmu_modify 1 0x1000 0x1000 0x1000 0 0 PTT_HOST exStateTop = some (-EFAULT, exStateTop) ∧
      ¬ mapped PTT_HOST exState.mem 3 0x1000 0xFFFFFFFFFFFFE000 ∧
      mmu_modify 512 0x1000 0xFFFFFFFFFFFFE000 0x1000 0 0 PTT_HOST exState =
        some (-EFAULT, exState) :=
  ⟨by decide,
    mmu_modify_single_page_not_present PTT_HOST 0 0 0x1000 0x1000 exStateTop 1 (by decide)
      (by decide) (by decide) (by decide),
    by decide,
    mmu_modify_single_page_not_present PTT_HOST 0 0 0x1000 0xFFFFFFFFFFFFE000 exState 512
      (by decide) (by decide) (by decide) (by decide)⟩

/-- C15: `__modify_pte` is one store to the entry, of the value
`(old & ~prot_clr) | prot_set` (the complement taken in 64 bits); every
other entry keeps its value; in the stored value a bit of the 64 that is in
neither mask has its old value, and a bit of `prot_set` is set, also when it
is in `prot_clr` as well. -/
theorem __modify_pte_stores (m : Mem) (pte prot_set prot_clr : Nat) :
    __modify_pte m pte prot_set prot_clr =
        set_pte m pte ((m pte &&& not64 prot_clr) ||| prot_set) ∧
      __modify_pte m pte prot_set prot_clr pte = (m pte &&& not64 prot_clr) ||| prot_set ∧
      (∀ a, a ≠ pte → __modify_pte m pte prot_set prot_clr a = m a) ∧
      (∀ i, i < 64 → prot_set.testBit i = false → prot_clr.testBit i = false →
        (__modify_pte m pte prot_set prot_clr pte).testBit i = (m pte).testBit i) ∧
      (∀ i, prot_set.testBit i = true →
        (__modify_pte m pte prot_set prot_clr pte).testBit i = true) := by
  have hv : __modify_pte m pte prot_set prot_clr pte = (m pte &&& not64 prot_clr) ||| prot_set := by
    simp [__modify_pte, set_pte]
  refine ⟨rfl, hv, fun a ha => by simp [__modify_pte, set_pte, ha], fun i hi h1 h2 => ?_,
    fun i h1 => ?_⟩
  · rw [hv, Nat.testBit_or, Nat.testBit_and, testBit_not64, h1, h2]
    simp [hi]
  · rw [hv, Nat.testBit_or, h1]
    simp

/-- C19: for a 4 KiB-aligned `vaddr_base`, `mmu_modify` with `size = 0`
returns 0 and the state is the one before the call, whatever the memory
holds (also when `vaddr_base` is not mapped) and whatever the allocator
holds: the loop over the PML4 entries is not entered. -/
theorem mmu_modify_empty_range (fuel root base set clr : Nat) (ptt : _page_table_type)
    (s : PgState) (hb : base % 4096 = 0) :
    mmu_modify fuel root base 0 set clr ptt s = some (0, s) :=
  mmu_modify_size_zero fuel root base set clr ptt s hb

theorem mmu_modify_empty_range_witness :
    0x202000 % 4096 = 0 ∧ ¬ mapped PTT_HOST exState.mem 3 0x1000 0x202000 ∧
      mmu_modify 0 0x1000 0x202000 0 0 2 PTT_HOST exState = some (0, exState) :=
  ⟨by decide, by decide,
    mmu_modify_empty_range 0 0x1000 0x202000 0 2 PTT_HOST exState (by decide)⟩

/-- C17: the walker invariant.  For a 64-bit `vaddr_start`, at the start of
every iteration of the loops of `modify_pdpte`, `modify_pde` and
`modify_pte` (the iterations are those the loops with the record of their
iterations list; the first parts say that these loops compute what the
loops of the program compute), `index` is below 512 and equals
`pdpte_index`, `pde_index`, `pte_index` of the current `vaddr`: the entry
examined lies inside its table and governs the current position. -/
theorem walker_invariant (ptt : _page_table_type) (e vaddr_start ve set clr : Nat)
    (s : PgState) (h : vaddr_start < 2 ^ 64) :
    (∀ T n index vaddr ret,
      (modify_pdpte_loop_tr T ve set clr ptt n index vaddr ret s).1 =
        modify_pdpte_loop T ve set clr ptt n index vaddr ret s ∧
      (modify_pde_loop_tr T ve set clr ptt n index vaddr ret s).1 =
        modify_pde_loop T ve set clr ptt n index vaddr ret s ∧
      (modify_pte_loop_tr T ve set clr ptt n index vaddr s.mem).1 =
        modify_pte_loop T ve set clr ptt n index vaddr s.mem) ∧
    (∀ p ∈ modify_pdpte_iters e vaddr_start ve set clr ptt s,
      p.1 < 512 ∧ p.1 = pdpte_index p.2) ∧
    (∀ p ∈ modify_pde_iters e vaddr_start ve set clr ptt s,
      p.1 < 512 ∧ p.1 = pde_index p.2) ∧
    (∀ p ∈ modify_pte_iters e vaddr_start ve set clr ptt s,
      p.1 < 512 ∧ p.1 = pte_index p.2) :=
  ⟨fun T n index vaddr ret =>
      ⟨modify_pdpte_loop_tr_fst T ve set clr ptt n index vaddr ret s,
        modify_pde_loop_tr_fst T ve set clr ptt n index vaddr ret s,
        modify_pte_loop_tr_fst T ve set clr ptt n index vaddr s.mem⟩,
    (modify_pdpte_iters_inv e vaddr_start ve set clr ptt s h).1,
    (modify_pde_iters_inv e vaddr_start ve set clr ptt s h).1,
    (modify_pte_iters_inv e vaddr_start ve set clr ptt s h).1⟩

theorem walker_invariant_witness :
    0x200000 < 2 ^ 64 ∧
      modify_pte_iters 0x3008 0x200000 0x202000 0 2 PTT_HOST exState =
        [(0, 0x200000), (1, 0x201000)] ∧
      (∀ p ∈ modify_pte_iters 0x3008 0x200000 0x202000 0 2 PTT_HOST exState,
        p.1 < 512 ∧ p.1 = pte_index p.2) :=
  ⟨by decide, by decide,
    (walker_invariant PTT_HOST 0x3008 0x200000 0x202000 0 2 exState (by decide)).2.2.2⟩

/-- C16, as stated, fails in its clause on the PML4 entries: the table
`exMemFull` maps every address by 1 GiB pages, and the aligned range
`[0, 2 ^ 48 + 2 ^ 39)` ends below `2 ^ 64 - 2 ^ 39`.  With both masks zero
the call returns 0 after 513 iterations of the loop over the PML4 entries,
which start at the addresses `k * 2 ^ 39` for `k` from 0 to 512; the first
and the last use the same entry of the PML4 table, the one at `0x1000`,
since the index is taken from bits 39 to 47 of the address. -/
theorem mmu_modify_revisits_pml4_entry :
    0 % 4096 = 0 ∧ (2 ^ 48 + 2 ^ 39) % 4096 = 0 ∧ 0 + (2 ^ 48 + 2 ^ 39) ≤ 2 ^ 64 - 2 ^ 39 ∧
      (∀ va, mapped PTT_HOST exMemFull 3 0x1000 va) ∧
      mmu_modify 513 0x1000 0 (2 ^ 48 + 2 ^ 39) 0 0 PTT_HOST exStateFull =
        some (0, exStateFull) ∧
      mmu_modify_iters 513 0x1000 0 (2 ^ 48 + 2 ^ 39) 0 0 PTT_HOST exStateFull =
        (List.range 513).map (fun k => k * 2 ^ 39) ∧
      pml4e_offset 0x1000 (0 * 2 ^ 39) = 0x1000 ∧ pml4e_offset 0x1000 (512 * 2 ^ 39) = 0x1000 := by
  have htr := exFull_loop_tr 513 0 (by decide)
  rw [Nat.zero_mul] at htr
  have hu : u64 (0 + (2 ^ 48 + 2 ^ 39)) = 2 ^ 48 + 2 ^ 39 := by decide
  have hfst := mmu_modify_loop_tr_fst 0x1000 (2 ^ 48 + 2 ^ 39) 0 0 PTT_HOST 513 0 exStateFull
  rw [htr] at hfst
  have hm := mmu_modify_aligned 513 0x1000 0 (2 ^ 48 + 2 ^ 39) 0 0 PTT_HOST exStateFull
    (by decide) (by decide)
  have hi := mmu_modify_iters_aligned 513 0x1000 0 (2 ^ 48 + 2 ^ 39) 0 0 PTT_HOST exStateFull
    (by decide) (by decide)
  rw [hu] at hm hi
  rw [htr] at hi
  refine ⟨by decide, by decide, by decide, fun va => (exFull_mapped va).2, hm.trans hfst.symm,
    ?_, by decide, by decide⟩
  rw [List.range_eq_range']
  exact hi

/-- C16, amended: for 4 KiB-aligned `vaddr_base` and `size` with
`vaddr_base + size ≤ 2 ^ 64 - 2 ^ 39`, `mmu_modify` terminates (`2 ^ 25`
iterations of the loop over the PML4 entries always suffice); whatever the
number of iterations allowed, each iteration of that loop starts at an
address of the range, `vaddr` strictly increases from one iteration to the
next, no two iterations start in the same 512 GiB region (the region of
one PML4 entry), and when the range meets at most 512 such regions
(`vaddr_base + size ≤ (vaddr_base / 2 ^ 39 + 512) * 2 ^ 39`) no two
iterations use the same entry of the PML4 table; the loops of
`modify_pdpte`, `modify_pde` and `modify_pte` run at most 512 iterations in
every call, and the loop of `split_large_page` writes entries of the 512 of
the new table only. -/
theorem mmu_modify_terminates (root base size set clr : Nat) (ptt : _page_table_type)
    (s : PgState) (hb : base % 4096 = 0) (hs : size % 4096 = 0)
    (hend : base + size ≤ 2 ^ 64 - 2 ^ 39) :
    (∀ fuel, 2 ^ 25 ≤ fuel → ∃ res, mmu_modify fuel root base size set clr ptt s = some res) ∧
    (∀ fuel,
      (mmu_modify_loop_tr root (u64 (base + size)) set clr ptt fuel base s).1 =
        mmu_modify_loop root (u64 (base + size)) set clr ptt fuel base s ∧
      (∀ v ∈ mmu_modify_iters fuel root base size set clr ptt s, base ≤ v ∧ v < base + size) ∧
      (mmu_modify_iters fuel root base size set clr ptt s).Pairwise (fun a b => a < b) ∧
      (mmu_modify_iters fuel root base size set clr ptt s).Pairwise
        (fun a b => a / PML4E_SIZE < b / PML4E_SIZE) ∧
      (base + size ≤ (base / PML4E_SIZE + 512) * PML4E_SIZE →
        (mmu_modify_iters fuel root base size set clr ptt s).Pairwise
          (fun a b => pml4e_offset root a ≠ pml4e_offset root b))) ∧
    (∀ e vs ve (s0 : PgState), vs < 2 ^ 64 →
      (modify_pdpte_iters e vs ve set clr ptt s0).length ≤ 512 ∧
      (modify_pde_iters e vs ve set clr ptt s0).length ≤ 512 ∧
      (modify_pte_iters e vs ve set clr ptt s0).length ≤ 512) ∧
    (∀ pbase ref_prot paddrinc paddr (m : Mem) a,
      split_fill pbase ref_prot paddrinc PTRS_PER_PTE 0 paddr m a ≠ m a →
        ∃ k, k < 512 ∧ a = pbase + 8 * k) := by
  have hu : u64 (base + size) = base + size := by unfold u64 U64; omega
  refine ⟨fun fuel hf => mmu_modify_total root base size set clr ptt s hend fuel hf,
    fun fuel => ?_, fun e vs ve s0 h => ?_, fun pbase ref_prot paddrinc paddr m a h => ?_⟩
  · have hinv := mmu_modify_loop_tr_inv root (base + size) set clr ptt hend fuel base s
    rw [mmu_modify_iters_aligned fuel root base size set clr ptt s hb hs, hu]
    have hreg : (mmu_modify_loop_tr root (base + size) set clr ptt fuel base s).2.Pairwise
        (fun a b => a / PML4E_SIZE < b / PML4E_SIZE) := by
      have e : PML4E_SIZE = lvSize 3 := by decide
      rw [e]; exact hinv.2
    refine ⟨mmu_modify_loop_tr_fst root (base + size) set clr ptt fuel base s, hinv.1, ?_, hreg,
      fun h512 => ?_⟩
    · exact hreg.imp (fun h => lt_of_not_le (fun hle => by
        have := Nat.div_le_div_right (c := PML4E_SIZE) hle
        omega))
    · refine hreg.imp_of_mem (fun ha hb h => ?_)
      have h1 := hinv.1 _ ha
      have h2 := hinv.1 _ hb
      unfold pml4e_offset
      rw [pml4e_index_eq, pml4e_index_eq]
      unfold lvIndex
      rw [lvSize_three]
      unfold PML4E_SIZE at h h512
      omega
  · exact ⟨(modify_pdpte_iters_inv e vs ve set clr ptt s0 h).2,
      (modify_pde_iters_inv e vs ve set clr ptt s0 h).2,
      (modify_pte_iters_inv e vs ve set clr ptt s0 h).2⟩
  · obtain ⟨k, _, h2, h3⟩ := split_fill_writes pbase ref_prot paddrinc PTRS_PER_PTE 0 paddr m a h
    exact ⟨k, by unfold PTRS_PER_PTE at h2; omega, h3⟩

theorem mmu_modify_terminates_witness :
    0 % 4096 = 0 ∧ 0x400000 % 4096 = 0 ∧ 0 + 0x400000 ≤ 2 ^ 64 - 2 ^ 39 ∧
      (∃ res, mmu_modify (2 ^ 25) 0x1000 0 0x400000 0 2 PTT_HOST exState = some res) ∧
      mmu_modify_iters 512 0x1000 0 0x400000 0 2 PTT_HOST exState = [0] ∧
      (mmu_modify_iters 512 0x1000 0 0x400000 0 2 PTT_HOST exState).Pairwise
        (fun a b => a < b) :=
  have h := mmu_modify_terminates 0x1000 0 0x400000 0 2 PTT_HOST exState (by decide) (by decide)
    (by decide)
  ⟨by decide, by decide, by decide, h.1 (2 ^ 25) (by decide), by decide, (h.2.1 512).2.2.1⟩

/-- C11: on a separated table, let the PD entry at `a` govern `vaddr_base`,
be present (so it is a 2 MiB entry, with frame `F = entry & PDE_PFN_MASK`
and attribute bits `P = entry & ~PDE_PFN_MASK`), and let the 4 KiB-aligned,
non-empty range end strictly below the end of its 2 MiB region.  When
`mmu_modify` returns 0, exactly one page `p` was taken from the allocator;
entry `i` of the table at `p`, for each `i < 512`, holds
`(F + i * 4 KiB) | (P & ~PAGE_PSE)`, with `(prot_set, prot_clr)` applied
exactly when page `i` of the region lies in the range; and the PD entry
holds `p` with the template of an entry that points at a table
(`PAGE_TABLE` for the host, `EPT_RWX` for EPT). -/
theorem mmu_modify_splits_pd_entry (ptt : _page_table_type) (set clr root base size : Nat)
    (s s1 : PgState) (fuel : Nat) (hf : 512 ≤ fuel) (hsep : Separated ptt root s)
    (hb : base % 4096 = 0) (hs : size % 4096 = 0) (hpos : 0 < size)
    (hend : base + size ≤ 2 ^ 48) (a : Nat)
    (hslot : slot ptt s.mem 3 root base = (1, a))
    (hpres : pgentry_present ptt (s.mem a) ≠ 0)
    (hin : base + size < base / PDE_SIZE * PDE_SIZE + PDE_SIZE)
    (hret : mmu_modify fuel root base size set clr ptt s = some (0, s1)) :
    ∃ p rest, s.pool = p :: rest ∧ s1.pool = rest ∧
      s1.mem a = HVA2HPA p ||| (if ptt = PTT_HOST then PAGE_TABLE else EPT_RWX) ∧
      ∀ i, i < 512 →
        s1.mem (p + 8 * i) =
          if base ≤ base / PDE_SIZE * PDE_SIZE + i * PTE_SIZE ∧
              base / PDE_SIZE * PDE_SIZE + i * PTE_SIZE < base + size then
            applyMask set clr (((s.mem a &&& PDE_PFN_MASK) + i * PTE_SIZE) |||
              ((s.mem a &&& not64 PDE_PFN_MASK) &&& not64 PAGE_PSE))
          else ((s.mem a &&& PDE_PFN_MASK) + i * PTE_SIZE) |||
              ((s.mem a &&& not64 PDE_PFN_MASK) &&& not64 PAGE_PSE) := by
  obtain ⟨res, e, hrun⟩ := mmu_modify_run ptt set clr root base size s fuel hf hb hs hpos hend
  rw [hret] at e
  have hres : res = (0, s1) := (Option.some.inj e).symm
  subst hres
  obtain ⟨t3, t2, ha, hnt⟩ := slot_eq_one hslot
  have hgt : base + size < lvNext 1 base := by
    unfold lvNext; rw [lvSize_one]; exact hin
  have l2 : lvNext 1 base ≤ lvNext 2 base := lvNext_mono_level 1 base
  have l3 : lvNext 2 base ≤ lvNext 3 base := lvNext_mono_level 2 base
  have hrun2 := Run.descend (L := 2) hrun t3 (show base + size ≤ lvNext 3 base by omega)
  have hrun1 := Run.descend (L := 1) hrun2 t2 (show base + size ≤ lvNext 2 base by omega)
  have s3 := hsep.sepFrom 0
  have s2 := SepFrom.desc (L := 2) s3 (Nat.zero_le _) (lvIndex_lt 3 base) t3
  have s1' := SepFrom.desc (L := 1) s2 (Nat.zero_le _) (lvIndex_lt 2 base) t2
  have hl : s.mem a &&& PAGE_PSE ≠ 0 := by
    by_contra hc
    apply hnt
    refine ⟨hpres, ?_⟩
    rintro (h | ⟨_, h⟩)
    · omega
    · exact h hc
  subst ha
  obtain ⟨p, rest, g1, g2, g3, g4⟩ :=
    split_pd_result (s1'.mono (Nat.zero_le _)) hpres hl hb (by omega) (by omega) hgt hrun1
  refine ⟨p, rest, g1, g2, ?_, g4⟩
  rw [g3]
  cases ptt <;> rfl

theorem mmu_modify_splits_pd_entry_witness :
    Separated PTT_EPT 0x1000 exStateEpt ∧
      slot PTT_EPT exStateEpt.mem 3 0x1000 0 = (1, 0x3000) ∧
      ∃ p rest, exStateEpt.pool = p :: rest ∧
        ((mmu_modify 512 0x1000 0 0x1000 0 4 PTT_EPT exStateEpt).getD (0, exStateEpt)).2.pool
          = rest ∧
        ((mmu_modify 512 0x1000 0 0x1000 0 4 PTT_EPT exStateEpt).getD (0, exStateEpt)).2.mem
          0x3000 = HVA2HPA p ||| (if PTT_EPT = PTT_HOST then PAGE_TABLE else EPT_RWX) ∧
        ∀ i, i < 512 →
          ((mmu_modify 512 0x1000 0 0x1000 0 4 PTT_EPT exStateEpt).getD (0, exStateEpt)).2.mem
              (p + 8 * i) =
            if 0 ≤ 0 / PDE_SIZE * PDE_SIZE + i * PTE_SIZE ∧
                0 / PDE_SIZE * PDE_SIZE + i * PTE_SIZE < 0 + 0x1000 then
              applyMask 0 4 (((exStateEpt.mem 0x3000 &&& PDE_PFN_MASK) + i * PTE_SIZE) |||
                ((exStateEpt.mem 0x3000 &&& not64 PDE_PFN_MASK) &&& not64 PAGE_PSE))
            else ((exStateEpt.mem 0x3000 &&& PDE_PFN_MASK) + i * PTE_SIZE) |||
                ((exStateEpt.mem 0x3000 &&& not64 PDE_PFN_MASK) &&& not64 PAGE_PSE) :=
  ⟨by decide, by decide,
    mmu_modify_splits_pd_entry PTT_EPT 0 4 0x1000 0 0x1000 exStateEpt _ 512 (by decide)
      (by decide) (by decide) (by decide) (by decide) (by decide) 0x3000 (by decide)
      (by decide) (by decide) (some_of_map_fst (0, exStateEpt) (by decide))⟩

/-- C18: repeating a call is idempotent.  On a well-formed table, for a
range inside the 48-bit address space and masks that touch neither the
frame-number field nor the large-page flag and that clear no presence bit
or set one (masks that do not touch the presence bits are of this kind):
if `mmu_modify` returns 0, the same call on the state it left returns 0 and
leaves exactly that state, so it takes no page from the allocator (no
split) and changes no entry. -/
theorem mmu_modify_idempotent (ptt : _page_table_type) (set clr root base size : Nat)
    (s s1 : PgState) (fuel : Nat) (hf : 512 ≤ fuel) (hwf : WellFormed ptt root s)
    (hm : AttrMask set clr)
    (hk : clr &&& presentMask ptt = 0 ∨ set &&& presentMask ptt ≠ 0)
    (hend : base + size ≤ 2 ^ 48)
    (hret : mmu_modify fuel root base size set clr ptt s = some (0, s1)) :
    mmu_modify fuel root base size set clr ptt s1 = some (0, s1) := by
  have hal : base % 4096 = 0 ∧ size % 4096 = 0 := by
    by_contra hc
    rw [mmu_modify_einval fuel root base size set clr ptt s (by omega)] at hret
    have := congrArg Prod.fst (Option.some.inj hret)
    simp [EINVAL] at this
  by_cases hpos : 0 < size
  swap
  · have h0 : size = 0 := by omega
    subst h0
    rw [mmu_modify_size_zero fuel root base set clr ptt s hal.1] at hret
    have hs1 : s = s1 := congrArg Prod.snd (Option.some.inj hret)
    subst hs1
    exact mmu_modify_size_zero fuel root base set clr ptt s hal.1
  obtain ⟨res, e, hrun⟩ :=
    mmu_modify_run ptt set clr root base size s fuel hf hal.1 hal.2 hpos hend
  rw [hret] at e
  have hres : res = (0, s1) := (Option.some.inj e).symm
  subst hres
  have hg : Good ptt 3 root s := ⟨hwf.1.sepFrom 0, hwf.2⟩
  obtain ⟨hg1, _, _⟩ := hrun.final hm hg
  have hstab := hrun.stable hm hg (by omega) rfl
  obtain ⟨_, hdone, _⟩ := hrun.views hm hg (by omega)
  obtain ⟨stop1, hc1⟩ := hrun.control (hg.1.mono (Nat.zero_le _)) (by omega)
  have hst : ∀ v, v < base + size → sameTable 3 v base := fun v hv =>
    sameTable_three (by omega) (by omega)
  have hmap : ∀ va, base ≤ va → va < base + size → mapped ptt s1.mem 3 root va := by
    intro va h1 h2
    have hm0 := hc1.below va (hst va h2) h1 (by rw [hc1.ok rfl]; exact h2)
    rw [mapped_iff_view] at hm0 ⊢
    have hv := hdone rfl va (hst va h2) h1 h2
    dsimp only at hv
    rw [hv]
    exact present_applyMask ptt hk hm0
  obtain ⟨res2, e2, hrun2⟩ :=
    mmu_modify_run ptt set clr root base size s1 fuel hf hal.1 hal.2 hpos hend
  obtain ⟨stop2, hc2⟩ := hrun2.control (hg1.1.mono (Nat.zero_le _)) (by omega)
  obtain ⟨hne, hpool⟩ := hc2.whole (fun va g1 g2 g3 _ => (hstab va g1 g2 g3).1)
  have h0 : res2.1 = 0 := by
    rcases mmu_modify_codes3 e2 hal.1 hal.2 with h0 | h0 | h0
    · exact h0
    · have := (hc2.bad (by rw [h0]; exact EFAULT_ne_zero)).1
      exact absurd (hmap stop2 hc2.le1 this) (hc2.efault h0).1
    · exact absurd h0 hne
  have hstop := hc2.ok h0
  have hmem : ∀ a, res2.2.mem a = s1.mem a := by
    intro a
    by_cases hex : ∃ va, sameTable 3 va base ∧ base ≤ va ∧ va < stop2 ∧
        (slot ptt s1.mem 3 root va).2 = a
    · obtain ⟨va, g1, g2, g3, g4⟩ := hex
      have h1 := hc2.memIn hpool va g1 g2 g3
      obtain ⟨x, hx⟩ := (hstab va g1 g2 (by rw [← hstop]; exact g3)).2
      dsimp only at hx
      rw [hx, applyMask_idem, ← hx, g4] at h1
      exact h1
    · apply hc2.memOut hpool a
      intro va g1 g2 g3 g4
      exact hex ⟨va, g1, g2, g3, g4⟩
  rw [e2]
  obtain ⟨r, m2, p2⟩ := res2
  obtain ⟨m1, p1⟩ := s1
  dsimp only at h0 hpool hmem
  have hmm : m2 = m1 := funext hmem
  rw [h0, hpool, hmm]

theorem mmu_modify_idempotent_witness :
    WellFormed PTT_HOST 0x1000 exState ∧ AttrMask 0 2 ∧
      (mmu_modify 512 0x1000 0 0x1000 0 2 PTT_HOST exState).map
        (fun r => (r.1, r.2.pool)) = some (0, [0x11000]) ∧
      mmu_modify 512 0x1000 0 0x1000 0 2 PTT_HOST
          ((mmu_modify 512 0x1000 0 0x1000 0 2 PTT_HOST exState).getD (0, exState)).2 =
        some (0, ((mmu_modify 512 0x1000 0 0x1000 0 2 PTT_HOST exState).getD (0, exState)).2) :=
  ⟨by decide, by decide, by decide,
    mmu_modify_idempotent PTT_HOST 0 2 0x1000 0 0x1000 exState _ 512 (by decide) (by decide)
      (by decide) (by decide) (by decide) (some_of_map_fst (0, exState) (by decide))⟩

end Pagetable
